import Mathlib

/-!
# heapfile: a verification development

A shallow embedding of the on-disk heap of `ctavplay/heapfile`
(`simple_encrypt.cpp`, `byte_order.h`, `heap_blob.cpp`, `heap_index.cpp`,
`mmap_file.cpp`, `heap_file.cpp`) together with theorems about it.

Conventions of the embedding.

* A byte is a `Fin 256`; a `std::vector<uint8_t>` is a `List Byte`.
* `uint32_t` / `uint64_t` values are natural numbers, reduced `% 2^32` /
  `% 2^64` at every place where the C++ arithmetic can wrap.
* The file behind `MmapFile` is the list of its bytes; a pointer into the
  mapping is the absolute file position it points at.  Bytes of the mapping
  past the end of the file read as zero.
* Operations that can throw, or that trip an `assert`, return `Option`;
  `none` is the exceptional exit.
-/

namespace HeapFile

/-! ## Machine integers and bytes -/

abbrev Byte := Fin 256

/-- Modulus of `uint32_t`. -/
def U32 : Nat := 4294967296

/-- Modulus of `uint64_t`. -/
def U64 : Nat := 18446744073709551616

/-- Largest value of the signed 64-bit `off_t`, plus one. -/
def OFF_MAX : Nat := 9223372036854775808

/-- The byte `n mod 256`. -/
def toByte (n : Nat) : Byte := ⟨n % 256, Nat.mod_lt n (by decide)⟩

/-- Network byte order image of a `uint32_t` (`writeH2N` after `htonl`). -/
def be32 (n : Nat) : List Byte :=
  [toByte (n / 16777216), toByte (n / 65536), toByte (n / 256), toByte n]

/-- Network byte order image of a `uint64_t` (`writeH2N` after `htonll`). -/
def be64 (n : Nat) : List Byte :=
  be32 (n / 4294967296 % 4294967296) ++ be32 (n % 4294967296)

/-- Value of a big-endian byte string (`readN2H`). -/
def beVal (bs : List Byte) : Nat :=
  bs.foldl (fun acc b => acc * 256 + b.val) 0

/-! ## Raw memory -/

/-- Byte of the mapping at position `i`; zero past the end. -/
def rd (mem : List Byte) (i : Nat) : Byte := mem.getD i 0

/-- The `n` bytes of the mapping from position `p` on. -/
def rdN (mem : List Byte) (p n : Nat) : List Byte :=
  (List.range n).map (fun i => rd mem (p + i))

/-- Store `bs` at position `p` (`memcpy` / `std::copy` into the mapping).
    Callers check `p + bs.length ≤ mem.length` first. -/
def wr (mem : List Byte) (p : Nat) (bs : List Byte) : List Byte :=
  mem.take p ++ bs ++ mem.drop (p + bs.length)

/-- A store through a pointer into the mapping: a store that runs past the
    end of the mapped file faults. -/
def store (mem : List Byte) (p : Nat) (bs : List Byte) : Option (List Byte) :=
  if p + bs.length ≤ mem.length then some (wr mem p bs) else none

/-! ## simple_encrypt.cpp -/

/-- `XOR(key, in, out, size)`: the output buffer; with an empty key nothing is
    written and the call reports `false`. -/
def XOR (key : List Byte) (inp : List Byte) : Bool × List Byte :=
  if key.length = 0 then (false, inp)
  else (true, (List.range inp.length).map
          (fun i => (inp.getD i 0) ^^^ (key.getD (i % key.length) 0)))

/-- `Encryption::Simple<uint8_t>`: the stored key. -/
structure Simple where
  m_key : List Byte
deriving DecidableEq, Repr

/-- Constructor `Simple(key)`: an empty key is resized to the one byte `0`. -/
def Simple.new (key : List Byte) : Simple :=
  if key.isEmpty then ⟨[0]⟩ else ⟨key⟩

def Simple.encrypt (s : Simple) (inp : List Byte) : Bool × List Byte :=
  XOR s.m_key inp

def Simple.decrypt (s : Simple) (inp : List Byte) : Bool × List Byte :=
  XOR s.m_key inp

/-! ## heap_blob.cpp: the hash -/

/-- One round of the djb2 hash with the XOR substitution, in 32 bits. -/
def hashStep (h : Nat) (b : Byte) : Nat :=
  (((h <<< 5) % U32 + h) % U32) ^^^ b.val

/-- `hash(p, size)` over the bytes `bs`. -/
def hash (bs : List Byte) : Nat := bs.foldl hashStep 5381

/-! ## heap_index.cpp: Record -/

def MIN_SIZE : Nat := 256

def SERIALIZED_SIZE : Nat := 16

/-- Metadata of one blob: `m_offset` (uint64), `m_key` (uint32), `m_size`
    (uint32).  Record objects are identified with their field triple. -/
structure Record where
  m_offset : Nat
  m_key : Nat
  m_size : Nat
deriving DecidableEq, Repr

/-- `Record()`. -/
def Record.nil : Record := ⟨0, 0, 0⟩

/-- `Record(off, key, size, toMinSize)`. -/
def Record.new (off key size : Nat) (toMinSize : Bool) : Record :=
  ⟨off, key, max size (if toMinSize then MIN_SIZE else 0)⟩

/-- `Record(lhs, rhs)`: the empty record between `lhs` and `rhs`; throws when
    there is no room between them. -/
def Record.between (lhs rhs : Record) : Option Record :=
  let off := (lhs.m_offset + lhs.m_size) % U64
  if off ≥ rhs.m_offset then none
  else some ⟨off, 0, ((rhs.m_offset + U64 - off) % U64) % U32⟩

/-- The bytes `Record::serialize` writes on a build that keeps 64-bit values
    in network byte order (`mac = le` below); `Record.serializeH` is the
    function on any build. -/
def Record.serialize (r : Record) : List Byte :=
  be64 r.m_offset ++ be32 r.m_key ++ be32 r.m_size

/-- `Record(const char *&p)` / `deserialize`: reads 16 bytes at `p`, on a
    build that keeps 64-bit values in network byte order;
    `Record.deserializeH` is the function on any build. -/
def Record.deserialize (mem : List Byte) (p : Nat) : Record :=
  ⟨beVal (rdN mem p 8), beVal (rdN mem (p + 8) 4), beVal (rdN mem (p + 12) 4)⟩

def Record.sharesRightBoundaryWith (l rhs : Record) : Bool :=
  (l.m_offset + l.m_size) % U64 == rhs.m_offset

/-- `Record::coalesce`: absorbs `r`; the assertion on adjacency aborts. -/
def Record.coalesce (l r : Record) : Option Record :=
  if l.sharesRightBoundaryWith r || r.sharesRightBoundaryWith l then
    some ⟨min l.m_offset r.m_offset, l.m_key, (l.m_size + r.m_size) % U32⟩
  else none

/-- `Record::splitOffLeft`: the new left record and what remains of `l`;
    the assertion `m_size > size` aborts. -/
def Record.splitOffLeft (l : Record) (size : Nat) : Option (Record × Record) :=
  if l.m_size > size then
    some (⟨l.m_offset, 0, size⟩, ⟨(l.m_offset + size) % U64, l.m_key, l.m_size - size⟩)
  else none

def Record.setKey (r : Record) (key : Nat) : Record := { r with m_key := key }

/-! ## heap_index.cpp: HeapIndex

`m_list` is the `std::list<Record*>` in list order.  `m_alloc` and `m_free`
are the two `std::multimap`s in iteration order: `m_alloc` is ordered by
`Record::key()`, `m_free` by `Record::size()`, equal keys in insertion order.
-/

structure HeapIndex where
  m_list : List Record
  m_alloc : List Record
  m_free : List Record
deriving DecidableEq, Repr

def HeapIndex.empty : HeapIndex := ⟨[], [], []⟩

/-- `multimap::insert`: after the last entry whose key is not greater. -/
def mmInsert (kf : Record → Nat) (r : Record) : List Record → List Record
  | [] => [r]
  | x :: xs => if kf x ≤ kf r then x :: mmInsert kf r xs else r :: x :: xs

/-- `multimap::equal_range(k)`, as the entries it iterates over. -/
def mmEqualRange (kf : Record → Nat) (k : Nat) (m : List Record) : List Record :=
  m.filter (fun x => kf x == k)

/-- `multimap::lower_bound(k)`: the first entry whose key is not less. -/
def mmLowerBound (kf : Record → Nat) (k : Nat) (m : List Record) : Option Record :=
  m.find? (fun x => decide (k ≤ kf x))

/-- Replace the first node of the list that is the record `r` by `r2`
    (a mutation of the record object through its pointer). -/
def replaceFirst (r r2 : Record) : List Record → List Record
  | [] => []
  | x :: xs => if x = r then r2 :: xs else x :: replaceFirst r r2 xs

/-- `std::lower_bound(list, r, recordPtrCmp)` as a position: the nodes in
    front of it have a smaller offset. -/
def listLowerBound (off : Nat) (l : List Record) : Nat :=
  (l.takeWhile (fun x => decide (x.m_offset < off))).length

def HeapIndex.numAllocatedRecords (idx : HeapIndex) : Nat := idx.m_alloc.length % U32

def HeapIndex.numFreeRecords (idx : HeapIndex) : Nat := idx.m_free.length % U32

/-- `HeapIndex::size`: bytes of the serialized index, as a `uint32_t`. -/
def HeapIndex.size (idx : HeapIndex) : Nat :=
  (4 + SERIALIZED_SIZE * idx.numAllocatedRecords) % U32

/-- `HeapIndex::clear`: empties both maps and deletes the records; the nodes of
    `m_list` are not erased. -/
def HeapIndex.clear (idx : HeapIndex) : HeapIndex :=
  { idx with m_alloc := [], m_free := [] }

/-- `HeapIndex::addAllocatedBlock`; `none` when the filler constructor throws. -/
def HeapIndex.addAllocatedBlock (idx : HeapIndex) (p : Record) : Option HeapIndex :=
  match idx.m_list.getLast? with
  | none => some { idx with m_list := [p], m_alloc := mmInsert Record.m_key p idx.m_alloc }
  | some last =>
    if last.sharesRightBoundaryWith p then
      some { idx with m_list := idx.m_list ++ [p],
                      m_alloc := mmInsert Record.m_key p idx.m_alloc }
    else
      match Record.between last p with
      | none => none
      | some gap =>
        some { m_list := idx.m_list ++ [gap, p],
               m_alloc := mmInsert Record.m_key p idx.m_alloc,
               m_free := mmInsert Record.m_size gap idx.m_free }

def HeapIndex.isFree (idx : HeapIndex) (p : Record) : Bool :=
  decide (p ∈ mmEqualRange Record.m_size p.m_size idx.m_free)

def HeapIndex.isLast (idx : HeapIndex) (r : Record) : Bool :=
  match idx.m_list.getLast? with
  | none => false
  | some last => decide (r = last)

/-- `removeIfFree(map, r)`. -/
def removeIfFree (m : List Record) (r : Record) : Bool × List Record :=
  if r ∈ mmEqualRange Record.m_size r.m_size m then (true, m.erase r) else (false, m)

/-- The "coalesce left" block of `HeapIndex::coalesce`: `pre` are the nodes in
    front of `r`. -/
def absorbLeft (pre free : List Record) (r : Record) :
    Option (List Record × List Record × Record) :=
  match pre.getLast? with
  | none => some (pre, free, r)
  | some leftRec =>
    if (removeIfFree free leftRec).1 then
      (r.coalesce leftRec).map (fun r1 => (pre.dropLast, (removeIfFree free leftRec).2, r1))
    else some (pre, free, r)

/-- The "coalesce right" block of `HeapIndex::coalesce`: `post` are the nodes
    behind `r`. -/
def absorbRight (post free : List Record) (r : Record) :
    Option (List Record × List Record × Record) :=
  match post with
  | [] => some (post, free, r)
  | rightRec :: rest =>
    if (removeIfFree free rightRec).1 then
      (r.coalesce rightRec).map (fun r1 => (rest, (removeIfFree free rightRec).2, r1))
    else some (post, free, r)

/-- `HeapIndex::coalesce(r)`: whether the node was found, the record after it
    absorbed its free neighbours, and the index.  The node is the first one of
    the list equal to `r` (on an offset-ordered list, the first such node of
    `std::equal_range`). -/
def HeapIndex.coalesce (idx : HeapIndex) (r : Record) :
    Option (Bool × Record × HeapIndex) :=
  if r ∈ idx.m_list then
    let pre := idx.m_list.takeWhile (fun x => decide (x ≠ r))
    let post := (idx.m_list.dropWhile (fun x => decide (x ≠ r))).tail
    match absorbLeft pre idx.m_free r with
    | none => none
    | some (pre1, free1, r1) =>
      match absorbRight post free1 r1 with
      | none => none
      | some (post2, free2, r2) =>
        some (true, r2, { idx with m_list := pre1 ++ r2 :: post2, m_free := free2 })
  else some (false, r, idx)

/-- `HeapIndex::deallocate(rec)`. -/
def HeapIndex.deallocate (idx : HeapIndex) (rec : Record) : Option (Bool × HeapIndex) :=
  if rec ∈ mmEqualRange Record.m_key rec.m_key idx.m_alloc then
    match HeapIndex.coalesce { idx with m_alloc := idx.m_alloc.erase rec } rec with
    | none => none
    | some (_, r, idx1) =>
      match idx1.m_list.getLast? with
      | none => none
      | some last =>
        if last = r then some (true, { idx1 with m_list := idx1.m_list.dropLast })
        else some (true, { idx1 with m_free := mmInsert Record.m_size r idx1.m_free })
  else some (false, idx)

/-- `HeapIndex::allocate(size, key)`: the record handed out (`none` for
    `NULL`) and the index; the outer `none` is a failed assertion. -/
def HeapIndex.allocate (idx : HeapIndex) (size key : Nat) :
    Option (Option Record × HeapIndex) :=
  let size := max size MIN_SIZE
  match mmLowerBound Record.m_size size idx.m_free with
  | none => some (none, idx)
  | some r =>
    let free1 := idx.m_free.erase r
    if size > (r.m_size + U32 - MIN_SIZE) % U32 then
      let r1 := r.setKey key
      some (some r1, { m_list := replaceFirst r r1 idx.m_list,
                       m_alloc := mmInsert Record.m_key r1 idx.m_alloc,
                       m_free := free1 })
    else
      match r.splitOffLeft size with
      | none => none
      | some (left, r2) =>
        let list1 := replaceFirst r r2 idx.m_list
        let pos := listLowerBound r2.m_offset list1
        if list1.get? pos = some r2 then
          let left1 := left.setKey key
          some (some left1, { m_list := list1.take pos ++ left1 :: list1.drop pos,
                              m_alloc := mmInsert Record.m_key left1 idx.m_alloc,
                              m_free := mmInsert Record.m_size r2 free1 })
        else none

/-! ## mmap_file.cpp

The sliding window only decides which pages are resident; what a pointer
reads or writes is the file itself, so the file is its byte list.  The bytes
that a `getPtr(offset, size)` call asked for are always inside the window.  A
store that runs past them reaches the file when the window of an earlier call
still covers it (`getPtr` keeps a window that contains the request), and is
taken to do so as long as it ends inside the file: it happens only for a
payload of 2^32 bytes or more, whose length `Writer::size()` truncates.
-/

/-- `setFileSize` (`ftruncate`): raises when the length is not a non-negative
    `off_t`; a longer file is filled with zero bytes. -/
def setFileSize (f : List Byte) (n : Nat) : Option (List Byte) :=
  if OFF_MAX ≤ n then none
  else some (f.take n ++ List.replicate (n - f.length) 0)

/-- `MmapFile::trim`. -/
def trim (f : List Byte) (numBytesToKeep : Nat) : Option (List Byte) :=
  setFileSize f numBytesToKeep

/-- `MmapFile::clear`. -/
def clearFile (f : List Byte) : Option (List Byte) := setFileSize f 0

/-- `MmapFile::getPtr` (non-const), `getWritePtr`: grows the file to
    `offset + size` when it is shorter; the pointer is `offset`. -/
def getWritePtr (f : List Byte) (offset size : Nat) : Option (List Byte × Nat) :=
  if f.length < offset + size then
    (setFileSize f (offset + size)).map (fun f1 => (f1, offset))
  else if OFF_MAX ≤ offset then none
  else some (f, offset)

/-- `MmapFile::getPtr` (const), `getReadPtr`: `NULL` when `offset` is at or
    past the end of the file, otherwise the non-const `getPtr`. -/
def getReadPtr (f : List Byte) (offset size : Nat) : Option (List Byte × Option Nat) :=
  if OFF_MAX ≤ offset then none
  else if offset ≥ f.length then some (f, none)
  else (getWritePtr f offset size).map (fun x => (x.1, some x.2))

/-! ## heap_blob.cpp: Blob -/

/-- `overhead()`. -/
def overhead : Nat := 9

/-- A `Blob`: its record and the raw pointer (`none` for `NULL`). -/
structure Blob where
  m_rec : Record
  m_ptr : Option Nat
deriving DecidableEq, Repr

/-- `Blob()`. -/
def Blob.nil : Blob := ⟨Record.nil, none⟩

def Blob.isNil (b : Blob) : Bool := b.m_ptr.isNone

/-- `Blob::hasId`. -/
def Blob.hasId (b : Blob) (mem : List Byte) (id : List Byte) : Bool :=
  match b.m_ptr with
  | none => false
  | some p =>
    let idSize := (rd mem p).val
    if id.length ≠ idSize ∨ idSize > b.m_rec.m_size then false
    else decide (∀ i ∈ List.range idSize, id.getD i 0 = rd mem (p + 1 + i))

/-- `Blob::blobSize`, a `uint32_t`. -/
def Blob.blobSize (keySize dataSize : Nat) : Nat := (overhead + keySize + dataSize) % U32

/-- A `BlobWriter`: what `size()` answers and the bytes `writeBlob` stores at
    its destination. -/
structure BlobWriter where
  size : Nat
  bytes : List Byte

/-- `Blob::writeData`: whether it succeeded and the memory afterwards; `none`
    when the assertion on the record size fails or a store faults. -/
def Blob.writeData (b : Blob) (mem : List Byte) (id : List Byte) (w : BlobWriter) :
    Option (Bool × List Byte) :=
  if overhead + id.length + w.size > b.m_rec.m_size then none
  else if id.length > 255 ∨ w.size > U32 - 1 then some (false, mem)
  else
    match b.m_ptr with
    | none => none
    | some p => do
      let m1 ← store mem p [toByte id.length]
      let m2 ← store m1 (p + 1) id
      let hashPtr := p + 1 + id.length
      let m3 ← store m2 (hashPtr + 4) (be32 w.size)
      let m4 ← store m3 (hashPtr + 8) w.bytes
      let m5 ← store m4 hashPtr (be32 (hash (rdN m4 (hashPtr + 8) w.size)))
      some (true, m5)

/-- `Blob::getData`: the bytes handed to the reader, or `none` for `false`
    (the reader is not invoked). -/
def Blob.getData (b : Blob) (mem : List Byte) : Option (List Byte) :=
  match b.m_ptr with
  | none => none
  | some p =>
    let recSize := b.m_rec.m_size
    let keySize := (rd mem p).val
    if keySize + overhead > recSize then none
    else
      let storedHashCode := beVal (rdN mem (p + 1 + keySize) 4)
      let dataSize := beVal (rdN mem (p + 1 + keySize + 4) 4)
      if dataSize > recSize - overhead - keySize then none
      else
        let payload := rdN mem (p + 1 + keySize + 8) dataSize
        if hash payload ≠ storedHashCode then none
        else some payload

/-! ## heap_file.cpp -/

/-- `HeapFileT<>`: index, file, cipher and size cap. -/
structure HeapFileT where
  m_index : HeapIndex
  m_file : List Byte
  m_key : Simple
  m_maxSize : Nat
deriving DecidableEq, Repr

/-- `uint64_t(-1)`, the "unbounded" cap. -/
def UNBOUNDED : Nat := U64 - 1

/-- `HeapFileT::size`. -/
def HeapFileT.size (h : HeapFileT) : Nat := h.m_file.length

/-- The loop of `findBlob` over the records of the bucket: the blob found
    (nil when none matches) and the file, which `getReadPtr` may have grown. -/
def findBlobIn (id : List Byte) : List Record → List Byte → Option (List Byte × Blob)
  | [], f => some (f, Blob.nil)
  | r :: rs, f =>
    match getReadPtr f r.m_offset r.m_size with
    | none => none
    | some (f1, ptr) =>
      if (Blob.mk r ptr).hasId f1 id then some (f1, Blob.mk r ptr)
      else findBlobIn id rs f1

/-- `findBlob(id, index, file)`. -/
def findBlob (id : List Byte) (idx : HeapIndex) (f : List Byte) :
    Option (List Byte × Blob) :=
  findBlobIn id (mmEqualRange Record.m_key (hash id) idx.m_alloc) f

/-- `release(r, index, file)`. -/
def release (r : Record) (idx : HeapIndex) (f : List Byte) :
    Option (HeapIndex × List Byte) :=
  let isLast := idx.isLast r
  let offset := r.m_offset
  match idx.deallocate r with
  | none => none
  | some (_, idx1) =>
    if isLast then (trim f ((offset + idx1.size) % U64)).map (fun f1 => (idx1, f1))
    else some (idx1, f)

/-- `eraseBlobEncryptedId(id, index, file)`. -/
def eraseBlobEncryptedId (id : List Byte) (idx : HeapIndex) (f : List Byte) :
    Option (Bool × HeapIndex × List Byte) :=
  match findBlob id idx f with
  | none => none
  | some (f1, b) =>
    if b.isNil then some (true, idx, f1)
    else (release b.m_rec idx f1).map (fun x => (true, x.1, x.2))

/-- `HeapFileT::hasBlob`. -/
def HeapFileT.hasBlob (h : HeapFileT) (clearId : List Byte) : Option (Bool × HeapFileT) :=
  let id := (h.m_key.encrypt clearId).2
  (findBlob id h.m_index h.m_file).map
    (fun x => (!x.2.isNil, { h with m_file := x.1 }))

/-- `HeapFileT::getBlob`: the bytes put into `data` on success. -/
def HeapFileT.getBlob (h : HeapFileT) (clearId : List Byte) :
    Option (Option (List Byte) × HeapFileT) :=
  let id := (h.m_key.encrypt clearId).2
  match findBlob id h.m_index h.m_file with
  | none => none
  | some (f1, b) =>
    if b.isNil then some (none, { h with m_file := f1 })
    else
      some ((b.getData f1).map (fun src => (h.m_key.decrypt src).2),
            { h with m_file := f1 })

/-- `HeapFileT::eraseBlob`. -/
def HeapFileT.eraseBlob (h : HeapFileT) (clearId : List Byte) : Option (Bool × HeapFileT) :=
  let id := (h.m_key.encrypt clearId).2
  (eraseBlobEncryptedId id h.m_index h.m_file).map
    (fun x => (x.1, { h with m_index := x.2.1, m_file := x.2.2 }))

/-- The `Writer` of `HeapFileT::writeBlob`: `size()` is `m_data.size()` as a
    `uint32_t`; `writeBlob` stores the encrypted data. -/
def heapWriter (key : Simple) (blob : List Byte) : BlobWriter :=
  ⟨blob.length % U32, (key.encrypt blob).2⟩

/-- The tail of `HeapFileT::writeBlob`, from `getWritePtr` on: store the blob
    in the record `r`; on failure release the record. -/
def writeInto (h : HeapFileT) (id blob : List Byte) (r : Record) (idx : HeapIndex)
    (f : List Byte) : Option (Bool × HeapFileT) :=
  match getWritePtr f r.m_offset r.m_size with
  | none => none
  | some (f1, writePtr) =>
    match (Blob.mk r (some writePtr)).writeData f1 id (heapWriter h.m_key blob) with
    | none => none
    | some (true, f2) => some (true, { h with m_index := idx, m_file := f2 })
    | some (false, f2) =>
      (release r idx f2).map (fun x => (false, { h with m_index := x.1, m_file := x.2 }))

/-- The offset at which `writeBlob` appends when no free record fits: just
    past the file header, or the end of the last record. -/
def appendOffset (idx : HeapIndex) : Nat :=
  match idx.m_list.getLast? with
  | none => 8
  | some last => (last.m_offset + last.m_size) % U64

/-- `HeapFileT::writeBlob`. -/
def HeapFileT.writeBlob (h : HeapFileT) (clearId blob : List Byte) :
    Option (Bool × HeapFileT) :=
  let id := (h.m_key.encrypt clearId).2
  match eraseBlobEncryptedId id h.m_index h.m_file with
  | none => none
  | some (false, idx1, f1) => some (false, { h with m_index := idx1, m_file := f1 })
  | some (true, idx1, f1) =>
    let blobSize := Blob.blobSize id.length blob.length
    let hashCode := hash id
    match idx1.allocate blobSize hashCode with
    | none => none
    | some (some r, idx2) => writeInto h id blob r idx2 f1
    | some (none, idx2) =>
      let r := Record.new (appendOffset idx2) hashCode blobSize true
      match idx2.addAllocatedBlock r with
      | none => none
      | some idx3 =>
        let proposedSize := (r.m_offset + r.m_size + idx3.size) % U64
        if proposedSize > h.m_maxSize then
          (idx3.deallocate r).map
            (fun x => (false, { h with m_index := x.2, m_file := f1 }))
        else
          match trim f1 proposedSize with
          | none => none
          | some f2 => writeInto h id blob r idx3 f2

/-- `HeapFileT::clear`. -/
def HeapFileT.clear (h : HeapFileT) : Option HeapFileT :=
  (clearFile h.m_file).map
    (fun f => { h with m_index := h.m_index.clear, m_file := f, m_maxSize := UNBOUNDED })

/-- The `do ... while (currentSize > maxSize)` loop of `setMaxSize`, entered
    with the record `rec`.  The outer `none` says that the loop does not end:
    a round in which `deallocate` finds nothing leaves the state as it was, so
    when the loop condition still holds it holds forever.  The inner `none`
    is a raised error or failed assertion.  `fuel` bounds the number of rounds
    that do release a record. -/
def setMaxSizeLoop (maxSize : Nat) : Nat → Record → HeapFileT → Option (Option HeapFileT)
  | 0, _, _ => none
  | fuel + 1, rec, h =>
    match h.m_index.deallocate rec with
    | none => some none
    | some (found, idx1) =>
      if idx1.numAllocatedRecords = 0 then some (HeapFileT.clear { h with m_index := idx1 })
      else
        match idx1.m_list.getLast? with
        | none => some none
        | some rec1 =>
          let currentSize := (rec1.m_offset + rec1.m_size + idx1.size) % U64
          if currentSize > maxSize then
            if found then setMaxSizeLoop maxSize fuel rec1 { h with m_index := idx1 }
            else none
          else
            some ((trim h.m_file currentSize).map
                    (fun f => { h with m_index := idx1, m_file := f }))

/-- `HeapFileT::setMaxSize`; the result is read as for `setMaxSizeLoop`. -/
def HeapFileT.setMaxSize (h : HeapFileT) (maxSize : Nat) : Option (Option HeapFileT) :=
  let h1 := { h with m_maxSize := maxSize }
  if h1.m_file.length < maxSize then some (some h1)
  else if h1.m_index.numAllocatedRecords = 0 then some h1.clear
  else
    match h1.m_index.m_list.getLast? with
    | none => some none
    | some rec => setMaxSizeLoop maxSize (h1.m_index.m_alloc.length + 1) rec h1

/-- A heap file opened on an empty (or new) file with the cipher key `key`. -/
def HeapFileT.create (key : List Byte) : HeapFileT :=
  ⟨HeapIndex.empty, [], Simple.new key, UNBOUNDED⟩

/-- `prepForCommit` and the serialization loop of `~HeapFileT`: the file as
    the destructor leaves it, on a build that keeps 64-bit values in network
    byte order.  `none` is a failed assertion. -/
def HeapFileT.commit (h : HeapFileT) : Option (List Byte) :=
  if h.m_index.numAllocatedRecords = 0 then clearFile h.m_file
  else
    match h.m_index.m_list.getLast? with
    | none => none
    | some last =>
      if h.m_index.isFree last then none
      else
        let indexOffset := (last.m_offset + last.m_size) % U64
        match getWritePtr h.m_file 0 1 with
        | none => none
        | some (f1, p0) =>
          match store f1 p0 (be64 indexOffset) with
          | none => none
          | some f2 =>
            match getWritePtr f2 indexOffset h.m_index.size with
            | none => none
            | some (f3, p) =>
              let recs := h.m_index.m_list.filter (fun e => !h.m_index.isFree e)
              if recs.length % U32 = h.m_index.numAllocatedRecords then
                store f3 p (be32 h.m_index.numAllocatedRecords
                              ++ (recs.map Record.serialize).flatten)
              else none

/-- `findHeapIndex`: the file (reads may remap and grow it), the number of
    records and the pointer to the serialized records, on a build that keeps
    64-bit values in network byte order (`findHeapIndexOn` is the function on
    any build).  `none` is a thrown exception. -/
def findHeapIndex (f : List Byte) : Option (List Byte × Nat × Option Nat) :=
  match getReadPtr f 0 8 with
  | none => none
  | some (_, none) => none
  | some (f1, some p0) =>
    let heapIndexOffset := beVal (rdN f1 p0 8)
    match getReadPtr f1 heapIndexOffset 4 with
    | none => none
    | some (_, none) => none
    | some (f2, some p1) =>
      let numRecords := beVal (rdN f2 p1 4)
      let rawSize := numRecords * SERIALIZED_SIZE
      match getReadPtr f2 ((heapIndexOffset + 4) % U64) rawSize with
      | none => none
      | some (f3, ptr) => some (f3, numRecords, ptr)

/-- The loop of the constructor: deserialize `n` records at `p` and add each
    to the index.  The flag is `false` when `addAllocatedBlock` threw; the
    index is then the one built so far. -/
def loadRecords (f : List Byte) : Nat → Nat → HeapIndex → Bool × HeapIndex
  | 0, _, idx => (true, idx)
  | n + 1, p, idx =>
    match idx.addAllocatedBlock (Record.deserialize f p) with
    | none => (false, idx)
    | some idx1 => loadRecords f n (p + SERIALIZED_SIZE) idx1

/-- The `catch` block of the constructor. -/
def HeapFileT.resetOnError (idx : HeapIndex) (f : List Byte) (key : List Byte) :
    Option HeapFileT :=
  (clearFile f).map (fun f1 => ⟨idx.clear, f1, Simple.new key, UNBOUNDED⟩)

/-- `HeapFileT::HeapFileT(path, key)` on a file with the bytes `f`.  The outer
    `none` is an abort: a failed assertion on a `NULL` record pointer. -/
def HeapFileT.open (f : List Byte) (key : List Byte) : Option HeapFileT :=
  if f.length = 0 then some ⟨HeapIndex.empty, f, Simple.new key, UNBOUNDED⟩
  else
    match findHeapIndex f with
    | none => HeapFileT.resetOnError HeapIndex.empty f key
    | some (f1, numRecs, ptr) =>
      if numRecs = 0 then some ⟨HeapIndex.empty, f1, Simple.new key, UNBOUNDED⟩
      else
        match ptr with
        | none => none
        | some p =>
          match loadRecords f1 numRecs p HeapIndex.empty with
          | (true, idx) => some ⟨idx, f1, Simple.new key, UNBOUNDED⟩
          | (false, idx) => HeapFileT.resetOnError idx f1 key

/-! ## States of the heap

`Reach key h`: `h` is reached from a fresh heap file with cipher key `key` by
calls of `writeBlob`, `eraseBlob` and `setMaxSize` that returned.  Payloads
are shorter than `2^32` bytes (their length is stored in 32 bits), the number
of allocated records fits the `uint32_t` that `numAllocatedRecords` returns,
and caps are `uint64_t` values.
-/

inductive Reach (key : List Byte) : HeapFileT → Prop
  | create : Reach key (HeapFileT.create key)
  | put {h h1 : HeapFileT} (id data : List Byte) (b : Bool) :
      Reach key h → data.length < U32 → h.m_index.m_alloc.length + 1 < U32 →
      h.writeBlob id data = some (b, h1) → Reach key h1
  | erase {h h1 : HeapFileT} (id : List Byte) (b : Bool) :
      Reach key h → h.eraseBlob id = some (b, h1) → Reach key h1
  | setMaxSize {h h1 : HeapFileT} (n : Nat) :
      Reach key h → n < U64 → h.setMaxSize n = some (some h1) → Reach key h1

/-- Two records of the list, the first in front: they do not overlap and the
    first starts earlier. -/
def Sep (a b : Record) : Prop :=
  a.m_offset + a.m_size ≤ b.m_offset ∧ a.m_offset < b.m_offset

/-- The bytes `Blob::writeData` lays out for `id` and the stored payload. -/
def enc (id payload : List Byte) : List Byte :=
  toByte id.length :: (id ++ (be32 (hash payload) ++ (be32 payload.length ++ payload)))

/-- The region of record `r` holds the blob of `id` and `payload`. -/
def BlobAt (f : List Byte) (r : Record) (id payload : List Byte) : Prop :=
  id.length ≤ 255 ∧ payload.length < U32 ∧
  overhead + id.length + payload.length ≤ r.m_size ∧
  rdN f r.m_offset (overhead + id.length + payload.length) = enc id payload

/-- The id bytes found in the region of `r`. -/
def storedId (f : List Byte) (r : Record) : List Byte :=
  rdN f (r.m_offset + 1) (rd f r.m_offset).val

/-- Structural invariant of the index. -/
structure IdxInv (idx : HeapIndex) : Prop where
  sep : idx.m_list.Pairwise Sep
  perm : idx.m_list.Perm (idx.m_alloc ++ idx.m_free)
  noAdjFree : idx.m_list.Chain' (fun a b => ¬ (a ∈ idx.m_free ∧ b ∈ idx.m_free))
  lastAlloc : ∀ l, idx.m_list.getLast? = some l → l ∈ idx.m_alloc
  size_lt : ∀ r ∈ idx.m_list, r.m_size < U32 ∧ r.m_offset + r.m_size < U64
  alloc_min : ∀ r ∈ idx.m_alloc, 0 < r.m_size

/-- The index while the record `r`, between the nodes `pre` and `post`, is in
    neither map (it has been taken out of one and not yet put into the other). -/
structure Limbo (pre : List Record) (r : Record) (post A F : List Record) : Prop where
  sep : (pre ++ r :: post).Pairwise Sep
  perm : (pre ++ post).Perm (A ++ F)
  noAdjFree : (pre ++ r :: post).Chain' (fun a b => ¬ (a ∈ F ∧ b ∈ F))
  notFree : r ∉ F
  tailOk : ∀ l, post.getLast? = some l → l ∈ A
  size_lt : ∀ x ∈ pre ++ r :: post, x.m_size < U32 ∧ x.m_offset + x.m_size < U64
  alloc_min : ∀ x ∈ A, 0 < x.m_size

/-- Invariant of the heap file: the index is well formed, every record lies
    in the payload region of the file, every allocated record holds a blob
    whose id hashes to the record key, and no id is stored twice. -/
structure Inv (h : HeapFileT) : Prop where
  idx : IdxInv h.m_index
  within : ∀ r ∈ h.m_index.m_list, 8 ≤ r.m_offset ∧ r.m_offset + r.m_size ≤ h.m_file.length
  small : h.m_file.length < OFF_MAX
  blobs : ∀ r ∈ h.m_index.m_alloc, ∃ id pl, BlobAt h.m_file r id pl ∧ r.m_key = hash id
  uniq : ∀ r1 ∈ h.m_index.m_alloc, ∀ r2 ∈ h.m_index.m_alloc,
    storedId h.m_file r1 = storedId h.m_file r2 → r1 = r2
  key : h.m_key.m_key ≠ []
  count : h.m_index.m_alloc.length < U32

/-! ## Scenarios

Sequences of calls on a heap file, used to name concrete reachable states.
-/

/-- One call of the public interface. -/
inductive Op where
  | put (id data : List Byte)
  | erase (id : List Byte)
  | setMaxSize (n : Nat)

/-- The heap after the call `op` returned, `none` when it did not return (or
    when the call is outside the domain of `Reach`). -/
def stepOp (h : HeapFileT) : Op → Option HeapFileT
  | Op.put id data =>
    if data.length < U32 ∧ h.m_index.m_alloc.length + 1 < U32 then
      (h.writeBlob id data).map (fun x => x.2)
    else none
  | Op.erase id => (h.eraseBlob id).map (fun x => x.2)
  | Op.setMaxSize n =>
    if n < U64 then
      match h.setMaxSize n with
      | some (some h1) => some h1
      | _ => none
    else none

/-- The heap after the calls `ops`, in order, starting from `h`. -/
def runFrom (h : HeapFileT) : List Op → Option HeapFileT
  | [] => some h
  | op :: ops =>
    match stepOp h op with
    | none => none
    | some h1 => runFrom h1 ops

/-- The heap after the calls `ops` on a fresh heap file with cipher key `key`. -/
def run (key : List Byte) (ops : List Op) : Option HeapFileT :=
  runFrom (HeapFileT.create key) ops

/-- `n` copies of the byte `v`. -/
def fill (n : Nat) (v : Nat) : List Byte := List.replicate n (toByte v)

/-- What `writeBlob` answers in the state `o`. -/
def putResult (o : Option HeapFileT) (id data : List Byte) : Option Bool :=
  o.bind (fun h => (h.writeBlob id data).map Prod.fst)

/-- The state `writeBlob` leaves from the state `o`. -/
def afterPut (o : Option HeapFileT) (id data : List Byte) : Option HeapFileT :=
  o.bind (fun h => (h.writeBlob id data).map Prod.snd)

/-- What `eraseBlob` answers in the state `o`. -/
def eraseResult (o : Option HeapFileT) (id : List Byte) : Option Bool :=
  o.bind (fun h => (h.eraseBlob id).map Prod.fst)

/-- The state `eraseBlob` leaves from the state `o`. -/
def afterErase (o : Option HeapFileT) (id : List Byte) : Option HeapFileT :=
  o.bind (fun h => (h.eraseBlob id).map Prod.snd)

/-- What `getBlob` yields in the state `o`: `some none` is the answer `false`. -/
def getResult (o : Option HeapFileT) (id : List Byte) : Option (Option (List Byte)) :=
  o.bind (fun h => (h.getBlob id).map Prod.fst)

/-- What `hasBlob` answers in the state `o`. -/
def hasResult (o : Option HeapFileT) (id : List Byte) : Option Bool :=
  o.bind (fun h => (h.hasBlob id).map Prod.fst)

/-- `size()` in the state `o`. -/
def sizeIn (o : Option HeapFileT) : Option Nat := o.map HeapFileT.size

/-- Close the heap in the state `o` and open the file again with `key`. -/
def reopen (o : Option HeapFileT) (key : List Byte) : Option HeapFileT :=
  o.bind (fun h => h.commit.bind (fun f => HeapFileT.open f key))

/-- A heap whose tail record sits behind nineteen small records that were
    allocated out of one big freed block, capped just above its size. -/
def crowdedOps : List Op :=
  [Op.put [1] (fill 4854 1), Op.put [2] (fill 3 2), Op.erase [1]] ++
  (List.range 19).map (fun i => Op.put [toByte (10 + i)] (fill 3 3)) ++
  [Op.setMaxSize 5165]

/-! ## The heap without the bytes

`AbsHeap` keeps what the index and the size of the file depend on: the index,
the length of the file, which record stores which (encrypted) id, and the
cap.  The operations below are the ones of `heap_file.cpp` with every access
to the bytes of the file replaced by a look-up in `ids`.
-/

structure AbsHeap where
  idx : HeapIndex
  flen : Nat
  ids : List (Record × List Byte)
  maxSize : Nat
deriving DecidableEq, Repr

/-- `release`, on the length of the file. -/
def absRelease (r : Record) (idx : HeapIndex) (flen : Nat) : Option (HeapIndex × Nat) :=
  match idx.deallocate r with
  | none => none
  | some (_, idx1) =>
    if idx.isLast r then
      if OFF_MAX ≤ (r.m_offset + idx1.size) % U64 then none
      else some (idx1, (r.m_offset + idx1.size) % U64)
    else some (idx1, flen)

/-- `eraseBlobEncryptedId`, with the look-up in `ids`. -/
def absErase (a : AbsHeap) (eid : List Byte) : Option AbsHeap :=
  match a.ids.find? (fun p => decide (p.2 = eid)) with
  | none => some a
  | some p =>
    (absRelease p.1 a.idx a.flen).map
      (fun x => { a with idx := x.1, flen := x.2, ids := a.ids.erase p })

/-- `getWritePtr`, on the length of the file. -/
def absWritePtr (flen offset size : Nat) : Option Nat :=
  if flen < offset + size then
    if OFF_MAX ≤ offset + size then none else some (offset + size)
  else if OFF_MAX ≤ offset then none
  else some flen

/-- `writeInto` for a payload of `len` bytes, without the bytes. -/
def absWriteInto (a : AbsHeap) (eid : List Byte) (len : Nat) (r : Record) (idx : HeapIndex)
    (flen : Nat) : Option (Bool × AbsHeap) :=
  match absWritePtr flen r.m_offset r.m_size with
  | none => none
  | some flen1 =>
    if overhead + eid.length + len % U32 > r.m_size then none
    else if eid.length > 255 then
      (absRelease r idx flen1).map (fun x => (false, { a with idx := x.1, flen := x.2 }))
    else if r.m_offset + overhead + eid.length + len ≤ flen1 then
      some (true, { a with idx := idx, flen := flen1, ids := (r, eid) :: a.ids })
    else none

/-- `writeBlob` of the encrypted id `eid` and a payload of `len` bytes. -/
def absPut (a : AbsHeap) (eid : List Byte) (len : Nat) : Option (Bool × AbsHeap) :=
  match absErase a eid with
  | none => none
  | some a1 =>
    let blobSize := Blob.blobSize eid.length len
    let hashCode := hash eid
    match a1.idx.allocate blobSize hashCode with
    | none => none
    | some (some r, idx2) => absWriteInto a1 eid len r idx2 a1.flen
    | some (none, idx2) =>
      let r := Record.new (appendOffset idx2) hashCode blobSize true
      match idx2.addAllocatedBlock r with
      | none => none
      | some idx3 =>
        let proposedSize := (r.m_offset + r.m_size + idx3.size) % U64
        if proposedSize > a.maxSize then
          (idx3.deallocate r).map (fun x => (false, { a1 with idx := x.2 }))
        else if OFF_MAX ≤ proposedSize then none
        else absWriteInto a1 eid len r idx3 proposedSize

/-- The abstract heap of a fresh heap file. -/
def AbsHeap.create : AbsHeap := ⟨HeapIndex.empty, 0, [], UNBOUNDED⟩

/-- `a` describes the heap `h`: same index, file length and cap, `h` is well
    formed, and `ids` lists exactly, and once each, the allocated records with
    the ids found in their regions. -/
structure Describes (a : AbsHeap) (h : HeapFileT) : Prop where
  inv : Inv h
  idx : a.idx = h.m_index
  flen : a.flen = h.m_file.length
  maxSize : a.maxSize = h.m_maxSize
  nodup : a.ids.Nodup
  ids_sound : ∀ p ∈ a.ids, p.1 ∈ h.m_index.m_alloc ∧ storedId h.m_file p.1 = p.2
  ids_complete : ∀ r ∈ h.m_index.m_alloc, (r, storedId h.m_file r) ∈ a.ids

/-- A call as the abstract heap sees it: of the payload only the length. -/
inductive AOp where
  | put (id : List Byte) (len : Nat)
  | erase (id : List Byte)
  | setMaxSize (n : Nat)
deriving DecidableEq, Repr

def Op.toAbs : Op → AOp
  | Op.put id data => AOp.put id data.length
  | Op.erase id => AOp.erase id
  | Op.setMaxSize n => AOp.setMaxSize n

/-- One call on the abstract heap.  It is followed for ids of at most 255
    bytes and payloads below 4 GiB, and for `setMaxSize` when the file is
    already shorter than the new cap (no eviction); otherwise `none`. -/
def absStep (key : Simple) (a : AbsHeap) : AOp → Option AbsHeap
  | AOp.put id len =>
    if id.length ≤ 255 ∧ len < U32 ∧ a.idx.m_alloc.length + 1 < U32 then
      (absPut a (key.encrypt id).2 len).map (fun x => x.2)
    else none
  | AOp.erase id => absErase a (key.encrypt id).2
  | AOp.setMaxSize n =>
    if a.flen < n ∧ n < U64 then some { a with maxSize := n } else none

def absRun (key : Simple) (a : AbsHeap) : List AOp → Option AbsHeap
  | [] => some a
  | op :: ops =>
    match absStep key a op with
    | none => none
    | some a1 => absRun key a1 ops

/-- The calls of `crowdedOps` as the abstract heap sees them. -/
def crowdedAOps : List AOp :=
  [AOp.put [1] 4854, AOp.put [2] 3, AOp.erase [1]] ++
  (List.range 19).map (fun i => AOp.put [toByte (10 + i)] 3) ++
  [AOp.setMaxSize 5165]

/-- The abstract heap after `crowdedAOps`. -/
def crowdedAbs : AbsHeap :=
  (absRun (Simple.new []) AbsHeap.create crowdedAOps).getD AbsHeap.create

/-- The id a call stores or erases. -/
def Op.target : Op → Option (List Byte)
  | Op.put id _ => some id
  | Op.erase id => some id
  | Op.setMaxSize _ => none

/-- Whether the last record of the list stores the blob of `clearId`. -/
def storedInTail (h : HeapFileT) (clearId : List Byte) : Bool :=
  match h.m_index.m_list.getLast? with
  | none => false
  | some r => decide (storedId h.m_file r = (h.m_key.encrypt clearId).2)

/-- One stored blob, capped at 1000 bytes. -/
def cappedOps : List Op := [Op.put [20] (fill 3 1), Op.setMaxSize 1000]

def cappedHeap : HeapFileT := (run [] cappedOps).getD (HeapFileT.create [])

def cappedHeap2 : HeapFileT :=
  (stepOp cappedHeap (Op.put [21] (fill 3 2))).getD (HeapFileT.create [])

/-- Two blobs of 3 000 000 000 bytes and a small one; the two big ones are
    then erased, so that their records are coalesced into one free record. -/
def wrapOps : List Op :=
  [Op.put [1] (fill 3000000000 0), Op.put [2] (fill 3000000000 0), Op.put [3] (fill 3 0),
   Op.erase [1], Op.erase [2]]

def wrapAOps : List AOp :=
  [AOp.put [1] 3000000000, AOp.put [2] 3000000000, AOp.put [3] 3, AOp.erase [1], AOp.erase [2]]

/-- The abstract heap after `wrapAOps`. -/
def wrapAbs : AbsHeap :=
  (absRun (Simple.new []) AbsHeap.create wrapAOps).getD AbsHeap.create

/-- A small free record at the front of a file of more than 4 GiB.  The last
    call appends the large blob, so the window it mapped (from the page of
    offset 520 to past the end of that record) is the current one. -/
def giantOps : List Op :=
  [Op.put [1] (fill 3 0), Op.put [9] (fill 3 0), Op.erase [1], Op.put [2] (fill 4294967200 0)]

def giantAOps : List AOp :=
  [AOp.put [1] 3, AOp.put [9] 3, AOp.erase [1], AOp.put [2] 4294967200]

/-- The abstract heap after `giantAOps`. -/
def giantAbs : AbsHeap :=
  (absRun (Simple.new []) AbsHeap.create giantAOps).getD AbsHeap.create

/-- Two stored blobs. -/
def pairOps : List Op := [Op.put [20] (fill 3 1), Op.put [21] (fill 3 2)]

def pairHeap : HeapFileT := (run [] pairOps).getD (HeapFileT.create [])

/-- The heap `pairHeap` after `erase([20])`. -/
def pairErased : HeapFileT :=
  ((pairHeap.eraseBlob [20]).map Prod.snd).getD (HeapFileT.create [])

/-- One stored blob in a file capped at 285 bytes. -/
def tightOps : List Op := [Op.put [20] (fill 3 1), Op.setMaxSize 285]

def tightHeap : HeapFileT := (run [] tightOps).getD (HeapFileT.create [])

/-- The heap `tightHeap` after the put of 300 bytes under the id `[20]`. -/
def tightAfter : HeapFileT :=
  ((tightHeap.writeBlob [20] (fill 300 2)).map Prod.snd).getD (HeapFileT.create [])

/-- A payload whose first five bytes hash to 0, followed by a zero byte, so
    that the whole payload hashes to 0 as well. -/
def collPayload : List Byte := [151, 194, 1, 19, 2, 0]

/-- The record and blob used to store `collPayload` under the id `[20]`. -/
def collRecord : Record := ⟨8, hash [20], 256⟩

def collBlob : Blob := ⟨collRecord, some 8⟩

/-- The memory after `collBlob.writeData` of `collPayload` into 264 zero
    bytes. -/
def collRegion : List Byte :=
  ((collBlob.writeData (List.replicate 264 0) [20] ⟨6, collPayload⟩).map Prod.snd).getD []

def collOps : List Op := [Op.put [20] collPayload]

def collHeap : HeapFileT := (run [] collOps).getD (HeapFileT.create [])

/-- Position of the `payload_len` field in the region of `r` for an id of
    `idLen` bytes. -/
def lenPos (r : Record) (idLen : Nat) : Nat := r.m_offset + 1 + idLen + 4

/-- The payload length `getData` reads from the region of `r` in `f`. -/
def readLen (f : List Byte) (r : Record) (idLen : Nat) : Nat :=
  beVal (rdN f (lenPos r idLen) 4)

/-- What `getData` makes of `n` payload bytes checked against the stored hash
    `stored`: refused when `n` does not fit the record or the bytes do not hash
    to `stored`. -/
def lenOutcome (f : List Byte) (r : Record) (idLen n stored : Nat) : Option (List Byte) :=
  if n > r.m_size - overhead - idLen then none
  else if hash (rdN f (lenPos r idLen + 4) n) ≠ stored then none
  else some (rdN f (lenPos r idLen + 4) n)

/-- The allocated records in list (offset) order: what `~HeapFileT`
    serializes. -/
def HeapIndex.allocInOrder (idx : HeapIndex) : List Record :=
  idx.m_list.filter (fun e => !idx.isFree e)

/-- The file `pairHeap` leaves when it is closed. -/
def pairFile : List Byte := pairHeap.commit.getD []

/-- `XOR(key, in, out, size)` called with `out == in` (encryption in place):
    the loop reads each element from, and writes it back to, the same buffer. -/
def XORInPlace (key : List Byte) (buf : List Byte) : Bool × List Byte :=
  if key.length = 0 then (false, buf)
  else (true, (List.range buf.length).foldl
          (fun b i => b.set i ((b.getD i 0) ^^^ (key.getD (i % key.length) 0))) buf)

/-- `Simple::encrypt(in, out)` with `out` the same vector as `in`. -/
def Simple.encryptInPlace (s : Simple) (buf : List Byte) : Bool × List Byte :=
  XORInPlace s.m_key buf

/-- `Simple::decrypt(in, out)` with `out` the same vector as `in`. -/
def Simple.decryptInPlace (s : Simple) (buf : List Byte) : Bool × List Byte :=
  XORInPlace s.m_key buf

/-! ## byte_order.h, byte_order.cpp

`le` tells whether the host is little-endian; `mac` tells whether the macro
`__LITTLE_ENDIAN__` is defined when byte_order.cpp is compiled (`htonll` swaps
only then).  `htonl` is the one of libc and follows the host.  `be32` is what
`writeH2N` of a 32-bit value leaves in memory on every build; `be64` is what
`writeH2N` of a 64-bit value leaves in memory on the builds with `mac = le`.
The definitions here follow the source step by step.
-/

/-- `htonl` (libc): the byte reversal on a little-endian host, the identity on
    a big-endian one. -/
def htonl (le : Bool) (x : Nat) : Nat :=
  if le then
    (x % 256) * 16777216 + (x / 256 % 256) * 65536 + (x / 65536 % 256) * 256
      + (x / 16777216 % 256)
  else x

/-- `ntohl` (libc). -/
def ntohl (le : Bool) (x : Nat) : Nat := htonl le x

/-- `htonll` of byte_order.cpp: the body under `#ifdef __LITTLE_ENDIAN__` when
    `mac` holds, the one under `#else` otherwise. -/
def htonll (le mac : Bool) (ll : Nat) : Nat :=
  if mac then
    let tmp := htonl le (ll % U32)
    let tmp := (tmp <<< 32) % U64
    tmp ||| htonl le ((ll >>> 32) % U32)
  else ll

/-- `ntohll` of byte_order.cpp. -/
def ntohll (le mac : Bool) (ll : Nat) : Nat := htonll le mac ll

/-- The four bytes of a `uint32_t` object in memory (what `memcpy` copies). -/
def objBytes32 (le : Bool) (v : Nat) : List Byte :=
  if le then [toByte v, toByte (v / 256), toByte (v / 65536), toByte (v / 16777216)]
  else [toByte (v / 16777216), toByte (v / 65536), toByte (v / 256), toByte v]

/-- The eight bytes of a `uint64_t` object in memory. -/
def objBytes64 (le : Bool) (v : Nat) : List Byte :=
  if le then objBytes32 le (v % U32) ++ objBytes32 le (v / U32)
  else objBytes32 le (v / U32) ++ objBytes32 le (v % U32)

/-- The value of an object whose bytes in memory are `bs`. -/
def objVal (le : Bool) (bs : List Byte) : Nat :=
  if le then beVal bs.reverse else beVal bs

/-- `writeH2N<uint32_t>`: the bytes stored at `p` and the return value. -/
def writeH2N32 (le : Bool) (t : Nat) : List Byte × Nat := (objBytes32 le (htonl le t), 4)

/-- `writeH2N<uint64_t>`: the bytes stored at `p` and the return value. -/
def writeH2N64 (le mac : Bool) (t : Nat) : List Byte × Nat :=
  (objBytes64 le (htonll le mac t), 8)

/-- `readN2H<uint32_t>`: the value read at `p` and the return value. -/
def readN2H32 (le : Bool) (mem : List Byte) (p : Nat) : Nat × Nat :=
  (ntohl le (objVal le (rdN mem p 4)), 4)

/-- `readN2H<uint64_t>`: the value read at `p` and the return value. -/
def readN2H64 (le mac : Bool) (mem : List Byte) (p : Nat) : Nat × Nat :=
  (ntohll le mac (objVal le (rdN mem p 8)), 8)

/-- `Record::serialize(p)`: the bytes written through the advancing pointer
    and the return value. -/
def Record.serializeH (le mac : Bool) (r : Record) : List Byte × Nat :=
  let a := writeH2N64 le mac r.m_offset
  let b := writeH2N32 le r.m_key
  let c := writeH2N32 le r.m_size
  (a.1 ++ b.1 ++ c.1, a.2 + b.2 + c.2)

/-- `Record::deserialize(s)`: the record read at `p` and the return value. -/
def Record.deserializeH (le mac : Bool) (mem : List Byte) (p : Nat) : Record × Nat :=
  let a := readN2H64 le mac mem p
  let b := readN2H32 le mem (p + a.2)
  let c := readN2H32 le mem (p + a.2 + b.2)
  (⟨a.1, b.1, c.1⟩, a.2 + b.2 + c.2)

/-- The record of the serialization test of heap_index.t.cpp. -/
def testRecord : Record := ⟨1099511627776, 3735928559, 204800⟩

/-- A record of 100 bytes, too small for an id of 256 bytes. -/
def smallRecord : Record := ⟨8, 0, 100⟩

/-- An id of 256 bytes. -/
def longId : List Byte := fill 256 7

/-- A file whose header points to an index at offset 8 that counts one
    record, of whose sixteen bytes only the first is in the file. -/
def truncatedFile : List Byte := [0, 0, 0, 0, 0, 0, 0, 8, 0, 0, 0, 1, 5]

/-- The same header and count, with the file ending where the records should
    start. -/
def endedFile : List Byte := [0, 0, 0, 0, 0, 0, 0, 8, 0, 0, 0, 1]

/-! ## Calls on the index

Sequences of calls on a `HeapIndex`, starting from the empty index.  A block
passed to `addAllocatedBlock` is not empty and ends below `2^64`; its size is
a `uint32_t`.  (Records are identified with their field triple and the list
is searched by offset; both need the records of the list to start at
different, increasing offsets, which such blocks ensure.  Blocks of size 0
are followed on `PtrIndex` below, which tells equal records apart.)
-/

/-- One call of the interface of `HeapIndex`. -/
inductive IOp where
  | add (p : Record)
  | allocate (size key : Nat)
  | deallocate (rec : Record)

/-- The blocks `addAllocatedBlock` is called with. -/
def Record.isBlock (p : Record) : Bool :=
  decide (0 < p.m_size ∧ p.m_size < U32 ∧ p.m_offset + p.m_size < U64)

/-- The index after the call `op` returned; `none` when it threw or tripped
    an assertion (or when the block is outside the domain above). -/
def istep (idx : HeapIndex) : IOp → Option HeapIndex
  | IOp.add p => if p.isBlock then idx.addAllocatedBlock p else none
  | IOp.allocate size key => (idx.allocate size key).map (fun x => x.2)
  | IOp.deallocate rec => (idx.deallocate rec).map (fun x => x.2)

/-- The index after the calls `ops`, in order, starting from `idx`. -/
def irunFrom (idx : HeapIndex) : List IOp → Option HeapIndex
  | [] => some idx
  | op :: ops =>
    match istep idx op with
    | none => none
    | some idx1 => irunFrom idx1 ops

/-- The index after the calls `ops` on an empty index. -/
def irun (ops : List IOp) : Option HeapIndex := irunFrom HeapIndex.empty ops

/-- The indexes that sequences of calls lead to from the empty index. -/
inductive IReach : HeapIndex → Prop
  | empty : IReach HeapIndex.empty
  | add {idx idx2 : HeapIndex} (p : Record) :
      IReach idx → p.isBlock = true → idx.addAllocatedBlock p = some idx2 → IReach idx2
  | allocate {idx idx2 : HeapIndex} (size key : Nat) (r : Option Record) :
      IReach idx → idx.allocate size key = some (r, idx2) → IReach idx2
  | deallocate {idx idx2 : HeapIndex} (rec : Record) (b : Bool) :
      IReach idx → idx.deallocate rec = some (b, idx2) → IReach idx2

/-- Consecutive records of the list share a boundary. -/
def Contiguous (l : List Record) : Prop :=
  l.Chain' (fun a b => a.m_offset + a.m_size = b.m_offset)

/-- The number of bytes the records of the list describe. -/
def totalSize (l : List Record) : Nat := (l.map Record.m_size).sum

/-- The calls of the first part of `testHeapIndexOps`: three blocks, the
    third one behind a gap. -/
def testIndexOps : List IOp :=
  [IOp.add ⟨8, 0, 256⟩, IOp.add ⟨264, 1, 512⟩, IOp.add ⟨2000, 2, 256⟩]

def testIndex : HeapIndex := (irun testIndexOps).getD HeapIndex.empty

/-- Two blocks more than 4 GiB apart. -/
def farOps : List IOp := [IOp.add ⟨8, 1, 256⟩, IOp.add ⟨8589934592, 2, 256⟩]

def farIndex : HeapIndex := (irun farOps).getD HeapIndex.empty

/-! ## mmap_file.cpp: the mapped window

`MmapFile` with its window.  `pg` is `g_pageSize`.  `m_fileSize` is the length
of the file behind `m_fd`; `m_begin` is the file position the mapping starts
at, `none` for `NULL` (a pointer computed from `NULL` counts as `NULL`).  A
failure of `mmap` for want of address space is not modelled.
-/

structure MmapFile where
  m_file : List Byte
  m_offset : Nat
  m_windowSize : Nat
  m_begin : Option Nat
deriving DecidableEq, Repr

/-- `effectiveWindowSize`; `none` when the assertion
    `windowOffset <= fileSize` fails. -/
def effectiveWindowSize (fileSize windowOffset windowSize : Nat) : Option Nat :=
  if windowOffset ≤ fileSize then some (min windowSize (fileSize - windowOffset)) else none

/-- `growFile`; the assertion `statFileSize(fd) < size` aborts. -/
def growFile (f : List Byte) (size : Nat) : Option (List Byte) :=
  if f.length < size then setFileSize f size else none

/-- `mmapFile(fd, offset, size)`: where the mapping starts.  `none` when an
    assertion on the alignment fails or `mmap` raises (empty range, offset
    that is not a non-negative `off_t`). -/
def mmapFile (pg offset size : Nat) : Option Nat :=
  if offset % pg = 0 ∧ size % pg = 0 then
    if size = 0 ∨ OFF_MAX ≤ offset then none else some offset
  else none

/-- `MmapFile::MmapFile(path)` on a file with the bytes `f`. -/
def MmapFile.open (pg : Nat) (f : List Byte) : Option MmapFile :=
  (mmapFile pg 0 pg).map (fun b => ⟨f, 0, pg, some b⟩)

def MmapFile.size (s : MmapFile) : Nat := s.m_file.length

/-- `MmapFile::unmap`; raises when `munmap` fails (empty range). -/
def MmapFile.unmap (s : MmapFile) : Option MmapFile :=
  if s.m_windowSize = 0 then none
  else some { s with m_begin := none, m_offset := 0, m_windowSize := 0 }

/-- `MmapFile::trim`. -/
def MmapFile.trim (pg : Nat) (s : MmapFile) (numBytesToKeep : Nat) : Option MmapFile :=
  match s.unmap with
  | none => none
  | some s1 =>
    match setFileSize s1.m_file numBytesToKeep with
    | none => none
    | some f => (mmapFile pg s1.m_offset pg).map (fun b => ⟨f, s1.m_offset, pg, some b⟩)

/-- `MmapFile::clear`. -/
def MmapFile.clear (pg : Nat) (s : MmapFile) : Option MmapFile :=
  match s.unmap with
  | none => none
  | some s1 =>
    match setFileSize s1.m_file 0 with
    | none => none
    | some f => (mmapFile pg s1.m_offset pg).map (fun b => ⟨f, s1.m_offset, pg, some b⟩)

/-- `MmapFile::isInWindow`. -/
def MmapFile.isInWindow (s : MmapFile) (offset size : Nat) : Option Bool :=
  (effectiveWindowSize s.m_file.length s.m_offset s.m_windowSize).map
    (fun mappedSize => decide (s.m_offset ≤ offset ∧ s.m_offset + mappedSize ≥ offset + size))

/-- `MmapFile::getPtr` (non-const): the state and the pointer returned. -/
def MmapFile.getPtr (pg : Nat) (s : MmapFile) (offset size : Nat) :
    Option (MmapFile × Option Nat) :=
  match s.isInWindow offset size with
  | none => none
  | some true => some (s, s.m_begin.map (fun b => b + (offset - s.m_offset)))
  | some false =>
    match s.unmap with
    | none => none
    | some s1 =>
      let m_offset := offset - offset % pg
      let ws := offset - m_offset + size
      let m_windowSize := ws + (pg - ws % pg)
      match (if s1.m_file.length < offset + size then growFile s1.m_file (offset + size)
             else some s1.m_file) with
      | none => none
      | some f =>
        match mmapFile pg m_offset m_windowSize with
        | none => none
        | some b =>
          if m_offset ≤ offset ∧ m_offset + m_windowSize ≥ offset + size then
            some (⟨f, m_offset, m_windowSize, some b⟩, some (b + (offset - m_offset)))
          else none

/-- `MmapFile::getPtr` (const): `NULL` when `offset` is at or past the end of
    the file, otherwise the non-const `getPtr`. -/
def MmapFile.getPtrConst (pg : Nat) (s : MmapFile) (offset size : Nat) :
    Option (MmapFile × Option Nat) :=
  if offset ≥ s.m_file.length then some (s, none) else s.getPtr pg offset size

/-- The states of an `MmapFile` opened on some file, after calls that
    returned.  Offsets and sizes are non-negative `off_t` values. -/
inductive MReach (pg : Nat) : MmapFile → Prop
  | opened {s : MmapFile} (f : List Byte) :
      f.length < OFF_MAX → MmapFile.open pg f = some s → MReach pg s
  | getPtr {s s2 : MmapFile} (offset size : Nat) (ptr : Option Nat) :
      MReach pg s → s.getPtr pg offset size = some (s2, ptr) → MReach pg s2
  | getPtrConst {s s2 : MmapFile} (offset size : Nat) (ptr : Option Nat) :
      MReach pg s → s.getPtrConst pg offset size = some (s2, ptr) → MReach pg s2
  | trim {s s2 : MmapFile} (n : Nat) : MReach pg s → s.trim pg n = some s2 → MReach pg s2
  | clear {s s2 : MmapFile} : MReach pg s → s.clear pg = some s2 → MReach pg s2

/-- A file of ten bytes, opened with pages of 4096 bytes. -/
def tenBytes : MmapFile := ⟨List.replicate 10 0, 0, 4096, some 0⟩

/-- The index `testIndex` after an allocation that splits the free record
    and the release of the second block. -/
def splitIndexOps : List IOp :=
  testIndexOps ++ [IOp.allocate 300 3, IOp.deallocate ⟨264, 1, 512⟩]

def splitIndex : HeapIndex := (irun splitIndexOps).getD HeapIndex.empty

/-- State invariant of `MmapFile`: the window is page aligned, not empty and
    starts inside the file, `m_begin` points at its first byte, and the file
    length is an `off_t`. -/
structure MmapFile.Ok (pg : Nat) (s : MmapFile) : Prop where
  off : s.m_offset % pg = 0
  win : s.m_windowSize % pg = 0
  pos : 0 < s.m_windowSize
  inside : s.m_offset ≤ s.m_file.length
  start : s.m_begin = some s.m_offset
  small : s.m_file.length < OFF_MAX

/-- Two blocks of 3 000 000 000 bytes and a small one behind them; the two
    large ones are then released, first the left one. -/
def hugeOps : List IOp :=
  [IOp.add ⟨8, 1, 3000000000⟩, IOp.add ⟨3000000008, 2, 3000000000⟩,
   IOp.add ⟨6000000008, 3, 256⟩,
   IOp.deallocate ⟨8, 1, 3000000000⟩, IOp.deallocate ⟨3000000008, 2, 3000000000⟩]

/-- The index before the second release of `hugeOps`. -/
def hugeIndex : HeapIndex := (irun (hugeOps.take 4)).getD HeapIndex.empty

/-- The heap `pairHeap` after `set_max_size(556)`. -/
def pairEvicted : HeapFileT :=
  ((pairHeap.setMaxSize 556).getD none).getD (HeapFileT.create [])

/-- The free record `allocate(size, key)` takes:
    `m_free.lower_bound(max(size, MIN_SIZE))`. -/
def HeapIndex.chosen (idx : HeapIndex) (size : Nat) : Option Record :=
  mmLowerBound Record.m_size (max size MIN_SIZE) idx.m_free

/-- The free map is in key order, as a `std::multimap` is: along the map the
    sizes do not decrease. -/
def HeapIndex.freeOrdered (idx : HeapIndex) : Prop :=
  idx.m_free.Pairwise (fun a b => a.m_size ≤ b.m_size)

/-- A heap built by puts and erases only: a big blob and a small one behind
    it, the big one erased, and nineteen small blobs stored in the block it
    left. -/
def packedOps : List Op :=
  [Op.put [1] (fill 4854 1), Op.put [2] (fill 3 2), Op.erase [1]] ++
  (List.range 19).map (fun i => Op.put [toByte (10 + i)] (fill 3 3))

/-- The calls of `packedOps` as the abstract heap sees them. -/
def packedAOps : List AOp :=
  [AOp.put [1] 4854, AOp.put [2] 3, AOp.erase [1]] ++
  (List.range 19).map (fun i => AOp.put [toByte (10 + i)] 3)

/-- The abstract heap after `packedAOps`. -/
def packedAbs : AbsHeap :=
  (absRun (Simple.new []) AbsHeap.create packedAOps).getD AbsHeap.create

/-- The heap `pairHeap` after the erase of its second blob. -/
def pairTailErased : HeapFileT :=
  ((pairHeap.eraseBlob [21]).map Prod.snd).getD (HeapFileT.create [])

/-- The records of `l` lie one behind the other from the offset `lo` to the
    offset `hi`: the first starts at `lo`, each next one where the one before
    ends, and the last ends at `hi`. -/
def tiles : Nat → List Record → Nat → Prop
  | lo, [], hi => lo = hi
  | lo, r :: rs, hi => r.m_offset = lo ∧ tiles (lo + r.m_size) rs hi

/-- The heaps reached from a fresh heap file with cipher key `key` by calls
    of `writeBlob`, `eraseBlob` and `setMaxSize` that returned and that each
    started on a file of less than 2^32 bytes. -/
inductive Reach32 (key : List Byte) : HeapFileT → Prop
  | create : Reach32 key (HeapFileT.create key)
  | step {h h1 : HeapFileT} (op : Op) :
      Reach32 key h → h.m_file.length < U32 → stepOp h op = some h1 → Reach32 key h1

/-- Two blobs, the first of which is erased again: the list of the index then
    starts with a free record. -/
def holeOps : List Op := [Op.put [1] (fill 3 1), Op.put [2] (fill 3 2), Op.erase [1]]

def holeHeap : HeapFileT := (run [] holeOps).getD (HeapFileT.create [])

/-- The heap `holeHeap` closed and opened again. -/
def holeReopened : HeapFileT := (reopen (run [] holeOps) []).getD (HeapFileT.create [])

/-- `runFrom`, refusing every call that starts on a file of 2^32 bytes or
    more. -/
def runSmallFrom (h : HeapFileT) : List Op → Option HeapFileT
  | [] => some h
  | op :: ops =>
    if h.m_file.length < U32 then
      match stepOp h op with
      | none => none
      | some h1 => runSmallFrom h1 ops
    else none

/-! ## The constructor on any build

`findHeapIndex`, `loadRecords`, `HeapFileT.open` and `HeapFileT.commit` above
read and write the 64-bit fields of the file (the offset of the index and the
offsets of the records) in network byte order, as byte_order.cpp does when
`__LITTLE_ENDIAN__` is defined exactly on little-endian hosts (`mac = le`).
The definitions here go through `ntohll`, `ntohl` and `Record::deserialize`
of the build `(le, mac)`; with `mac = le` they are the ones above
(`openOn_eq_open`).
-/

/-- `findHeapIndex` on the build `(le, mac)`:
    `n2h(file.readOrThrow<uint64_t>(0))`, then
    `n2h(file.readOrThrow<uint32_t>(heapIndexOffset))`, then the read pointer
    to the serialized records. -/
def findHeapIndexOn (le mac : Bool) (f : List Byte) : Option (List Byte × Nat × Option Nat) :=
  match getReadPtr f 0 8 with
  | none => none
  | some (_, none) => none
  | some (f1, some p0) =>
    let heapIndexOffset := ntohll le mac (objVal le (rdN f1 p0 8))
    match getReadPtr f1 heapIndexOffset 4 with
    | none => none
    | some (_, none) => none
    | some (f2, some p1) =>
      let numRecords := ntohl le (objVal le (rdN f2 p1 4))
      let rawSize := numRecords * SERIALIZED_SIZE
      match getReadPtr f2 ((heapIndexOffset + 4) % U64) rawSize with
      | none => none
      | some (f3, ptr) => some (f3, numRecords, ptr)

/-- The loop of the constructor on the build `(le, mac)`. -/
def loadRecordsOn (le mac : Bool) (f : List Byte) : Nat → Nat → HeapIndex → Bool × HeapIndex
  | 0, _, idx => (true, idx)
  | n + 1, p, idx =>
    match idx.addAllocatedBlock (Record.deserializeH le mac f p).1 with
    | none => (false, idx)
    | some idx1 => loadRecordsOn le mac f n (p + (Record.deserializeH le mac f p).2) idx1

/-- `HeapFileT::HeapFileT(path, key)` on the build `(le, mac)`. -/
def HeapFileT.openOn (le mac : Bool) (f : List Byte) (key : List Byte) : Option HeapFileT :=
  if f.length = 0 then some ⟨HeapIndex.empty, f, Simple.new key, UNBOUNDED⟩
  else
    match findHeapIndexOn le mac f with
    | none => HeapFileT.resetOnError HeapIndex.empty f key
    | some (f1, numRecs, ptr) =>
      if numRecs = 0 then some ⟨HeapIndex.empty, f1, Simple.new key, UNBOUNDED⟩
      else
        match ptr with
        | none => none
        | some p =>
          match loadRecordsOn le mac f1 numRecs p HeapIndex.empty with
          | (true, idx) => some ⟨idx, f1, Simple.new key, UNBOUNDED⟩
          | (false, idx) => HeapFileT.resetOnError idx f1 key

/-- The file `truncatedFile` with the offset of the index in the byte order of
    a little-endian host. -/
def hostTruncatedFile : List Byte := [8, 0, 0, 0, 0, 0, 0, 0, 0, 0, 0, 1, 5]

/-- The file `endedFile` with the offset of the index in the byte order of a
    little-endian host. -/
def hostEndedFile : List Byte := [8, 0, 0, 0, 0, 0, 0, 0, 0, 0, 0, 1]

/-! ## The index with record objects and pointers

`HeapIndex` above identifies a `Record` object with its three fields.
`PtrIndex` keeps the objects apart from the pointers to them: `m_list`,
`m_alloc` and `m_free` hold addresses (the multimaps with the key under which
the pointer was inserted), and `objs` holds the objects that are alive.  An
address that is not in `objs` has been deleted, and reading through it is
`none`.  Addresses are handed out in increasing order and are not used again.
Only `addAllocatedBlock` and `deallocate` are defined on it.
-/

structure PtrIndex where
  objs : List (Nat × Record)
  next : Nat
  m_list : List Nat
  m_alloc : List (Nat × Nat)
  m_free : List (Nat × Nat)
deriving DecidableEq, Repr

def PtrIndex.empty : PtrIndex := ⟨[], 0, [], [], []⟩

/-- The object `*p`; `none` when `p` has been deleted. -/
def PtrIndex.deref (idx : PtrIndex) (p : Nat) : Option Record :=
  (idx.objs.find? (fun o => o.1 == p)).map Prod.snd

/-- The index after `new Record(r)`; the new object has the address
    `idx.next`. -/
def PtrIndex.create (idx : PtrIndex) (r : Record) : PtrIndex :=
  { idx with objs := idx.objs ++ [(idx.next, r)], next := idx.next + 1 }

/-- The index after `delete p`. -/
def PtrIndex.delete (idx : PtrIndex) (p : Nat) : PtrIndex :=
  { idx with objs := idx.objs.filter (fun o => o.1 != p) }

/-- The index after the object `*p` has been changed to `r`. -/
def PtrIndex.assign (idx : PtrIndex) (p : Nat) (r : Record) : PtrIndex :=
  { idx with objs := idx.objs.map (fun o => if o.1 = p then (p, r) else o) }

/-- `multimap::insert` of the pair `e` of a key and a pointer: after the last
    entry whose key is not greater. -/
def pmInsert (e : Nat × Nat) : List (Nat × Nat) → List (Nat × Nat)
  | [] => [e]
  | x :: xs => if x.1 ≤ e.1 then x :: pmInsert e xs else e :: x :: xs

/-- `HeapIndex::addAllocatedBlock(p)` with `p` a new object with the fields
    `rec`. -/
def PtrIndex.addAllocatedBlock (idx : PtrIndex) (rec : Record) : Option PtrIndex :=
  let p := idx.next
  let idx0 := idx.create rec
  match idx0.m_list.getLast? with
  | none =>
    some { idx0 with m_list := [p], m_alloc := pmInsert (rec.m_key, p) idx0.m_alloc }
  | some lastPtr =>
    match idx0.deref lastPtr with
    | none => none
    | some last =>
      if last.sharesRightBoundaryWith rec then
        some { idx0 with m_list := idx0.m_list ++ [p],
                         m_alloc := pmInsert (rec.m_key, p) idx0.m_alloc }
      else
        match Record.between last rec with
        | none => none
        | some gap =>
          let g := idx0.next
          let idx1 := idx0.create gap
          some { idx1 with m_list := idx1.m_list ++ [g, p],
                           m_alloc := pmInsert (rec.m_key, p) idx1.m_alloc,
                           m_free := pmInsert (gap.m_size, g) idx1.m_free }

/-- `removeIfFree(m_free, r)`: the entries of `equal_range(r->size())` are
    compared with the pointer `r`. -/
def PtrIndex.removeIfFree (idx : PtrIndex) (p : Nat) : Option (Bool × PtrIndex) :=
  match idx.deref p with
  | none => none
  | some r =>
    if (r.m_size, p) ∈ idx.m_free then
      some (true, { idx with m_free := idx.m_free.erase (r.m_size, p) })
    else some (false, idx)

/-- The neighbour `n` of `*p` in the list is absorbed when it is free: it is
    taken out of `m_free`, `*p` is coalesced with it and it is deleted.  The
    flag tells whether it was absorbed (the caller erases its list node). -/
def PtrIndex.absorb (idx : PtrIndex) (p n : Nat) : Option (Bool × PtrIndex) :=
  match idx.removeIfFree n with
  | none => none
  | some (false, _) => some (false, idx)
  | some (true, idx1) =>
    match idx1.deref p, idx1.deref n with
    | some r, some x => (r.coalesce x).map (fun r1 => (true, (idx1.assign p r1).delete n))
    | _, _ => none

/-- The body of the loop of `HeapIndex::coalesce(r)` for the list node at
    position `i`, whose record equals `*r`: the assertion that the node is
    `r`, then "coalesce left" and "coalesce right". -/
def PtrIndex.coalesceAt (idx : PtrIndex) (p i : Nat) : Option PtrIndex :=
  if idx.m_list.get? i ≠ some p then none
  else
    let pre := idx.m_list.take i
    let post := idx.m_list.drop (i + 1)
    let left : Option (List Nat × PtrIndex) :=
      match pre.getLast? with
      | none => some (pre, idx)
      | some leftRec =>
        (idx.absorb p leftRec).map (fun x => (if x.1 then pre.dropLast else pre, x.2))
    match left with
    | none => none
    | some (pre1, idx1) =>
      if idx.m_list.getLast? = some p then some { idx1 with m_list := pre1 ++ p :: post }
      else
        match post with
        | [] => none
        | rightRec :: rest =>
          (idx1.absorb p rightRec).map
            (fun x => { x.2 with m_list := pre1 ++ p :: (if x.1 then rest else post) })

/-- `HeapIndex::coalesce(r)`: the nodes of `std::equal_range(m_list, r,
    recordPtrCmp)` (on an offset-ordered list, the nodes with the offset of
    `*r`) are gone through until one holds a record equal to `*r`. -/
def PtrIndex.coalesce (idx : PtrIndex) (p : Nat) : Option (Bool × PtrIndex) :=
  match idx.deref p, idx.m_list.mapM idx.deref with
  | some r, some vals =>
    let lo := (vals.takeWhile (fun x => decide (x.m_offset < r.m_offset))).length
    let range := (vals.drop lo).takeWhile (fun x => decide (¬ r.m_offset < x.m_offset))
    match range.indexOf? r with
    | none => some (false, idx)
    | some k => (idx.coalesceAt p (lo + k)).map (fun x => (true, x))
  | _, _ => none

/-- The loop of `HeapIndex::deallocate(rec)` over `equal_range(rec.key())`:
    the first entry whose record equals `rec`. -/
def PtrIndex.findAlloc (idx : PtrIndex) (rec : Record) :
    List (Nat × Nat) → Option (Option (Nat × Nat))
  | [] => some none
  | e :: es =>
    match idx.deref e.2 with
    | none => none
    | some r => if r ≠ rec then idx.findAlloc rec es else some (some e)

/-- `HeapIndex::deallocate(rec)`. -/
def PtrIndex.deallocate (idx : PtrIndex) (rec : Record) : Option (Bool × PtrIndex) :=
  match idx.findAlloc rec (idx.m_alloc.filter (fun e => e.1 == rec.m_key)) with
  | none => none
  | some none => some (false, idx)
  | some (some e) =>
    match PtrIndex.coalesce { idx with m_alloc := idx.m_alloc.erase e } e.2 with
    | none => none
    | some (_, idx1) =>
      match idx1.m_list.getLast? with
      | none => none
      | some back =>
        match idx1.deref back, idx1.deref e.2 with
        | some b, some r =>
          if b = r then
            some (true, { idx1.delete back with m_list := idx1.m_list.dropLast })
          else some (true, { idx1 with m_free := pmInsert (r.m_size, e.2) idx1.m_free })
        | _, _ => none

/-- The records the pointers of the index point to, as a `HeapIndex`; `none`
    when one of the pointers has been deleted. -/
def PtrIndex.view (idx : PtrIndex) : Option HeapIndex :=
  match idx.m_list.mapM idx.deref, (idx.m_alloc.map Prod.snd).mapM idx.deref,
      (idx.m_free.map Prod.snd).mapM idx.deref with
  | some l, some a, some f => some ⟨l, a, f⟩
  | _, _, _ => none

/-- Two blocks of size 0 at offset 8 are added to the empty index. -/
def zeroBlocks : PtrIndex :=
  ((PtrIndex.empty.addAllocatedBlock ⟨8, 1, 0⟩).bind
    (fun i => i.addAllocatedBlock ⟨8, 1, 0⟩)).getD PtrIndex.empty

/-- The index `zeroBlocks` after `deallocate` of the record `(8, 1, 0)`. -/
def zeroFreed : PtrIndex :=
  ((zeroBlocks.deallocate ⟨8, 1, 0⟩).map Prod.snd).getD PtrIndex.empty

/-- Three blocks, the third behind a gap, added to the empty index with
    pointers. -/
def gapBlocks : PtrIndex :=
  (((PtrIndex.empty.addAllocatedBlock ⟨8, 1, 256⟩).bind
    (fun i => i.addAllocatedBlock ⟨264, 2, 256⟩)).bind
    (fun i => i.addAllocatedBlock ⟨2000, 3, 256⟩)).getD PtrIndex.empty

/-! ## Lemmas: bytes and memory -/

theorem length_wr (m : List Byte) (p : Nat) (bs : List Byte) (h : p + bs.length ≤ m.length) :
    (wr m p bs).length = m.length := by
  simp [wr]; omega

theorem rd_wr (m : List Byte) (p : Nat) (bs : List Byte) (h : p + bs.length ≤ m.length) (i : Nat) :
    rd (wr m p bs) i = if p ≤ i ∧ i < p + bs.length then bs.getD (i - p) 0 else rd m i := by
  unfold rd wr
  have hp : (List.take p m).length = p := by simp; omega
  by_cases h1 : i < p
  · have : ¬ (p ≤ i ∧ i < p + bs.length) := by omega
    simp only [this, if_false, List.getD_eq_getElem?_getD, List.append_assoc]
    rw [List.getElem?_append_left (by omega)]
    rw [List.getElem?_take]; simp [h1]
  · by_cases h2 : i < p + bs.length
    · have : (p ≤ i ∧ i < p + bs.length) := by omega
      simp only [this, if_true, List.getD_eq_getElem?_getD, List.append_assoc, and_self]
      rw [List.getElem?_append_right (by omega)]
      rw [List.getElem?_append_left (by simp; omega)]
      simp [hp]
    · have : ¬ (p ≤ i ∧ i < p + bs.length) := by omega
      simp only [this, if_false, List.getD_eq_getElem?_getD]
      rw [List.getElem?_append_right (by simp; omega)]
      simp only [List.length_append, hp, List.getElem?_drop]
      congr 2; omega

theorem length_rdN (m : List Byte) (p n : Nat) : (rdN m p n).length = n := by simp [rdN]

theorem getD_rdN (m : List Byte) (p n i : Nat) (h : i < n) :
    (rdN m p n).getD i 0 = rd m (p + i) := by
  simp [rdN, h]

theorem rdN_congr (m m2 : List Byte) (p n : Nat)
    (h : ∀ i, p ≤ i → i < p + n → rd m2 i = rd m i) : rdN m2 p n = rdN m p n := by
  unfold rdN
  apply List.map_congr_left
  intro i hi
  simp at hi
  exact h _ (by omega) (by omega)

theorem rdN_wr_self (m : List Byte) (p : Nat) (bs : List Byte) (h : p + bs.length ≤ m.length) :
    rdN (wr m p bs) p bs.length = bs := by
  apply List.ext_getElem (by simp [rdN])
  intro i h1 h2
  simp [rdN] at h1
  simp [rdN, rd_wr m p bs h, h1]

theorem rdN_add (m : List Byte) (p a b : Nat) :
    rdN m p (a + b) = rdN m p a ++ rdN m (p + a) b := by
  unfold rdN
  rw [List.range_add, List.map_append, List.map_map]
  congr 1
  apply List.map_congr_left
  intro i _
  simp [Nat.add_assoc]

theorem rdN_eq_append (m : List Byte) (p : Nat) (xs ys : List Byte)
    (h : rdN m p (xs.length + ys.length) = xs ++ ys) :
    rdN m p xs.length = xs ∧ rdN m (p + xs.length) ys.length = ys := by
  rw [rdN_add] at h
  exact List.append_inj h (by simp [length_rdN])

theorem rdN_one (m : List Byte) (p : Nat) : rdN m p 1 = [rd m p] := by
  simp [rdN, List.range_succ]

theorem store_some (m : List Byte) (p : Nat) (bs m2 : List Byte) (h : store m p bs = some m2) :
    p + bs.length ≤ m.length ∧ m2 = wr m p bs := by
  unfold store at h
  split at h
  · simp at h; exact ⟨by assumption, h.symm⟩
  · simp at h

theorem store_eq (m : List Byte) (p : Nat) (bs : List Byte) (h : p + bs.length ≤ m.length) :
    store m p bs = some (wr m p bs) := by
  simp [store, h]

theorem setFileSize_some (f : List Byte) (n : Nat) (f2 : List Byte)
    (h : setFileSize f n = some f2) :
    n < OFF_MAX ∧ f2.length = n ∧ ∀ i, i < n → rd f2 i = rd f i := by
  unfold setFileSize at h
  split at h
  · simp at h
  · simp at h
    subst h
    refine ⟨by omega, by simp; omega, ?_⟩
    intro i hi
    unfold rd
    simp only [List.getD_eq_getElem?_getD]
    by_cases h1 : i < f.length
    · rw [List.getElem?_append_left (by simp; omega)]
      simp [List.getElem?_take, hi]
    · rw [List.getElem?_append_right (by simp; omega)]
      have : f[i]? = none := by simp; omega
      simp [this]

theorem setFileSize_eq (f : List Byte) (n : Nat) (h : n < OFF_MAX) :
    setFileSize f n = some (f.take n ++ List.replicate (n - f.length) 0) := by
  simp [setFileSize]; omega

theorem setFileSize_self (f : List Byte) (h : f.length < OFF_MAX) :
    setFileSize f f.length = some f := by
  simp [setFileSize]; omega

theorem length_be32 (n : Nat) : (be32 n).length = 4 := rfl

theorem length_be64 (n : Nat) : (be64 n).length = 8 := rfl

theorem beVal_be32 (n : Nat) (h : n < U32) : beVal (be32 n) = n := by
  simp only [beVal, be32, toByte, List.foldl, U32] at *
  omega

theorem beVal_be64 (n : Nat) (h : n < U64) : beVal (be64 n) = n := by
  simp only [beVal, be64, be32, toByte, List.foldl, U64, List.cons_append, List.nil_append] at *
  omega

theorem getWritePtr_some (f : List Byte) (off size : Nat) (f2 : List Byte) (p : Nat)
    (h : getWritePtr f off size = some (f2, p)) :
    p = off ∧ off + size ≤ f2.length ∧ f.length ≤ f2.length ∧ f2.length < OFF_MAX + f.length ∧
      (off + size ≤ f.length → f2 = f) ∧ (f.length < off + size → f2.length = off + size) ∧
      ∀ i, rd f2 i = rd f i := by
  unfold getWritePtr at h
  split at h
  · rename_i hlt
    cases hs : setFileSize f (off + size) with
    | none => simp [hs] at h
    | some f1 =>
      simp [hs] at h
      obtain ⟨h1, h2⟩ := h
      subst h1 h2
      obtain ⟨a, b, c⟩ := setFileSize_some _ _ _ hs
      refine ⟨rfl, by omega, by omega, by omega, by omega, fun _ => b, ?_⟩
      intro i
      by_cases hi : i < off + size
      · exact c i hi
      · unfold rd
        simp only [List.getD_eq_getElem?_getD]
        have h1 : f1[i]? = none := by simp; omega
        have h2 : f[i]? = none := by simp; omega
        rw [h1, h2]
  · split at h
    · simp at h
    · simp at h
      obtain ⟨h1, h2⟩ := h
      subst h1 h2
      exact ⟨rfl, by omega, by omega, by omega, fun _ => rfl, by omega, fun _ => rfl⟩

theorem getWritePtr_inside (f : List Byte) (off size : Nat) (h : off + size ≤ f.length)
    (h2 : off < OFF_MAX) : getWritePtr f off size = some (f, off) := by
  unfold getWritePtr
  simp [Nat.not_lt.mpr h, Nat.not_le.mpr h2]

theorem getReadPtr_inside (f : List Byte) (off size : Nat) (h : off + size ≤ f.length)
    (h1 : off < f.length) (h2 : f.length < OFF_MAX) :
    getReadPtr f off size = some (f, some off) := by
  unfold getReadPtr
  have : ¬ OFF_MAX ≤ off := by omega
  simp [this, Nat.not_le.mpr h1, getWritePtr_inside f off size h (by omega)]

/-! ## Lemmas: the cipher -/

theorem byte_xor_val (a k : Byte) : (a ^^^ k).val = a.val ^^^ k.val := by
  have h : a.val ^^^ k.val < 2 ^ 8 := Nat.xor_lt_two_pow a.isLt k.isLt
  show (a.val ^^^ k.val) % 256 = _
  exact Nat.mod_eq_of_lt h

theorem byte_xor_xor (a k : Byte) : (a ^^^ k) ^^^ k = a := by
  apply Fin.ext
  rw [byte_xor_val, byte_xor_val, Nat.xor_assoc, Nat.xor_self, Nat.xor_zero]

theorem length_XOR (key inp : List Byte) : (XOR key inp).2.length = inp.length := by
  unfold XOR; split <;> simp

theorem XOR_XOR (key inp : List Byte) : (XOR key (XOR key inp).2).2 = inp := by
  unfold XOR
  by_cases hk : key.length = 0
  · simp [hk]
  · simp only [hk, if_false, List.length_map, List.length_range]
    apply List.ext_getElem (by simp)
    intro i h1 h2
    simp at h1
    simp [h1, byte_xor_xor]

theorem Simple.new_ne (key : List Byte) : (Simple.new key).m_key ≠ [] := by
  unfold Simple.new
  split
  · simp
  · rename_i h; simpa using h

/-! ## Lemmas: the blob layout -/

theorem hashStep_lt (h : Nat) (b : Byte) : hashStep h b < U32 := by
  unfold hashStep
  have h1 : ((h <<< 5) % U32 + h) % U32 < 2 ^ 32 := Nat.mod_lt _ (by decide)
  have h2 : b.val < 2 ^ 32 := Nat.lt_of_lt_of_le b.isLt (by decide)
  exact Nat.xor_lt_two_pow h1 h2

theorem hash_lt (bs : List Byte) : hash bs < U32 := by
  unfold hash
  induction bs using List.reverseRecOn with
  | nil => decide
  | append_singleton xs x _ => simp [List.foldl_append, hashStep_lt]

theorem length_enc (id pl : List Byte) : (enc id pl).length = overhead + id.length + pl.length := by
  simp [enc, length_be32, overhead]; omega

theorem toByte_val (n : Nat) (h : n ≤ 255) : (toByte n).val = n := by
  simp [toByte]; omega

theorem rdN_take (m : List Byte) (p a b : Nat) (h : a ≤ b) :
    (rdN m p b).take a = rdN m p a := by
  obtain ⟨c, rfl⟩ := Nat.exists_eq_add_of_le h
  rw [rdN_add]
  simp [length_rdN]

/-- What a blob region holds, field by field. -/
theorem BlobAt.fields {f : List Byte} {r : Record} {id pl : List Byte} (h : BlobAt f r id pl) :
    (rd f r.m_offset).val = id.length ∧
    rdN f (r.m_offset + 1) id.length = id ∧
    rdN f (r.m_offset + 1 + id.length) 4 = be32 (hash pl) ∧
    rdN f (r.m_offset + 1 + id.length + 4) 4 = be32 pl.length ∧
    rdN f (r.m_offset + 1 + id.length + 8) pl.length = pl := by
  obtain ⟨h1, h2, h3, h4⟩ := h
  have e : overhead + id.length + pl.length = 1 + (id.length + (4 + (4 + pl.length))) := by
    simp [overhead]; omega
  rw [e, rdN_add, rdN_add, rdN_add, rdN_add, rdN_one] at h4
  simp only [enc, List.singleton_append, List.cons.injEq] at h4
  obtain ⟨a, b⟩ := h4
  have b1 := List.append_inj b (by simp [length_rdN])
  have b2 := List.append_inj b1.2 (by simp [length_rdN, length_be32])
  have b3 := List.append_inj b2.2 (by simp [length_rdN, length_be32])
  refine ⟨by rw [a, toByte_val _ h1], b1.1, ?_, ?_, ?_⟩
  · exact b2.1
  · exact b3.1
  · exact b3.2

theorem BlobAt.storedId {f : List Byte} {r : Record} {id pl : List Byte} (h : BlobAt f r id pl) :
    storedId f r = id := by
  unfold HeapFile.storedId
  rw [h.fields.1]; exact h.fields.2.1

/-- A blob region is read back by `getData`. -/
theorem BlobAt.getData {f : List Byte} {r : Record} {id pl : List Byte} (h : BlobAt f r id pl) :
    (Blob.mk r (some r.m_offset)).getData f = some pl := by
  obtain ⟨f1, f2, f3, f4, f5⟩ := h.fields
  obtain ⟨h1, h2, h3, _⟩ := h
  unfold Blob.getData
  simp only [f1]
  have c1 : ¬ (id.length + overhead > r.m_size) := by omega
  rw [if_neg c1, f4, f3, beVal_be32 _ h2, beVal_be32 _ (hash_lt pl)]
  have c2 : ¬ (pl.length > r.m_size - overhead - id.length) := by omega
  rw [if_neg c2, f5]
  simp

/-- A blob region answers `hasId` for exactly its id. -/
theorem BlobAt.hasId {f : List Byte} {r : Record} {id pl : List Byte} (h : BlobAt f r id pl)
    (x : List Byte) : (Blob.mk r (some r.m_offset)).hasId f x = decide (x = id) := by
  obtain ⟨f1, f2, _⟩ := h.fields
  obtain ⟨h1, h2, h3, _⟩ := h
  unfold Blob.hasId
  simp only [f1]
  by_cases hl : x.length = id.length
  · have c : ¬ (x.length ≠ id.length ∨ id.length > r.m_size) := by omega
    rw [if_neg c]
    congr 1
    apply propext
    constructor
    · intro hall
      rw [← f2]
      apply List.ext_getElem (by simp [length_rdN, hl])
      intro i i1 i2
      have := hall i (by simp; omega)
      simp [rdN] 
      rw [← this]
      simp [i1]
    · intro hx i hi
      simp at hi
      subst hx
      rw [← f2, getD_rdN _ _ _ _ hi]
  · have c : (x.length ≠ id.length ∨ id.length > r.m_size) := Or.inl hl
    rw [if_pos c]
    have : x ≠ id := fun e => hl (by rw [e])
    simp [this]

/-- A blob region only depends on the bytes of its record. -/
theorem BlobAt.congr {f f2 : List Byte} {r : Record} {id pl : List Byte} (h : BlobAt f r id pl)
    (hs : ∀ i, r.m_offset ≤ i → i < r.m_offset + r.m_size → rd f2 i = rd f i) :
    BlobAt f2 r id pl := by
  obtain ⟨h1, h2, h3, h4⟩ := h
  refine ⟨h1, h2, h3, ?_⟩
  rw [← h4]
  apply rdN_congr
  intro i i1 i2
  exact hs i i1 (by omega)

theorem rdN_wr_take (m : List Byte) (p : Nat) (bs : List Byte) (n : Nat)
    (h : p + bs.length ≤ m.length) (hn : n ≤ bs.length) :
    rdN (wr m p bs) p n = bs.take n := by
  rw [← rdN_take _ _ _ _ hn, rdN_wr_self m p bs h]

theorem rd_wr_out (m : List Byte) (p : Nat) (bs : List Byte) (h : p + bs.length ≤ m.length)
    (i : Nat) (hi : i < p ∨ p + bs.length ≤ i) : rd (wr m p bs) i = rd m i := by
  rw [rd_wr m p bs h]
  have : ¬ (p ≤ i ∧ i < p + bs.length) := by omega
  simp [this]

theorem rdN_wr_out (m : List Byte) (p : Nat) (bs : List Byte) (h : p + bs.length ≤ m.length)
    (q n : Nat) (hi : q + n ≤ p ∨ p + bs.length ≤ q) : rdN (wr m p bs) q n = rdN m q n := by
  apply rdN_congr
  intro i i1 i2
  exact rd_wr_out m p bs h i (by omega)

/-- What a successful `writeData` leaves behind. -/
theorem writeData_some (r : Record) (p : Nat) (mem id : List Byte) (w : BlobWriter)
    (m2 : List Byte) (h : (Blob.mk r (some p)).writeData mem id w = some (true, m2))
    (hs : w.size ≤ w.bytes.length) :
    id.length ≤ 255 ∧ w.size < U32 ∧ overhead + id.length + w.size ≤ r.m_size ∧
    p + overhead + id.length + w.bytes.length ≤ mem.length ∧ m2.length = mem.length ∧
    rdN m2 p (overhead + id.length + w.size) = enc id (w.bytes.take w.size) ∧
    ∀ i, (i < p ∨ p + overhead + id.length + w.bytes.length ≤ i) → rd m2 i = rd mem i := by
  unfold Blob.writeData at h
  split at h
  · simp at h
  rename_i c1
  replace c1 : ¬ (overhead + id.length + w.size > r.m_size) := c1
  split at h
  · simp at h
  rename_i c2
  simp only [Option.bind_eq_bind] at h
  cases e1 : store mem p [toByte id.length] with
  | none => simp [e1] at h
  | some m1 =>
  cases e2 : store m1 (p + 1) id with
  | none => simp [e1, e2] at h
  | some m2' =>
  cases e3 : store m2' (p + 1 + id.length + 4) (be32 w.size) with
  | none => simp [e1, e2, e3] at h
  | some m3 =>
  cases e4 : store m3 (p + 1 + id.length + 8) w.bytes with
  | none => simp [e1, e2, e3, e4] at h
  | some m4 =>
  cases e5 : store m4 (p + 1 + id.length) (be32 (hash (rdN m4 (p + 1 + id.length + 8) w.size))) with
  | none => simp [e1, e2, e3, e4, e5] at h
  | some m5 =>
  simp [e1, e2, e3, e4, e5] at h
  subst h
  obtain ⟨a1, b1⟩ := store_some _ _ _ _ e1
  obtain ⟨a2, b2⟩ := store_some _ _ _ _ e2
  obtain ⟨a3, b3⟩ := store_some _ _ _ _ e3
  obtain ⟨a4, b4⟩ := store_some _ _ _ _ e4
  obtain ⟨a5, b5⟩ := store_some _ _ _ _ e5
  have l1 : m1.length = mem.length := by rw [b1]; exact length_wr _ _ _ a1
  have l2 : m2'.length = mem.length := by rw [b2, length_wr _ _ _ a2, l1]
  have l3 : m3.length = mem.length := by rw [b3, length_wr _ _ _ a3, l2]
  have l4 : m4.length = mem.length := by rw [b4, length_wr _ _ _ a4, l3]
  have l5 : m5.length = mem.length := by rw [b5, length_wr _ _ _ a5, l4]
  simp only [length_be32, List.length_singleton] at a1 a3 a5
  have hw : w.size < U32 := by simp [U32] at c2 ⊢; omega
  have hpay : rdN m4 (p + 1 + id.length + 8) w.size = w.bytes.take w.size := by
    rw [b4]; exact rdN_wr_take _ _ _ _ a4 hs
  refine ⟨by omega, hw, by omega, by simp [overhead]; omega, l5, ?_, ?_⟩
  · have e : overhead + id.length + w.size = 1 + (id.length + (4 + (4 + w.size))) := by
      simp [overhead]; omega
    rw [e, rdN_add, rdN_add, rdN_add, rdN_add, rdN_one]
    have r0 : rd m5 p = toByte id.length := by
      rw [b5, rd_wr_out _ _ _ (by simpa [length_be32] using a5) _ (by omega),
        b4, rd_wr_out _ _ _ a4 _ (by omega),
        b3, rd_wr_out _ _ _ (by simpa [length_be32] using a3) _ (by omega),
        b2, rd_wr_out _ _ _ a2 _ (by omega), b1, rd_wr _ _ _ (by simpa using a1)]
      simp
    have r1 : rdN m5 (p + 1) id.length = id := by
      rw [b5, rdN_wr_out _ _ _ (by simpa [length_be32] using a5) _ _ (by omega),
        b4, rdN_wr_out _ _ _ a4 _ _ (by omega),
        b3, rdN_wr_out _ _ _ (by simpa [length_be32] using a3) _ _ (by omega),
        b2, rdN_wr_self _ _ _ a2]
    have r2 : rdN m5 (p + 1 + id.length) 4 = be32 (hash (w.bytes.take w.size)) := by
      rw [b5, hpay]
      exact rdN_wr_self _ _ (be32 _) (by simpa [length_be32] using a5)
    have r3 : rdN m5 (p + 1 + id.length + 4) 4 = be32 w.size := by
      rw [b5, rdN_wr_out _ _ _ (by simpa [length_be32] using a5) _ _ (by simp [length_be32]),
        b4, rdN_wr_out _ _ _ a4 _ _ (by omega), b3]
      exact rdN_wr_self _ _ (be32 _) (by simpa [length_be32] using a3)
    have r4 : rdN m5 (p + 1 + id.length + 4 + 4) w.size = w.bytes.take w.size := by
      rw [b5, rdN_wr_out _ _ _ (by simpa [length_be32] using a5) _ _ (by simp [length_be32])]
      exact hpay
    rw [r0, r1, r2, r3, r4]
    simp [enc, Nat.min_eq_left hs]
  · intro i hi
    simp only [overhead] at hi
    rw [b5, rd_wr_out _ _ _ (by simpa [length_be32] using a5) _ (by simp [length_be32]; omega),
      b4, rd_wr_out _ _ _ a4 _ (by omega),
      b3, rd_wr_out _ _ _ (by simpa [length_be32] using a3) _ (by simp [length_be32]; omega),
      b2, rd_wr_out _ _ _ a2 _ (by omega), b1, rd_wr_out _ _ _ (by simpa using a1) _ (by simp; omega)]

/-! ## Lemmas: the containers of the index -/

theorem perm_mmInsert (kf : Record → Nat) (r : Record) (m : List Record) :
    (mmInsert kf r m).Perm (r :: m) := by
  induction m with
  | nil => simp [mmInsert]
  | cons x xs ih =>
    unfold mmInsert
    split
    · exact (List.Perm.cons x ih).trans (List.Perm.swap r x xs)
    · exact List.Perm.refl _

theorem mem_mmInsert (kf : Record → Nat) (r x : Record) (m : List Record) :
    x ∈ mmInsert kf r m ↔ x = r ∨ x ∈ m := by
  rw [(perm_mmInsert kf r m).mem_iff]; simp

theorem length_mmInsert (kf : Record → Nat) (r : Record) (m : List Record) :
    (mmInsert kf r m).length = m.length + 1 := by
  rw [(perm_mmInsert kf r m).length_eq]; simp

theorem erase_mmInsert_self (kf : Record → Nat) (r : Record) (m : List Record) (h : r ∉ m) :
    (mmInsert kf r m).erase r = m := by
  induction m with
  | nil => simp [mmInsert]
  | cons x xs ih =>
    have hx : x ≠ r := fun e => h (by simp [e])
    have hxs : r ∉ xs := fun e => h (by simp [e])
    unfold mmInsert
    split
    · rw [List.erase_cons_tail (by simpa using hx), ih hxs]
    · simp

theorem mem_mmEqualRange (kf : Record → Nat) (k : Nat) (x : Record) (m : List Record) :
    x ∈ mmEqualRange kf k m ↔ x ∈ m ∧ kf x = k := by
  simp [mmEqualRange]

theorem mem_mmEqualRange_self (kf : Record → Nat) (x : Record) (m : List Record) :
    x ∈ mmEqualRange kf (kf x) m ↔ x ∈ m := by
  simp [mmEqualRange]

theorem mmLowerBound_some (kf : Record → Nat) (k : Nat) (m : List Record) (r : Record)
    (h : mmLowerBound kf k m = some r) : r ∈ m ∧ k ≤ kf r := by
  unfold mmLowerBound at h
  exact ⟨List.mem_of_find?_eq_some h, by simpa using List.find?_some h⟩

theorem mmLowerBound_none (kf : Record → Nat) (k : Nat) (m : List Record)
    (h : mmLowerBound kf k m = none) : ∀ x ∈ m, kf x < k := by
  unfold mmLowerBound at h
  intro x hx
  have := List.find?_eq_none.mp h x hx
  simpa using this

theorem removeIfFree_eq (m : List Record) (r : Record) :
    removeIfFree m r = if r ∈ m then (true, m.erase r) else (false, m) := by
  unfold removeIfFree
  simp [mem_mmEqualRange_self]

theorem Sep.irrefl (a : Record) : ¬ Sep a a := fun h => Nat.lt_irrefl _ h.2

theorem nodup_of_sep {l : List Record} (h : l.Pairwise Sep) : l.Nodup := by
  unfold List.Nodup
  refine List.Pairwise.imp ?_ h
  intro a b hab e
  subst e
  exact Sep.irrefl a hab

theorem split_at_mem (r : Record) (l : List Record) (h : r ∈ l) :
    l = l.takeWhile (fun x => decide (x ≠ r)) ++
          r :: (l.dropWhile (fun x => decide (x ≠ r))).tail := by
  induction l with
  | nil => simp at h
  | cons x xs ih =>
    by_cases hx : x = r
    · subst hx; simp
    · have : r ∈ xs := by
        rcases List.mem_cons.mp h with e | e
        · exact absurd e.symm hx
        · exact e
      simp only [List.takeWhile_cons, List.dropWhile_cons, hx, ne_eq, not_false_eq_true,
        decide_True, if_true, List.cons_append]
      rw [← ih this]

theorem takeWhile_ne_of_split (r : Record) (pre post : List Record) (h : r ∉ pre) :
    (pre ++ r :: post).takeWhile (fun x => decide (x ≠ r)) = pre ∧
    ((pre ++ r :: post).dropWhile (fun x => decide (x ≠ r))).tail = post := by
  induction pre with
  | nil => simp
  | cons x xs ih =>
    have hx : x ≠ r := fun e => h (by simp [e])
    have hxs : r ∉ xs := fun e => h (by simp [e])
    simpa [hx] using ih hxs

theorem replaceFirst_split (r r2 : Record) (pre post : List Record) (h : r ∉ pre) :
    replaceFirst r r2 (pre ++ r :: post) = pre ++ r2 :: post := by
  induction pre with
  | nil => simp [replaceFirst]
  | cons x xs ih =>
    have hx : x ≠ r := fun e => h (by simp [e])
    have hxs : r ∉ xs := fun e => h (by simp [e])
    simp [replaceFirst, hx, ih hxs]

theorem listLowerBound_split (r : Record) (pre post : List Record)
    (h : ∀ x ∈ pre, x.m_offset < r.m_offset) :
    listLowerBound r.m_offset (pre ++ r :: post) = pre.length := by
  unfold listLowerBound
  induction pre with
  | nil => simp [List.takeWhile]
  | cons x xs ih =>
    have hx : x.m_offset < r.m_offset := h x (by simp)
    simp [List.takeWhile, hx]
    exact ih (fun y hy => h y (by simp [hy]))

/-! ## Lemmas: taking a record out of a map -/

theorem IdxInv.nodup_list {idx : HeapIndex} (h : IdxInv idx) : idx.m_list.Nodup :=
  nodup_of_sep h.sep

theorem IdxInv.nodup_maps {idx : HeapIndex} (h : IdxInv idx) :
    (idx.m_alloc ++ idx.m_free).Nodup :=
  h.perm.nodup_iff.mp h.nodup_list

theorem IdxInv.alloc_not_free {idx : HeapIndex} (h : IdxInv idx) {r : Record}
    (hr : r ∈ idx.m_alloc) : r ∉ idx.m_free := by
  have := List.nodup_append.mp h.nodup_maps
  exact fun hf => this.2.2 hr hf

theorem IdxInv.mem_list_iff {idx : HeapIndex} (h : IdxInv idx) (r : Record) :
    r ∈ idx.m_list ↔ r ∈ idx.m_alloc ∨ r ∈ idx.m_free := by
  rw [h.perm.mem_iff]; simp

theorem getLast?_split (pre : List Record) (r : Record) (post : List Record) (l : Record)
    (h : post.getLast? = some l) : (pre ++ r :: post).getLast? = some l := by
  obtain ⟨ys, rfl⟩ := List.getLast?_eq_some_iff.mp h
  exact List.getLast?_eq_some_iff.mpr ⟨pre ++ r :: ys, by simp⟩

theorem Limbo.of_alloc {idx : HeapIndex} (h : IdxInv idx) {pre post : List Record} {r : Record}
    (hl : idx.m_list = pre ++ r :: post) (hr : r ∈ idx.m_alloc) :
    Limbo pre r post (idx.m_alloc.erase r) idx.m_free := by
  have hnd := h.nodup_list
  rw [hl] at hnd
  have hmaps := List.nodup_append.mp h.nodup_maps
  refine ⟨hl ▸ h.sep, ?_, hl ▸ h.noAdjFree, h.alloc_not_free hr, ?_, hl ▸ h.size_lt, ?_⟩
  · have p1 : (r :: (pre ++ post)).Perm (r :: (idx.m_alloc.erase r ++ idx.m_free)) := by
      have a : (r :: (pre ++ post)).Perm (pre ++ r :: post) := List.perm_middle.symm
      have b : (idx.m_alloc ++ idx.m_free).Perm (r :: (idx.m_alloc.erase r ++ idx.m_free)) := by
        have := List.perm_cons_erase hr
        exact (this.append_right _)
      exact (a.trans (hl ▸ h.perm)).trans b
    exact p1.cons_inv
  · intro l hlast
    have h1 : l ∈ idx.m_alloc := h.lastAlloc l (hl ▸ getLast?_split pre r post l hlast)
    have h2 : l ∈ post := List.mem_of_getLast?_eq_some hlast
    have h3 : l ≠ r := by
      intro e; subst e
      have := (List.nodup_append.mp hnd).2.1
      exact (List.nodup_cons.mp this).1 h2
    exact (List.mem_erase_of_ne h3).mpr h1
  · intro x hx
    exact h.alloc_min x (List.mem_of_mem_erase hx)

theorem Limbo.of_free {idx : HeapIndex} (h : IdxInv idx) {pre post : List Record} {r : Record}
    (hl : idx.m_list = pre ++ r :: post) (hr : r ∈ idx.m_free) :
    Limbo pre r post idx.m_alloc (idx.m_free.erase r) := by
  have hmaps := List.nodup_append.mp h.nodup_maps
  refine ⟨hl ▸ h.sep, ?_, ?_, ?_, ?_, hl ▸ h.size_lt, h.alloc_min⟩
  · have p1 : (r :: (pre ++ post)).Perm (r :: (idx.m_alloc ++ idx.m_free.erase r)) := by
      have a : (r :: (pre ++ post)).Perm (pre ++ r :: post) := List.perm_middle.symm
      have b : (idx.m_alloc ++ idx.m_free).Perm (r :: (idx.m_alloc ++ idx.m_free.erase r)) := by
        have := List.perm_cons_erase hr
        exact (this.append_left idx.m_alloc).trans List.perm_middle
      exact (a.trans (hl ▸ h.perm)).trans b
    exact p1.cons_inv
  · refine List.Chain'.imp ?_ (hl ▸ h.noAdjFree)
    intro a b hab hh
    exact hab ⟨List.mem_of_mem_erase hh.1, List.mem_of_mem_erase hh.2⟩
  · exact fun hh => (List.Nodup.mem_erase_iff hmaps.2.1).mp hh |>.1 rfl
  · intro l hlast
    exact h.lastAlloc l (hl ▸ getLast?_split pre r post l hlast)

theorem sep_offset_inj {l : List Record} (h : l.Pairwise Sep) {x y : Record}
    (hx : x ∈ l) (hy : y ∈ l) (e : x.m_offset = y.m_offset) : x = y := by
  induction l with
  | nil => simp at hx
  | cons a as ih =>
    rw [List.pairwise_cons] at h
    rcases List.mem_cons.mp hx with h1 | h1 <;> rcases List.mem_cons.mp hy with h2 | h2
    · rw [h1, h2]
    · subst h1; have := (h.1 y h2).2; omega
    · subst h2; have := (h.1 x h1).2; omega
    · exact ih h.2 h1 h2

theorem chain'_insert_guarded {R : Record → Record → Prop} {pre post : List Record} {r : Record}
    (h1 : pre.Chain' R) (h2 : post.Chain' R) (hl : ∀ x ∈ pre.getLast?, R x r)
    (hr : ∀ y ∈ post.head?, R r y) : (pre ++ r :: post).Chain' R := by
  refine List.Chain'.append h1 (List.Chain'.cons' h2 hr) ?_
  intro x hx y hy
  simp at hy
  subst hy
  exact hl x hx

theorem Record.coalesce_some (r L r1 : Record) (h : r.coalesce L = some r1) :
    r1 = ⟨min r.m_offset L.m_offset, r.m_key, (r.m_size + L.m_size) % U32⟩ ∧
    ((r.m_offset + r.m_size) % U64 = L.m_offset ∨ (L.m_offset + L.m_size) % U64 = r.m_offset) := by
  unfold Record.coalesce at h
  split at h
  · rename_i c
    simp at h
    refine ⟨h.symm, ?_⟩
    simpa [Record.sharesRightBoundaryWith] using c
  · simp at h

/-- Absorbing the free left neighbour keeps the index well formed. -/
theorem Limbo.absorbLeft {pre post A F : List Record} {r : Record} (h : Limbo pre r post A F)
    {pre1 F1 : List Record} {r1 : Record} (e : absorbLeft pre F r = some (pre1, F1, r1)) :
    Limbo pre1 r1 post A F1 ∧ (∀ l, pre1.getLast? = some l → l ∉ F1) ∧
    (∀ x, x ∈ F1 → x ∈ F) ∧ r1.m_key = r.m_key ∧
    r1.m_offset + r1.m_size ≤ r.m_offset + r.m_size ∧
    (r1.m_offset = r.m_offset ∨ ∃ L ∈ pre, r1.m_offset = L.m_offset) ∧
    (∀ x ∈ pre1, x ∈ pre) := by
  unfold HeapFile.absorbLeft at e
  cases hl : pre.getLast? with
  | none =>
    simp [hl] at e
    obtain ⟨rfl, rfl, rfl⟩ := e
    exact ⟨h, by simp [hl], fun _ hx => hx, rfl, Nat.le_refl _, Or.inl rfl, fun _ hx => hx⟩
  | some L =>
    simp only [hl, removeIfFree_eq] at e
    by_cases hLF : L ∈ F
    · simp only [hLF, if_true] at e
      cases hc : r.coalesce L with
      | none => simp [hc] at e
      | some rr =>
        simp [hc] at e
        obtain ⟨rfl, rfl, rfl⟩ := e
        obtain ⟨pre0, rfl⟩ := List.getLast?_eq_some_iff.mp hl
        obtain ⟨hrr, hadj⟩ := Record.coalesce_some _ _ _ hc
        have hsep := h.sep
        simp only [List.append_assoc, List.singleton_append] at hsep
        rw [List.pairwise_append] at hsep
        obtain ⟨s1, s2, s3⟩ := hsep
        rw [List.pairwise_cons] at s2
        obtain ⟨s2a, s2b⟩ := s2
        rw [List.pairwise_cons] at s2b
        obtain ⟨s2c, s2d⟩ := s2b
        have hLr : Sep L r := s2a r (by simp)
        have hsz := h.size_lt
        have szL := hsz L (by simp)
        have szr := hsz r (by simp)
        have hU : U64 = 18446744073709551616 := rfl
        have hoff : rr.m_offset = L.m_offset := by
          rw [hrr]; simp; exact Nat.le_of_lt hLr.2
        have hsize : rr.m_size ≤ r.m_size + L.m_size := by
          rw [hrr]; simp; exact Nat.mod_le _ _
        have hadj2 : L.m_offset + L.m_size = r.m_offset := by
          rcases hadj with a | a
          · rw [Nat.mod_eq_of_lt szr.2] at a
            have := hLr.2; omega
          · rwa [Nat.mod_eq_of_lt szL.2] at a
        have hend : rr.m_offset + rr.m_size ≤ r.m_offset + r.m_size := by omega
        have hnd : (A ++ F).Nodup := by
          have : (pre0 ++ [L] ++ r :: post).Nodup := nodup_of_sep h.sep
          have h2 : (pre0 ++ [L] ++ post).Nodup := by
            refine this.sublist ?_
            exact List.Sublist.append_left (List.sublist_cons_self r post) _
          exact h.perm.nodup_iff.mp h2
        have hFnd : F.Nodup := (List.nodup_append.mp hnd).2.1
        have hrrF : rr ∉ F.erase L := by
          intro hin
          have h1 : rr ∈ F := List.mem_of_mem_erase hin
          have h2 : rr ∈ pre0 ++ [L] ++ post := h.perm.mem_iff.mpr (by simp [h1])
          have h3 : rr ∈ pre0 ++ [L] ++ r :: post := by
            simp at h2 ⊢; tauto
          have h4 : rr = L := sep_offset_inj h.sep h3 (by simp) hoff
          rw [h4] at hin
          exact ((List.Nodup.mem_erase_iff hFnd).mp hin).1 rfl
        have hch := h.noAdjFree
        simp only [List.append_assoc, List.singleton_append] at hch
        have ch1 : pre0.Chain' (fun a b => ¬ (a ∈ F ∧ b ∈ F)) := hch.left_of_append
        have ch2 : (L :: r :: post).Chain' (fun a b => ¬ (a ∈ F ∧ b ∈ F)) := hch.right_of_append
        have ch3 : post.Chain' (fun a b => ¬ (a ∈ F ∧ b ∈ F)) := ch2.tail.tail
        have weaken : ∀ a b, ¬ (a ∈ F ∧ b ∈ F) → ¬ (a ∈ F.erase L ∧ b ∈ F.erase L) :=
          fun a b hab hh => hab ⟨List.mem_of_mem_erase hh.1, List.mem_of_mem_erase hh.2⟩
        have hlastpre : ∀ l, pre0.getLast? = some l → l ∉ F.erase L := by
          intro l hl0 hin
          obtain ⟨ys, rfl⟩ := List.getLast?_eq_some_iff.mp hl0
          have : (ys ++ [l] ++ L :: r :: post).Chain' (fun a b => ¬ (a ∈ F ∧ b ∈ F)) := hch
          rw [List.append_assoc, List.singleton_append] at this
          have := (this.right_of_append).rel_head
          exact this ⟨List.mem_of_mem_erase hin, hLF⟩
        simp only [List.dropLast_concat]
        refine ⟨⟨?_, ?_, ?_, hrrF, h.tailOk, ?_, h.alloc_min⟩, ?_, ?_, ?_, hend, ?_, ?_⟩
        · rw [List.pairwise_append]
          refine ⟨s1, ?_, ?_⟩
          · rw [List.pairwise_cons]
            refine ⟨?_, s2d⟩
            intro y hy
            have := s2c y hy
            have := hLr
            unfold Sep at *
            omega
          · intro x hx y hy
            rcases List.mem_cons.mp hy with e1 | e1
            · subst e1
              have := s3 x hx L (by simp)
              unfold Sep at *
              omega
            · exact s3 x hx y (by simp [e1])
        · have p := h.perm
          have a : (L :: (pre0 ++ post)).Perm (pre0 ++ [L] ++ post) := by
            rw [List.append_assoc, List.singleton_append]
            exact List.perm_middle.symm
          have b : (A ++ F).Perm (L :: (A ++ F.erase L)) :=
            ((List.perm_cons_erase hLF).append_left A).trans List.perm_middle
          exact ((a.trans p).trans b).cons_inv
        · refine chain'_insert_guarded (ch1.imp weaken) (ch3.imp weaken) ?_ ?_
          · intro x _ hh; exact hrrF hh.2
          · intro y _ hh; exact hrrF hh.1
        · intro x hx
          rcases List.mem_append.mp hx with e1 | e1
          · exact hsz x (by simp [e1])
          · rcases List.mem_cons.mp e1 with e2 | e2
            · subst e2
              refine ⟨?_, by omega⟩
              rw [hrr]; exact Nat.mod_lt _ (by decide)
            · exact hsz x (by simp [e2])
        · simpa using hlastpre
        · exact fun x hx => List.mem_of_mem_erase hx
        · rw [hrr]
        · exact Or.inr ⟨L, by simp, hoff⟩
        · intro x hx; simp at hx ⊢; exact Or.inl hx
    · simp only [hLF, if_false] at e
      simp at e
      obtain ⟨rfl, rfl, rfl⟩ := e
      refine ⟨h, ?_, fun _ hx => hx, rfl, Nat.le_refl _, Or.inl rfl, fun _ hx => hx⟩
      intro l hl2
      rw [hl] at hl2
      simp at hl2
      subst hl2
      exact hLF

/-- Absorbing the free right neighbour keeps the index well formed. -/
theorem Limbo.absorbRight {pre post A F : List Record} {r : Record} (h : Limbo pre r post A F)
    {post2 F2 : List Record} {r2 : Record} (e : absorbRight post F r = some (post2, F2, r2)) :
    Limbo pre r2 post2 A F2 ∧ (∀ y, post2.head? = some y → y ∉ F2) ∧
    (∀ x, x ∈ F2 → x ∈ F) ∧ r2.m_key = r.m_key ∧ r2.m_offset = r.m_offset ∧
    (r2.m_offset + r2.m_size ≤ r.m_offset + r.m_size ∨
      ∃ R ∈ post, r2.m_offset + r2.m_size ≤ R.m_offset + R.m_size) ∧
    (post2 = [] ↔ post = []) ∧ (∀ x ∈ post2, x ∈ post) := by
  unfold HeapFile.absorbRight at e
  cases post with
  | nil =>
    simp at e
    obtain ⟨rfl, rfl, rfl⟩ := e
    exact ⟨h, by simp, fun _ hx => hx, rfl, rfl, Or.inl (Nat.le_refl _), Iff.rfl, fun _ hx => hx⟩
  | cons R rest =>
    simp only [removeIfFree_eq] at e
    by_cases hRF : R ∈ F
    · simp only [hRF, if_true] at e
      cases hc : r.coalesce R with
      | none => simp [hc] at e
      | some rr =>
        simp [hc] at e
        obtain ⟨rfl, rfl, rfl⟩ := e
        obtain ⟨hrr, hadj⟩ := Record.coalesce_some _ _ _ hc
        have hsep := h.sep
        rw [List.pairwise_append] at hsep
        obtain ⟨s1, s2, s3⟩ := hsep
        rw [List.pairwise_cons] at s2
        obtain ⟨s2a, s2b⟩ := s2
        rw [List.pairwise_cons] at s2b
        obtain ⟨s2c, s2d⟩ := s2b
        have hrR : Sep r R := s2a R (by simp)
        have hsz := h.size_lt
        have szR := hsz R (by simp)
        have szr := hsz r (by simp)
        have hoff : rr.m_offset = r.m_offset := by
          rw [hrr]; simp; exact Nat.le_of_lt hrR.2
        have hsize : rr.m_size ≤ r.m_size + R.m_size := by
          rw [hrr]; simp; exact Nat.mod_le _ _
        have hadj2 : r.m_offset + r.m_size = R.m_offset := by
          rcases hadj with a | a
          · rwa [Nat.mod_eq_of_lt szr.2] at a
          · rw [Nat.mod_eq_of_lt szR.2] at a
            have := hrR.2; omega
        have hend : rr.m_offset + rr.m_size ≤ R.m_offset + R.m_size := by omega
        have hnd : (A ++ F).Nodup := by
          have : (pre ++ r :: R :: rest).Nodup := nodup_of_sep h.sep
          have h2 : (pre ++ R :: rest).Nodup := by
            refine this.sublist ?_
            exact List.Sublist.append_left (List.sublist_cons_self r _) _
          exact h.perm.nodup_iff.mp h2
        have hFnd : F.Nodup := (List.nodup_append.mp hnd).2.1
        have hrrF : rr ∉ F.erase R := by
          intro hin
          have h1 : rr ∈ F := List.mem_of_mem_erase hin
          have h2 : rr ∈ pre ++ R :: rest := h.perm.mem_iff.mpr (by simp [h1])
          have h3 : rr ∈ pre ++ r :: R :: rest := by
            simp at h2 ⊢; tauto
          have h4 : rr = r := sep_offset_inj h.sep h3 (by simp) hoff
          rw [h4] at h1
          exact h.notFree h1
        have hch := h.noAdjFree
        have ch1 : pre.Chain' (fun a b => ¬ (a ∈ F ∧ b ∈ F)) := hch.left_of_append
        have ch2 : (r :: R :: rest).Chain' (fun a b => ¬ (a ∈ F ∧ b ∈ F)) := hch.right_of_append
        have ch3 : rest.Chain' (fun a b => ¬ (a ∈ F ∧ b ∈ F)) := ch2.tail.tail
        have weaken : ∀ a b, ¬ (a ∈ F ∧ b ∈ F) → ¬ (a ∈ F.erase R ∧ b ∈ F.erase R) :=
          fun a b hab hh => hab ⟨List.mem_of_mem_erase hh.1, List.mem_of_mem_erase hh.2⟩
        have hrest : rest ≠ [] := by
          intro e0
          subst e0
          have h1 : R ∈ A := h.tailOk R (by simp)
          exact (List.nodup_append.mp hnd).2.2 h1 hRF
        refine ⟨⟨?_, ?_, ?_, hrrF, ?_, ?_, h.alloc_min⟩, ?_, ?_, ?_, hoff, Or.inr ⟨R, by simp, hend⟩,
          ?_, ?_⟩
        · rw [List.pairwise_append]
          refine ⟨s1, ?_, ?_⟩
          · rw [List.pairwise_cons]
            refine ⟨?_, s2d⟩
            intro y hy
            have := s2c y hy
            unfold Sep at *
            omega
          · intro x hx y hy
            rcases List.mem_cons.mp hy with e1 | e1
            · subst e1
              have := s3 x hx r (by simp)
              unfold Sep at *
              omega
            · exact s3 x hx y (by simp [e1])
        · have p := h.perm
          have a : (R :: (pre ++ rest)).Perm (pre ++ R :: rest) := List.perm_middle.symm
          have b : (A ++ F).Perm (R :: (A ++ F.erase R)) :=
            ((List.perm_cons_erase hRF).append_left A).trans List.perm_middle
          exact ((a.trans p).trans b).cons_inv
        · refine chain'_insert_guarded (ch1.imp weaken) (ch3.imp weaken) ?_ ?_
          · intro x _ hh; exact hrrF hh.2
          · intro y _ hh; exact hrrF hh.1
        · intro l hl
          apply h.tailOk l
          obtain ⟨ys, rfl⟩ := List.getLast?_eq_some_iff.mp hl
          exact List.getLast?_eq_some_iff.mpr ⟨R :: ys, by simp⟩
        · intro x hx
          rcases List.mem_append.mp hx with e1 | e1
          · exact hsz x (by simp [e1])
          · rcases List.mem_cons.mp e1 with e2 | e2
            · subst e2
              refine ⟨?_, by omega⟩
              rw [hrr]; exact Nat.mod_lt _ (by decide)
            · exact hsz x (by simp [e2])
        · intro y hy hin
          cases rest with
          | nil => simp at hy
          | cons z zs =>
            simp at hy
            subst hy
            have := ch2.tail.rel_head
            exact this ⟨hRF, List.mem_of_mem_erase hin⟩
        · exact fun x hx => List.mem_of_mem_erase hx
        · rw [hrr]
        · simp [hrest]
        · intro x hx; simp [hx]
    · simp only [hRF, if_false] at e
      simp at e
      obtain ⟨rfl, rfl, rfl⟩ := e
      refine ⟨h, ?_, fun _ hx => hx, rfl, rfl, Or.inl (Nat.le_refl _), Iff.rfl, fun _ hx => hx⟩
      intro y hy
      simp at hy
      subst hy
      exact hRF

/-! ## Lemmas: putting a record back into a map -/

theorem chain'_imp_mem {R S : Record → Record → Prop} {l : List Record}
    (H : ∀ a b, a ∈ l → b ∈ l → R a b → S a b) (p : l.Chain' R) : l.Chain' S :=
  (List.Chain'.iff_mem.mp p).imp (fun a b h => H a b h.1 h.2.1 h.2.2)

theorem Limbo.nodup {pre post A F : List Record} {r : Record} (h : Limbo pre r post A F) :
    (pre ++ r :: post).Nodup ∧ (A ++ F).Nodup ∧ r ∉ pre ++ post := by
  have h1 : (pre ++ r :: post).Nodup := nodup_of_sep h.sep
  have h2 : (r :: (pre ++ post)).Nodup := (List.perm_middle.nodup_iff).mp h1
  exact ⟨h1, h.perm.nodup_iff.mp (List.nodup_cons.mp h2).2, (List.nodup_cons.mp h2).1⟩

theorem Limbo.mem_maps {pre post A F : List Record} {r : Record} (h : Limbo pre r post A F)
    (x : Record) : x ∈ pre ++ post ↔ x ∈ A ∨ x ∈ F := by
  rw [h.perm.mem_iff]; simp

/-- The record in limbo was the last one and is dropped from the list. -/
theorem Limbo.drop {pre A F : List Record} {r : Record} (h : Limbo pre r [] A F)
    (hl : ∀ l, pre.getLast? = some l → l ∉ F) : IdxInv ⟨pre, A, F⟩ := by
  refine ⟨?_, ?_, h.noAdjFree.left_of_append, ?_, ?_, h.alloc_min⟩
  · exact (List.pairwise_append.mp h.sep).1
  · simpa using h.perm
  · intro l hlast
    have h1 : l ∈ pre := List.mem_of_getLast?_eq_some hlast
    rcases (h.mem_maps l).mp (by simp [h1]) with a | a
    · exact a
    · exact absurd a (hl l hlast)
  · intro x hx
    exact h.size_lt x (by simp [hx])

/-- The record in limbo goes into the free map. -/
theorem Limbo.fill_free {pre post A F : List Record} {r : Record} (h : Limbo pre r post A F)
    (hpost : post ≠ []) (hl : ∀ l, pre.getLast? = some l → l ∉ F)
    (hr : ∀ y, post.head? = some y → y ∉ F) :
    IdxInv ⟨pre ++ r :: post, A, mmInsert Record.m_size r F⟩ := by
  obtain ⟨n1, n2, n3⟩ := h.nodup
  refine ⟨h.sep, ?_, ?_, ?_, h.size_lt, h.alloc_min⟩
  · have a : (pre ++ r :: post).Perm (r :: (A ++ F)) :=
      List.perm_middle.trans (h.perm.cons r)
    have b : (A ++ mmInsert Record.m_size r F).Perm (r :: (A ++ F)) :=
      ((perm_mmInsert Record.m_size r F).append_left A).trans List.perm_middle
    exact a.trans b.symm
  · have hne : ∀ x, x ∈ pre ++ post → (x ∈ mmInsert Record.m_size r F ↔ x ∈ F) := by
      intro x hx
      rw [mem_mmInsert]
      constructor
      · rintro (e | e)
        · subst e; exact absurd hx n3
        · exact e
      · exact Or.inr
    have ch1 : pre.Chain' (fun a b => ¬ (a ∈ F ∧ b ∈ F)) := h.noAdjFree.left_of_append
    have ch3 : post.Chain' (fun a b => ¬ (a ∈ F ∧ b ∈ F)) := h.noAdjFree.right_of_append.tail
    refine chain'_insert_guarded (chain'_imp_mem ?_ ch1) (chain'_imp_mem ?_ ch3) ?_ ?_
    · intro a b ha hb hab hh
      exact hab ⟨(hne a (by simp [ha])).mp hh.1, (hne b (by simp [hb])).mp hh.2⟩
    · intro a b ha hb hab hh
      exact hab ⟨(hne a (by simp [ha])).mp hh.1, (hne b (by simp [hb])).mp hh.2⟩
    · intro x hx hh
      have hx1 : x ∈ pre := List.mem_of_getLast?_eq_some hx
      exact hl x hx ((hne x (by simp [hx1])).mp hh.1)
    · intro y hy hh
      have hy1 : y ∈ post := List.mem_of_mem_head? hy
      exact hr y hy ((hne y (by simp [hy1])).mp hh.2)
  · intro l hlast
    show l ∈ A
    have : post.getLast? = some l := by
      cases hp : post.getLast? with
      | none => exact absurd (List.getLast?_eq_none_iff.mp hp) hpost
      | some z =>
        have := getLast?_split pre r post z hp
        rw [hlast] at this
        exact this.symm
    exact h.tailOk l this

/-- The record in limbo, with a new key, goes into the allocated map. -/
theorem Limbo.fill_alloc {pre post A F : List Record} {r : Record} (h : Limbo pre r post A F)
    (r1 : Record) (ho : r1.m_offset = r.m_offset) (hs : r1.m_size = r.m_size)
    (hmin : 0 < r1.m_size) :
    IdxInv ⟨pre ++ r1 :: post, mmInsert Record.m_key r1 A, F⟩ := by
  obtain ⟨n1, n2, n3⟩ := h.nodup
  have hsep := List.pairwise_append.mp h.sep
  have hr1F : r1 ∉ F := by
    intro hin
    have h1 : r1 ∈ pre ++ post := (h.mem_maps r1).mpr (Or.inr hin)
    have h2 : r1 ∈ pre ++ r :: post := by simp at h1 ⊢; tauto
    have h3 : r1 = r := sep_offset_inj h.sep h2 (by simp) ho
    exact h.notFree (h3 ▸ hin)
  refine ⟨?_, ?_, ?_, ?_, ?_, ?_⟩
  · rw [List.pairwise_append]
    refine ⟨hsep.1, ?_, ?_⟩
    · rw [List.pairwise_cons]
      refine ⟨?_, (List.pairwise_cons.mp hsep.2.1).2⟩
      intro y hy
      have := (List.pairwise_cons.mp hsep.2.1).1 y hy
      unfold Sep at *
      omega
    · intro x hx y hy
      rcases List.mem_cons.mp hy with e1 | e1
      · subst e1
        have := hsep.2.2 x hx r (by simp)
        unfold Sep at *
        omega
      · exact hsep.2.2 x hx y (by simp [e1])
  · have a : (pre ++ r1 :: post).Perm (r1 :: (A ++ F)) :=
      List.perm_middle.trans (h.perm.cons r1)
    have b : (mmInsert Record.m_key r1 A ++ F).Perm (r1 :: (A ++ F)) :=
      (perm_mmInsert Record.m_key r1 A).append_right F
    exact a.trans b.symm
  · have ch1 : pre.Chain' (fun a b => ¬ (a ∈ F ∧ b ∈ F)) := h.noAdjFree.left_of_append
    have ch3 : post.Chain' (fun a b => ¬ (a ∈ F ∧ b ∈ F)) := h.noAdjFree.right_of_append.tail
    refine chain'_insert_guarded ch1 ch3 ?_ ?_
    · intro x _ hh; exact hr1F hh.2
    · intro y _ hh; exact hr1F hh.1
  · intro l hlast
    show l ∈ mmInsert Record.m_key r1 A
    rw [mem_mmInsert]
    cases hp : post.getLast? with
    | none =>
      have : post = [] := List.getLast?_eq_none_iff.mp hp
      subst this
      rw [List.getLast?_concat] at hlast
      simp at hlast
      exact Or.inl hlast.symm
    | some z =>
      have := getLast?_split pre r1 post z hp
      rw [hlast] at this
      simp at this
      subst this
      exact Or.inr (h.tailOk l hp)
  · intro x hx
    rcases List.mem_append.mp hx with e1 | e1
    · exact h.size_lt x (by simp [e1])
    · rcases List.mem_cons.mp e1 with e2 | e2
      · subst e2
        have := h.size_lt r (by simp)
        rw [ho, hs]; exact this
      · exact h.size_lt x (by simp [e2])
  · intro x hx
    rcases (mem_mmInsert _ _ _ _).mp hx with e | e
    · subst e; exact hmin
    · exact h.alloc_min x e

/-! ## Lemmas: deallocate -/

theorem getLast?_middle_eq (pre post : List Record) (r l : Record)
    (h : (pre ++ r :: post).getLast? = some l) (hn : (pre ++ r :: post).Nodup) :
    l = r ↔ post = [] := by
  constructor
  · intro e
    subst e
    cases hp : post.getLast? with
    | none => exact List.getLast?_eq_none_iff.mp hp
    | some z =>
      have := getLast?_split pre l post z hp
      rw [h] at this
      simp at this
      subst this
      have hz : l ∈ post := List.mem_of_getLast?_eq_some hp
      have := (List.nodup_append.mp hn).2.1
      exact absurd hz (List.nodup_cons.mp this).1
  · intro e
    subst e
    rw [List.getLast?_concat] at h
    simp at h
    exact h.symm

/-- `deallocate` of an allocated record keeps the index well formed; the
    record leaves the allocated map, and every record afterwards lies inside
    the span of the records before. -/
theorem deallocate_inv {idx : HeapIndex} (h : IdxInv idx) {rec : Record}
    (hr : rec ∈ idx.m_alloc) {b : Bool} {idx2 : HeapIndex}
    (e : idx.deallocate rec = some (b, idx2)) :
    b = true ∧ IdxInv idx2 ∧ idx2.m_alloc = idx.m_alloc.erase rec ∧
    (∀ lo hi, (∀ y ∈ idx.m_list, lo ≤ y.m_offset ∧ y.m_offset + y.m_size ≤ hi) →
      ∀ x ∈ idx2.m_list, lo ≤ x.m_offset ∧ x.m_offset + x.m_size ≤ hi) ∧
    (idx.isLast rec = true → ∀ x ∈ idx2.m_list, x.m_offset + x.m_size ≤ rec.m_offset) := by
  unfold HeapIndex.deallocate at e
  rw [if_pos ((mem_mmEqualRange_self _ _ _).mpr hr)] at e
  have hrl : rec ∈ idx.m_list := (h.mem_list_iff rec).mpr (Or.inl hr)
  have hsplit := split_at_mem rec idx.m_list hrl
  generalize hpre : idx.m_list.takeWhile (fun x => decide (x ≠ rec)) = pre at hsplit
  generalize hpost : (idx.m_list.dropWhile (fun x => decide (x ≠ rec))).tail = post at hsplit
  have hlimbo := Limbo.of_alloc h hsplit hr
  unfold HeapIndex.coalesce at e
  simp only [hrl, if_true, hpre, hpost] at e
  cases e1 : absorbLeft pre idx.m_free rec with
  | none => simp [e1] at e
  | some t1 =>
    obtain ⟨pre1, F1, r1⟩ := t1
    simp only [e1] at e
    obtain ⟨lb1, lf1, lsub1, lk1, lend1, loff1, lpre1⟩ := hlimbo.absorbLeft e1
    cases e2 : absorbRight post F1 r1 with
    | none => simp [e2] at e
    | some t2 =>
      obtain ⟨post2, F2, r2⟩ := t2
      simp only [e2] at e
      obtain ⟨lb2, lf2, lsub2, lk2, loff2, lend2, lnil2, lpost2⟩ := lb1.absorbRight e2
      have hnd := lb2.nodup.1
      have hlast : (pre1 ++ r2 :: post2).getLast? = some (post2.getLast?.getD r2) := by
        cases hp : post2.getLast? with
        | none =>
          have := List.getLast?_eq_none_iff.mp hp
          subst this
          simp
        | some z => simpa using getLast?_split pre1 r2 post2 z hp
      simp only [hlast] at e
      have hiff := getLast?_middle_eq pre1 post2 r2 _ hlast hnd
      have hsepo := List.pairwise_append.mp (hsplit ▸ h.sep)
      have bounds : ∀ lo hi, (∀ y ∈ idx.m_list, lo ≤ y.m_offset ∧ y.m_offset + y.m_size ≤ hi) →
          ∀ x ∈ pre1 ++ r2 :: post2, lo ≤ x.m_offset ∧ x.m_offset + x.m_size ≤ hi := by
        intro lo hi hb x hx
        rw [hsplit] at hb
        rcases List.mem_append.mp hx with a | a
        · exact hb x (by simp [lpre1 x a])
        · rcases List.mem_cons.mp a with a | a
          · subst a
            have hrec := hb rec (by simp)
            constructor
            · rw [loff2]
              rcases loff1 with o | ⟨L, hL, o⟩
              · omega
              · have := hb L (by simp [hL]); omega
            · rcases lend2 with o | ⟨R, hR, o⟩
              · omega
              · have := hb R (by simp [hR]); omega
          · exact hb x (by simp [lpost2 x a])
      by_cases hc : post2.getLast?.getD r2 = r2
      · rw [if_pos hc, Option.some.injEq, Prod.mk.injEq] at e
        obtain ⟨rfl, rfl⟩ := e
        have hp2 : post2 = [] := hiff.mp hc
        subst hp2
        simp only [List.dropLast_concat]
        refine ⟨trivial, ?_, trivial, ?_, ?_⟩
        · have := lb2.drop (fun l hl hin => lf1 l hl (lsub2 l hin))
          exact this
        · intro lo hi hb x hx
          exact bounds lo hi hb x (by simp [hx])
        · intro _ x hx
          have := hsepo.2.2 x (lpre1 x hx) rec (by simp)
          exact this.1
      · rw [if_neg hc, Option.some.injEq, Prod.mk.injEq] at e
        obtain ⟨rfl, rfl⟩ := e
        have hp2 : post2 ≠ [] := fun e0 => hc (hiff.mpr e0)
        refine ⟨rfl, ?_, rfl, ?_, ?_⟩
        · exact lb2.fill_free hp2 (fun l hl hin => lf1 l hl (lsub2 l hin)) lf2
        · intro lo hi hb x hx
          exact bounds lo hi hb x hx
        · intro hlst
          exfalso
          unfold HeapIndex.isLast at hlst
          have hpne : post ≠ [] := fun e0 => hp2 (lnil2.mpr e0)
          cases hp : post.getLast? with
          | none => exact hpne (List.getLast?_eq_none_iff.mp hp)
          | some z =>
            have hz := getLast?_split pre rec post z hp
            rw [← hsplit] at hz
            rw [hz] at hlst
            simp at hlst
            subst hlst
            have hzp : rec ∈ post := List.mem_of_getLast?_eq_some hp
            have := (List.nodup_append.mp (hsplit ▸ h.nodup_list)).2.1
            exact (List.nodup_cons.mp this).1 hzp

/-! ## Lemmas: allocate -/

theorem IdxInv.free_neighbours {idx : HeapIndex} (h : IdxInv idx) {pre post : List Record}
    {r : Record} (hl : idx.m_list = pre ++ r :: post) (hr : r ∈ idx.m_free) :
    (∀ l, pre.getLast? = some l → l ∉ idx.m_free) ∧
    (∀ y, post.head? = some y → y ∉ idx.m_free) ∧ post ≠ [] := by
  have hch := hl ▸ h.noAdjFree
  refine ⟨?_, ?_, ?_⟩
  · intro l hlast hin
    obtain ⟨ys, rfl⟩ := List.getLast?_eq_some_iff.mp hlast
    rw [List.append_assoc, List.singleton_append] at hch
    exact hch.right_of_append.rel_head ⟨hin, hr⟩
  · intro y hy hin
    cases post with
    | nil => simp at hy
    | cons z zs =>
      simp at hy
      subst hy
      exact hch.right_of_append.rel_head ⟨hr, hin⟩
  · intro e0
    subst e0
    have : idx.m_list.getLast? = some r := by rw [hl]; exact List.getLast?_concat _
    exact h.alloc_not_free (h.lastAlloc r this) hr

/-- The left part of a split goes into the allocated map; the remainder is
    the record in limbo. -/
theorem Limbo.split_left {pre post A F : List Record} {r : Record} (h : Limbo pre r post A F)
    (n key : Nat) (hn : MIN_SIZE ≤ n) (hlt : n < r.m_size) :
    Limbo (pre ++ [(Record.mk r.m_offset key n)]) (Record.mk (r.m_offset + n) r.m_key (r.m_size - n)) post
      (mmInsert Record.m_key (Record.mk r.m_offset key n) A) F ∧
    (Record.mk r.m_offset key n) ∉ F := by
  obtain ⟨n1, n2, n3⟩ := h.nodup
  have hsep := List.pairwise_append.mp h.sep
  have hrp := List.pairwise_cons.mp hsep.2.1
  have hmin : 0 < n := Nat.lt_of_lt_of_le (by decide) hn
  have hszr := h.size_lt r (by simp)
  have hleft : ∀ x, x ∈ pre ++ post → x ≠ (Record.mk r.m_offset key n) := by
    intro x hx e
    have h2 : x ∈ pre ++ r :: post := by simp at hx ⊢; tauto
    have : x = r := sep_offset_inj h.sep h2 (by simp) (by rw [e])
    exact n3 (this ▸ hx)
  have hrem : ∀ x, x ∈ pre ++ post →
      x ≠ (Record.mk (r.m_offset + n) r.m_key (r.m_size - n)) := by
    intro x hx e
    rcases List.mem_append.mp hx with a | a
    · have := (hsep.2.2 x a r (by simp)).2
      rw [e] at this; simp at this
    · have := (hrp.1 x a).1
      rw [e] at this; simp at this; omega
  have hleftF : (Record.mk r.m_offset key n) ∉ F :=
    fun hin => hleft _ ((h.mem_maps _).mpr (Or.inr hin)) rfl
  have hremF : (Record.mk (r.m_offset + n) r.m_key (r.m_size - n)) ∉ F :=
    fun hin => hrem _ ((h.mem_maps _).mpr (Or.inr hin)) rfl
  refine ⟨⟨?_, ?_, ?_, hremF, ?_, ?_, ?_⟩, hleftF⟩
  · rw [List.append_assoc, List.singleton_append, List.pairwise_append]
    refine ⟨hsep.1, ?_, ?_⟩
    · rw [List.pairwise_cons, List.pairwise_cons]
      refine ⟨?_, ?_, hrp.2⟩
      · intro y hy
        rcases List.mem_cons.mp hy with e1 | e1
        · subst e1; unfold Sep; simp; omega
        · have := hrp.1 y e1
          unfold Sep at *; simp; omega
      · intro y hy
        have := hrp.1 y hy
        unfold Sep at *; simp; omega
    · intro x hx y hy
      have hxr := hsep.2.2 x hx r (by simp)
      rcases List.mem_cons.mp hy with e1 | e1
      · subst e1; unfold Sep at *; simp; omega
      · rcases List.mem_cons.mp e1 with e2 | e2
        · subst e2; unfold Sep at *; simp; omega
        · exact hsep.2.2 x hx y (by simp [e2])
  · have a : (pre ++ [(Record.mk r.m_offset key n)] ++ post).Perm ((Record.mk r.m_offset key n) :: (A ++ F)) := by
      rw [List.append_assoc, List.singleton_append]
      exact List.perm_middle.trans (h.perm.cons _)
    have b : (mmInsert Record.m_key (Record.mk r.m_offset key n) A ++ F).Perm
        ((Record.mk r.m_offset key n) :: (A ++ F)) :=
      (perm_mmInsert Record.m_key _ A).append_right F
    exact a.trans b.symm
  · have ch1 : pre.Chain' (fun a b => ¬ (a ∈ F ∧ b ∈ F)) := h.noAdjFree.left_of_append
    have ch3 : post.Chain' (fun a b => ¬ (a ∈ F ∧ b ∈ F)) := h.noAdjFree.right_of_append.tail
    rw [List.append_assoc, List.singleton_append]
    refine chain'_insert_guarded ch1 (List.Chain'.cons' ch3 ?_) ?_ ?_
    · intro y _ hh; exact hremF hh.1
    · intro x _ hh; exact hleftF hh.2
    · intro y _ hh; exact hleftF hh.1
  · intro l hl
    exact (mem_mmInsert _ _ _ _).mpr (Or.inr (h.tailOk l hl))
  · intro x hx
    have hU : r.m_offset + r.m_size < U64 := hszr.2
    simp only [List.append_assoc, List.singleton_append, List.mem_append, List.mem_cons] at hx
    rcases hx with a | a | a | a
    · exact h.size_lt x (by simp [a])
    · subst a; simp; omega
    · subst a; simp; omega
    · exact h.size_lt x (by simp [a])
  · intro x hx
    rcases (mem_mmInsert _ _ _ _).mp hx with e | e
    · subst e; exact Nat.lt_of_lt_of_le (by decide) hn
    · exact h.alloc_min x e

/-- `allocate` on a well-formed index never trips an assertion: either no
    free record fits and the index is unchanged, or a record of the wanted
    key and size is handed out and the index stays well formed. -/
theorem allocate_spec {idx : HeapIndex} (h : IdxInv idx) (size key : Nat) :
    ((∀ x ∈ idx.m_free, x.m_size < max size MIN_SIZE) ∧
      idx.allocate size key = some (none, idx)) ∨
    ∃ r idx2, idx.allocate size key = some (some r, idx2) ∧ IdxInv idx2 ∧
      idx2.m_alloc = mmInsert Record.m_key r idx.m_alloc ∧ idx2.m_list.length ≥ idx.m_list.length ∧
      r.m_key = key ∧ max size MIN_SIZE ≤ r.m_size ∧
      (∀ lo hi, (∀ y ∈ idx.m_list, lo ≤ y.m_offset ∧ y.m_offset + y.m_size ≤ hi) →
        ∀ x ∈ idx2.m_list, lo ≤ x.m_offset ∧ x.m_offset + x.m_size ≤ hi) := by
  unfold HeapIndex.allocate
  cases hlb : mmLowerBound Record.m_size (max size MIN_SIZE) idx.m_free with
  | none =>
    left
    exact ⟨mmLowerBound_none _ _ _ hlb, by simp only [hlb]⟩
  | some r0 =>
    right
    obtain ⟨hr0F, hneed⟩ := mmLowerBound_some _ _ _ _ hlb
    have hr0l : r0 ∈ idx.m_list := (h.mem_list_iff r0).mpr (Or.inr hr0F)
    have hsplit := split_at_mem r0 idx.m_list hr0l
    generalize idx.m_list.takeWhile (fun x => decide (x ≠ r0)) = pre at hsplit
    generalize (idx.m_list.dropWhile (fun x => decide (x ≠ r0))).tail = post at hsplit
    have hlimbo := Limbo.of_free h hsplit hr0F
    obtain ⟨nb1, nb2, nb3⟩ := h.free_neighbours hsplit hr0F
    obtain ⟨n1, n2, n3⟩ := hlimbo.nodup
    have hr0pre : r0 ∉ pre := fun hin => n3 (by simp [hin])
    have hsz := h.size_lt r0 hr0l
    have h256 : MIN_SIZE ≤ max size MIN_SIZE := Nat.le_max_right _ _
    have hM : MIN_SIZE = 256 := rfl
    have hU : U32 = 4294967296 := rfl
    have hmod : (r0.m_size + U32 - MIN_SIZE) % U32 = r0.m_size - MIN_SIZE := by
      have : r0.m_size + U32 - MIN_SIZE = (r0.m_size - MIN_SIZE) + U32 := by omega
      rw [this, Nat.add_mod_right, Nat.mod_eq_of_lt (by omega)]
    simp only [hlb, hmod]
    by_cases hc : max size MIN_SIZE > r0.m_size - MIN_SIZE
    · rw [if_pos hc]
      refine ⟨_, _, rfl, ?_, rfl, ?_, rfl, hneed, ?_⟩
      · rw [hsplit, replaceFirst_split _ _ _ _ hr0pre]
        exact hlimbo.fill_alloc (r0.setKey key) rfl rfl (by show 0 < r0.m_size; omega)
      · rw [hsplit, replaceFirst_split _ _ _ _ hr0pre]; simp
      · intro lo hi hb x hx
        rw [hsplit, replaceFirst_split _ _ _ _ hr0pre] at hx
        rw [hsplit] at hb
        simp only [List.mem_append, List.mem_cons] at hx
        rcases hx with a | a | a
        · exact hb x (by simp [a])
        · subst a; exact hb r0 (by simp)
        · exact hb x (by simp [a])
    · rw [if_neg hc]
      have hlt : max size MIN_SIZE < r0.m_size := by omega
      have hoffmod : (r0.m_offset + max size MIN_SIZE) % U64 = r0.m_offset + max size MIN_SIZE :=
        Nat.mod_eq_of_lt (by have := hsz.2; omega)
      simp only [Record.splitOffLeft, hlt, if_true, gt_iff_lt, hoffmod]
      have hrf : replaceFirst r0 (Record.mk (r0.m_offset + max size MIN_SIZE) r0.m_key
          (r0.m_size - max size MIN_SIZE)) idx.m_list =
          pre ++ (Record.mk (r0.m_offset + max size MIN_SIZE) r0.m_key
            (r0.m_size - max size MIN_SIZE)) :: post := by
        rw [hsplit]; exact replaceFirst_split _ _ _ _ hr0pre
      have hsepo := List.pairwise_append.mp (hsplit ▸ h.sep)
      have hpos : listLowerBound (r0.m_offset + max size MIN_SIZE)
          (pre ++ (Record.mk (r0.m_offset + max size MIN_SIZE) r0.m_key
            (r0.m_size - max size MIN_SIZE)) :: post) = pre.length := by
        refine listLowerBound_split (Record.mk (r0.m_offset + max size MIN_SIZE) r0.m_key
            (r0.m_size - max size MIN_SIZE)) pre post ?_
        intro x hx
        have := (hsepo.2.2 x hx r0 (by simp)).2
        simp; omega
      simp only [hrf, hpos]
      have hget : (pre ++ (Record.mk (r0.m_offset + max size MIN_SIZE) r0.m_key
            (r0.m_size - max size MIN_SIZE)) :: post).get? pre.length =
          some (Record.mk (r0.m_offset + max size MIN_SIZE) r0.m_key
            (r0.m_size - max size MIN_SIZE)) := by
        rw [List.get?_eq_getElem?, List.getElem?_append_right (Nat.le_refl _)]
        simp
      rw [if_pos hget]
      obtain ⟨hl2, hleftF⟩ := hlimbo.split_left (max size MIN_SIZE) key h256 hlt
      have hfin := hl2.fill_free nb3
        (by
          intro l hl hin
          rw [List.getLast?_concat] at hl
          simp at hl
          subst hl
          exact hleftF hin)
        (fun y hy hin => nb2 y hy (List.mem_of_mem_erase hin))
      refine ⟨_, _, rfl, ?_, rfl, ?_, rfl, ?_, ?_⟩
      · simpa [Record.setKey] using hfin
      · rw [hsplit]; simp
      · simp [Record.setKey]
      · intro lo hi hb x hx
        rw [hsplit] at hb
        have hr0b := hb r0 (by simp)
        simp only [List.take_left', List.drop_left', List.mem_append, List.mem_cons,
          Record.setKey] at hx
        rcases hx with a | a | a | a
        · exact hb x (by simp [a])
        · subst a; simp; omega
        · subst a; simp; omega
        · exact hb x (by simp [a])

/-! ## Lemmas: appending a record at the tail -/

theorem IdxInv.appendOffset_bound {idx : HeapIndex} (h : IdxInv idx) (x : Record)
    (hx : x ∈ idx.m_list) :
    x.m_offset + x.m_size ≤ appendOffset idx ∧ x.m_offset < appendOffset idx := by
  unfold appendOffset
  cases hl : idx.m_list.getLast? with
  | none => rw [List.getLast?_eq_none_iff.mp hl] at hx; simp at hx
  | some last =>
    obtain ⟨ys, hys⟩ := List.getLast?_eq_some_iff.mp hl
    have hlast : last ∈ idx.m_list := List.mem_of_getLast?_eq_some hl
    have hsz := h.size_lt last hlast
    have hmin := h.alloc_min last (h.lastAlloc last hl)
    have hM : MIN_SIZE = 256 := rfl
    simp only [Nat.mod_eq_of_lt hsz.2]
    have hsep := h.sep
    rw [hys, List.pairwise_append] at hsep
    rw [hys] at hx
    rcases List.mem_append.mp hx with a | a
    · have := hsep.2.2 x a last (by simp)
      unfold Sep at this; omega
    · simp at a; subst a; omega

/-- Appending an adjacent record at the tail: the result of
    `addAllocatedBlock`, and it is well formed. -/
theorem addAllocatedBlock_tail {idx : HeapIndex} (h : IdxInv idx) (key size : Nat)
    (hmin : 0 < size) (hlt : size < U32) (hend : appendOffset idx + size < U64) :
    idx.addAllocatedBlock ⟨appendOffset idx, key, size⟩ =
      some ⟨idx.m_list ++ [⟨appendOffset idx, key, size⟩],
            mmInsert Record.m_key ⟨appendOffset idx, key, size⟩ idx.m_alloc, idx.m_free⟩ ∧
    IdxInv ⟨idx.m_list ++ [⟨appendOffset idx, key, size⟩],
            mmInsert Record.m_key ⟨appendOffset idx, key, size⟩ idx.m_alloc, idx.m_free⟩ ∧
    (Record.mk (appendOffset idx) key size) ∉ idx.m_list := by
  have hnot : (Record.mk (appendOffset idx) key size) ∉ idx.m_list := by
    intro hin
    have := (h.appendOffset_bound _ hin).2
    simp at this
  have hnotF : (Record.mk (appendOffset idx) key size) ∉ idx.m_free :=
    fun hin => hnot ((h.mem_list_iff _).mpr (Or.inr hin))
  refine ⟨?_, ⟨?_, ?_, ?_, ?_, ?_, ?_⟩, hnot⟩
  · unfold HeapIndex.addAllocatedBlock
    cases hl : idx.m_list.getLast? with
    | none =>
      have := List.getLast?_eq_none_iff.mp hl
      simp [this]
    | some last =>
      have : (last.sharesRightBoundaryWith ⟨appendOffset idx, key, size⟩) = true := by
        simp [Record.sharesRightBoundaryWith, appendOffset, hl]
      simp [this]
  · rw [List.pairwise_append]
    refine ⟨h.sep, by simp, ?_⟩
    intro x hx y hy
    simp at hy; subst hy
    exact h.appendOffset_bound x hx
  · have a : (idx.m_list ++ [Record.mk (appendOffset idx) key size]).Perm
        (Record.mk (appendOffset idx) key size :: (idx.m_alloc ++ idx.m_free)) :=
      (List.perm_append_singleton _ _).trans (h.perm.cons _)
    have b : (mmInsert Record.m_key (Record.mk (appendOffset idx) key size) idx.m_alloc
        ++ idx.m_free).Perm (Record.mk (appendOffset idx) key size :: (idx.m_alloc ++ idx.m_free)) :=
      (perm_mmInsert Record.m_key _ _).append_right _
    exact a.trans b.symm
  · refine chain'_insert_guarded h.noAdjFree List.chain'_nil ?_ ?_
    · intro x _ hh; exact hnotF hh.2
    · intro y hy; simp at hy
  · intro l hl
    rw [List.getLast?_concat] at hl
    simp at hl; subst hl
    exact (mem_mmInsert _ _ _ _).mpr (Or.inl rfl)
  · intro x hx
    rcases List.mem_append.mp hx with a | a
    · exact h.size_lt x a
    · simp at a; subst a; exact ⟨hlt, hend⟩
  · intro x hx
    rcases (mem_mmInsert _ _ _ _).mp hx with e | e
    · subst e; exact hmin
    · exact h.alloc_min x e

/-- Deallocating the record just appended gives back the index as it was. -/
theorem deallocate_tail {idx : HeapIndex} (h : IdxInv idx) (r : Record)
    (hnot : r ∉ idx.m_list) :
    HeapIndex.deallocate ⟨idx.m_list ++ [r], mmInsert Record.m_key r idx.m_alloc, idx.m_free⟩ r
      = some (true, idx) := by
  have hnA : r ∉ idx.m_alloc := fun hin => hnot ((h.mem_list_iff _).mpr (Or.inl hin))
  unfold HeapIndex.deallocate
  rw [if_pos ((mem_mmEqualRange_self _ _ _).mpr ((mem_mmInsert _ _ _ _).mpr (Or.inl rfl)))]
  unfold HeapIndex.coalesce
  simp only [List.mem_append, List.mem_singleton, or_true, if_true]
  obtain ⟨t1, t2⟩ := takeWhile_ne_of_split r idx.m_list [] hnot
  simp only [t1, t2, erase_mmInsert_self _ _ _ hnA]
  have hL : absorbLeft idx.m_list idx.m_free r = some (idx.m_list, idx.m_free, r) := by
    unfold absorbLeft
    cases hl : idx.m_list.getLast? with
    | none => rfl
    | some last =>
      have : last ∉ idx.m_free := h.alloc_not_free (h.lastAlloc last hl)
      simp [removeIfFree_eq, this]
  simp only [hL, absorbRight, List.getLast?_concat, if_true, List.dropLast_concat]

/-! ## Lemmas: looking a blob up -/

theorem sep_disjoint {l : List Record} (h : l.Pairwise Sep) {x y : Record}
    (hx : x ∈ l) (hy : y ∈ l) (hne : x ≠ y) :
    x.m_offset + x.m_size ≤ y.m_offset ∨ y.m_offset + y.m_size ≤ x.m_offset := by
  induction l with
  | nil => simp at hx
  | cons a as ih =>
    rw [List.pairwise_cons] at h
    rcases List.mem_cons.mp hx with h1 | h1 <;> rcases List.mem_cons.mp hy with h2 | h2
    · exact absurd (h1.trans h2.symm) hne
    · subst h1; exact Or.inl (h.1 y h2).1
    · subst h2; exact Or.inr (h.1 x h1).1
    · exact ih h.2 h1 h2

theorem Inv.alloc_mem_list {h : HeapFileT} (hinv : Inv h) {r : Record}
    (hr : r ∈ h.m_index.m_alloc) : r ∈ h.m_index.m_list :=
  (hinv.idx.mem_list_iff r).mpr (Or.inl hr)

theorem Inv.readPtr {h : HeapFileT} (hinv : Inv h) {r : Record} (hr : r ∈ h.m_index.m_alloc) :
    getReadPtr h.m_file r.m_offset r.m_size = some (h.m_file, some r.m_offset) := by
  have hw := hinv.within r (hinv.alloc_mem_list hr)
  have hmin := hinv.idx.alloc_min r hr
  have hM : MIN_SIZE = 256 := rfl
  exact getReadPtr_inside _ _ _ hw.2 (by omega) hinv.small

theorem Inv.hasId_eq {h : HeapFileT} (hinv : Inv h) {r : Record} (hr : r ∈ h.m_index.m_alloc)
    (x : List Byte) :
    (Blob.mk r (some r.m_offset)).hasId h.m_file x = decide (x = storedId h.m_file r) := by
  obtain ⟨id, pl, hb, _⟩ := hinv.blobs r hr
  rw [hb.hasId, hb.storedId]

theorem findBlobIn_spec {h : HeapFileT} (hinv : Inv h) (id : List Byte) (l : List Record)
    (hl : ∀ r ∈ l, r ∈ h.m_index.m_alloc) :
    (findBlobIn id l h.m_file = some (h.m_file, Blob.nil) ∧
      ∀ r ∈ l, storedId h.m_file r ≠ id) ∨
    ∃ r ∈ l, findBlobIn id l h.m_file = some (h.m_file, Blob.mk r (some r.m_offset)) ∧
      storedId h.m_file r = id := by
  induction l with
  | nil => left; simp [findBlobIn]
  | cons a as ih =>
    have ha : a ∈ h.m_index.m_alloc := hl a (by simp)
    unfold findBlobIn
    simp only [hinv.readPtr ha, hinv.hasId_eq ha]
    by_cases hid : id = storedId h.m_file a
    · right
      exact ⟨a, by simp, by simp [hid], hid.symm⟩
    · simp only [hid, decide_False, Bool.false_eq_true, if_false]
      rcases ih (fun r hr => hl r (by simp [hr])) with ⟨e, hn⟩ | ⟨r, hr, e, hs⟩
      · left
        refine ⟨e, ?_⟩
        intro r hr
        rcases List.mem_cons.mp hr with e1 | e1
        · subst e1; exact fun e2 => hid e2.symm
        · exact hn r e1
      · right
        exact ⟨r, by simp [hr], e, hs⟩

/-- `findBlob` on a well-formed heap: the file is untouched; the result is nil
    when no allocated record stores `id`, and otherwise the record storing it. -/
theorem findBlob_spec {h : HeapFileT} (hinv : Inv h) (id : List Byte) :
    (findBlob id h.m_index h.m_file = some (h.m_file, Blob.nil) ∧
      ∀ r ∈ h.m_index.m_alloc, storedId h.m_file r ≠ id) ∨
    ∃ r ∈ h.m_index.m_alloc,
      findBlob id h.m_index h.m_file = some (h.m_file, Blob.mk r (some r.m_offset)) ∧
      storedId h.m_file r = id := by
  unfold findBlob
  rcases findBlobIn_spec hinv id (mmEqualRange Record.m_key (hash id) h.m_index.m_alloc)
      (fun r hr => ((mem_mmEqualRange _ _ _ _).mp hr).1) with ⟨e, hn⟩ | ⟨r, hr, e, hs⟩
  · left
    refine ⟨e, ?_⟩
    intro r hr hs
    obtain ⟨id2, pl, hb, hk⟩ := hinv.blobs r hr
    rw [hb.storedId] at hs
    subst hs
    exact hn r ((mem_mmEqualRange _ _ _ _).mpr ⟨hr, hk⟩) hb.storedId
  · right
    exact ⟨r, ((mem_mmEqualRange _ _ _ _).mp hr).1, e, hs⟩

/-! ## Lemmas: the heap invariant under changes of index and file -/

theorem storedId_congr {f f2 : List Byte} {r : Record} {id pl : List Byte}
    (hb : BlobAt f r id pl)
    (hs : ∀ i, r.m_offset ≤ i → i < r.m_offset + r.m_size → rd f2 i = rd f i) :
    storedId f2 r = storedId f r := by
  rw [(hb.congr hs).storedId, hb.storedId]

/-- The invariant survives when allocated records are only removed and the
    bytes of the remaining ones stay as they are. -/
theorem Inv.frame {h : HeapFileT} (hinv : Inv h) (idx2 : HeapIndex) (f2 : List Byte)
    (hidx : IdxInv idx2)
    (hw : ∀ r ∈ idx2.m_list, 8 ≤ r.m_offset ∧ r.m_offset + r.m_size ≤ f2.length)
    (hs : f2.length < OFF_MAX)
    (hsub : ∀ r ∈ idx2.m_alloc, r ∈ h.m_index.m_alloc)
    (hsame : ∀ r ∈ idx2.m_alloc, ∀ i, r.m_offset ≤ i → i < r.m_offset + r.m_size →
      rd f2 i = rd h.m_file i) (hc : idx2.m_alloc.length ≤ h.m_index.m_alloc.length) (m : Nat) :
    Inv ⟨idx2, f2, h.m_key, m⟩ := by
  refine ⟨hidx, hw, hs, ?_, ?_, hinv.key, Nat.lt_of_le_of_lt hc hinv.count⟩
  · intro r hr
    obtain ⟨id, pl, hb, hk⟩ := hinv.blobs r (hsub r hr)
    exact ⟨id, pl, hb.congr (hsame r hr), hk⟩
  · intro r1 h1 r2 h2 e
    obtain ⟨id1, pl1, hb1, _⟩ := hinv.blobs r1 (hsub r1 h1)
    obtain ⟨id2, pl2, hb2, _⟩ := hinv.blobs r2 (hsub r2 h2)
    show r1 = r2
    have e' : storedId f2 r1 = storedId f2 r2 := e
    rw [storedId_congr hb1 (hsame r1 h1), storedId_congr hb2 (hsame r2 h2)] at e'
    exact hinv.uniq r1 (hsub r1 h1) r2 (hsub r2 h2) e'

theorem HeapIndex.size_lt (idx : HeapIndex) : idx.size < U32 := Nat.mod_lt _ (by decide)

/-- `release` of an allocated record on a well-formed heap. -/
theorem release_inv {h : HeapFileT} (hinv : Inv h) {r : Record} (hr : r ∈ h.m_index.m_alloc)
    {idx2 : HeapIndex} {f2 : List Byte}
    (e : release r h.m_index h.m_file = some (idx2, f2)) (m : Nat) :
    Inv ⟨idx2, f2, h.m_key, m⟩ ∧ idx2.m_alloc = h.m_index.m_alloc.erase r ∧
    (∀ r2 ∈ idx2.m_alloc, ∀ i, r2.m_offset ≤ i → i < r2.m_offset + r2.m_size →
      rd f2 i = rd h.m_file i) ∧
    (h.m_index.isLast r = false → f2 = h.m_file) ∧
    (h.m_index.isLast r = true → f2.length = r.m_offset + idx2.size) := by
  unfold release at e
  cases hd : h.m_index.deallocate r with
  | none => simp [hd] at e
  | some t =>
    obtain ⟨b, idx1⟩ := t
    simp only [hd] at e
    obtain ⟨_, hidx, halloc, hbounds, hlast⟩ := deallocate_inv hinv.idx hr hd
    have hsub : ∀ x ∈ idx1.m_alloc, x ∈ h.m_index.m_alloc := by
      intro x hx; rw [halloc] at hx; exact List.mem_of_mem_erase hx
    have hrw := hinv.within r (hinv.alloc_mem_list hr)
    have hsm := hinv.small
    have hcnt : idx1.m_alloc.length ≤ h.m_index.m_alloc.length := by
      rw [halloc, List.length_erase_of_mem hr]; omega
    have hO : OFF_MAX = 9223372036854775808 := rfl
    have hU : U64 = 18446744073709551616 := rfl
    have h32 : U32 = 4294967296 := rfl
    have hisz := idx1.size_lt
    by_cases hl : h.m_index.isLast r = true
    · simp only [hl, if_true] at e
      have hmod : (r.m_offset + idx1.size) % U64 = r.m_offset + idx1.size :=
        Nat.mod_eq_of_lt (by omega)
      rw [hmod] at e
      cases ht : trim h.m_file (r.m_offset + idx1.size) with
      | none => simp [ht] at e
      | some f1 =>
        simp [ht] at e
        obtain ⟨rfl, rfl⟩ := e
        obtain ⟨t1, t2, t3⟩ := setFileSize_some _ _ _ ht
        have hw : ∀ x ∈ idx1.m_list, 8 ≤ x.m_offset ∧ x.m_offset + x.m_size ≤ f1.length := by
          intro x hx
          have a := hbounds 8 h.m_file.length hinv.within x hx
          have b := hlast hl x hx
          omega
        have hsame : ∀ r2 ∈ idx1.m_alloc, ∀ i, r2.m_offset ≤ i → i < r2.m_offset + r2.m_size →
            rd f1 i = rd h.m_file i := by
          intro r2 hr2 i _ hi
          have b := hlast hl r2 ((hidx.mem_list_iff r2).mpr (Or.inl hr2))
          exact t3 i (by omega)
        exact ⟨hinv.frame idx1 f1 hidx hw (by omega) hsub hsame hcnt m, halloc, hsame,
          fun c => by simp [hl] at c, fun _ => t2⟩
    · simp only [hl, if_false] at e
      simp at e
      obtain ⟨rfl, rfl⟩ := e
      have hw := hbounds 8 h.m_file.length hinv.within
      exact ⟨hinv.frame idx1 h.m_file hidx hw hsm hsub (fun _ _ _ _ _ => rfl) hcnt m, halloc,
        fun _ _ _ _ _ => rfl, fun _ => rfl, fun c => absurd c hl⟩

/-! ## Lemmas: erase, has and get on a well-formed heap -/

/-- `eraseBlobEncryptedId` on a well-formed heap: it answers `true`, the heap
    stays well formed, no record stores `id` afterwards, and the records that
    store another id are kept with their bytes. -/
theorem erase_inv {h : HeapFileT} (hinv : Inv h) (id : List Byte) {b : Bool}
    {idx2 : HeapIndex} {f2 : List Byte}
    (e : eraseBlobEncryptedId id h.m_index h.m_file = some (b, idx2, f2)) (m : Nat) :
    b = true ∧ Inv ⟨idx2, f2, h.m_key, m⟩ ∧
    (∀ r ∈ idx2.m_alloc, storedId f2 r ≠ id) ∧
    (∀ r ∈ idx2.m_alloc, r ∈ h.m_index.m_alloc ∧
      ∀ i, r.m_offset ≤ i → i < r.m_offset + r.m_size → rd f2 i = rd h.m_file i) ∧
    (∀ r ∈ h.m_index.m_alloc, storedId h.m_file r ≠ id → r ∈ idx2.m_alloc) ∧
    ((∀ r ∈ h.m_index.m_alloc, storedId h.m_file r ≠ id) → idx2 = h.m_index ∧ f2 = h.m_file) ∧
    idx2.m_alloc.length ≤ h.m_index.m_alloc.length := by
  unfold eraseBlobEncryptedId at e
  rcases findBlob_spec hinv id with ⟨e1, hn⟩ | ⟨r, hr, e1, hs⟩
  · simp [e1, Blob.nil, Blob.isNil] at e
    obtain ⟨rfl, rfl, rfl⟩ := e
    refine ⟨rfl, ?_, hn, fun r hr => ⟨hr, fun _ _ _ => rfl⟩, fun r hr _ => hr, fun _ => ⟨rfl, rfl⟩,
      Nat.le_refl _⟩
    exact hinv.frame _ _ hinv.idx hinv.within hinv.small (fun _ hr => hr)
      (fun _ _ _ _ _ => rfl) (Nat.le_refl _) m
  · simp only [e1, Blob.isNil, Option.isNone_some, Bool.false_eq_true, if_false] at e
    cases hrel : release r h.m_index h.m_file with
    | none => simp [hrel] at e
    | some t =>
      obtain ⟨idx1, f1⟩ := t
      simp [hrel] at e
      obtain ⟨rfl, rfl, rfl⟩ := e
      obtain ⟨hinv2, halloc, hsame, _, _⟩ := release_inv hinv hr hrel m
      have hnd : h.m_index.m_alloc.Nodup := (List.nodup_append.mp hinv.idx.nodup_maps).1
      have hmem : ∀ x, x ∈ idx1.m_alloc ↔ x ≠ r ∧ x ∈ h.m_index.m_alloc := by
        intro x; rw [halloc]; exact List.Nodup.mem_erase_iff hnd
      refine ⟨rfl, hinv2, ?_, ?_, ?_, ?_, ?_⟩
      rotate_left 4
      · rw [halloc, List.length_erase_of_mem hr]; omega
      · intro x hx hsx
        obtain ⟨hxr, hxa⟩ := (hmem x).mp hx
        obtain ⟨idx, pl, hb, _⟩ := hinv.blobs x hxa
        rw [storedId_congr hb (hsame x hx)] at hsx
        exact hxr (hinv.uniq x hxa r hr (hsx.trans hs.symm))
      · intro x hx
        exact ⟨((hmem x).mp hx).2, hsame x hx⟩
      · intro x hx hsx
        exact (hmem x).mpr ⟨fun e0 => hsx (e0 ▸ hs), hx⟩
      · intro hall
        exact absurd hs (hall r hr)

theorem Inv.getBlob_stored {h : HeapFileT} (hinv : Inv h) (clearId : List Byte) {r : Record}
    {pl : List Byte} (hr : r ∈ h.m_index.m_alloc)
    (hb : BlobAt h.m_file r (h.m_key.encrypt clearId).2 pl) :
    h.getBlob clearId = some (some (h.m_key.decrypt pl).2, h) := by
  unfold HeapFileT.getBlob
  rcases findBlob_spec hinv (h.m_key.encrypt clearId).2 with ⟨_, hn⟩ | ⟨r2, hr2, e1, hs⟩
  · exact absurd hb.storedId (hn r hr)
  · have : r2 = r := hinv.uniq r2 hr2 r hr (hs.trans hb.storedId.symm)
    subst this
    simp [e1, Blob.isNil, hb.getData]

theorem Inv.getBlob_absent {h : HeapFileT} (hinv : Inv h) (clearId : List Byte)
    (hn : ∀ r ∈ h.m_index.m_alloc, storedId h.m_file r ≠ (h.m_key.encrypt clearId).2) :
    h.getBlob clearId = some (none, h) := by
  unfold HeapFileT.getBlob
  rcases findBlob_spec hinv (h.m_key.encrypt clearId).2 with ⟨e1, _⟩ | ⟨r2, hr2, _, hs⟩
  · simp [e1, Blob.isNil, Blob.nil]
  · exact absurd hs (hn r2 hr2)

theorem Inv.hasBlob_stored {h : HeapFileT} (hinv : Inv h) (clearId : List Byte) {r : Record}
    (hr : r ∈ h.m_index.m_alloc) (hs : storedId h.m_file r = (h.m_key.encrypt clearId).2) :
    h.hasBlob clearId = some (true, h) := by
  unfold HeapFileT.hasBlob
  rcases findBlob_spec hinv (h.m_key.encrypt clearId).2 with ⟨_, hn⟩ | ⟨r2, _, e1, _⟩
  · exact absurd hs (hn r hr)
  · simp [e1, Blob.isNil]

theorem Inv.hasBlob_absent {h : HeapFileT} (hinv : Inv h) (clearId : List Byte)
    (hn : ∀ r ∈ h.m_index.m_alloc, storedId h.m_file r ≠ (h.m_key.encrypt clearId).2) :
    h.hasBlob clearId = some (false, h) := by
  unfold HeapFileT.hasBlob
  rcases findBlob_spec hinv (h.m_key.encrypt clearId).2 with ⟨e1, _⟩ | ⟨r2, hr2, _, hs⟩
  · simp [e1, Blob.isNil, Blob.nil]
  · exact absurd hs (hn r2 hr2)

/-! ## Lemmas: writing a blob into a fresh record -/

/-- `release` needs only the shape of the index and of the file. -/
theorem release_geo {idx : HeapIndex} {f : List Byte} (hidx0 : IdxInv idx)
    (hw0 : ∀ x ∈ idx.m_list, 8 ≤ x.m_offset ∧ x.m_offset + x.m_size ≤ f.length)
    (hs0 : f.length < OFF_MAX) {r : Record} (hr : r ∈ idx.m_alloc)
    {idx2 : HeapIndex} {f2 : List Byte} (e : release r idx f = some (idx2, f2)) :
    IdxInv idx2 ∧ (∀ x ∈ idx2.m_list, 8 ≤ x.m_offset ∧ x.m_offset + x.m_size ≤ f2.length) ∧
    f2.length < OFF_MAX ∧ idx2.m_alloc = idx.m_alloc.erase r ∧
    (∀ x ∈ idx2.m_list, ∀ i, i < x.m_offset + x.m_size → rd f2 i = rd f i) ∧
    (idx.isLast r = false → f2 = f) ∧
    (idx.isLast r = true → f2.length = r.m_offset + idx2.size) := by
  unfold release at e
  cases hd : idx.deallocate r with
  | none => simp [hd] at e
  | some t =>
    obtain ⟨b, idx1⟩ := t
    simp only [hd] at e
    obtain ⟨_, hidx, halloc, hbounds, hlast⟩ := deallocate_inv hidx0 hr hd
    have hrw := hw0 r ((hidx0.mem_list_iff r).mpr (Or.inl hr))
    have hO : OFF_MAX = 9223372036854775808 := rfl
    have hU : U64 = 18446744073709551616 := rfl
    have h32 : U32 = 4294967296 := rfl
    have hisz := idx1.size_lt
    by_cases hl : idx.isLast r = true
    · simp only [hl, if_true] at e
      have hmod : (r.m_offset + idx1.size) % U64 = r.m_offset + idx1.size :=
        Nat.mod_eq_of_lt (by omega)
      rw [hmod] at e
      cases ht : trim f (r.m_offset + idx1.size) with
      | none => simp [ht] at e
      | some f1 =>
        simp [ht] at e
        obtain ⟨rfl, rfl⟩ := e
        obtain ⟨t1, t2, t3⟩ := setFileSize_some _ _ _ ht
        refine ⟨hidx, ?_, by omega, halloc, ?_, fun c => by simp [hl] at c, fun _ => t2⟩
        · intro x hx
          have a := hbounds 8 f.length hw0 x hx
          have b := hlast hl x hx
          omega
        · intro x hx i hi
          have b := hlast hl x hx
          exact t3 i (by omega)
    · simp only [hl, if_false] at e
      simp at e
      obtain ⟨rfl, rfl⟩ := e
      exact ⟨hidx, hbounds 8 f.length hw0, hs0, halloc, fun _ _ _ _ => rfl, fun _ => rfl,
        fun c => absurd c hl⟩

theorem Simple.length_encrypt (k : Simple) (x : List Byte) : (k.encrypt x).2.length = x.length :=
  length_XOR _ _

theorem Simple.decrypt_encrypt (k : Simple) (x : List Byte) :
    (k.decrypt (k.encrypt x).2).2 = x := XOR_XOR _ _

theorem writeData_false (b : Blob) (mem id : List Byte) (w : BlobWriter) (m2 : List Byte)
    (h : b.writeData mem id w = some (false, m2)) (hw : w.size < U32) :
    m2 = mem ∧ 255 < id.length := by
  unfold Blob.writeData at h
  split at h
  · simp at h
  split at h
  · rename_i c
    simp at h
    refine ⟨h.symm, ?_⟩
    rcases c with c | c
    · exact c
    · simp [U32] at hw c; omega
  · cases hp : b.m_ptr with
    | none => simp [hp] at h
    | some p =>
      simp only [hp, Option.bind_eq_bind] at h
      cases e1 : store mem p [toByte id.length] with
      | none => simp [e1] at h
      | some m1 =>
      cases e2 : store m1 (p + 1) id with
      | none => simp [e1, e2] at h
      | some m2' =>
      cases e3 : store m2' (p + 1 + id.length + 4) (be32 w.size) with
      | none => simp [e1, e2, e3] at h
      | some m3 =>
      cases e4 : store m3 (p + 1 + id.length + 8) w.bytes with
      | none => simp [e1, e2, e3, e4] at h
      | some m4 =>
      cases e5 : store m4 (p + 1 + id.length)
          (be32 (hash (rdN m4 (p + 1 + id.length + 8) w.size))) with
      | none => simp [e1, e2, e3, e4, e5] at h
      | some m5 => simp [e1, e2, e3, e4, e5] at h

/-- Writing the blob of `id` into the freshly allocated record `r`: the heap
    is well formed afterwards, the other blobs are untouched, and on success
    the region of `r` holds the blob. -/
theorem writeInto_inv {h : HeapFileT} (id blob : List Byte) (r : Record) (idx : HeapIndex)
    (f : List Byte) (A1 : List Record) (hidx : IdxInv idx)
    (hw : ∀ x ∈ idx.m_list, 8 ≤ x.m_offset ∧ x.m_offset + x.m_size ≤ f.length)
    (hs : f.length < OFF_MAX) (hkey : h.m_key.m_key ≠ [])
    (hA : idx.m_alloc = mmInsert Record.m_key r A1)
    (hblobs : ∀ x ∈ A1, ∃ id pl, BlobAt f x id pl ∧ x.m_key = hash id)
    (huniq : ∀ x ∈ A1, ∀ y ∈ A1, storedId f x = storedId f y → x = y)
    (hfresh : ∀ x ∈ A1, storedId f x ≠ id)
    (hrk : r.m_key = hash id) (hlen : blob.length < U32) (hcnt : A1.length + 1 < U32)
    {b : Bool} {h2 : HeapFileT} (e : writeInto h id blob r idx f = some (b, h2)) :
    Inv h2 ∧ h2.m_key = h.m_key ∧ h2.m_maxSize = h.m_maxSize ∧
    (∀ x ∈ A1, x ∈ h2.m_index.m_alloc ∧
      ∀ i, x.m_offset ≤ i → i < x.m_offset + x.m_size → rd h2.m_file i = rd f i) ∧
    (b = true → h2.m_index = idx ∧ h2.m_file.length = f.length ∧
      BlobAt h2.m_file r id (h.m_key.encrypt blob).2) ∧
    (b = false → 255 < id.length ∧ h2.m_index.m_alloc = A1 ∧
      (idx.isLast r = false → h2.m_file = f) ∧
      (idx.isLast r = true → h2.m_file.length = r.m_offset + h2.m_index.size)) := by
  have hrA : r ∈ idx.m_alloc := by rw [hA]; exact (mem_mmInsert _ _ _ _).mpr (Or.inl rfl)
  have hrl : r ∈ idx.m_list := (hidx.mem_list_iff r).mpr (Or.inl hrA)
  have hndA : idx.m_alloc.Nodup := (List.nodup_append.mp hidx.nodup_maps).1
  have hrA1 : r ∉ A1 := by
    rw [hA] at hndA
    exact (List.nodup_cons.mp ((perm_mmInsert _ _ _).nodup_iff.mp hndA)).1
  have hA1sub : ∀ x ∈ A1, x ∈ idx.m_alloc := by
    intro x hx; rw [hA]; exact (mem_mmInsert _ _ _ _).mpr (Or.inr hx)
  have hrw := hw r hrl
  have hO : OFF_MAX = 9223372036854775808 := rfl
  unfold writeInto at e
  rw [getWritePtr_inside f r.m_offset r.m_size hrw.2 (by omega)] at e
  simp only at e
  have hwsize : (heapWriter h.m_key blob).size = blob.length := Nat.mod_eq_of_lt hlen
  have hwbytes : (heapWriter h.m_key blob).bytes = (h.m_key.encrypt blob).2 := rfl
  have hwlen : (heapWriter h.m_key blob).bytes.length = blob.length := by
    rw [hwbytes, Simple.length_encrypt]
  cases hwd : (Blob.mk r (some r.m_offset)).writeData f id (heapWriter h.m_key blob) with
  | none => simp [hwd] at e
  | some t =>
    obtain ⟨ok, f2⟩ := t
    cases ok with
    | true =>
      simp only [hwd, Option.some.injEq, Prod.mk.injEq] at e
      obtain ⟨rfl, rfl⟩ := e
      obtain ⟨w1, w2, w3, w4, w5, w6, w7⟩ := writeData_some r r.m_offset f id _ f2 hwd
        (by rw [hwsize, hwlen])
      rw [hwsize] at w3 w6
      rw [hwlen] at w4 w7
      have hnew : BlobAt f2 r id (h.m_key.encrypt blob).2 := by
        refine ⟨w1, by rw [Simple.length_encrypt]; exact hlen,
          by rw [Simple.length_encrypt]; exact w3, ?_⟩
        rw [Simple.length_encrypt, w6, hwbytes]
        congr 1
        exact List.take_of_length_le (by rw [Simple.length_encrypt])
      have hframe : ∀ x ∈ A1, ∀ i, x.m_offset ≤ i → i < x.m_offset + x.m_size →
          rd f2 i = rd f i := by
        intro x hx i i1 i2
        have hxl : x ∈ idx.m_list := (hidx.mem_list_iff x).mpr (Or.inl (hA1sub x hx))
        have hne : x ≠ r := fun e0 => hrA1 (e0 ▸ hx)
        have := sep_disjoint hidx.sep hxl hrl hne
        apply w7
        simp only [overhead] at w3 ⊢
        omega
      refine ⟨⟨hidx, ?_, by rw [w5]; exact hs, ?_, ?_, hkey,
        by show idx.m_alloc.length < U32; rw [hA, length_mmInsert]; exact hcnt⟩, rfl, rfl, ?_,
        fun _ => ⟨rfl, w5, hnew⟩, fun c => by simp at c⟩
      · intro x hx; rw [w5]; exact hw x hx
      · intro x hx
        show ∃ id pl, BlobAt f2 x id pl ∧ x.m_key = hash id
        rw [hA] at hx
        rcases (mem_mmInsert _ _ _ _).mp hx with e0 | e0
        · subst e0; exact ⟨id, _, hnew, hrk⟩
        · obtain ⟨id1, pl1, hb1, hk1⟩ := hblobs x e0
          exact ⟨id1, pl1, hb1.congr (hframe x e0), hk1⟩
      · intro x hx y hy hxy
        show x = y
        have hxy' : storedId f2 x = storedId f2 y := hxy
        rw [hA] at hx hy
        rcases (mem_mmInsert _ _ _ _).mp hx with e0 | e0 <;>
          rcases (mem_mmInsert _ _ _ _).mp hy with e1 | e1
        · rw [e0, e1]
        · subst e0
          obtain ⟨id1, pl1, hb1, _⟩ := hblobs y e1
          rw [hnew.storedId, storedId_congr hb1 (hframe y e1)] at hxy'
          exact absurd hxy'.symm (hfresh y e1)
        · subst e1
          obtain ⟨id1, pl1, hb1, _⟩ := hblobs x e0
          rw [hnew.storedId, storedId_congr hb1 (hframe x e0)] at hxy'
          exact absurd hxy' (hfresh x e0)
        · obtain ⟨id1, pl1, hb1, _⟩ := hblobs x e0
          obtain ⟨id2, pl2, hb2, _⟩ := hblobs y e1
          rw [storedId_congr hb1 (hframe x e0), storedId_congr hb2 (hframe y e1)] at hxy'
          exact huniq x e0 y e1 hxy'
      · intro x hx
        exact ⟨hA1sub x hx, hframe x hx⟩
    | false =>
      obtain ⟨rfl, hid⟩ := writeData_false _ _ _ _ _ hwd (by rw [hwsize]; exact hlen)
      simp only [hwd] at e
      cases hrel : release r idx f2 with
      | none => simp [hrel] at e
      | some t2 =>
        obtain ⟨idx3, f3⟩ := t2
        simp [hrel] at e
        obtain ⟨rfl, rfl⟩ := e
        obtain ⟨g1, g2, g3, g4, g5, g6, g7⟩ := release_geo hidx hw hs hrA hrel
        have hA3 : idx3.m_alloc = A1 := by
          rw [g4, hA]; exact erase_mmInsert_self _ _ _ hrA1
        have hframe : ∀ x ∈ A1, ∀ i, x.m_offset ≤ i → i < x.m_offset + x.m_size →
            rd f3 i = rd f2 i := by
          intro x hx i _ i2
          exact g5 x ((g1.mem_list_iff x).mpr (Or.inl (hA3 ▸ hx))) i i2
        refine ⟨⟨g1, g2, g3, ?_, ?_, hkey,
          by show idx3.m_alloc.length < U32; rw [hA3]; omega⟩, rfl, rfl, ?_,
          fun c => by simp at c, fun _ => ⟨hid, hA3, g6, g7⟩⟩
        · intro x hx
          show ∃ id pl, BlobAt f3 x id pl ∧ x.m_key = hash id
          have hx1 : x ∈ A1 := hA3 ▸ hx
          obtain ⟨id1, pl1, hb1, hk1⟩ := hblobs x hx1
          exact ⟨id1, pl1, hb1.congr (hframe x hx1), hk1⟩
        · intro x hx y hy hxy
          show x = y
          have hxy' : storedId f3 x = storedId f3 y := hxy
          have hx1 : x ∈ A1 := hA3 ▸ hx
          have hy1 : y ∈ A1 := hA3 ▸ hy
          obtain ⟨id1, pl1, hb1, _⟩ := hblobs x hx1
          obtain ⟨id2, pl2, hb2, _⟩ := hblobs y hy1
          rw [storedId_congr hb1 (hframe x hx1), storedId_congr hb2 (hframe y hy1)] at hxy'
          exact huniq x hx1 y hy1 hxy'
        · intro x hx
          exact ⟨hA3 ▸ hx, hframe x hx⟩

/-! ## Lemmas: writeBlob on a well-formed heap -/

theorem Inv.appendOffset_le {h : HeapFileT} (hinv : Inv h) :
    8 ≤ appendOffset h.m_index ∧ appendOffset h.m_index ≤ h.m_file.length + 8 := by
  unfold appendOffset
  cases hl : h.m_index.m_list.getLast? with
  | none => simp
  | some last =>
    have hlast : last ∈ h.m_index.m_list := List.mem_of_getLast?_eq_some hl
    have hw := hinv.within last hlast
    have hsz := hinv.idx.size_lt last hlast
    simp only [Nat.mod_eq_of_lt hsz.2]
    omega

/-- `writeBlob` on a well-formed heap, step by step: the erase of the old blob,
    then either a failure that leaves the erased state, or the new blob. -/
theorem writeBlob_inv {h : HeapFileT} (hinv : Inv h) (clearId blob : List Byte)
    (hlen : blob.length < U32) (hcnt : h.m_index.m_alloc.length + 1 < U32)
    {b : Bool} {h2 : HeapFileT}
    (e : h.writeBlob clearId blob = some (b, h2)) :
    ∃ idx1 f1, eraseBlobEncryptedId (h.m_key.encrypt clearId).2 h.m_index h.m_file
        = some (true, idx1, f1) ∧
      Inv h2 ∧ h2.m_key = h.m_key ∧ h2.m_maxSize = h.m_maxSize ∧
      (∀ x ∈ idx1.m_alloc, x ∈ h2.m_index.m_alloc ∧
        ∀ i, x.m_offset ≤ i → i < x.m_offset + x.m_size → rd h2.m_file i = rd f1 i) ∧
      (b = true → (∃ r ∈ h2.m_index.m_alloc,
          BlobAt h2.m_file r (h.m_key.encrypt clearId).2 (h.m_key.encrypt blob).2) ∧
        (h2.m_file.length = f1.length ∨ h2.m_file.length ≤ h.m_maxSize)) ∧
      (b = false → 255 < clearId.length ∨ (h2.m_index = idx1 ∧ h2.m_file = f1)) := by
  unfold HeapFileT.writeBlob at e
  simp only at e
  cases he : eraseBlobEncryptedId (h.m_key.encrypt clearId).2 h.m_index h.m_file with
  | none => simp [he] at e
  | some t =>
    obtain ⟨ok, idx1, f1⟩ := t
    obtain ⟨hok, hinv1, hfresh, _, _, _, hcnt1⟩ := erase_inv hinv _ he h.m_maxSize
    subst hok
    have hcnt2 : idx1.m_alloc.length + 1 < U32 := by omega
    simp only [he] at e
    refine ⟨idx1, f1, rfl, ?_⟩
    have hidlen : (h.m_key.encrypt clearId).2.length = clearId.length :=
      Simple.length_encrypt _ _
    have hO : OFF_MAX = 9223372036854775808 := rfl
    have hU : U64 = 18446744073709551616 := rfl
    have h32 : U32 = 4294967296 := rfl
    have hM : MIN_SIZE = 256 := rfl
    rcases allocate_spec hinv1.idx (Blob.blobSize (h.m_key.encrypt clearId).2.length blob.length)
        (hash (h.m_key.encrypt clearId).2) with ⟨_, ha⟩ | ⟨r, idx2, ha, hidx2, hA2, _, hrk, _, hb2⟩
    · -- no free record fits: append
      simp only [ha] at e
      have hbs : Blob.blobSize (h.m_key.encrypt clearId).2.length blob.length < U32 :=
        Nat.mod_lt _ (by decide)
      generalize Blob.blobSize (h.m_key.encrypt clearId).2.length blob.length = bs at e hbs
      have hrnew : Record.new (appendOffset idx1) (hash (h.m_key.encrypt clearId).2) bs true =
          ⟨appendOffset idx1, hash (h.m_key.encrypt clearId).2, max bs MIN_SIZE⟩ := by
        simp [Record.new]
      rw [hrnew] at e
      obtain ⟨ao1, ao2⟩ := hinv1.appendOffset_le
      have hsm := hinv1.small
      simp only at ao1 ao2 hsm
      have hmx : max bs MIN_SIZE < U32 := by
        rcases Nat.le_total bs MIN_SIZE with c | c
        · rw [Nat.max_eq_right c]; omega
        · rw [Nat.max_eq_left c]; exact hbs
      obtain ⟨hadd, hidx3, hnot⟩ := addAllocatedBlock_tail hinv1.idx
        (hash (h.m_key.encrypt clearId).2) (max bs MIN_SIZE)
        (Nat.lt_of_lt_of_le (by decide) (Nat.le_max_right _ MIN_SIZE)) hmx
        (by simp only; omega)
      simp only at hadd hidx3 hnot
      simp only [hadd] at e
      generalize hidx3def : (HeapIndex.mk (idx1.m_list ++
        [⟨appendOffset idx1, hash (h.m_key.encrypt clearId).2, max bs MIN_SIZE⟩])
        (mmInsert Record.m_key
          ⟨appendOffset idx1, hash (h.m_key.encrypt clearId).2, max bs MIN_SIZE⟩ idx1.m_alloc)
        idx1.m_free) = idx3 at e hidx3
      have hi3 := idx3.size_lt
      have hmod : (appendOffset idx1 + max bs MIN_SIZE + idx3.size) % U64 =
          appendOffset idx1 + max bs MIN_SIZE + idx3.size := Nat.mod_eq_of_lt (by omega)
      rw [hmod] at e
      by_cases hcap : appendOffset idx1 + max bs MIN_SIZE + idx3.size > h.m_maxSize
      · rw [if_pos hcap] at e
        rw [← hidx3def, deallocate_tail hinv1.idx _ hnot] at e
        simp at e
        obtain ⟨rfl, rfl⟩ := e
        refine ⟨hinv1, rfl, rfl, fun x hx => ⟨hx, fun _ _ _ => rfl⟩, fun c => by simp at c,
          fun _ => Or.inr ⟨rfl, rfl⟩⟩
      · rw [if_neg hcap] at e
        cases ht : trim f1 (appendOffset idx1 + max bs MIN_SIZE + idx3.size) with
        | none => simp [ht] at e
        | some f2 =>
          simp only [ht] at e
          obtain ⟨t1, t2, t3⟩ := setFileSize_some _ _ _ ht
          have hframe1 : ∀ x ∈ idx1.m_alloc, ∀ i, x.m_offset ≤ i → i < x.m_offset + x.m_size →
              rd f2 i = rd f1 i := by
            intro x hx i _ i2
            have := (hinv1.idx.appendOffset_bound x (hinv1.alloc_mem_list hx)).1
            simp only at this
            exact t3 i (by omega)
          have hw3 : ∀ x ∈ idx3.m_list, 8 ≤ x.m_offset ∧ x.m_offset + x.m_size ≤ f2.length := by
            intro x hx
            rw [← hidx3def] at hx
            simp only [List.mem_append, List.mem_singleton] at hx
            rcases hx with a | a
            · have := (hinv1.idx.appendOffset_bound x a).1
              have := (hinv1.within x a).1
              simp only at *
              omega
            · subst a; simp only; omega
          have hA3 : idx3.m_alloc = mmInsert Record.m_key
              ⟨appendOffset idx1, hash (h.m_key.encrypt clearId).2, max bs MIN_SIZE⟩
              idx1.m_alloc := by rw [← hidx3def]
          obtain ⟨w1, w2, w3, w4, w5, w6⟩ := writeInto_inv (h := h) _ blob _ idx3 f2 idx1.m_alloc
            hidx3 hw3 (by omega) hinv.key hA3
            (fun x hx => by
              obtain ⟨id1, pl1, hb1, hk1⟩ := hinv1.blobs x hx
              exact ⟨id1, pl1, hb1.congr (hframe1 x hx), hk1⟩)
            (fun x hx y hy hxy => by
              obtain ⟨id1, pl1, hb1, _⟩ := hinv1.blobs x hx
              obtain ⟨id2, pl2, hb2, _⟩ := hinv1.blobs y hy
              rw [storedId_congr hb1 (hframe1 x hx), storedId_congr hb2 (hframe1 y hy)] at hxy
              exact hinv1.uniq x hx y hy hxy)
            (fun x hx => by
              obtain ⟨id1, pl1, hb1, _⟩ := hinv1.blobs x hx
              rw [storedId_congr hb1 (hframe1 x hx)]
              exact hfresh x hx)
            rfl hlen hcnt2 e
          refine ⟨w1, w2, w3, ?_, ?_, ?_⟩
          · intro x hx
            refine ⟨(w4 x hx).1, fun i i1 i2 => ?_⟩
            rw [(w4 x hx).2 i i1 i2, hframe1 x hx i i1 i2]
          · intro hb
            obtain ⟨x1, x2, x3⟩ := w5 hb
            refine ⟨⟨_, ?_, x3⟩, Or.inr ?_⟩
            · rw [x1, hA3]; exact (mem_mmInsert _ _ _ _).mpr (Or.inl rfl)
            · rw [x2, t2]; omega
          · intro hb
            exact Or.inl (hidlen ▸ (w6 hb).1)
    · -- a free record is reused
      simp only [ha] at e
      have hw2 := hb2 8 f1.length hinv1.within
      obtain ⟨w1, w2, w3, w4, w5, w6⟩ := writeInto_inv (h := h) _ blob r idx2 f1 idx1.m_alloc
        hidx2 hw2 hinv1.small hinv.key hA2 hinv1.blobs hinv1.uniq hfresh hrk hlen hcnt2 e
      refine ⟨w1, w2, w3, w4, ?_, ?_⟩
      · intro hb
        obtain ⟨x1, x2, x3⟩ := w5 hb
        refine ⟨⟨r, ?_, x3⟩, Or.inl x2⟩
        rw [x1, hA2]; exact (mem_mmInsert _ _ _ _).mpr (Or.inl rfl)
      · intro hb
        exact Or.inl (hidlen ▸ (w6 hb).1)

/-! ## Lemmas: setMaxSize on a well-formed heap -/

theorem Inv.empty (key : Simple) (hk : key.m_key ≠ []) (m : Nat) :
    Inv ⟨HeapIndex.empty, [], key, m⟩ := by
  refine ⟨⟨?_, ?_, ?_, ?_, ?_, ?_⟩, ?_, ?_, ?_, ?_, hk, ?_⟩ <;>
    simp [HeapIndex.empty, OFF_MAX, U32]

theorem IdxInv.eq_empty_of_alloc_nil {idx : HeapIndex} (h : IdxInv idx)
    (ha : idx.m_alloc = []) : idx = HeapIndex.empty := by
  have hl : idx.m_list = [] := by
    cases hg : idx.m_list.getLast? with
    | none => exact List.getLast?_eq_none_iff.mp hg
    | some l => have := h.lastAlloc l hg; rw [ha] at this; simp at this
  have hf : idx.m_free = [] := by
    have := h.perm
    rw [hl, ha] at this
    simpa using this.symm
  cases idx
  simp only [HeapIndex.empty] at *
  simp [hl, ha, hf]

/-- The eviction loop of `setMaxSize` ends on a well-formed heap, and when it
    returns the heap is well formed and the file fits the cap or is empty. -/
theorem setMaxSizeLoop_spec (maxSize : Nat) :
    ∀ (fuel : Nat) (rec : Record) (h : HeapFileT), Inv h →
      h.m_index.m_list.getLast? = some rec → h.m_index.m_alloc.length < fuel →
      ∃ res, setMaxSizeLoop maxSize fuel rec h = some res ∧
        ∀ h2, res = some h2 →
          Inv h2 ∧ (h2.size ≤ maxSize ∨ h2.size = 0) ∧ h2.m_key = h.m_key ∧
          (∀ x ∈ h2.m_index.m_alloc, x ∈ h.m_index.m_alloc ∧
            ∀ i, x.m_offset ≤ i → i < x.m_offset + x.m_size → rd h2.m_file i = rd h.m_file i) ∧
          (h2.m_maxSize = h.m_maxSize ∨
            (h2.m_index.m_alloc = [] ∧ h2.m_maxSize = UNBOUNDED)) := by
  intro fuel
  induction fuel with
  | zero => intro rec h _ _ hf; omega
  | succ fuel ih =>
    intro rec h hinv hlast hfuel
    have hrA : rec ∈ h.m_index.m_alloc := hinv.idx.lastAlloc rec hlast
    unfold setMaxSizeLoop
    cases hd : h.m_index.deallocate rec with
    | none => exact ⟨none, rfl, fun h2 c => by simp at c⟩
    | some t =>
      obtain ⟨found, idx1⟩ := t
      obtain ⟨hfound, hidx1, halloc, hbounds, hlst⟩ := deallocate_inv hinv.idx hrA hd
      subst hfound
      have hcnt : idx1.m_alloc.length + 1 = h.m_index.m_alloc.length := by
        rw [halloc, List.length_erase_of_mem hrA]
        have : 0 < h.m_index.m_alloc.length := List.length_pos_of_mem hrA
        omega
      have hsub : ∀ x ∈ idx1.m_alloc, x ∈ h.m_index.m_alloc := by
        intro x hx; rw [halloc] at hx; exact List.mem_of_mem_erase hx
      have hw1 := hbounds 8 h.m_file.length hinv.within
      have hinv1 : Inv ⟨idx1, h.m_file, h.m_key, h.m_maxSize⟩ :=
        hinv.frame idx1 h.m_file hidx1 hw1 hinv.small hsub (fun _ _ _ _ _ => rfl) (by omega) _
      have hc32 := hinv.count
      simp only
      by_cases hz : idx1.numAllocatedRecords = 0
      · rw [if_pos hz]
        have hnil : idx1.m_alloc = [] := by
          unfold HeapIndex.numAllocatedRecords at hz
          rw [Nat.mod_eq_of_lt (by omega)] at hz
          exact List.length_eq_zero.mp hz
        have hemp := hidx1.eq_empty_of_alloc_nil hnil
        refine ⟨_, rfl, ?_⟩
        intro h2 hh
        simp [HeapFileT.clear, clearFile, setFileSize, OFF_MAX] at hh
        subst hh
        refine ⟨?_, Or.inr rfl, rfl, ?_, Or.inr ⟨rfl, rfl⟩⟩
        · rw [hemp]; exact Inv.empty _ hinv.key _
        · intro x hx; simp [HeapIndex.clear] at hx
      · rw [if_neg hz]
        cases hl1 : idx1.m_list.getLast? with
        | none => exact ⟨none, rfl, fun h2 c => by simp at c⟩
        | some rec1 =>
          simp only
          by_cases hgt : (rec1.m_offset + rec1.m_size + idx1.size) % U64 > maxSize
          · rw [if_pos hgt]
            simp only [if_true]
            obtain ⟨res, hres, hprop⟩ := ih rec1 ⟨idx1, h.m_file, h.m_key, h.m_maxSize⟩ hinv1 hl1
              (by simp only; omega)
            refine ⟨res, hres, ?_⟩
            intro h2 hh
            obtain ⟨p1, p2, p3, p4, p5⟩ := hprop h2 hh
            refine ⟨p1, p2, p3, ?_, p5⟩
            intro x hx
            exact ⟨hsub x (p4 x hx).1, (p4 x hx).2⟩
          · rw [if_neg hgt]
            refine ⟨_, rfl, ?_⟩
            intro h2 hh
            cases ht : trim h.m_file ((rec1.m_offset + rec1.m_size + idx1.size) % U64) with
            | none => simp [ht] at hh
            | some f2 =>
              simp [ht] at hh
              subst hh
              obtain ⟨t1, t2, t3⟩ := setFileSize_some _ _ _ ht
              have hr1l : rec1 ∈ idx1.m_list := List.mem_of_getLast?_eq_some hl1
              have hr1w := hw1 rec1 hr1l
              have hO : OFF_MAX = 9223372036854775808 := rfl
              have hU : U64 = 18446744073709551616 := rfl
              have h32 : U32 = 4294967296 := rfl
              have hsm := hinv.small
              have hisz := idx1.size_lt
              have hmod : (rec1.m_offset + rec1.m_size + idx1.size) % U64 =
                  rec1.m_offset + rec1.m_size + idx1.size := Nat.mod_eq_of_lt (by omega)
              rw [hmod] at t1 t2 t3 hgt
              have hao : appendOffset idx1 = rec1.m_offset + rec1.m_size := by
                unfold appendOffset
                rw [hl1]
                exact Nat.mod_eq_of_lt (by omega)
              have hw2 : ∀ x ∈ idx1.m_list,
                  8 ≤ x.m_offset ∧ x.m_offset + x.m_size ≤ f2.length := by
                intro x hx
                have := (hidx1.appendOffset_bound x hx).1
                have := (hw1 x hx).1
                omega
              have hsame : ∀ x ∈ idx1.m_alloc, ∀ i, x.m_offset ≤ i →
                  i < x.m_offset + x.m_size → rd f2 i = rd h.m_file i := by
                intro x hx i _ i2
                have := (hidx1.appendOffset_bound x ((hidx1.mem_list_iff x).mpr (Or.inl hx))).1
                exact t3 i (by omega)
              refine ⟨hinv.frame idx1 f2 hidx1 hw2 (by omega) hsub hsame (by omega) _, ?_, rfl,
                fun x hx => ⟨hsub x hx, hsame x hx⟩, Or.inl rfl⟩
              left
              show f2.length ≤ maxSize
              omega

theorem Inv.with_maxSize {h : HeapFileT} (hinv : Inv h) (m : Nat) :
    Inv { h with m_maxSize := m } :=
  hinv.frame h.m_index h.m_file hinv.idx hinv.within hinv.small (fun _ hr => hr)
    (fun _ _ _ _ _ => rfl) (Nat.le_refl _) m

/-- `setMaxSize` ends on a well-formed heap, and when it returns the heap is
    well formed and the file fits the cap or is empty. -/
theorem setMaxSize_spec {h : HeapFileT} (hinv : Inv h) (n : Nat) :
    ∃ res, h.setMaxSize n = some res ∧
      ∀ h2, res = some h2 →
        Inv h2 ∧ (h2.size ≤ n ∨ h2.size = 0) ∧ h2.m_key = h.m_key ∧
        (∀ x ∈ h2.m_index.m_alloc, x ∈ h.m_index.m_alloc ∧
          ∀ i, x.m_offset ≤ i → i < x.m_offset + x.m_size → rd h2.m_file i = rd h.m_file i) ∧
        (h2.m_maxSize = n ∨ (h2.m_index.m_alloc = [] ∧ h2.m_maxSize = UNBOUNDED)) := by
  unfold HeapFileT.setMaxSize
  simp only
  by_cases h1 : h.m_file.length < n
  · rw [if_pos h1]
    refine ⟨_, rfl, ?_⟩
    intro h2 hh
    simp at hh
    subst hh
    exact ⟨hinv.with_maxSize n, Or.inl (Nat.le_of_lt h1), rfl,
      fun x hx => ⟨hx, fun _ _ _ => rfl⟩, Or.inl rfl⟩
  · rw [if_neg h1]
    have hc32 := hinv.count
    by_cases hz : h.m_index.numAllocatedRecords = 0
    · have hz' : (HeapIndex.numAllocatedRecords
          ({ h with m_maxSize := n } : HeapFileT).m_index) = 0 := hz
      rw [if_pos hz']
      have hnil : h.m_index.m_alloc = [] := by
        unfold HeapIndex.numAllocatedRecords at hz
        rw [Nat.mod_eq_of_lt hc32] at hz
        exact List.length_eq_zero.mp hz
      have hemp := hinv.idx.eq_empty_of_alloc_nil hnil
      refine ⟨_, rfl, ?_⟩
      intro h2 hh
      simp [HeapFileT.clear, clearFile, setFileSize, OFF_MAX] at hh
      subst hh
      refine ⟨?_, Or.inr rfl, rfl, ?_, Or.inr ⟨rfl, rfl⟩⟩
      · rw [hemp]; exact Inv.empty _ hinv.key _
      · intro x hx; simp [HeapIndex.clear] at hx
    · have hz' : ¬ (HeapIndex.numAllocatedRecords
          ({ h with m_maxSize := n } : HeapFileT).m_index) = 0 := hz
      rw [if_neg hz']
      cases hl : h.m_index.m_list.getLast? with
      | none => exact ⟨none, by simp [hl], fun h2 c => by simp at c⟩
      | some rec =>
        simp only [hl]
        obtain ⟨res, hres, hprop⟩ := setMaxSizeLoop_spec n (h.m_index.m_alloc.length + 1) rec
          { h with m_maxSize := n } (hinv.with_maxSize n) hl (Nat.lt_succ_self _)
        refine ⟨res, hres, ?_⟩
        intro h2 hh
        obtain ⟨p1, p2, p3, p4, p5⟩ := hprop h2 hh
        exact ⟨p1, p2, p3, p4, p5⟩

/-- Every reachable heap is well formed and carries the cipher it was opened
    with. -/
theorem Reach.inv {key : List Byte} {h : HeapFileT} (hr : Reach key h) :
    Inv h ∧ h.m_key = Simple.new key := by
  induction hr with
  | create => exact ⟨Inv.empty _ (Simple.new_ne key) _, rfl⟩
  | put id data b _ hlen hcnt e ih =>
    obtain ⟨_, _, _, hinv2, hk, _⟩ := writeBlob_inv ih.1 id data hlen hcnt e
    exact ⟨hinv2, hk.trans ih.2⟩
  | @erase h h1 id b _ e ih =>
    unfold HeapFileT.eraseBlob at e
    cases he : eraseBlobEncryptedId (h.m_key.encrypt id).2 h.m_index h.m_file with
    | none => simp [he] at e
    | some t =>
      obtain ⟨ok, idx1, f1⟩ := t
      simp [he] at e
      obtain ⟨_, rfl⟩ := e
      obtain ⟨_, hinv1, _⟩ := erase_inv ih.1 _ he h.m_maxSize
      exact ⟨hinv1, ih.2⟩
  | setMaxSize n _ _ e ih =>
    obtain ⟨res, hres, hprop⟩ := setMaxSize_spec ih.1 n
    rw [e] at hres
    simp at hres
    obtain ⟨p1, _, p3, _⟩ := hprop _ hres.symm
    exact ⟨p1, p3.trans ih.2⟩

/-! ## Lemmas: lookups by clear id -/

theorem Inv.stored_or_absent {h : HeapFileT} (hinv : Inv h) (eid : List Byte) :
    (∃ r ∈ h.m_index.m_alloc, ∃ pl, BlobAt h.m_file r eid pl) ∨
    (∀ r ∈ h.m_index.m_alloc, storedId h.m_file r ≠ eid) := by
  by_cases hex : ∃ r ∈ h.m_index.m_alloc, storedId h.m_file r = eid
  · obtain ⟨r, hr, hs⟩ := hex
    obtain ⟨id, pl, hb, _⟩ := hinv.blobs r hr
    rw [hb.storedId] at hs
    subst hs
    exact Or.inl ⟨r, hr, pl, hb⟩
  · right
    intro r hr hs
    exact hex ⟨r, hr, hs⟩

theorem XOR_injective (key a b : List Byte) (h : (XOR key a).2 = (XOR key b).2) : a = b := by
  have := congrArg (fun x => (XOR key x).2) h
  simpa [XOR_XOR] using this

/-! ## Lemmas: scenarios -/

theorem Reach.of_runFrom {key : List Byte} :
    ∀ (ops : List Op) (h h2 : HeapFileT), Reach key h → runFrom h ops = some h2 → Reach key h2 := by
  intro ops
  induction ops with
  | nil => intro h h2 hr e; simp [runFrom] at e; exact e ▸ hr
  | cons op ops ih =>
    intro h h2 hr e
    unfold runFrom at e
    cases hs : stepOp h op with
    | none => simp [hs] at e
    | some h1 =>
      simp only [hs] at e
      refine ih h1 h2 ?_ e
      cases op with
      | put id data =>
        simp only [stepOp] at hs
        split at hs
        · rename_i c
          cases hw : h.writeBlob id data with
          | none => simp [hw] at hs
          | some t =>
            simp [hw] at hs
            exact Reach.put id data t.1 hr c.1 c.2 (by rw [hw, ← hs])
        · simp at hs
      | erase id =>
        simp only [stepOp] at hs
        cases hw : h.eraseBlob id with
        | none => simp [hw] at hs
        | some t =>
          simp [hw] at hs
          exact Reach.erase id t.1 hr (by rw [hw, ← hs])
      | setMaxSize n =>
        simp only [stepOp] at hs
        split at hs
        · rename_i c
          cases hw : h.setMaxSize n with
          | none => simp [hw] at hs
          | some t =>
            cases t with
            | none => simp [hw] at hs
            | some h3 =>
              simp [hw] at hs
              exact Reach.setMaxSize n hr c (by rw [hw, hs])
        · simp at hs

theorem Reach.of_run {key : List Byte} {ops : List Op} {h : HeapFileT}
    (e : run key ops = some h) : Reach key h :=
  Reach.of_runFrom ops _ h Reach.create e

/-! ## The heap without the bytes: simulation -/

theorem release_len (r : Record) (idx : HeapIndex) (f : List Byte) :
    (release r idx f).map (fun x => (x.1, x.2.length)) = absRelease r idx f.length := by
  unfold release absRelease
  cases hd : idx.deallocate r with
  | none => rfl
  | some x =>
    obtain ⟨b, idx1⟩ := x
    simp only
    by_cases hl : idx.isLast r = true
    · simp only [hl, if_true, trim]
      by_cases hn : OFF_MAX ≤ (r.m_offset + idx1.size) % U64
      · simp [setFileSize, hn]
      · rw [setFileSize_eq _ _ (by omega), if_neg hn]
        simp
        omega
    · simp [hl]

theorem release_of_abs {r : Record} {idx : HeapIndex} {f : List Byte} {x : HeapIndex × Nat}
    (e : absRelease r idx f.length = some x) :
    ∃ f2, release r idx f = some (x.1, f2) ∧ f2.length = x.2 := by
  have h := release_len r idx f
  rw [e] at h
  cases hr : release r idx f with
  | none => rw [hr] at h; simp at h
  | some y =>
    rw [hr] at h
    simp only [Option.map_some', Option.some.injEq] at h
    refine ⟨y.2, ?_, ?_⟩
    · rw [← h]
    · rw [← h]

theorem release_none_of_abs {r : Record} {idx : HeapIndex} {f : List Byte}
    (e : absRelease r idx f.length = none) : release r idx f = none := by
  have h := release_len r idx f
  rw [e] at h
  cases hr : release r idx f with
  | none => rfl
  | some y => rw [hr] at h; simp at h

/-- What `absErase` looks up is what `findBlob` finds. -/
theorem Describes.find {a : AbsHeap} {h : HeapFileT} (d : Describes a h) (eid : List Byte) :
    (a.ids.find? (fun p => decide (p.2 = eid)) = none ∧
      findBlob eid h.m_index h.m_file = some (h.m_file, Blob.nil) ∧
      ∀ r ∈ h.m_index.m_alloc, storedId h.m_file r ≠ eid) ∨
    ∃ r ∈ h.m_index.m_alloc, a.ids.find? (fun p => decide (p.2 = eid)) = some (r, eid) ∧
      (r, eid) ∈ a.ids ∧ storedId h.m_file r = eid ∧
      findBlob eid h.m_index h.m_file = some (h.m_file, Blob.mk r (some r.m_offset)) := by
  rcases findBlob_spec d.inv eid with ⟨hf, hno⟩ | ⟨r, hr, hf, hs⟩
  · left
    refine ⟨?_, hf, hno⟩
    rw [List.find?_eq_none]
    intro p hp
    have := d.ids_sound p hp
    simp only [decide_eq_true_eq]
    intro hpe
    exact hno p.1 this.1 (this.2.trans hpe)
  · right
    refine ⟨r, hr, ?_, ?_, hs, hf⟩
    · have hmem : (r, eid) ∈ a.ids := hs ▸ d.ids_complete r hr
      cases hfind : a.ids.find? (fun p => decide (p.2 = eid)) with
      | none =>
        rw [List.find?_eq_none] at hfind
        exact absurd (by simp) (hfind _ hmem)
      | some p =>
        have hp := List.mem_of_find?_eq_some hfind
        have hpe : p.2 = eid := by simpa using List.find?_some hfind
        have := d.ids_sound p hp
        have : p.1 = r := d.inv.uniq p.1 this.1 r hr (by rw [this.2, hpe, hs])
        rw [← this, ← hpe]
    · exact hs ▸ d.ids_complete r hr

/-- `eraseBlobEncryptedId` follows `absErase`. -/
theorem sim_erase {a : AbsHeap} {h : HeapFileT} (d : Describes a h) (eid : List Byte)
    {a2 : AbsHeap} (e : absErase a eid = some a2) :
    ∃ idx2 f2, eraseBlobEncryptedId eid h.m_index h.m_file = some (true, idx2, f2) ∧
      Describes a2 ⟨idx2, f2, h.m_key, h.m_maxSize⟩ ∧ ∀ p ∈ a2.ids, p.2 ≠ eid := by
  unfold absErase at e
  unfold eraseBlobEncryptedId
  rcases d.find eid with ⟨hfa, hfc, hno⟩ | ⟨r, hr, hfa, hmem, hs, hfc⟩
  · rw [hfa] at e
    simp only [Option.some.injEq] at e
    subst e
    rw [hfc]
    refine ⟨h.m_index, h.m_file, by simp [Blob.nil, Blob.isNil], d, ?_⟩
    intro p hp hpe
    have := d.ids_sound p hp
    exact hno p.1 this.1 (this.2.trans hpe)
  · rw [hfa] at e
    simp only [Option.map_eq_some'] at e
    obtain ⟨x, hx, rfl⟩ := e
    rw [d.idx, d.flen] at hx
    obtain ⟨f2, hrel, hlen⟩ := release_of_abs hx
    rw [hfc]
    simp only [Blob.isNil, Option.isNone_some, Bool.false_eq_true, if_false, hrel,
      Option.map_some']
    refine ⟨x.1, f2, rfl, ?_, ?_⟩
    · obtain ⟨hinv2, hA2, hframe, _, _⟩ := release_inv d.inv hr hrel h.m_maxSize
      have hnd := d.inv.idx.nodup_maps
      rw [List.nodup_append] at hnd
      have hsame : ∀ q ∈ h.m_index.m_alloc, q ≠ r → storedId f2 q = storedId h.m_file q := by
        intro q hq hqr
        obtain ⟨id, pl, hb, _⟩ := d.inv.blobs q hq
        refine storedId_congr hb (hframe q ?_)
        rw [hA2]
        exact (List.mem_erase_of_ne hqr).mpr hq
      refine ⟨hinv2, rfl, hlen.symm, d.maxSize, d.nodup.erase _, ?_, ?_⟩
      · intro q hq
        have hq1 : q ∈ a.ids := List.mem_of_mem_erase hq
        have hqp : q ≠ (r, eid) := fun hh => (List.Nodup.mem_erase_iff d.nodup).mp hq |>.1 hh
        have hq2 := d.ids_sound q hq1
        have hqr : q.1 ≠ r := by
          intro hh
          apply hqp
          ext1
          · exact hh
          · rw [← hq2.2, hh, hs]
        show q.1 ∈ x.1.m_alloc ∧ storedId f2 q.1 = q.2
        rw [hA2]
        exact ⟨(List.mem_erase_of_ne hqr).mpr hq2.1, (hsame q.1 hq2.1 hqr).trans hq2.2⟩
      · intro q hq
        change q ∈ x.1.m_alloc at hq
        rw [hA2] at hq
        have hq1 : q ∈ h.m_index.m_alloc := List.mem_of_mem_erase hq
        have hqr : q ≠ r := fun hh => (List.Nodup.mem_erase_iff hnd.1).mp hq |>.1 hh
        show (q, storedId f2 q) ∈ a.ids.erase (r, eid)
        rw [hsame q hq1 hqr]
        refine (List.mem_erase_of_ne ?_).mpr (d.ids_complete q hq1)
        intro hh
        exact hqr (congrArg Prod.fst hh)
    · intro q hq hqe
      have hq1 : q ∈ a.ids := List.mem_of_mem_erase hq
      have hqp : q ≠ (r, eid) := fun hh => (List.Nodup.mem_erase_iff d.nodup).mp hq |>.1 hh
      have hq2 := d.ids_sound q hq1
      apply hqp
      have : q.1 = r := d.inv.uniq q.1 hq2.1 r hr (by rw [hq2.2, hqe, hs])
      ext1
      · exact this
      · exact hqe

/-- When `absErase` aborts, so does `eraseBlobEncryptedId`. -/
theorem sim_erase_none {a : AbsHeap} {h : HeapFileT} (d : Describes a h) (eid : List Byte)
    (e : absErase a eid = none) : eraseBlobEncryptedId eid h.m_index h.m_file = none := by
  unfold absErase at e
  unfold eraseBlobEncryptedId
  rcases d.find eid with ⟨hfa, hfc, hno⟩ | ⟨r, hr, hfa, hmem, hs, hfc⟩
  · rw [hfa] at e
    simp at e
  · rw [hfa] at e
    simp only [Option.map_eq_none'] at e
    rw [d.idx, d.flen] at e
    rw [hfc]
    simp [Blob.isNil, release_none_of_abs e]

/-- `writeData` succeeds when the blob fits the record and the record lies in
    the file. -/
theorem writeData_total (r : Record) (p : Nat) (mem id : List Byte) (w : BlobWriter)
    (h1 : overhead + id.length + w.size ≤ r.m_size) (h2 : id.length ≤ 255)
    (h3 : w.size < U32) (h4 : p + overhead + id.length + w.bytes.length ≤ mem.length) :
    ∃ m2, (Blob.mk r (some p)).writeData mem id w = some (true, m2) := by
  have hO : overhead = 9 := rfl
  have l1 : (wr mem p [toByte id.length]).length = mem.length :=
    length_wr _ _ _ (by simp; omega)
  have l2 : (wr (wr mem p [toByte id.length]) (p + 1) id).length = mem.length := by
    rw [length_wr _ _ _ (by omega), l1]
  have l3 : (wr (wr (wr mem p [toByte id.length]) (p + 1) id) (p + 1 + id.length + 4)
      (be32 w.size)).length = mem.length := by
    rw [length_wr _ _ _ (by rw [length_be32]; omega), l2]
  have l4 : (wr (wr (wr (wr mem p [toByte id.length]) (p + 1) id) (p + 1 + id.length + 4)
      (be32 w.size)) (p + 1 + id.length + 8) w.bytes).length = mem.length := by
    rw [length_wr _ _ _ (by omega), l3]
  unfold Blob.writeData
  rw [if_neg (by simp only; omega), if_neg (by omega)]
  simp only
  rw [store_eq _ _ _ (by simp; omega)]
  simp only [Option.bind_eq_bind, Option.some_bind]
  rw [store_eq _ _ _ (by omega)]
  simp only [Option.some_bind]
  rw [store_eq _ _ _ (by rw [length_be32]; omega)]
  simp only [Option.some_bind]
  rw [store_eq _ _ _ (by omega)]
  simp only [Option.some_bind]
  rw [store_eq _ _ _ (by rw [length_be32]; omega)]
  exact ⟨_, rfl⟩

/-- `writeInto` follows `absWriteInto` (ids of at most 255 bytes). -/
theorem sim_writeInto {h : HeapFileT} (id blob : List Byte) (r : Record) (idx : HeapIndex)
    (f : List Byte) (A1 : List Record) (hidx : IdxInv idx)
    (hw : ∀ x ∈ idx.m_list, 8 ≤ x.m_offset ∧ x.m_offset + x.m_size ≤ f.length)
    (hs : f.length < OFF_MAX) (hkey : h.m_key.m_key ≠ [])
    (hA : idx.m_alloc = mmInsert Record.m_key r A1)
    (hblobs : ∀ x ∈ A1, ∃ id pl, BlobAt f x id pl ∧ x.m_key = hash id)
    (huniq : ∀ x ∈ A1, ∀ y ∈ A1, storedId f x = storedId f y → x = y)
    (hfresh : ∀ x ∈ A1, storedId f x ≠ id)
    (hrk : r.m_key = hash id) (hlen : blob.length < U32) (hcnt : A1.length + 1 < U32)
    (hid : id.length ≤ 255) (a1 : AbsHeap) {b : Bool} {a2 : AbsHeap}
    (e : absWriteInto a1 id blob.length r idx f.length = some (b, a2)) :
    ∃ h2, writeInto h id blob r idx f = some (true, h2) ∧ b = true ∧
      a2 = { a1 with idx := idx, flen := f.length, ids := (r, id) :: a1.ids } ∧
      h2.m_index = idx ∧ h2.m_file.length = f.length ∧
      Inv h2 ∧ h2.m_key = h.m_key ∧ h2.m_maxSize = h.m_maxSize ∧
      (∀ x ∈ A1, x ∈ h2.m_index.m_alloc ∧
        ∀ i, x.m_offset ≤ i → i < x.m_offset + x.m_size → rd h2.m_file i = rd f i) ∧
      BlobAt h2.m_file r id (h.m_key.encrypt blob).2 := by
  have hrl : r ∈ idx.m_list := by
    refine (hidx.mem_list_iff r).mpr (Or.inl ?_)
    rw [hA]
    exact (mem_mmInsert _ _ _ _).mpr (Or.inl rfl)
  have hwr := hw r hrl
  have hO : OFF_MAX = 9223372036854775808 := rfl
  unfold absWriteInto at e
  have hp : absWritePtr f.length r.m_offset r.m_size = some f.length := by
    unfold absWritePtr
    rw [if_neg (by omega), if_neg (by omega)]
  rw [hp] at e
  simp only at e
  have hmod : blob.length % U32 = blob.length := Nat.mod_eq_of_lt hlen
  rw [hmod] at e
  by_cases c1 : overhead + id.length + blob.length > r.m_size
  · rw [if_pos c1] at e
    simp at e
  rw [if_neg c1, if_neg (by omega)] at e
  by_cases c2 : r.m_offset + overhead + id.length + blob.length ≤ f.length
  · rw [if_pos c2] at e
    simp only [Option.some.injEq, Prod.mk.injEq] at e
    obtain ⟨hb, ha2⟩ := e
    obtain ⟨m2, hm2⟩ := writeData_total r r.m_offset f id (heapWriter h.m_key blob)
      (by simp only [heapWriter, hmod]; omega) hid (by simp only [heapWriter, hmod]; exact hlen)
      (by simp only [heapWriter, Simple.length_encrypt]; omega)
    have hwi : writeInto h id blob r idx f
        = some (true, { h with m_index := idx, m_file := m2 }) := by
      unfold writeInto
      rw [getWritePtr_inside _ _ _ hwr.2 (by omega)]
      simp only [hm2]
    obtain ⟨w1, w2, w3, w4, w5, _⟩ := writeInto_inv (h := h) id blob r idx f A1
      hidx hw hs hkey hA hblobs huniq hfresh hrk hlen hcnt hwi
    obtain ⟨x1, x2, x3⟩ := w5 rfl
    exact ⟨_, hwi, hb.symm, ha2.symm, x1, x2, w1, w2, w3, w4, x3⟩
  · rw [if_neg c2] at e
    simp at e

/-- The description after a blob has been stored in the new record `r`. -/
theorem Describes.put {a1 : AbsHeap} {h1 h2 : HeapFileT} (d1 : Describes a1 h1)
    (eid pl : List Byte) (hfresh : ∀ p ∈ a1.ids, p.2 ≠ eid) (r : Record) (hinv2 : Inv h2)
    (hA : h2.m_index.m_alloc = mmInsert Record.m_key r h1.m_index.m_alloc)
    (hm : h2.m_maxSize = h1.m_maxSize)
    (hframe : ∀ x ∈ h1.m_index.m_alloc, ∀ i, x.m_offset ≤ i → i < x.m_offset + x.m_size →
      rd h2.m_file i = rd h1.m_file i)
    (hb : BlobAt h2.m_file r eid pl) :
    Describes { a1 with idx := h2.m_index, flen := h2.m_file.length, ids := (r, eid) :: a1.ids }
      h2 := by
  have hsame : ∀ q ∈ h1.m_index.m_alloc, storedId h2.m_file q = storedId h1.m_file q := by
    intro q hq
    obtain ⟨id, pl, hb, _⟩ := d1.inv.blobs q hq
    exact storedId_congr hb (hframe q hq)
  refine ⟨hinv2, rfl, rfl, d1.maxSize.trans hm.symm, ?_, ?_, ?_⟩
  · refine List.nodup_cons.mpr ⟨fun hin => hfresh _ hin rfl, d1.nodup⟩
  · intro p hp
    simp only [List.mem_cons] at hp
    rcases hp with rfl | hp
    · exact ⟨hA ▸ (mem_mmInsert _ _ _ _).mpr (Or.inl rfl), hb.storedId⟩
    · have := d1.ids_sound p hp
      exact ⟨hA ▸ (mem_mmInsert _ _ _ _).mpr (Or.inr this.1), (hsame _ this.1).trans this.2⟩
  · intro q hq
    rw [hA, mem_mmInsert] at hq
    simp only [List.mem_cons]
    rcases hq with rfl | hq
    · left; rw [hb.storedId]
    · right; rw [hsame q hq]; exact d1.ids_complete q hq

/-- `writeBlob` follows `absPut` (ids of at most 255 bytes, payloads below
    4 GiB). -/
theorem sim_put {a : AbsHeap} {h : HeapFileT} (d : Describes a h) (clearId blob : List Byte)
    (hid : clearId.length ≤ 255) (hlen : blob.length < U32)
    (hcnt : h.m_index.m_alloc.length + 1 < U32) {b : Bool} {a2 : AbsHeap}
    (e : absPut a (h.m_key.encrypt clearId).2 blob.length = some (b, a2)) :
    ∃ h2, h.writeBlob clearId blob = some (b, h2) ∧ Describes a2 h2 ∧ h2.m_key = h.m_key := by
  have hidlen : (h.m_key.encrypt clearId).2.length = clearId.length :=
    Simple.length_encrypt _ _
  have hO : OFF_MAX = 9223372036854775808 := rfl
  have hU : U64 = 18446744073709551616 := rfl
  have h32 : U32 = 4294967296 := rfl
  have hM : MIN_SIZE = 256 := rfl
  unfold absPut at e
  unfold HeapFileT.writeBlob
  simp only
  generalize (h.m_key.encrypt clearId).2 = eid at e hidlen ⊢
  cases hae : absErase a eid with
  | none => simp [hae] at e
  | some a1 =>
    simp only [hae] at e
    obtain ⟨idx1, f1, he, d1, hfreshA⟩ := sim_erase d eid hae
    have hinv1 := d1.inv
    have hi1 : a1.idx = idx1 := d1.idx
    have hl1 : a1.flen = f1.length := d1.flen
    have hfresh : ∀ x ∈ idx1.m_alloc, storedId f1 x ≠ eid :=
      fun x hx => hfreshA _ (d1.ids_complete x hx)
    obtain ⟨_, _, _, _, _, _, hcnt1⟩ := erase_inv d.inv _ he h.m_maxSize
    have hcnt2 : idx1.m_alloc.length + 1 < U32 := by omega
    rw [hi1, hl1, d.maxSize] at e
    simp only [he]
    rcases allocate_spec hinv1.idx (Blob.blobSize eid.length blob.length) (hash eid)
      with ⟨_, ha⟩ | ⟨r, idx2, ha, hidx2, hA2, _, hrk, _, hb2⟩
    · -- no free record fits: append
      simp only [ha] at e ⊢
      have hbs : Blob.blobSize eid.length blob.length < U32 := Nat.mod_lt _ (by decide)
      generalize Blob.blobSize eid.length blob.length = bs at e hbs ⊢
      have hrnew : Record.new (appendOffset idx1) (hash eid) bs true =
          ⟨appendOffset idx1, hash eid, max bs MIN_SIZE⟩ := by
        simp [Record.new]
      rw [hrnew] at e ⊢
      obtain ⟨ao1, ao2⟩ := hinv1.appendOffset_le
      have hsm := hinv1.small
      simp only at ao1 ao2 hsm
      have hmx : max bs MIN_SIZE < U32 := by
        rcases Nat.le_total bs MIN_SIZE with c | c
        · rw [Nat.max_eq_right c]; omega
        · rw [Nat.max_eq_left c]; exact hbs
      obtain ⟨hadd, hidx3, hnot⟩ := addAllocatedBlock_tail hinv1.idx
        (hash eid) (max bs MIN_SIZE)
        (Nat.lt_of_lt_of_le (by decide) (Nat.le_max_right _ MIN_SIZE)) hmx (by simp only; omega)
      simp only at hadd hidx3 hnot
      simp only [hadd] at e ⊢
      generalize hidx3def : (HeapIndex.mk (idx1.m_list ++
        [⟨appendOffset idx1, hash eid, max bs MIN_SIZE⟩])
        (mmInsert Record.m_key ⟨appendOffset idx1, hash eid, max bs MIN_SIZE⟩ idx1.m_alloc)
        idx1.m_free) = idx3 at e hidx3 ⊢
      have hi3 := idx3.size_lt
      have hmod : (appendOffset idx1 + max bs MIN_SIZE + idx3.size) % U64 =
          appendOffset idx1 + max bs MIN_SIZE + idx3.size := Nat.mod_eq_of_lt (by omega)
      rw [hmod] at e ⊢
      by_cases hcap : appendOffset idx1 + max bs MIN_SIZE + idx3.size > h.m_maxSize
      · rw [if_pos hcap] at e ⊢
        rw [← hidx3def, deallocate_tail hinv1.idx _ hnot] at e ⊢
        simp only [Option.map_some', Option.some.injEq, Prod.mk.injEq] at e ⊢
        obtain ⟨rfl, rfl⟩ := e
        refine ⟨_, ⟨rfl, rfl⟩, ?_, rfl⟩
        cases a1
        simp only at hi1 hl1
        subst hi1
        subst hl1
        exact d1
      · rw [if_neg hcap] at e ⊢
        have hproj : appendOffset idx1 + max bs MIN_SIZE + idx3.size < OFF_MAX := by
          by_contra hc
          rw [if_pos (by omega)] at e
          simp at e
        rw [if_neg (by omega)] at e
        have ht := setFileSize_eq f1 _ hproj
        generalize f1.take (appendOffset idx1 + max bs MIN_SIZE + idx3.size) ++
          List.replicate (appendOffset idx1 + max bs MIN_SIZE + idx3.size - f1.length) 0
          = f2 at ht
        simp only [trim, ht]
        obtain ⟨t1, t2, t3⟩ := setFileSize_some _ _ _ ht
        have hframe1 : ∀ x ∈ idx1.m_alloc, ∀ i, x.m_offset ≤ i → i < x.m_offset + x.m_size →
            rd f2 i = rd f1 i := by
          intro x hx i _ i2
          have := (hinv1.idx.appendOffset_bound x (hinv1.alloc_mem_list hx)).1
          simp only at this
          exact t3 i (by omega)
        have hw3 : ∀ x ∈ idx3.m_list, 8 ≤ x.m_offset ∧ x.m_offset + x.m_size ≤ f2.length := by
          intro x hx
          rw [← hidx3def] at hx
          simp only [List.mem_append, List.mem_singleton] at hx
          rcases hx with c | c
          · have := (hinv1.idx.appendOffset_bound x c).1
            have := (hinv1.within x c).1
            simp only at *
            omega
          · subst c; simp only; omega
        have hA3 : idx3.m_alloc = mmInsert Record.m_key
            ⟨appendOffset idx1, hash eid, max bs MIN_SIZE⟩ idx1.m_alloc := by rw [← hidx3def]
        rw [← t2] at e
        obtain ⟨h2, hwi, hb, ha2, x1, x2, w1, w2, w3, w4, x3⟩ :=
          sim_writeInto (h := h) eid blob _ idx3 f2 idx1.m_alloc
            hidx3 hw3 (by omega) d.inv.key hA3
            (fun x hx => by
              obtain ⟨id1, pl1, hb1, hk1⟩ := hinv1.blobs x hx
              exact ⟨id1, pl1, hb1.congr (hframe1 x hx), hk1⟩)
            (fun x hx y hy hxy => by
              obtain ⟨id1, pl1, hb1, _⟩ := hinv1.blobs x hx
              obtain ⟨id2, pl2, hb2, _⟩ := hinv1.blobs y hy
              rw [storedId_congr hb1 (hframe1 x hx), storedId_congr hb2 (hframe1 y hy)] at hxy
              exact hinv1.uniq x hx y hy hxy)
            (fun x hx => by
              obtain ⟨id1, pl1, hb1, _⟩ := hinv1.blobs x hx
              rw [storedId_congr hb1 (hframe1 x hx)]
              exact hfresh x hx)
            rfl hlen hcnt2 (by omega) a1 e
        subst hb
        refine ⟨h2, hwi, ?_, w2⟩
        have := d1.put eid _ hfreshA _ w1 (x1 ▸ hA3) w3
          (fun x hx i i1 i2 => by rw [(w4 x hx).2 i i1 i2, hframe1 x hx i i1 i2]) x3
        rw [ha2, ← x1, ← x2]
        exact this
    · -- a free record is reused
      simp only [ha] at e ⊢
      have hw2 := hb2 8 f1.length hinv1.within
      obtain ⟨h2, hwi, hb, ha2, x1, x2, w1, w2, w3, w4, x3⟩ :=
        sim_writeInto (h := h) eid blob r idx2 f1 idx1.m_alloc
          hidx2 hw2 hinv1.small d.inv.key hA2 hinv1.blobs hinv1.uniq hfresh hrk hlen hcnt2
          (by omega) a1 e
      subst hb
      refine ⟨h2, hwi, ?_, w2⟩
      have := d1.put eid _ hfreshA _ w1 (x1 ▸ hA2) w3 (fun x hx => (w4 x hx).2) x3
      rw [ha2, ← x1, ← x2]
      exact this

theorem Describes.create (key : List Byte) : Describes AbsHeap.create (HeapFileT.create key) :=
  ⟨Inv.empty _ (Simple.new_ne key) _, rfl, rfl, rfl, List.nodup_nil,
    fun _ hp => by simp [AbsHeap.create] at hp,
    fun _ hr => by simp [HeapFileT.create, HeapIndex.empty] at hr⟩

/-- One call follows its abstract step. -/
theorem sim_step {a : AbsHeap} {h : HeapFileT} (d : Describes a h) (op : Op) {a2 : AbsHeap}
    (e : absStep h.m_key a op.toAbs = some a2) :
    ∃ h2, stepOp h op = some h2 ∧ Describes a2 h2 ∧ h2.m_key = h.m_key := by
  cases op with
  | put id data =>
    simp only [Op.toAbs, absStep] at e
    split at e
    · rename_i c
      rw [Option.map_eq_some'] at e
      obtain ⟨⟨b, a3⟩, hx, rfl⟩ := e
      rw [d.idx] at c
      obtain ⟨h2, hw, d2, hk⟩ := sim_put d id data c.1 c.2.1 c.2.2 hx
      refine ⟨h2, ?_, d2, hk⟩
      simp only [stepOp]
      rw [if_pos ⟨c.2.1, c.2.2⟩, hw]
      rfl
    · simp at e
  | erase id =>
    simp only [Op.toAbs, absStep] at e
    obtain ⟨idx2, f2, he, d2, _⟩ := sim_erase d _ e
    refine ⟨_, ?_, d2, rfl⟩
    simp only [stepOp, HeapFileT.eraseBlob, he]
    rfl
  | setMaxSize n =>
    simp only [Op.toAbs, absStep] at e
    split at e
    · rename_i c
      simp only [Option.some.injEq] at e
      subst e
      rw [d.flen] at c
      refine ⟨{ h with m_maxSize := n }, ?_, ?_, rfl⟩
      · simp only [stepOp]
        rw [if_pos c.2]
        simp only [HeapFileT.setMaxSize]
        rw [if_pos c.1]
      · exact ⟨d.inv.with_maxSize n, d.idx, d.flen, rfl, d.nodup, d.ids_sound, d.ids_complete⟩
    · simp at e

/-- A sequence of calls follows its abstract run. -/
theorem sim_runFrom (ops : List Op) : ∀ {a : AbsHeap} {h : HeapFileT}, Describes a h →
    ∀ {a2 : AbsHeap}, absRun h.m_key a (ops.map Op.toAbs) = some a2 →
    ∃ h2, runFrom h ops = some h2 ∧ Describes a2 h2 ∧ h2.m_key = h.m_key := by
  induction ops with
  | nil =>
    intro a h d a2 e
    simp only [List.map_nil, absRun, Option.some.injEq] at e
    subst e
    exact ⟨h, rfl, d, rfl⟩
  | cons op ops ih =>
    intro a h d a2 e
    simp only [List.map_cons, absRun] at e
    cases hs : absStep h.m_key a op.toAbs with
    | none => simp [hs] at e
    | some a1 =>
      simp only [hs] at e
      obtain ⟨h1, hs1, d1, hk1⟩ := sim_step d op hs
      rw [← hk1] at e
      obtain ⟨h2, hr2, d2, hk2⟩ := ih d1 e
      refine ⟨h2, ?_, d2, hk2.trans hk1⟩
      simp only [runFrom, hs1, hr2]

theorem sim_run (key : List Byte) (ops : List Op) {a2 : AbsHeap}
    (e : absRun (Simple.new key) AbsHeap.create (ops.map Op.toAbs) = some a2) :
    ∃ h2, run key ops = some h2 ∧ Describes a2 h2 ∧ h2.m_key = Simple.new key :=
  sim_runFrom ops (Describes.create key) e

theorem length_fill (n v : Nat) : (fill n v).length = n := List.length_replicate _ _

theorem crowded_map : crowdedOps.map Op.toAbs = crowdedAOps := by
  simp only [crowdedOps, crowdedAOps, List.map_append, List.map_map, List.map_cons, List.map_nil,
    Op.toAbs, length_fill, Function.comp_def]

set_option maxRecDepth 1000000 in
theorem crowded_abs :
    absRun (Simple.new []) AbsHeap.create crowdedAOps = some crowdedAbs := by decide

/-- An erase that does not find its id in the last record of the list leaves
    the file as it is. -/
theorem erase_off_tail {h : HeapFileT} (hinv : Inv h) (id : List Byte) {b : Bool}
    {idx2 : HeapIndex} {f2 : List Byte}
    (e : eraseBlobEncryptedId id h.m_index h.m_file = some (b, idx2, f2))
    (hnt : ∀ r, h.m_index.m_list.getLast? = some r → storedId h.m_file r ≠ id) :
    f2 = h.m_file := by
  unfold eraseBlobEncryptedId at e
  rcases findBlob_spec hinv id with ⟨hf, _⟩ | ⟨r, hr, hf, hs⟩
  · rw [hf] at e
    simp [Blob.nil, Blob.isNil] at e
    exact e.2.2.symm
  · rw [hf] at e
    simp only [Blob.isNil, Option.isNone_some, Bool.false_eq_true, if_false,
      Option.map_eq_some'] at e
    obtain ⟨x, hx, hxe⟩ := e
    simp only [Prod.mk.injEq] at hxe
    obtain ⟨_, _, _, hnl, _⟩ := @release_inv h hinv r hr x.1 x.2 hx 0
    rw [← hxe.2.2]
    apply hnl
    cases hl : h.m_index.isLast r with
    | false => rfl
    | true =>
      exfalso
      unfold HeapIndex.isLast at hl
      cases hg : h.m_index.m_list.getLast? with
      | none => simp [hg] at hl
      | some l =>
        simp [hg] at hl
        exact hnt l hg (by rw [← hs]; congr 1; exact hl.symm)

/-- When `eraseBlob` returns it returns true, and a second `eraseBlob` of the
    same id then returns true and leaves the heap as it is. -/
theorem erase_true_then_noop {key : List Byte} {h h1 : HeapFileT} (hr : Reach key h)
    (id : List Byte) (b : Bool) (e : h.eraseBlob id = some (b, h1)) :
    b = true ∧ h1.eraseBlob id = some (true, h1) := by
  simp only [HeapFileT.eraseBlob, Option.map_eq_some'] at e
  obtain ⟨⟨b2, idx2, f2⟩, he, hx⟩ := e
  simp only [Prod.mk.injEq] at hx
  obtain ⟨hb, hinv2, hfresh, _⟩ := erase_inv hr.inv.1 _ he h.m_maxSize
  obtain ⟨rfl, rfl⟩ := hx
  refine ⟨hb, ?_⟩
  rcases findBlob_spec hinv2 (h.m_key.encrypt id).2 with ⟨hf, _⟩ | ⟨r, hrA, _, hs⟩
  · simp only at hf
    simp [HeapFileT.eraseBlob, eraseBlobEncryptedId, hf, Blob.nil, Blob.isNil]
  · exact absurd hs (hfresh r hrA)

theorem giant_map : giantOps.map Op.toAbs = giantAOps := by
  simp only [giantOps, giantAOps, List.map_cons, List.map_nil, Op.toAbs, length_fill]

set_option maxRecDepth 1000000 in
theorem giant_abs : absRun (Simple.new []) AbsHeap.create giantAOps = some giantAbs := by
  decide

set_option maxRecDepth 1000000 in
/-- In the heap after `giantOps`, the put of a payload of 2^32 bytes under the
    id `[4]` returns true, and the get that follows yields the empty payload. -/
theorem giant_put_core {h : HeapFileT} (d : Describes giantAbs h) (hk : h.m_key = Simple.new [])
    (data : List Byte) (hlen : data.length = 4294967296) :
    ∃ h2, h.writeBlob [4] data = some (true, h2) ∧ h2.getBlob [4] = some (some [], h2) := by
  have he0 : absErase giantAbs ((Simple.new []).encrypt [4]).2 = some giantAbs := by decide
  have heid : ((Simple.new []).encrypt [4]).2 = [4] := by decide
  rw [← hk] at he0 heid
  obtain ⟨idx2, f2, he, d2, _⟩ := sim_erase d _ he0
  have hi : giantAbs.idx = idx2 := d2.idx
  have hl : f2.length = 4294967766 := by
    have := d2.flen
    simp only at this
    rw [← this]
    decide
  subst hi
  rw [heid] at he
  have hal : giantAbs.idx.allocate 10 177569 = some (some ⟨8, 177569, 256⟩,
      ⟨[⟨8, 177569, 256⟩, ⟨264, 177580, 256⟩, ⟨520, 177575, 4294967210⟩],
       [⟨8, 177569, 256⟩, ⟨520, 177575, 4294967210⟩, ⟨264, 177580, 256⟩], []⟩) := by
    decide
  have hbs : Blob.blobSize ([4] : List Byte).length data.length = 10 := by
    rw [hlen]; decide
  have hh : hash [4] = 177569 := by decide
  have hws : (heapWriter h.m_key data).size = 0 := by
    simp only [heapWriter, hlen]; decide
  have hwb : (heapWriter h.m_key data).bytes.length = 4294967296 := by
    simp only [heapWriter, Simple.length_encrypt, hlen]
  obtain ⟨m2, hm2⟩ := writeData_total ⟨8, 177569, 256⟩ 8 f2 [4] (heapWriter h.m_key data)
    (by rw [hws]; decide) (by decide) (by rw [hws]; decide)
    (by rw [hwb, hl]; decide)
  obtain ⟨_, _, _, _, hl2, hrd, _⟩ := writeData_some _ _ _ _ _ _ hm2 (by rw [hws]; omega)
  rw [hws] at hrd
  have hb : BlobAt m2 ⟨8, 177569, 256⟩ [4] [] :=
    ⟨by decide, by decide, by decide, by simpa using hrd⟩
  refine ⟨{ h with
    m_index := ⟨[⟨8, 177569, 256⟩, ⟨264, 177580, 256⟩, ⟨520, 177575, 4294967210⟩],
      [⟨8, 177569, 256⟩, ⟨520, 177575, 4294967210⟩, ⟨264, 177580, 256⟩], []⟩,
    m_file := m2 }, ?_, ?_⟩
  · unfold HeapFileT.writeBlob
    simp only [heid, he, hbs, hh, hal, writeInto]
    rw [getWritePtr_inside _ _ _ (by rw [hl]; decide) (by decide)]
    simp only [hm2]
  · unfold HeapFileT.getBlob findBlob
    simp only [heid, hh]
    have hq : mmEqualRange Record.m_key 177569
        [⟨8, 177569, 256⟩, ⟨520, 177575, 4294967210⟩, ⟨264, 177580, 256⟩]
        = [⟨8, 177569, 256⟩] := by decide
    simp only [hq, findBlobIn]
    rw [getReadPtr_inside _ _ _ (by rw [hl2, hl]; decide) (by rw [hl2, hl]; decide)
      (by rw [hl2, hl]; decide)]
    simp only [hb.hasId, decide_True, if_true, Blob.isNil, Option.isNone_some,
      Bool.false_eq_true, if_false, hb.getData, Option.map_some']
    rw [hk]
    rfl

/-- The round trip for payloads below 2^32 bytes: in a heap reachable from an
    empty file, when `put(id, data)` returns true the `get(id)` that follows
    returns true and yields exactly `data`. -/
theorem put_then_get {key : List Byte} {h h2 : HeapFileT} (hr : Reach key h)
    (id data : List Byte) (hlen : data.length < U32)
    (hcnt : h.m_index.m_alloc.length + 1 < U32)
    (e : h.writeBlob id data = some (true, h2)) :
    h2.getBlob id = some (some data, h2) := by
  obtain ⟨idx1, f1, _, hinv2, hk, _, _, hb, _⟩ := writeBlob_inv hr.inv.1 id data hlen hcnt e
  obtain ⟨⟨r, hrA, hblob⟩, _⟩ := hb rfl
  rw [← hk] at hblob
  rw [hinv2.getBlob_stored id hrA hblob, hk, Simple.decrypt_encrypt]

/-- C1 (failing input): after the calls of `giantOps` (a small free record at
    the front of a file of more than 4 GiB, all of it in the mapped window),
    `put([4], data)` with a payload of 2^32 bytes returns true, and the
    `get([4])` that follows returns true and yields the empty payload, not
    `data`. -/
theorem giant_put_get_mismatch :
    (fill 4294967296 0).length = 4294967296 ∧
    putResult (run [] giantOps) [4] (fill 4294967296 0) = some true ∧
    getResult (afterPut (run [] giantOps) [4] (fill 4294967296 0)) [4] = some (some []) := by
  obtain ⟨h, hrun, d, hk⟩ := sim_run [] giantOps (giant_map ▸ giant_abs)
  obtain ⟨h2, hw, hg⟩ := giant_put_core d hk (fill 4294967296 0) (length_fill _ _)
  rw [hrun]
  refine ⟨length_fill _ _, ?_, ?_⟩
  · simp only [putResult, Option.some_bind, hw, Option.map_some']
  · simp only [afterPut, getResult, Option.some_bind, hw, hg, Option.map_some']

/-- C7 (counterexample): the size cap is not kept by every later erase.  After
    the calls of `crowdedOps`, `set_max_size(5165)` has returned with twenty
    blobs stored and `size() = 5164`; erasing the blob stored in the last
    record then returns true and leaves `size() = 5180`, above the cap. -/
theorem erase_of_tail_exceeds_cap :
    sizeIn (run [] crowdedOps) = some 5164 ∧
    (run [] crowdedOps).map (fun h => (h.m_maxSize, h.m_index.m_alloc.length))
      = some (5165, 20) ∧
    eraseResult (run [] crowdedOps) [2] = some true ∧
    sizeIn (afterErase (run [] crowdedOps) [2]) = some 5180 := by
  obtain ⟨h, hrun, d, hk⟩ := sim_run [] crowdedOps (crowded_map ▸ crowded_abs)
  have h1 : crowdedAbs.flen = 5164 ∧ crowdedAbs.maxSize = 5165 ∧
      crowdedAbs.idx.m_alloc.length = 20 := by decide
  have h2 : (absErase crowdedAbs ((Simple.new []).encrypt [2]).2).map (fun a => a.flen)
      = some 5180 := by decide
  rw [Option.map_eq_some'] at h2
  obtain ⟨a3, ha3, hf3⟩ := h2
  rw [← hk] at ha3
  obtain ⟨idx2, f2, he, d2, _⟩ := sim_erase d _ ha3
  have hl2 : f2.length = 5180 := by rw [← hf3]; exact d2.flen.symm
  rw [hrun]
  refine ⟨?_, ?_, ?_, ?_⟩
  · simp only [sizeIn, Option.map_some', HeapFileT.size, ← d.flen, h1.1]
  · simp only [Option.map_some', ← d.maxSize, ← d.idx, h1.2.1, h1.2.2]
  · simp only [eraseResult, Option.some_bind, HeapFileT.eraseBlob, he, Option.map_some']
  · simp only [afterErase, sizeIn, Option.some_bind, HeapFileT.eraseBlob, he, Option.map_some',
      HeapFileT.size, hl2]

/-- C7 (amended): in a heap reachable from an empty file whose size is within
    the cap, a put (successful or not, id of at most 255 bytes) or an erase of
    an id that is not stored in the last record leaves `size()` within the
    cap, and the cap unchanged. -/
theorem cap_kept_off_tail {key : List Byte} {h h2 : HeapFileT} (hr : Reach key h)
    (hcap : h.size ≤ h.m_maxSize) (op : Op) (id : List Byte) (hop : op.target = some id)
    (hid : id.length ≤ 255) (hnt : storedInTail h id = false)
    (e : stepOp h op = some h2) :
    h2.size ≤ h2.m_maxSize ∧ h2.m_maxSize = h.m_maxSize := by
  have hinv := hr.inv.1
  have hnt2 : ∀ r, h.m_index.m_list.getLast? = some r →
      storedId h.m_file r ≠ (h.m_key.encrypt id).2 := by
    intro r hl
    simpa [storedInTail, hl] using hnt
  cases op with
  | put id1 data =>
    simp only [Op.target, Option.some.injEq] at hop
    subst hop
    simp only [stepOp] at e
    split at e
    · rename_i c
      rw [Option.map_eq_some'] at e
      obtain ⟨⟨b, h3⟩, hw, rfl⟩ := e
      obtain ⟨idx1, f1, he, _, _, hm, _, ht, hf⟩ := writeBlob_inv hinv id1 data c.1 c.2 hw
      have hf1 := erase_off_tail hinv _ he hnt2
      subst hf1
      simp only [HeapFileT.size] at hcap ⊢
      refine ⟨?_, hm⟩
      rw [hm]
      cases b with
      | true =>
        rcases (ht rfl).2 with c1 | c1
        · rw [c1]; exact hcap
        · exact c1
      | false =>
        rcases hf rfl with c1 | c1
        · omega
        · rw [c1.2]; exact hcap
    · simp at e
  | erase id1 =>
    simp only [Op.target, Option.some.injEq] at hop
    subst hop
    simp only [stepOp, HeapFileT.eraseBlob, Option.map_eq_some'] at e
    obtain ⟨⟨b, h3⟩, ⟨⟨b2, idx2, f2⟩, he, hx⟩, rfl⟩ := e
    simp only [Prod.mk.injEq] at hx
    have hf1 := erase_off_tail hinv _ he hnt2
    subst hf1
    rw [← hx.2]
    exact ⟨hcap, rfl⟩
  | setMaxSize n => simp [Op.target] at hop

set_option maxRecDepth 1000000 in
theorem cap_kept_off_tail_witness :
    cappedHeap.size ≤ cappedHeap.m_maxSize ∧ storedInTail cappedHeap [21] = false ∧
    stepOp cappedHeap (Op.put [21] (fill 3 2)) = some cappedHeap2 ∧
    cappedHeap2.size ≤ cappedHeap2.m_maxSize ∧ cappedHeap2.m_maxSize = cappedHeap.m_maxSize :=
  ⟨by decide, by decide, by decide,
    @cap_kept_off_tail [] cappedHeap cappedHeap2
      (Reach.of_run (show run [] cappedOps = some cappedHeap by decide)) (by decide)
      (Op.put [21] (fill 3 2)) [21] rfl (by decide) (by decide) (by decide)⟩

theorem wrap_map : wrapOps.map Op.toAbs = wrapAOps := by
  simp only [wrapOps, wrapAOps, List.map_cons, List.map_nil, Op.toAbs, length_fill]

set_option maxRecDepth 1000000 in
theorem wrap_abs : absRun (Simple.new []) AbsHeap.create wrapAOps = some wrapAbs := by decide


/-- C8 (failing input): after the calls of `wrapOps` the heap holds one blob,
    with id `[3]`, behind a free record whose 32-bit size has wrapped around
    (two records of 3 000 000 010 bytes coalesced to 1 705 032 724); `has([3])`
    is true, and `erase([3])` does not return: the assertion of
    `Record::coalesce` that the two records are adjacent fails. -/
theorem erase_aborts_after_wrap :
    (run [] wrapOps).map (fun h => (h.m_index.m_list, h.m_index.m_free, h.m_file.length))
      = some ([⟨8, 177575, 1705032724⟩, ⟨6000000028, 177574, 256⟩],
              [⟨8, 177575, 1705032724⟩], 6000000336) ∧
    hasResult (run [] wrapOps) [3] = some true ∧
    eraseResult (run [] wrapOps) [3] = none := by
  obtain ⟨h, hrun, d, hk⟩ := sim_run [] wrapOps (wrap_map ▸ wrap_abs)
  have h1 : wrapAbs.idx.m_list = [⟨8, 177575, 1705032724⟩, ⟨6000000028, 177574, 256⟩] ∧
      wrapAbs.idx.m_free = [⟨8, 177575, 1705032724⟩] ∧ wrapAbs.flen = 6000000336 := by decide
  have h2 : absErase wrapAbs ((Simple.new []).encrypt [3]).2 = none := by decide
  have h3 : (⟨6000000028, 177574, 256⟩, ((Simple.new []).encrypt [3]).2) ∈ wrapAbs.ids := by
    decide
  rw [← hk] at h2 h3
  have he := sim_erase_none d _ h2
  have hs := d.ids_sound _ h3
  rw [hrun]
  refine ⟨?_, ?_, ?_⟩
  · simp only [Option.map_some', ← d.idx, ← d.flen, h1.1, h1.2.1, h1.2.2]
  · simp only [hasResult, Option.some_bind, (d.inv.hasBlob_stored [3] hs.1 hs.2),
      Option.map_some']
  · simp only [eraseResult, Option.some_bind, HeapFileT.eraseBlob, he, Option.map_none']

/-- C6: in every heap reachable from an empty file by put, erase and
    set_max_size, and for every `n`, `set_max_size(n)` terminates (the loop
    ends: the result is `some res`), and when it returns (`res = some h2`)
    `size()` is at most `n` or is 0. -/
theorem setMaxSize_terminates_and_caps {key : List Byte} {h : HeapFileT} (hr : Reach key h)
    (n : Nat) :
    ∃ res, h.setMaxSize n = some res ∧
      ∀ h2, res = some h2 → h2.size ≤ n ∨ h2.size = 0 := by
  obtain ⟨res, hres, hprop⟩ := setMaxSize_spec hr.inv.1 n
  exact ⟨res, hres, fun h2 hh => (hprop h2 hh).2.1⟩

set_option maxRecDepth 1000000 in
theorem setMaxSize_terminates_and_caps_witness :
    Reach [] pairHeap ∧
    ∃ res, pairHeap.setMaxSize 300 = some res ∧
      ∀ h2, res = some h2 → h2.size ≤ 300 ∨ h2.size = 0 :=
  ⟨Reach.of_run (show run [] pairOps = some pairHeap by decide),
    setMaxSize_terminates_and_caps (Reach.of_run (show run [] pairOps = some pairHeap by decide))
      300⟩

/-- C9: in every heap reachable from an empty file by put, erase and
    set_max_size, after `erase(id)` has returned `has(id)` is false and
    `get(id)` fails, and `has` and `get` answer for every other id what they
    answered before the erase. -/
theorem erase_removes_only_that_id {key : List Byte} {h h1 : HeapFileT} (hr : Reach key h)
    (id : List Byte) (b : Bool) (e : h.eraseBlob id = some (b, h1)) :
    h1.hasBlob id = some (false, h1) ∧ h1.getBlob id = some (none, h1) ∧
    ∀ id2, id2 ≠ id →
      (h1.hasBlob id2).map Prod.fst = (h.hasBlob id2).map Prod.fst ∧
      (h1.getBlob id2).map Prod.fst = (h.getBlob id2).map Prod.fst := by
  have hinv := hr.inv.1
  unfold HeapFileT.eraseBlob at e
  cases he : eraseBlobEncryptedId (h.m_key.encrypt id).2 h.m_index h.m_file with
  | none => simp [he] at e
  | some t =>
    obtain ⟨ok, idx1, f1⟩ := t
    simp [he] at e
    obtain ⟨_, rfl⟩ := e
    obtain ⟨_, hinv1, hfresh, hkept, hstay, _, _⟩ := erase_inv hinv _ he h.m_maxSize
    refine ⟨hinv1.hasBlob_absent id hfresh, hinv1.getBlob_absent id hfresh, ?_⟩
    intro id2 hne
    have hne2 : (h.m_key.encrypt id2).2 ≠ (h.m_key.encrypt id).2 :=
      fun e0 => hne (XOR_injective _ _ _ e0)
    rcases hinv.stored_or_absent (h.m_key.encrypt id2).2 with ⟨r, hrA, pl, hb⟩ | habs
    · have hr1 : r ∈ idx1.m_alloc := hstay r hrA (by rw [hb.storedId]; exact hne2)
      have hb1 : BlobAt f1 r (h.m_key.encrypt id2).2 pl := hb.congr (hkept r hr1).2
      rw [hinv.hasBlob_stored id2 hrA hb.storedId, hinv.getBlob_stored id2 hrA hb]
      have e1 := hinv1.hasBlob_stored id2 hr1 hb1.storedId
      have e2 := hinv1.getBlob_stored id2 hr1 hb1
      simp only at e1 e2
      rw [e1, e2]
      simp
    · have habs1 : ∀ r ∈ idx1.m_alloc, storedId f1 r ≠ (h.m_key.encrypt id2).2 := by
        intro r hr1 hs
        obtain ⟨hrA, hsame⟩ := hkept r hr1
        obtain ⟨idr, plr, hbr, _⟩ := hinv.blobs r hrA
        rw [storedId_congr hbr hsame] at hs
        exact habs r hrA hs
      rw [hinv.hasBlob_absent id2 habs, hinv.getBlob_absent id2 habs]
      have e1 := hinv1.hasBlob_absent id2 habs1
      have e2 := hinv1.getBlob_absent id2 habs1
      simp only at e1 e2
      rw [e1, e2]
      simp

set_option maxRecDepth 1000000 in
theorem erase_removes_only_that_id_witness :
    Reach [] pairHeap ∧ pairHeap.eraseBlob [20] = some (true, pairErased) ∧
    pairErased.hasBlob [20] = some (false, pairErased) ∧
    pairErased.getBlob [20] = some (none, pairErased) ∧
    ∀ id2, id2 ≠ [20] →
      (pairErased.hasBlob id2).map Prod.fst = (pairHeap.hasBlob id2).map Prod.fst ∧
      (pairErased.getBlob id2).map Prod.fst = (pairHeap.getBlob id2).map Prod.fst :=
  ⟨Reach.of_run (show run [] pairOps = some pairHeap by decide), by decide,
    erase_removes_only_that_id
      (Reach.of_run (show run [] pairOps = some pairHeap by decide)) [20] true (by decide)⟩

set_option maxRecDepth 1000000 in
/-- C10 (counterexample): a put that fails on the size cap does change the
    state.  With the blob `[1, 1, 1]` stored under the id `[20]` in a file of
    284 bytes capped at 285, the put of 300 bytes under the same id returns
    false; afterwards `get([20])` fails and `size()` is 12. -/
theorem failed_put_loses_old_value :
    getResult (run [] tightOps) [20] = some (some (fill 3 1)) ∧
    putResult (run [] tightOps) [20] (fill 300 2)
      = some false ∧
    getResult (afterPut (run [] tightOps) [20] (fill 300 2))
      [20] = some none ∧
    sizeIn (run [] tightOps) = some 284 ∧
    sizeIn (afterPut (run [] tightOps) [20] (fill 300 2))
      = some 12 := by
  refine ⟨by decide, by decide, by decide, by decide, by decide⟩

/-- C10 (amended): when `put(id, data)` returns false for an id of at most
    255 bytes and a payload below 2^32 bytes (so: because of the size cap), the
    state left is the one `erase(id)` leaves; when `id` was not stored, that
    is the state before the call. -/
theorem failed_put_is_erase {key : List Byte} {h h2 : HeapFileT} (hr : Reach key h)
    (id data : List Byte) (hid : id.length ≤ 255) (hlen : data.length < U32)
    (hcnt : h.m_index.m_alloc.length + 1 < U32)
    (e : h.writeBlob id data = some (false, h2)) :
    h.eraseBlob id = some (true, h2) ∧
    ((∀ r ∈ h.m_index.m_alloc, storedId h.m_file r ≠ (h.m_key.encrypt id).2) → h2 = h) := by
  have hinv := hr.inv.1
  obtain ⟨idx1, f1, he, _, hk, hm, _, _, hf⟩ := writeBlob_inv hinv id data hlen hcnt e
  rcases hf rfl with c | ⟨c1, c2⟩
  · omega
  · have h2eq : h2 = { h with m_index := idx1, m_file := f1 } := by
      cases h2; cases h
      simp only at hk hm c1 c2
      simp [hk, hm, c1, c2]
    refine ⟨?_, ?_⟩
    · unfold HeapFileT.eraseBlob
      simp [he, h2eq]
    · intro habs
      obtain ⟨_, _, _, _, _, hsame, _⟩ := erase_inv hinv _ he h.m_maxSize
      obtain ⟨i1, i2⟩ := hsame habs
      rw [h2eq, i1, i2]

set_option maxRecDepth 1000000 in
theorem failed_put_is_erase_witness :
    Reach [] tightHeap ∧ tightHeap.writeBlob [20] (fill 300 2) = some (false, tightAfter) ∧
    tightHeap.eraseBlob [20] = some (true, tightAfter) ∧
    ((∀ r ∈ tightHeap.m_index.m_alloc,
        storedId tightHeap.m_file r ≠ (tightHeap.m_key.encrypt [20]).2) →
      tightAfter = tightHeap) :=
  ⟨Reach.of_run (show run [] tightOps = some tightHeap by decide), by decide,
    failed_put_is_erase (Reach.of_run (show run [] tightOps = some tightHeap by decide))
      [20] (fill 300 2) (by decide) (by decide) (by decide) (by decide)⟩

/-! ## Lemmas: the hash tells single-byte changes apart -/

theorem hashStep_eq (h : Nat) (b : Byte) : hashStep h b = (33 * h % U32) ^^^ b.val := by
  unfold hashStep
  rw [Nat.shiftLeft_eq, Nat.add_mod, Nat.mod_mod, ← Nat.add_mod]
  congr 2
  omega

theorem hashStep_inj_left {a b : Nat} (ha : a < U32) (hb : b < U32) (c : Byte)
    (e : hashStep a c = hashStep b c) : a = b := by
  rw [hashStep_eq, hashStep_eq] at e
  have e1 : 33 * a % U32 = 33 * b % U32 := Nat.xor_left_injective e
  have e2 : 1041204193 * (33 * a) % U32 = 1041204193 * (33 * b) % U32 := by
    rw [Nat.mul_mod, e1, ← Nat.mul_mod]
  have hU : U32 = 4294967296 := rfl
  rw [hU] at e2 ha hb
  omega

theorem hashStep_inj_right (h : Nat) {c d : Byte} (e : hashStep h c = hashStep h d) : c = d := by
  rw [hashStep_eq, hashStep_eq] at e
  exact Fin.ext (Nat.xor_right_injective e)

theorem foldl_hashStep_ne (l : List Byte) : ∀ {a b : Nat}, a < U32 → b < U32 → a ≠ b →
    l.foldl hashStep a ≠ l.foldl hashStep b := by
  induction l with
  | nil => intro a b _ _ h; exact h
  | cons x xs ih =>
    intro a b ha hb h
    simp only [List.foldl_cons]
    exact ih (hashStep_lt _ _) (hashStep_lt _ _) (fun e => h (hashStep_inj_left ha hb x e))

theorem foldl_hashStep_lt (l : List Byte) : ∀ {a : Nat}, a < U32 → l.foldl hashStep a < U32 := by
  induction l with
  | nil => intro a h; exact h
  | cons x xs ih => intro a _; exact ih (hashStep_lt _ _)

/-- Two byte strings that differ in exactly one position have different
    hashes. -/
theorem hash_ne_of_one_byte (pre post : List Byte) {c d : Byte} (h : c ≠ d) :
    hash (pre ++ c :: post) ≠ hash (pre ++ d :: post) := by
  unfold hash
  simp only [List.foldl_append, List.foldl_cons]
  exact foldl_hashStep_ne post (hashStep_lt _ _) (hashStep_lt _ _)
    (fun e => h (hashStep_inj_right _ e))

/-- The payload of a blob region, split at position `i`. -/
theorem rdN_split (m : List Byte) (p n i : Nat) (hi : i < n) :
    rdN m p n = rdN m p i ++ rd m (p + i) :: rdN m (p + i + 1) (n - i - 1) := by
  have e : n = i + (1 + (n - i - 1)) := by omega
  conv_lhs => rw [e]
  rw [rdN_add, rdN_add, rdN_one]
  rfl

/-- A blob region in which one payload byte has been replaced is refused by
    `getData`. -/
theorem BlobAt.corrupt_payload {f : List Byte} {r : Record} {id pl : List Byte}
    (h : BlobAt f r id pl) (hin : r.m_offset + overhead + id.length + pl.length ≤ f.length)
    (i : Nat) (hi : i < pl.length) (c : Byte)
    (hc : c ≠ rd f (r.m_offset + overhead + id.length + i)) :
    (Blob.mk r (some r.m_offset)).getData (wr f (r.m_offset + overhead + id.length + i) [c])
      = none := by
  obtain ⟨f1, f2, f3, f4, f5⟩ := h.fields
  obtain ⟨h1, h2, h3, _⟩ := h
  have hO : overhead = 9 := rfl
  have hq : r.m_offset + overhead + id.length + i + [c].length ≤ f.length := by
    simp only [List.length_singleton]; omega
  have g1 : rd (wr f (r.m_offset + overhead + id.length + i) [c]) r.m_offset = rd f r.m_offset :=
    rd_wr_out _ _ _ hq _ (Or.inl (by omega))
  have g3 : rdN (wr f (r.m_offset + overhead + id.length + i) [c]) (r.m_offset + 1 + id.length) 4
      = be32 (hash pl) := by
    rw [rdN_wr_out _ _ _ hq _ _ (Or.inl (by omega)), f3]
  have g4 : rdN (wr f (r.m_offset + overhead + id.length + i) [c])
      (r.m_offset + 1 + id.length + 4) 4 = be32 pl.length := by
    rw [rdN_wr_out _ _ _ hq _ _ (Or.inl (by omega)), f4]
  have hP : r.m_offset + overhead + id.length + i = r.m_offset + 1 + id.length + 8 + i := by
    omega
  have g5 : rdN (wr f (r.m_offset + overhead + id.length + i) [c])
      (r.m_offset + 1 + id.length + 8) pl.length
      = rdN f (r.m_offset + 1 + id.length + 8) i ++ c ::
          rdN f (r.m_offset + 1 + id.length + 8 + i + 1) (pl.length - i - 1) := by
    rw [rdN_split _ _ _ i hi]
    congr 1
    · exact rdN_wr_out _ _ _ hq _ _ (Or.inl (by omega))
    · congr 1
      · rw [← hP]
        have := rdN_wr_self f (r.m_offset + overhead + id.length + i) [c] hq
        simp only [List.length_singleton, rdN_one, List.cons.injEq, and_true] at this
        exact this
      · exact rdN_wr_out _ _ _ hq _ _ (Or.inr (by simp only [List.length_singleton]; omega))
  have g6 : pl = rdN f (r.m_offset + 1 + id.length + 8) i ++
      rd f (r.m_offset + 1 + id.length + 8 + i) ::
        rdN f (r.m_offset + 1 + id.length + 8 + i + 1) (pl.length - i - 1) := by
    rw [← rdN_split _ _ _ i hi, f5]
  unfold Blob.getData
  simp only [g1, f1]
  have c1 : ¬ (id.length + overhead > r.m_size) := by omega
  rw [if_neg c1, g4, g3, beVal_be32 _ h2, beVal_be32 _ (hash_lt pl)]
  have c2 : ¬ (pl.length > r.m_size - overhead - id.length) := by omega
  rw [if_neg c2, g5]
  rw [if_pos]
  conv_rhs => rw [g6]
  rw [hP] at hc
  exact hash_ne_of_one_byte _ _ hc

/-! ## Lemmas: look-up in a file whose blob headers are intact -/

/-- `hasId` reads the id length and the id bytes only. -/
theorem hasId_congr (r : Record) (p : Nat) (f f2 x : List Byte)
    (h : ∀ j, p ≤ j → j < p + 1 + (rd f p).val → rd f2 j = rd f j) :
    (Blob.mk r (some p)).hasId f2 x = (Blob.mk r (some p)).hasId f x := by
  have h0 : rd f2 p = rd f p := h p (Nat.le_refl _) (by omega)
  unfold Blob.hasId
  simp only [h0]
  split
  · rfl
  · congr 1
    apply propext
    constructor
    · intro hall i hi
      rw [hall i hi]
      exact h _ (by omega) (by simp at hi; omega)
    · intro hall i hi
      rw [hall i hi]
      exact (h _ (by omega) (by simp at hi; omega)).symm

/-- The look-up in a file of the same length whose id headers are those of
    the well-formed heap `h` finds what it finds in `h`. -/
theorem findBlobIn_header {h : HeapFileT} (hinv : Inv h) (f2 : List Byte)
    (hlen : f2.length = h.m_file.length)
    (hhead : ∀ r ∈ h.m_index.m_alloc, ∀ j, r.m_offset ≤ j →
      j < r.m_offset + 1 + (rd h.m_file r.m_offset).val → rd f2 j = rd h.m_file j)
    (id : List Byte) (l : List Record) (hl : ∀ r ∈ l, r ∈ h.m_index.m_alloc) :
    findBlobIn id l f2 = (findBlobIn id l h.m_file).map (fun x => (f2, x.2)) := by
  induction l with
  | nil => simp [findBlobIn]
  | cons a as ih =>
    have ha : a ∈ h.m_index.m_alloc := hl a (by simp)
    have hw := hinv.within a (hinv.alloc_mem_list ha)
    have hmin := hinv.idx.alloc_min a ha
    have hM : MIN_SIZE = 256 := rfl
    have hs := hinv.small
    have hp2 : getReadPtr f2 a.m_offset a.m_size = some (f2, some a.m_offset) :=
      getReadPtr_inside _ _ _ (by omega) (by omega) (by omega)
    unfold findBlobIn
    simp only [hinv.readPtr ha, hp2, hasId_congr a a.m_offset h.m_file f2 id (hhead a ha)]
    split
    · rfl
    · exact ih (fun r hr => hl r (by simp [hr]))

theorem findBlob_header {h : HeapFileT} (hinv : Inv h) (f2 : List Byte)
    (hlen : f2.length = h.m_file.length)
    (hhead : ∀ r ∈ h.m_index.m_alloc, ∀ j, r.m_offset ≤ j →
      j < r.m_offset + 1 + (rd h.m_file r.m_offset).val → rd f2 j = rd h.m_file j)
    (id : List Byte) :
    findBlob id h.m_index f2 = (findBlob id h.m_index h.m_file).map (fun x => (f2, x.2)) :=
  findBlobIn_header hinv f2 hlen hhead id _ (fun _ hr => ((mem_mmEqualRange _ _ _ _).mp hr).1)

/-- A successful `writeData` leaves a blob region that lies in the file. -/
theorem writeData_blobAt (r : Record) (mem id : List Byte) (w : BlobWriter) (m2 : List Byte)
    (h : (Blob.mk r (some r.m_offset)).writeData mem id w = some (true, m2))
    (hs : w.size ≤ w.bytes.length) :
    BlobAt m2 r id (w.bytes.take w.size) ∧ (w.bytes.take w.size).length = w.size ∧
    r.m_offset + overhead + id.length + w.size ≤ m2.length := by
  obtain ⟨h1, h2, h3, h4, h5, h6, _⟩ := writeData_some r r.m_offset mem id w m2 h hs
  have hl : (w.bytes.take w.size).length = w.size := by
    rw [List.length_take]; omega
  refine ⟨⟨h1, by rw [hl]; exact h2, by rw [hl]; exact h3, by rw [hl]; exact h6⟩, hl, ?_⟩
  omega

/-- A stored blob in which one payload byte has been replaced is found by the
    look-up and refused by `getData`: `getBlob` answers false. -/
theorem Inv.getBlob_corrupt {h : HeapFileT} (hinv : Inv h) {r : Record} {pl : List Byte}
    (clearId : List Byte) (hr : r ∈ h.m_index.m_alloc)
    (hb : BlobAt h.m_file r (h.m_key.encrypt clearId).2 pl) (i : Nat) (hi : i < pl.length)
    (c : Byte) (hc : c ≠ rd h.m_file (r.m_offset + overhead + clearId.length + i)) :
    HeapFileT.getBlob
        { h with m_file := wr h.m_file (r.m_offset + overhead + clearId.length + i) [c] } clearId
      = some (none,
        { h with m_file := wr h.m_file (r.m_offset + overhead + clearId.length + i) [c] }) := by
  have hO : overhead = 9 := rfl
  have hidl : (h.m_key.encrypt clearId).2.length = clearId.length := Simple.length_encrypt _ _
  have hw := hinv.within r (hinv.alloc_mem_list hr)
  have hsz := hb.2.2.1
  have hq : r.m_offset + overhead + clearId.length + i + [c].length ≤ h.m_file.length := by
    simp only [List.length_singleton]; omega
  have hlen := length_wr _ _ _ hq
  have hhead : ∀ x ∈ h.m_index.m_alloc, ∀ j, x.m_offset ≤ j →
      j < x.m_offset + 1 + (rd h.m_file x.m_offset).val →
      rd (wr h.m_file (r.m_offset + overhead + clearId.length + i) [c]) j = rd h.m_file j := by
    intro x hx j j1 j2
    apply rd_wr_out _ _ _ hq
    simp only [List.length_singleton]
    obtain ⟨idx, plx, hbx, _⟩ := hinv.blobs x hx
    have hkx := hbx.fields.1
    have hszx := hbx.2.2.1
    by_cases hxr : x = r
    · subst hxr
      have : (rd h.m_file x.m_offset).val = clearId.length := by
        rw [hb.fields.1, hidl]
      omega
    · rcases sep_disjoint hinv.idx.sep (hinv.alloc_mem_list hx) (hinv.alloc_mem_list hr) hxr
        with d | d
      · omega
      · omega
  have hfind := findBlob_header hinv _ hlen hhead (h.m_key.encrypt clearId).2
  rcases findBlob_spec hinv (h.m_key.encrypt clearId).2 with ⟨_, hn⟩ | ⟨r2, hr2, e1, hs2⟩
  · exact absurd hb.storedId (hn r hr)
  · have : r2 = r := hinv.uniq r2 hr2 r hr (by rw [hs2, hb.storedId])
    subst this
    rw [e1] at hfind
    have hgd := hb.corrupt_payload (by omega) i hi c (by rw [hidl]; exact hc)
    rw [hidl] at hgd
    unfold HeapFileT.getBlob
    simp only [hfind, Option.map_some', Blob.isNil, Option.isNone_some, Bool.false_eq_true,
      if_false, hgd, Option.map_none']

/-- C4: in every blob region produced by a successful `Blob::writeData` of
    `(id, payload)`, replacing the payload byte at any position `i` by a
    different byte makes `getData` return false (`none`: the reader is not
    invoked); and for a blob stored in a heap reachable from an empty file,
    `get` of its id then returns false. -/
theorem payload_corruption_detected :
    (∀ (r : Record) (mem id : List Byte) (w : BlobWriter) (m2 : List Byte) (i : Nat) (c : Byte),
      (Blob.mk r (some r.m_offset)).writeData mem id w = some (true, m2) →
      w.size ≤ w.bytes.length → i < w.size →
      c ≠ rd m2 (r.m_offset + overhead + id.length + i) →
      (Blob.mk r (some r.m_offset)).getData
        (wr m2 (r.m_offset + overhead + id.length + i) [c]) = none) ∧
    (∀ (key : List Byte) (h : HeapFileT) (r : Record) (id pl : List Byte) (i : Nat) (c : Byte),
      Reach key h → r ∈ h.m_index.m_alloc → BlobAt h.m_file r (h.m_key.encrypt id).2 pl →
      i < pl.length → c ≠ rd h.m_file (r.m_offset + overhead + id.length + i) →
      HeapFileT.getBlob
          { h with m_file := wr h.m_file (r.m_offset + overhead + id.length + i) [c] } id
        = some (none,
          { h with m_file := wr h.m_file (r.m_offset + overhead + id.length + i) [c] })) := by
  refine ⟨?_, ?_⟩
  · intro r mem id w m2 i c hw hs hi hc
    obtain ⟨hb, hl, hin⟩ := writeData_blobAt r mem id w m2 hw hs
    exact hb.corrupt_payload (by rw [hl]; exact hin) i (by rw [hl]; exact hi) c hc
  · intro key h r id pl i c hr hrA hb hi hc
    exact hr.inv.1.getBlob_corrupt id hrA hb i hi c hc

set_option maxRecDepth 1000000 in
theorem payload_corruption_detected_witness :
    Reach [] pairHeap ∧ BlobAt pairHeap.m_file ⟨8, 177585, 256⟩ [20] [1, 1, 1] ∧
    rd pairHeap.m_file 18 = 1 ∧
    HeapFileT.getBlob { pairHeap with m_file := wr pairHeap.m_file 18 [9] } [20]
      = some (none, { pairHeap with m_file := wr pairHeap.m_file 18 [9] }) :=
  ⟨Reach.of_run (show run [] pairOps = some pairHeap by decide), by unfold BlobAt; decide,
    by decide,
    payload_corruption_detected.2 [] pairHeap ⟨8, 177585, 256⟩ [20] [1, 1, 1] 0 9
      (Reach.of_run (show run [] pairOps = some pairHeap by decide)) (by decide)
      (by unfold BlobAt; decide) (by decide) (by decide)⟩

/-! ## Lemmas: a changed byte of the length field -/

theorem beVal_inj4 (l1 l2 : List Byte) (h1 : l1.length = 4) (h2 : l2.length = 4)
    (e : beVal l1 = beVal l2) : l1 = l2 := by
  match l1, l2, h1, h2 with
  | [a, b, c, d], [a2, b2, c2, d2], _, _ =>
    simp only [beVal, List.foldl] at e
    have ha := a.isLt; have hb := b.isLt; have hc := c.isLt; have hd := d.isLt
    have ha2 := a2.isLt; have hb2 := b2.isLt; have hc2 := c2.isLt; have hd2 := d2.isLt
    have e1 : a.val = a2.val := by omega
    have e2 : b.val = b2.val := by omega
    have e3 : c.val = c2.val := by omega
    have e4 : d.val = d2.val := by omega
    rw [Fin.ext e1, Fin.ext e2, Fin.ext e3, Fin.ext e4]

/-- The blob of `clearId` in a file in which one byte of its record, behind
    the id, has been replaced: the look-up finds the record, and `getBlob`
    answers what `getData` makes of the changed region. -/
theorem Inv.getBlob_patched {h : HeapFileT} (hinv : Inv h) {r : Record} {pl : List Byte}
    (clearId : List Byte) (hr : r ∈ h.m_index.m_alloc)
    (hb : BlobAt h.m_file r (h.m_key.encrypt clearId).2 pl) (q : Nat)
    (hq1 : r.m_offset + 1 + clearId.length ≤ q) (hq2 : q < r.m_offset + r.m_size) (c : Byte) :
    HeapFileT.getBlob { h with m_file := wr h.m_file q [c] } clearId
      = some (((Blob.mk r (some r.m_offset)).getData (wr h.m_file q [c])).map
                (fun src => (h.m_key.decrypt src).2),
              { h with m_file := wr h.m_file q [c] }) := by
  have hidl : (h.m_key.encrypt clearId).2.length = clearId.length := Simple.length_encrypt _ _
  have hw := hinv.within r (hinv.alloc_mem_list hr)
  have hq : q + [c].length ≤ h.m_file.length := by
    simp only [List.length_singleton]; omega
  have hlen := length_wr _ _ _ hq
  have hhead : ∀ x ∈ h.m_index.m_alloc, ∀ j, x.m_offset ≤ j →
      j < x.m_offset + 1 + (rd h.m_file x.m_offset).val →
      rd (wr h.m_file q [c]) j = rd h.m_file j := by
    intro x hx j j1 j2
    apply rd_wr_out _ _ _ hq
    simp only [List.length_singleton]
    obtain ⟨idx, plx, hbx, _⟩ := hinv.blobs x hx
    have hkx := hbx.fields.1
    have hszx := hbx.2.2.1
    have hO : overhead = 9 := rfl
    by_cases hxr : x = r
    · subst hxr
      have : (rd h.m_file x.m_offset).val = clearId.length := by
        rw [hb.fields.1, hidl]
      omega
    · rcases sep_disjoint hinv.idx.sep (hinv.alloc_mem_list hx) (hinv.alloc_mem_list hr) hxr
        with d | d
      · omega
      · omega
  have hfind := findBlob_header hinv _ hlen hhead (h.m_key.encrypt clearId).2
  rcases findBlob_spec hinv (h.m_key.encrypt clearId).2 with ⟨_, hn⟩ | ⟨r2, hr2, e1, hs2⟩
  · exact absurd hb.storedId (hn r hr)
  · have : r2 = r := hinv.uniq r2 hr2 r hr (by rw [hs2, hb.storedId])
    subst this
    rw [e1] at hfind
    unfold HeapFileT.getBlob
    simp only [hfind, Option.map_some', Blob.isNil, Option.isNone_some, Bool.false_eq_true,
      if_false]

/-- What `getData` makes of a blob region in which byte `k` of the length
    field has been replaced: the length it reads is not the one stored, and the
    region is accepted exactly when that length fits the record and the bytes
    it covers hash to the stored hash. -/
theorem BlobAt.corrupt_len {f : List Byte} {r : Record} {id pl : List Byte}
    (h : BlobAt f r id pl) (hin : r.m_offset + overhead + id.length + pl.length ≤ f.length)
    (k : Nat) (hk : k < 4) (c : Byte) (hc : c ≠ rd f (r.m_offset + 1 + id.length + 4 + k)) :
    beVal (rdN (wr f (r.m_offset + 1 + id.length + 4 + k) [c]) (r.m_offset + 1 + id.length + 4) 4)
      ≠ pl.length ∧
    (Blob.mk r (some r.m_offset)).getData (wr f (r.m_offset + 1 + id.length + 4 + k) [c]) =
      if beVal (rdN (wr f (r.m_offset + 1 + id.length + 4 + k) [c])
          (r.m_offset + 1 + id.length + 4) 4) > r.m_size - overhead - id.length then none
      else if hash (rdN f (r.m_offset + 1 + id.length + 8)
          (beVal (rdN (wr f (r.m_offset + 1 + id.length + 4 + k) [c])
            (r.m_offset + 1 + id.length + 4) 4))) ≠ hash pl then none
      else some (rdN f (r.m_offset + 1 + id.length + 8)
          (beVal (rdN (wr f (r.m_offset + 1 + id.length + 4 + k) [c])
            (r.m_offset + 1 + id.length + 4) 4))) := by
  obtain ⟨f1, f2, f3, f4, f5⟩ := h.fields
  obtain ⟨h1, h2, h3, _⟩ := h
  have hO : overhead = 9 := rfl
  have hq : r.m_offset + 1 + id.length + 4 + k + [c].length ≤ f.length := by
    simp only [List.length_singleton]; omega
  generalize hf2 : wr f (r.m_offset + 1 + id.length + 4 + k) [c] = f2
  have g1 : rd f2 r.m_offset = rd f r.m_offset := by
    rw [← hf2]; exact rd_wr_out _ _ _ hq _ (Or.inl (by omega))
  have g3 : rdN f2 (r.m_offset + 1 + id.length) 4 = be32 (hash pl) := by
    rw [← hf2, rdN_wr_out _ _ _ hq _ _ (Or.inl (by omega)), f3]
  have g5 : ∀ n, rdN f2 (r.m_offset + 1 + id.length + 4 + 4) n
      = rdN f (r.m_offset + 1 + id.length + 4 + 4) n := by
    intro n
    rw [← hf2]
    exact rdN_wr_out _ _ _ hq _ _ (Or.inr (by simp only [List.length_singleton]; omega))
  have gk : rd f2 (r.m_offset + 1 + id.length + 4 + k) = c := by
    have := rdN_wr_self f (r.m_offset + 1 + id.length + 4 + k) [c] hq
    simp only [List.length_singleton, rdN_one, List.cons.injEq, and_true] at this
    rw [← hf2]; exact this
  refine ⟨?_, ?_⟩
  · intro e
    rw [← beVal_be32 _ h2, ← f4] at e
    have e2 := beVal_inj4 _ _ (length_rdN _ _ _) (length_rdN _ _ _) e
    have e3 := congrArg (fun l => l.getD k 0) e2
    simp only [getD_rdN _ _ _ _ hk] at e3
    rw [gk] at e3
    exact hc e3
  · unfold Blob.getData
    simp only [g1, f1]
    have c1 : ¬ (id.length + overhead > r.m_size) := by omega
    rw [if_neg c1, g3, beVal_be32 _ (hash_lt pl)]
    simp only [g5]

set_option maxRecDepth 1000000 in
/-- C5 (counterexample): a changed byte of the stored `payload_len` can go
    undetected.  The payload `collPayload` has six bytes; it and its first
    five bytes both hash to 0.  After a successful `writeData`, replacing the
    low byte of `payload_len` (6, at position 17) by 5 makes `getData` return
    true with the first five bytes; in a heap file, `get` then returns true
    with those five bytes. -/
theorem length_corruption_undetected :
    collBlob.writeData (List.replicate 264 0) [20] ⟨6, collPayload⟩ = some (true, collRegion) ∧
    rd collRegion 17 = 6 ∧
    collBlob.getData (wr collRegion 17 [5]) = some [151, 194, 1, 19, 2] ∧
    getResult (run [] collOps) [20] = some (some collPayload) ∧
    run [] collOps = some collHeap ∧ rd collHeap.m_file 17 = 6 ∧
    getResult (some { collHeap with m_file := wr collHeap.m_file 17 [5] }) [20]
      = some (some [151, 194, 1, 19, 2]) := by
  refine ⟨by decide, by decide, by decide, by decide, by decide, by decide, by decide⟩

/-- C5 (amended): in a blob region produced by a successful `Blob::writeData`
    of `(id, payload)`, replacing byte `k` of the stored `payload_len` by a
    different byte makes `getData` read a length other than the stored one;
    `getData` returns false when that length does not fit the record or the
    bytes it covers do not hash to the stored hash, and otherwise returns true
    with those bytes.  For a blob stored in a heap reachable from an empty
    file, `get` of its id answers accordingly. -/
theorem length_corruption_outcome :
    (∀ (r : Record) (mem id : List Byte) (w : BlobWriter) (m2 : List Byte) (k : Nat) (c : Byte),
      (Blob.mk r (some r.m_offset)).writeData mem id w = some (true, m2) →
      w.size ≤ w.bytes.length → k < 4 → c ≠ rd m2 (lenPos r id.length + k) →
      readLen (wr m2 (lenPos r id.length + k) [c]) r id.length ≠ w.size ∧
      (Blob.mk r (some r.m_offset)).getData (wr m2 (lenPos r id.length + k) [c]) =
        lenOutcome m2 r id.length (readLen (wr m2 (lenPos r id.length + k) [c]) r id.length)
          (hash (w.bytes.take w.size))) ∧
    (∀ (key : List Byte) (h : HeapFileT) (r : Record) (id pl : List Byte) (k : Nat) (c : Byte),
      Reach key h → r ∈ h.m_index.m_alloc → BlobAt h.m_file r (h.m_key.encrypt id).2 pl →
      k < 4 → c ≠ rd h.m_file (lenPos r id.length + k) →
      HeapFileT.getBlob { h with m_file := wr h.m_file (lenPos r id.length + k) [c] } id
        = some ((lenOutcome h.m_file r id.length
                  (readLen (wr h.m_file (lenPos r id.length + k) [c]) r id.length)
                  (hash pl)).map (fun src => (h.m_key.decrypt src).2),
                { h with m_file := wr h.m_file (lenPos r id.length + k) [c] })) := by
  have hO : overhead = 9 := rfl
  refine ⟨?_, ?_⟩
  · intro r mem id w m2 k c hw hs hk hc
    obtain ⟨hb, hl, hin⟩ := writeData_blobAt r mem id w m2 hw hs
    have := hb.corrupt_len (by rw [hl]; exact hin) k hk c hc
    rw [hl] at this
    exact this
  · intro key h r id pl k c hr hrA hb hk hc
    have hinv := hr.inv.1
    have hidl : (h.m_key.encrypt id).2.length = id.length := Simple.length_encrypt _ _
    have hw := hinv.within r (hinv.alloc_mem_list hrA)
    have hsz := hb.2.2.1
    rw [hidl] at hsz
    rw [hinv.getBlob_patched id hrA hb _ (by unfold lenPos; omega) (by unfold lenPos; omega) c]
    have := (hb.corrupt_len (by omega) k hk c (by rw [hidl]; exact hc)).2
    rw [hidl] at this
    simp only [lenPos]
    rw [this]
    rfl

set_option maxRecDepth 1000000 in
theorem length_corruption_outcome_witness :
    Reach [] collHeap ∧ collRecord ∈ collHeap.m_index.m_alloc ∧
    BlobAt collHeap.m_file collRecord [20] collPayload ∧
    lenPos collRecord 1 + 3 = 17 ∧ rd collHeap.m_file 17 = 6 ∧
    HeapFileT.getBlob { collHeap with m_file := wr collHeap.m_file (lenPos collRecord 1 + 3) [5] }
        [20]
      = some ((lenOutcome collHeap.m_file collRecord 1
                (readLen (wr collHeap.m_file (lenPos collRecord 1 + 3) [5]) collRecord 1)
                (hash collPayload)).map (fun src => (collHeap.m_key.decrypt src).2),
              { collHeap with m_file := wr collHeap.m_file (lenPos collRecord 1 + 3) [5] }) :=
  ⟨Reach.of_run (show run [] collOps = some collHeap by decide), by decide,
    by unfold BlobAt; decide, by decide, by decide,
    length_corruption_outcome.2 [] collHeap collRecord [20] collPayload 3 5
      (Reach.of_run (show run [] collOps = some collHeap by decide)) (by decide)
      (by unfold BlobAt; decide) (by decide) (by decide)⟩

/-! ## Lemmas: commit and reopen -/

theorem HeapIndex.isFree_eq (idx : HeapIndex) (r : Record) :
    idx.isFree r = decide (r ∈ idx.m_free) := by
  unfold HeapIndex.isFree
  simp only [mem_mmEqualRange_self]

theorem IdxInv.allocInOrder_perm {idx : HeapIndex} (h : IdxInv idx) :
    idx.allocInOrder.Perm idx.m_alloc := by
  have hnd := h.nodup_maps
  have hnd2 := List.nodup_append.mp hnd
  apply (List.perm_ext_iff_of_nodup (h.nodup_list.filter _) hnd2.1).mpr
  intro r
  rw [List.mem_filter, h.mem_list_iff, idx.isFree_eq]
  constructor
  · rintro ⟨h1 | h1, h2⟩
    · exact h1
    · simp [h1] at h2
  · intro hr
    exact ⟨Or.inl hr, by simp [h.alloc_not_free hr]⟩

theorem IdxInv.length_allocInOrder {idx : HeapIndex} (h : IdxInv idx) :
    idx.allocInOrder.length = idx.m_alloc.length := h.allocInOrder_perm.length_eq

theorem getWritePtr_small (f : List Byte) (off size : Nat) (f2 : List Byte) (p : Nat)
    (h : getWritePtr f off size = some (f2, p)) (hs : f.length < OFF_MAX) :
    f2.length < OFF_MAX := by
  unfold getWritePtr at h
  split at h
  · simp only [Option.map_eq_some', Prod.mk.injEq] at h
    obtain ⟨a, ha, rfl, _⟩ := h
    obtain ⟨t1, t2, _⟩ := setFileSize_some _ _ _ ha
    omega
  · split at h
    · simp at h
    · simp only [Option.some.injEq, Prod.mk.injEq] at h
      rw [← h.1]; exact hs

theorem length_serialize (r : Record) : r.serialize.length = 16 := by
  simp [Record.serialize, length_be64, length_be32]

theorem length_flatten_serialize (l : List Record) :
    (l.map Record.serialize).flatten.length = 16 * l.length := by
  induction l with
  | nil => rfl
  | cons a as ih =>
    simp only [List.map_cons, List.flatten_cons, List.length_append, length_serialize, ih,
      List.length_cons]
    omega

/-- The file a commit of a heap with stored blobs leaves: the offset of the
    index in the first eight bytes, the count and the serialized allocated
    records at that offset, and the record regions as they were. -/
theorem commit_spec {h : HeapFileT} (hinv : Inv h) (hne : h.m_index.m_alloc ≠ [])
    {f : List Byte} (e : h.commit = some f) :
    ∃ last, h.m_index.m_list.getLast? = some last ∧ last ∈ h.m_index.m_alloc ∧
      rdN f 0 8 = be64 (last.m_offset + last.m_size) ∧
      rdN f (last.m_offset + last.m_size) 4 = be32 h.m_index.m_alloc.length ∧
      rdN f (last.m_offset + last.m_size + 4) (16 * h.m_index.m_alloc.length)
        = (h.m_index.allocInOrder.map Record.serialize).flatten ∧
      (∀ i, 8 ≤ i → i < last.m_offset + last.m_size → rd f i = rd h.m_file i) ∧
      last.m_offset + last.m_size + 4 + 16 * h.m_index.m_alloc.length ≤ f.length ∧
      f.length < OFF_MAX := by
  have hN : h.m_index.numAllocatedRecords = h.m_index.m_alloc.length :=
    Nat.mod_eq_of_lt hinv.count
  have hpos : 0 < h.m_index.m_alloc.length := List.length_pos.mpr hne
  unfold HeapFileT.commit at e
  rw [hN, if_neg (by omega)] at e
  cases hl : h.m_index.m_list.getLast? with
  | none => simp [hl] at e
  | some last =>
    have hla := hinv.idx.lastAlloc last hl
    have hw := hinv.within last (hinv.alloc_mem_list hla)
    have hsl := hinv.idx.size_lt last (hinv.alloc_mem_list hla)
    have hsm := hinv.small
    have hO : OFF_MAX = 9223372036854775808 := rfl
    have hfree : h.m_index.isFree last = false := by
      rw [HeapIndex.isFree_eq]
      simp [hinv.idx.alloc_not_free hla]
    simp only [hl, hfree, Bool.false_eq_true, if_false] at e
    rw [Nat.mod_eq_of_lt hsl.2] at e
    rw [getWritePtr_inside _ _ _ (by omega) (by omega)] at e
    simp only at e
    rw [store_eq _ _ _ (by rw [length_be64]; omega)] at e
    simp only at e
    have hl2 : (wr h.m_file 0 (be64 (last.m_offset + last.m_size))).length = h.m_file.length :=
      length_wr _ _ _ (by rw [length_be64]; omega)
    generalize hf2 : wr h.m_file 0 (be64 (last.m_offset + last.m_size)) = f2 at e hl2
    cases hg : getWritePtr f2 (last.m_offset + last.m_size) h.m_index.size with
    | none => simp [hg] at e
    | some t =>
      obtain ⟨f3, p⟩ := t
      obtain ⟨g1, g2, g3, _, _, _, g7⟩ := getWritePtr_some _ _ _ _ _ hg
      have g8 := getWritePtr_small _ _ _ _ _ hg (by omega)
      subst g1
      simp only [hg] at e
      have hrl : (h.m_index.m_list.filter (fun e => !h.m_index.isFree e)).length
          = h.m_index.m_alloc.length := hinv.idx.length_allocInOrder
      rw [hrl, Nat.mod_eq_of_lt hinv.count, if_pos rfl] at e
      obtain ⟨s1, s2⟩ := store_some _ _ _ _ e
      have hser : ((h.m_index.m_list.filter (fun e => !h.m_index.isFree e)).map
          Record.serialize).flatten.length = 16 * h.m_index.m_alloc.length := by
        rw [length_flatten_serialize, hrl]
      rw [List.length_append, length_be32, hser] at s1
      have hbl : (be32 h.m_index.m_alloc.length ++ ((h.m_index.m_list.filter
          (fun e => !h.m_index.isFree e)).map Record.serialize).flatten).length
          = 4 + 16 * h.m_index.m_alloc.length := by
        rw [List.length_append, length_be32, hser]
      have hs1 : last.m_offset + last.m_size + (be32 h.m_index.m_alloc.length ++
          ((h.m_index.m_list.filter (fun e => !h.m_index.isFree e)).map
            Record.serialize).flatten).length ≤ f3.length := by
        rw [hbl]; omega
      have hfl : f.length = f3.length := by rw [s2]; exact length_wr _ _ _ hs1
      have hself := rdN_wr_self f3 _ _ hs1
      rw [← s2, hbl] at hself
      have hsplit := rdN_eq_append f (last.m_offset + last.m_size)
        (be32 h.m_index.m_alloc.length)
        ((h.m_index.m_list.filter (fun e => !h.m_index.isFree e)).map Record.serialize).flatten
        (by rw [length_be32, hser]; exact hself)
      rw [length_be32, hser] at hsplit
      refine ⟨last, rfl, hla, ?_, hsplit.1, hsplit.2, ?_, by omega, by omega⟩
      · rw [s2, rdN_wr_out _ _ _ hs1 _ _ (Or.inl (by omega))]
        rw [rdN_congr f2 f3 0 8 (fun i _ _ => g7 i), ← hf2]
        have := rdN_wr_self h.m_file 0 (be64 (last.m_offset + last.m_size))
          (by rw [length_be64]; omega)
        rw [length_be64] at this
        exact this
      · intro i i1 i2
        rw [s2, rd_wr_out _ _ _ hs1 _ (Or.inl i2), g7 i, ← hf2]
        exact rd_wr_out _ _ _ (by rw [length_be64]; omega) _ (Or.inr (by rw [length_be64]; omega))

/-- `findHeapIndex` on a file that holds the offset `io` of an index of `n`
    records. -/
theorem findHeapIndex_of (f : List Byte) (io n : Nat) (hio : io < U64) (hn : n < U32)
    (hpos : 0 < n) (h1 : rdN f 0 8 = be64 io) (h2 : rdN f io 4 = be32 n)
    (h3 : io + 4 + 16 * n ≤ f.length) (h4 : f.length < OFF_MAX) :
    findHeapIndex f = some (f, n, some (io + 4)) := by
  have hU : U64 = 18446744073709551616 := rfl
  have hO : OFF_MAX = 9223372036854775808 := rfl
  have hS : SERIALIZED_SIZE = 16 := rfl
  unfold findHeapIndex
  rw [getReadPtr_inside f 0 8 (by omega) (by omega) h4]
  simp only [h1, beVal_be64 _ hio]
  rw [getReadPtr_inside f io 4 (by omega) (by omega) h4]
  simp only [h2, beVal_be32 _ hn]
  rw [Nat.mod_eq_of_lt (by omega), hS,
    getReadPtr_inside f (io + 4) _ (by omega) (by omega) h4]

/-- A serialized record is read back by `deserialize`. -/
theorem deserialize_serialize (f : List Byte) (p : Nat) (r : Record)
    (h : rdN f p 16 = r.serialize) (h1 : r.m_offset < U64) (h2 : r.m_key < U32)
    (h3 : r.m_size < U32) : Record.deserialize f p = r := by
  have e : (16 : Nat) = (be64 r.m_offset).length + (be32 r.m_key ++ be32 r.m_size).length := by
    simp [length_be64, length_be32]
  rw [e] at h
  unfold Record.serialize at h
  rw [List.append_assoc] at h
  have a := rdN_eq_append f p _ _ h
  have a2 := a.2
  rw [List.length_append] at a2
  have b := rdN_eq_append f _ _ _ a2
  simp only [length_be64, length_be32] at a b
  unfold Record.deserialize
  rw [a.1, b.1, show p + 12 = p + 8 + 4 by omega, b.2, beVal_be64 _ h1, beVal_be32 _ h2,
    beVal_be32 _ h3]

/-- `addAllocatedBlock` of a record that lies behind all records of a
    well-formed index: it returns, the index stays well formed, and what is
    new in the list is the record and, in front of it, at most one filler. -/
theorem addAllocatedBlock_load {idx : HeapIndex} (h : IdxInv idx) (r : Record)
    (hsep : ∀ x ∈ idx.m_list, Sep x r) (hlt : r.m_size < U32 ∧ r.m_offset + r.m_size < U64)
    (hmin : 0 < r.m_size) :
    ∃ idx2, idx.addAllocatedBlock r = some idx2 ∧ IdxInv idx2 ∧
      idx2.m_alloc = mmInsert Record.m_key r idx.m_alloc ∧
      ∀ x ∈ idx2.m_list, x ∈ idx.m_list ∨ x = r ∨
        (x.m_offset + x.m_size ≤ r.m_offset ∧ ∃ y ∈ idx.m_list, y.m_offset < x.m_offset) := by
  have hU : U64 = 18446744073709551616 := rfl
  have hM : MIN_SIZE = 256 := rfl
  have hnot : r ∉ idx.m_list := fun hin => Sep.irrefl r (hsep r hin)
  have hnotF : r ∉ idx.m_free := fun hin => hnot ((h.mem_list_iff _).mpr (Or.inr hin))
  unfold HeapIndex.addAllocatedBlock
  cases hl : idx.m_list.getLast? with
  | none =>
    have hnil := List.getLast?_eq_none_iff.mp hl
    have hp := h.perm
    rw [hnil] at hp
    have hmaps : idx.m_alloc ++ idx.m_free = [] := List.Perm.nil_eq hp |>.symm
    have hA : idx.m_alloc = [] := (List.append_eq_nil.mp hmaps).1
    have hF : idx.m_free = [] := (List.append_eq_nil.mp hmaps).2
    refine ⟨_, rfl, ⟨?_, ?_, ?_, ?_, ?_, ?_⟩, rfl, ?_⟩
    · simp
    · simp [hA, hF, mmInsert]
    · simp
    · intro l hl2
      simp at hl2; subst hl2
      exact (mem_mmInsert _ _ _ _).mpr (Or.inl rfl)
    · intro x hx
      simp at hx; subst hx; exact hlt
    · intro x hx
      rw [hA] at hx
      simp [mmInsert] at hx; subst hx; exact hmin
    · intro x hx
      simp at hx
      exact Or.inr (Or.inl hx)
  | some last =>
    have hlm : last ∈ idx.m_list := List.mem_of_getLast?_eq_some hl
    have hla := h.lastAlloc last hl
    have hls := h.size_lt last hlm
    have hlmin := h.alloc_min last hla
    have hsl := hsep last hlm
    have hao : appendOffset idx = last.m_offset + last.m_size := by
      simp [appendOffset, hl, Nat.mod_eq_of_lt hls.2]
    simp only
    by_cases hsh : last.sharesRightBoundaryWith r = true
    · have hro : r.m_offset = appendOffset idx := by
        simp [Record.sharesRightBoundaryWith, Nat.mod_eq_of_lt hls.2] at hsh
        rw [hao]; omega
      have hr : r = ⟨appendOffset idx, r.m_key, r.m_size⟩ := by
        cases r; simp only at hro; simp [hro]
      obtain ⟨_, t2, _⟩ := addAllocatedBlock_tail h r.m_key r.m_size hmin hlt.1
        (by rw [← hro]; exact hlt.2)
      rw [← hr] at t2
      rw [if_pos hsh]
      refine ⟨_, rfl, t2, rfl, ?_⟩
      intro x hx
      simp only [List.mem_append, List.mem_singleton] at hx
      rcases hx with a | a
      · exact Or.inl a
      · exact Or.inr (Or.inl a)
    · rw [if_neg hsh]
      have hne : last.m_offset + last.m_size ≠ r.m_offset := by
        intro e
        apply hsh
        unfold Record.sharesRightBoundaryWith
        rw [Nat.mod_eq_of_lt hls.2, e]
        simp
      have hlt2 : last.m_offset + last.m_size < r.m_offset := by
        have := hsl.1; omega
      have hbt : Record.between last r = some ⟨last.m_offset + last.m_size, 0,
          (r.m_offset - (last.m_offset + last.m_size)) % U32⟩ := by
        unfold Record.between
        simp only [Nat.mod_eq_of_lt hls.2]
        rw [if_neg (by omega)]
        congr 3
        have : r.m_offset + U64 - (last.m_offset + last.m_size)
            = (r.m_offset - (last.m_offset + last.m_size)) + U64 := by omega
        rw [this, Nat.add_mod_right, Nat.mod_eq_of_lt (by omega)]
      rw [hbt]
      simp only
      generalize hgs : (r.m_offset - (last.m_offset + last.m_size)) % U32 = gs
      have hgs1 : gs < U32 := by rw [← hgs]; exact Nat.mod_lt _ (by decide)
      have hgs2 : gs ≤ r.m_offset - (last.m_offset + last.m_size) := by
        rw [← hgs]; exact Nat.mod_le _ _
      have hgnot : (Record.mk (last.m_offset + last.m_size) 0 gs) ∉ idx.m_list := by
        intro hin
        have := (h.appendOffset_bound _ hin).2
        rw [hao] at this
        simp at this
      have hgr : (Record.mk (last.m_offset + last.m_size) 0 gs) ≠ r := by
        intro e
        rw [← e] at hlt2
        simp at hlt2
      refine ⟨_, rfl, ⟨?_, ?_, ?_, ?_, ?_, ?_⟩, rfl, ?_⟩
      · rw [List.pairwise_append]
        refine ⟨h.sep, ?_, ?_⟩
        · simp only [List.pairwise_cons, List.mem_singleton, forall_eq, List.not_mem_nil,
            false_implies, implies_true, List.Pairwise.nil, and_true]
          constructor
          · simp only; omega
          · simp only; omega
        · intro x hx y hy
          simp only [List.mem_cons, List.mem_singleton, List.not_mem_nil, or_false] at hy
          rcases hy with e | e
          · subst e
            have := h.appendOffset_bound x hx
            rw [hao] at this
            exact this
          · subst e; exact hsep x hx
      · have a : (idx.m_list ++ [Record.mk (last.m_offset + last.m_size) 0 gs, r]).Perm
            (r :: Record.mk (last.m_offset + last.m_size) 0 gs :: (idx.m_alloc ++ idx.m_free)) := by
          refine (List.perm_append_comm).trans ?_
          simp only [List.cons_append, List.nil_append]
          exact (List.Perm.swap _ _ _).trans ((h.perm.cons _).cons _)
        have b : (mmInsert Record.m_key r idx.m_alloc ++
            mmInsert Record.m_size (Record.mk (last.m_offset + last.m_size) 0 gs) idx.m_free).Perm
            (r :: Record.mk (last.m_offset + last.m_size) 0 gs :: (idx.m_alloc ++ idx.m_free)) := by
          refine ((perm_mmInsert _ _ _).append (perm_mmInsert _ _ _)).trans ?_
          simp only [List.cons_append]
          exact (List.perm_middle).cons _
        exact a.trans b.symm
      · have c1 : idx.m_list.Chain' (fun a b => ¬ (a ∈ mmInsert Record.m_size
            (Record.mk (last.m_offset + last.m_size) 0 gs) idx.m_free ∧
            b ∈ mmInsert Record.m_size (Record.mk (last.m_offset + last.m_size) 0 gs)
              idx.m_free)) := by
          refine chain'_imp_mem ?_ h.noAdjFree
          intro a b ha hb hab hh
          rw [mem_mmInsert, mem_mmInsert] at hh
          apply hab
          constructor
          · rcases hh.1 with e | e
            · subst e; exact absurd ha hgnot
            · exact e
          · rcases hh.2 with e | e
            · subst e; exact absurd hb hgnot
            · exact e
        refine List.Chain'.append c1 ?_ ?_
        · simp only [List.chain'_cons, List.chain'_singleton, and_true]
          intro hh
          rcases (mem_mmInsert _ _ _ _).mp hh.2 with e | e
          · exact hgr e.symm
          · exact hnotF e
        · intro x hx y hy hh
          rw [hl] at hx
          simp only [Option.mem_def, Option.some.injEq] at hx
          subst hx
          rcases (mem_mmInsert _ _ _ _).mp hh.1 with e | e
          · exact hgnot (e ▸ hlm)
          · exact h.alloc_not_free hla e
      · intro l hl2
        have : (idx.m_list ++ [Record.mk (last.m_offset + last.m_size) 0 gs, r]).getLast?
            = some r := by
          rw [show idx.m_list ++ [Record.mk (last.m_offset + last.m_size) 0 gs, r]
            = (idx.m_list ++ [Record.mk (last.m_offset + last.m_size) 0 gs]) ++ [r] by simp]
          exact List.getLast?_concat _
        rw [this] at hl2
        simp only [Option.some.injEq] at hl2
        subst hl2
        exact (mem_mmInsert _ _ _ _).mpr (Or.inl rfl)
      · intro x hx
        simp only [List.mem_append, List.mem_cons, List.mem_singleton, List.not_mem_nil,
          or_false] at hx
        rcases hx with a | a | a
        · exact h.size_lt x a
        · subst a; simp only; exact ⟨hgs1, by omega⟩
        · subst a; exact hlt
      · intro x hx
        rcases (mem_mmInsert _ _ _ _).mp hx with e | e
        · subst e; exact hmin
        · exact h.alloc_min x e
      · intro x hx
        simp only [List.mem_append, List.mem_cons, List.mem_singleton, List.not_mem_nil,
          or_false] at hx
        rcases hx with a | a | a
        · exact Or.inl a
        · subst a
          refine Or.inr (Or.inr ⟨by simp only; omega, last, hlm, ?_⟩)
          simp only; omega
        · exact Or.inr (Or.inl a)

/-- The loop of the constructor over the serialized records `recs`, which lie
    in offset order behind the records loaded so far: it does not throw, and
    the index it builds is well formed and holds `recs` as allocated. -/
theorem loadRecords_spec (f : List Byte) (lo hi : Nat) :
    ∀ (recs : List Record) (p : Nat) (idx : HeapIndex), IdxInv idx →
    rdN f p (16 * recs.length) = (recs.map Record.serialize).flatten →
    recs.Pairwise Sep → (∀ x ∈ idx.m_list, ∀ q ∈ recs, Sep x q) →
    (∀ q ∈ recs, q.m_key < U32 ∧ q.m_size < U32 ∧ q.m_offset + q.m_size < U64 ∧
      0 < q.m_size) →
    (∀ x ∈ idx.m_list, lo ≤ x.m_offset ∧ x.m_offset + x.m_size ≤ hi) →
    (∀ q ∈ recs, lo ≤ q.m_offset ∧ q.m_offset + q.m_size ≤ hi) →
    ∃ idx2, loadRecords f recs.length p idx = (true, idx2) ∧ IdxInv idx2 ∧
      idx2.m_alloc.Perm (idx.m_alloc ++ recs) ∧
      ∀ x ∈ idx2.m_list, lo ≤ x.m_offset ∧ x.m_offset + x.m_size ≤ hi := by
  intro recs
  induction recs with
  | nil =>
    intro p idx hidx _ _ _ _ hb _
    exact ⟨idx, rfl, hidx, by simp, hb⟩
  | cons r rs ih =>
    intro p idx hidx hser hpw hsep hsz hb hrb
    have hr := hsz r (by simp)
    have e : 16 * (r :: rs).length
        = r.serialize.length + ((rs.map Record.serialize).flatten).length := by
      rw [length_serialize, length_flatten_serialize, List.length_cons]; omega
    rw [e, List.map_cons, List.flatten_cons] at hser
    obtain ⟨s1, s2⟩ := rdN_eq_append f p _ _ hser
    rw [length_serialize] at s1 s2
    rw [length_flatten_serialize] at s2
    have hd := deserialize_serialize f p r s1 (by omega) hr.1 hr.2.1
    obtain ⟨idx1, ha, hidx1, hA1, hnew⟩ := addAllocatedBlock_load hidx r
      (fun x hx => hsep x hx r (by simp)) ⟨hr.2.1, hr.2.2.1⟩ hr.2.2.2
    rw [List.pairwise_cons] at hpw
    have hrb0 := hrb r (by simp)
    obtain ⟨idx2, hl, hidx2, hperm, hb2⟩ := ih (p + 16) idx1 hidx1 s2 hpw.2
      (by
        intro x hx q hq
        have hrq := hpw.1 q hq
        rcases hnew x hx with a | a | ⟨a1, _⟩
        · exact hsep x a q (by simp [hq])
        · subst a; exact hrq
        · exact ⟨by have := hrq.2; omega, by have := hrq.2; omega⟩)
      (fun q hq => hsz q (by simp [hq]))
      (by
        intro x hx
        rcases hnew x hx with a | a | ⟨a1, y, hy, a2⟩
        · exact hb x a
        · subst a; exact hrb0
        · have := (hb y hy).1
          omega)
      (fun q hq => hrb q (by simp [hq]))
    refine ⟨idx2, ?_, hidx2, ?_, hb2⟩
    · simp only [List.length_cons, loadRecords, hd, ha]
      exact hl
    · refine hperm.trans ?_
      rw [hA1]
      refine ((perm_mmInsert _ _ _).append_right _).trans ?_
      simp only [List.cons_append]
      exact List.perm_middle.symm

/-- Two lists of records in offset order with the same members are equal. -/
theorem eq_of_perm_of_sep {l1 l2 : List Record} (hp : l1.Perm l2) (h1 : l1.Pairwise Sep)
    (h2 : l2.Pairwise Sep) : l1 = l2 := by
  haveI : IsAntisymm Record Sep := ⟨fun a b hab hba => by
    have := hab.2; have := hba.2; omega⟩
  exact List.eq_of_perm_of_sorted hp h1 h2

theorem IdxInv.allocInOrder_sep {idx : HeapIndex} (h : IdxInv idx) :
    idx.allocInOrder.Pairwise Sep :=
  h.sep.sublist (List.filter_sublist _)

/-- Commit of a heap with stored blobs, then open with any key: the
    constructor does not throw; the heap it builds is well formed, lives on the
    committed file, and holds the same allocated records in the same offset
    order, with their regions as they were. -/
theorem reopen_spec {h : HeapFileT} (hinv : Inv h) (hne : h.m_index.m_alloc ≠ [])
    {f : List Byte} (e : h.commit = some f) (key2 : List Byte) :
    ∃ idx2, HeapFileT.open f key2 = some ⟨idx2, f, Simple.new key2, UNBOUNDED⟩ ∧
      Inv ⟨idx2, f, Simple.new key2, UNBOUNDED⟩ ∧ idx2.m_alloc.Perm h.m_index.m_alloc ∧
      idx2.allocInOrder = h.m_index.allocInOrder ∧
      ∀ r ∈ h.m_index.m_alloc, ∀ i, r.m_offset ≤ i → i < r.m_offset + r.m_size →
        rd f i = rd h.m_file i := by
  obtain ⟨last, hl, hla, c1, c2, c3, c4, c5, c6⟩ := commit_spec hinv hne e
  have hpos : 0 < h.m_index.m_alloc.length := List.length_pos.mpr hne
  have hls := hinv.idx.size_lt last (hinv.alloc_mem_list hla)
  have hao : appendOffset h.m_index = last.m_offset + last.m_size := by
    simp [appendOffset, hl, Nat.mod_eq_of_lt hls.2]
  have hfind := findHeapIndex_of f _ _ hls.2 hinv.count hpos c1 c2 c5 c6
  have hperm := hinv.idx.allocInOrder_perm
  have hlen := hinv.idx.length_allocInOrder
  have hframe : ∀ r ∈ h.m_index.m_alloc, ∀ i, r.m_offset ≤ i → i < r.m_offset + r.m_size →
      rd f i = rd h.m_file i := by
    intro r hr i i1 i2
    have hw := (hinv.within r (hinv.alloc_mem_list hr)).1
    have hb := (hinv.idx.appendOffset_bound r (hinv.alloc_mem_list hr)).1
    rw [hao] at hb
    exact c4 i (by omega) (by omega)
  rw [← hlen] at c3
  obtain ⟨idx2, hload, hidx2, hp2, hb2⟩ := loadRecords_spec f 8 (last.m_offset + last.m_size)
    h.m_index.allocInOrder (last.m_offset + last.m_size + 4) HeapIndex.empty
    (Inv.empty ⟨[0]⟩ (by simp) 0).idx c3 hinv.idx.allocInOrder_sep
    (by intro x hx; simp [HeapIndex.empty] at hx)
    (by
      intro q hq
      have hqa : q ∈ h.m_index.m_alloc := hperm.mem_iff.mp hq
      obtain ⟨id, pl, _, hk⟩ := hinv.blobs q hqa
      have := hinv.idx.size_lt q (hinv.alloc_mem_list hqa)
      exact ⟨by rw [hk]; exact hash_lt _, this.1, this.2, hinv.idx.alloc_min q hqa⟩)
    (by intro x hx; simp [HeapIndex.empty] at hx)
    (by
      intro q hq
      have hqa : q ∈ h.m_index.m_alloc := hperm.mem_iff.mp hq
      have hb := (hinv.idx.appendOffset_bound q (hinv.alloc_mem_list hqa)).1
      rw [hao] at hb
      exact ⟨(hinv.within q (hinv.alloc_mem_list hqa)).1, hb⟩)
  rw [hlen] at hload
  have hp3 : idx2.m_alloc.Perm h.m_index.m_alloc := by
    refine hp2.trans ?_
    simp only [HeapIndex.empty, List.nil_append]
    exact hperm
  refine ⟨idx2, ?_, ?_, hp3, ?_, hframe⟩
  · unfold HeapFileT.open
    rw [if_neg (by omega), hfind]
    simp only
    rw [if_neg (by omega), hload]
  · refine ⟨hidx2, ?_, c6, ?_, ?_, Simple.new_ne key2, ?_⟩
    · intro r hr
      have := hb2 r hr
      exact ⟨this.1, by simp only; omega⟩
    · intro r hr
      have hra := hp3.mem_iff.mp hr
      obtain ⟨id, pl, hb, hk⟩ := hinv.blobs r hra
      exact ⟨id, pl, hb.congr (hframe r hra), hk⟩
    · intro r1 hr1 r2 hr2 hs
      have ha1 := hp3.mem_iff.mp hr1
      have ha2 := hp3.mem_iff.mp hr2
      obtain ⟨id1, pl1, hb1, _⟩ := hinv.blobs r1 ha1
      obtain ⟨id2, pl2, hb2, _⟩ := hinv.blobs r2 ha2
      simp only at hs
      rw [storedId_congr hb1 (hframe r1 ha1), storedId_congr hb2 (hframe r2 ha2)] at hs
      exact hinv.uniq r1 ha1 r2 ha2 hs
    · simp only
      rw [hp3.length_eq]
      exact hinv.count
  · exact eq_of_perm_of_sep ((hidx2.allocInOrder_perm.trans hp3).trans hperm.symm)
      hidx2.allocInOrder_sep hinv.idx.allocInOrder_sep

/-- Commit returns when the serialized index fits 32 bits and the file with
    the index stays below the largest file size. -/
theorem commit_total {h : HeapFileT} (hinv : Inv h) (hne : h.m_index.m_alloc ≠ [])
    (hfit : 4 + 16 * h.m_index.m_alloc.length < U32)
    (hsmall : appendOffset h.m_index + 4 + 16 * h.m_index.m_alloc.length < OFF_MAX) :
    ∃ f, h.commit = some f := by
  have hN : h.m_index.numAllocatedRecords = h.m_index.m_alloc.length :=
    Nat.mod_eq_of_lt hinv.count
  have hpos : 0 < h.m_index.m_alloc.length := List.length_pos.mpr hne
  have hsz : h.m_index.size = 4 + 16 * h.m_index.m_alloc.length := by
    unfold HeapIndex.size
    rw [hN]
    exact Nat.mod_eq_of_lt hfit
  unfold HeapFileT.commit
  rw [hN, if_neg (by omega)]
  cases hl : h.m_index.m_list.getLast? with
  | none =>
    have := List.getLast?_eq_none_iff.mp hl
    have hp := hinv.idx.perm
    rw [this] at hp
    have := (List.append_eq_nil.mp (List.Perm.nil_eq hp).symm).1
    exact absurd this hne
  | some last =>
    have hla := hinv.idx.lastAlloc last hl
    have hw := hinv.within last (hinv.alloc_mem_list hla)
    have hsl := hinv.idx.size_lt last (hinv.alloc_mem_list hla)
    have hsm := hinv.small
    have hO : OFF_MAX = 9223372036854775808 := rfl
    have hao : appendOffset h.m_index = last.m_offset + last.m_size := by
      simp [appendOffset, hl, Nat.mod_eq_of_lt hsl.2]
    rw [hao] at hsmall
    have hfree : h.m_index.isFree last = false := by
      rw [HeapIndex.isFree_eq]
      simp [hinv.idx.alloc_not_free hla]
    simp only [hfree, Bool.false_eq_true, if_false]
    rw [Nat.mod_eq_of_lt hsl.2, getWritePtr_inside _ _ _ (by omega) (by omega)]
    simp only
    rw [store_eq _ _ _ (by rw [length_be64]; omega)]
    simp only
    have hl2 : (wr h.m_file 0 (be64 (last.m_offset + last.m_size))).length = h.m_file.length :=
      length_wr _ _ _ (by rw [length_be64]; omega)
    generalize wr h.m_file 0 (be64 (last.m_offset + last.m_size)) = f2 at hl2
    have hg : ∃ f3, getWritePtr f2 (last.m_offset + last.m_size) h.m_index.size
        = some (f3, last.m_offset + last.m_size) ∧
        last.m_offset + last.m_size + h.m_index.size ≤ f3.length := by
      unfold getWritePtr
      by_cases c : f2.length < last.m_offset + last.m_size + h.m_index.size
      · rw [if_pos c, setFileSize_eq _ _ (by omega)]
        refine ⟨_, rfl, ?_⟩
        simp
        omega
      · rw [if_neg c, if_neg (by omega)]
        exact ⟨f2, rfl, by omega⟩
    obtain ⟨f3, hg1, hg2⟩ := hg
    rw [hg1]
    simp only
    have hrl : (h.m_index.m_list.filter (fun e => !h.m_index.isFree e)).length
        = h.m_index.m_alloc.length := hinv.idx.length_allocInOrder
    rw [hrl, Nat.mod_eq_of_lt hinv.count, if_pos rfl]
    rw [store_eq]
    · exact ⟨_, rfl⟩
    · rw [List.length_append, length_be32, length_flatten_serialize, hrl]
      omega

/-- C2: for every heap reachable from an empty file under the key `key` and
    every id stored in it with payload `data`: close returns when the
    serialized index fits (32-bit index size, file below the largest file
    size), and after a close that returned, open of the file with the same
    key returns a heap in which `get(id)` returns true and yields exactly
    `data`, and whose index holds the same allocated records in the same
    offset order. -/
theorem reopen_keeps_blobs {key : List Byte} {h : HeapFileT} (hr : Reach key h)
    (id data : List Byte) (hget : h.getBlob id = some (some data, h)) :
    (4 + 16 * h.m_index.m_alloc.length < U32 →
      appendOffset h.m_index + 4 + 16 * h.m_index.m_alloc.length < OFF_MAX →
      ∃ f, h.commit = some f) ∧
    ∀ f, h.commit = some f →
      ∃ h2, HeapFileT.open f key = some h2 ∧ h2.getBlob id = some (some data, h2) ∧
        h2.m_index.allocInOrder = h.m_index.allocInOrder ∧
        h2.m_index.m_alloc.Perm h.m_index.m_alloc := by
  obtain ⟨hinv, hk⟩ := hr.inv
  rcases hinv.stored_or_absent (h.m_key.encrypt id).2 with ⟨r, hrA, pl, hb⟩ | habs
  · have hne : h.m_index.m_alloc ≠ [] := List.ne_nil_of_mem hrA
    have hd : (h.m_key.decrypt pl).2 = data := by
      have := hinv.getBlob_stored id hrA hb
      rw [hget] at this
      simp only [Option.some.injEq, Prod.mk.injEq, and_true] at this
      exact this.symm
    refine ⟨fun h1 h2 => commit_total hinv hne h1 h2, ?_⟩
    intro f e
    obtain ⟨idx2, ho, hinv2, hp, hord, hframe⟩ := reopen_spec hinv hne e key
    refine ⟨_, ho, ?_, hord, hp⟩
    have hb2 : BlobAt f r ((Simple.new key).encrypt id).2 pl := by
      rw [← hk]; exact hb.congr (hframe r hrA)
    rw [hinv2.getBlob_stored id (hp.mem_iff.mpr hrA) hb2]
    simp only [← hk, hd]
  · have := hinv.getBlob_absent id habs
    rw [hget] at this
    simp at this

set_option maxRecDepth 1000000 in
theorem reopen_keeps_blobs_witness :
    Reach [] pairHeap ∧ pairHeap.getBlob [20] = some (some (fill 3 1), pairHeap) ∧
    pairHeap.commit = some pairFile ∧
    ∃ h2, HeapFileT.open pairFile [] = some h2 ∧ h2.getBlob [20] = some (some (fill 3 1), h2) ∧
      h2.m_index.allocInOrder = pairHeap.m_index.allocInOrder ∧
      h2.m_index.m_alloc.Perm pairHeap.m_index.m_alloc :=
  ⟨Reach.of_run (show run [] pairOps = some pairHeap by decide), by decide, by decide,
    (reopen_keeps_blobs (Reach.of_run (show run [] pairOps = some pairHeap by decide))
      [20] (fill 3 1) (by decide)).2 pairFile (by decide)⟩

/-- Commit of a heap without stored blobs leaves the empty file. -/
theorem commit_of_empty {h : HeapFileT} (he : h.m_index.m_alloc = [])
    {f : List Byte} (e : h.commit = some f) : f = [] := by
  unfold HeapFileT.commit at e
  have : h.m_index.numAllocatedRecords = 0 := by
    simp [HeapIndex.numAllocatedRecords, he]
  rw [if_pos this] at e
  have hs := setFileSize_some _ _ _ e
  exact List.length_eq_zero.mp hs.2.1

/-- The in-place loop after the first `m` elements: they are encrypted, the
    rest is as it was. -/
theorem xorLoop_prefix (key buf : List Byte) (m : Nat) :
    ((List.range m).foldl
        (fun b i => b.set i ((b.getD i 0) ^^^ (key.getD (i % key.length) 0))) buf).length
      = buf.length ∧
    ∀ j, ((List.range m).foldl
        (fun b i => b.set i ((b.getD i 0) ^^^ (key.getD (i % key.length) 0))) buf).getD j 0
      = if j < m ∧ j < buf.length then (buf.getD j 0) ^^^ (key.getD (j % key.length) 0)
        else buf.getD j 0 := by
  induction m with
  | zero => simp
  | succ m ih =>
    rw [List.range_succ, List.foldl_append]
    simp only [List.foldl_cons, List.foldl_nil]
    generalize (List.range m).foldl
        (fun b i => b.set i ((b.getD i 0) ^^^ (key.getD (i % key.length) 0))) buf = L at ih
    obtain ⟨hl, hg⟩ := ih
    refine ⟨by rw [List.length_set, hl], ?_⟩
    intro j
    simp only [List.getD_eq_getElem?_getD, List.getElem?_set] at hg ⊢
    by_cases hjm : m = j
    · subst hjm
      by_cases hb : m < buf.length
      · have : m < L.length := by omega
        simp only [this, if_true, Option.getD_some, hb, and_true, Nat.lt_succ_self]
        rw [hg m]
        simp
      · have : ¬ m < L.length := by omega
        simp only [this, if_false, hb, and_false]
        simp only [if_true, Option.getD_none]
        have h1 : buf[m]? = none := List.getElem?_eq_none (by omega)
        rw [h1]
        rfl
    · simp only [hjm, if_false]
      rw [hg j]
      have : (j < m + 1 ∧ j < buf.length) ↔ (j < m ∧ j < buf.length) := by
        constructor
        · rintro ⟨a, b⟩; exact ⟨by omega, b⟩
        · rintro ⟨a, b⟩; exact ⟨by omega, b⟩
      simp only [this]

/-- Encryption in place computes what encryption into another buffer does. -/
theorem XORInPlace_eq (key buf : List Byte) : XORInPlace key buf = XOR key buf := by
  unfold XORInPlace XOR
  split
  · rfl
  · congr 1
    obtain ⟨hl, hg⟩ := xorLoop_prefix key buf buf.length
    apply List.ext_getElem (by rw [hl]; simp)
    intro i h1 h2
    have h3 : i < buf.length := by simpa using h2
    have := hg i
    simp only [h3, and_self, if_true] at this
    rw [List.getD_eq_getElem _ _ h1] at this
    rw [this]
    simp

/-- C16: for every cipher key `k` and every byte string `x`, `encrypt` returns
    true and an output of the length of `x`, `decrypt` of that output returns
    true and yields `x`, and both calls give the same results when output and
    input are the same buffer. -/
theorem encrypt_decrypt_roundtrip (k x : List Byte) :
    (Simple.new k).encrypt x = (true, ((Simple.new k).encrypt x).2) ∧
    ((Simple.new k).encrypt x).2.length = x.length ∧
    (Simple.new k).decrypt ((Simple.new k).encrypt x).2 = (true, x) ∧
    (Simple.new k).encryptInPlace x = (Simple.new k).encrypt x ∧
    (Simple.new k).decryptInPlace ((Simple.new k).encrypt x).2 = (true, x) := by
  have hne := Simple.new_ne k
  have hk : (Simple.new k).m_key.length ≠ 0 := fun e => hne (List.length_eq_zero.mp e)
  have h1 : ∀ y, ((Simple.new k).encrypt y).1 = true := by
    intro y
    simp [Simple.encrypt, XOR, hk]
  have h3 : (Simple.new k).decrypt ((Simple.new k).encrypt x).2 = (true, x) := by
    apply Prod.ext
    · exact h1 _
    · exact Simple.decrypt_encrypt _ _
  refine ⟨Prod.ext (h1 x) rfl, Simple.length_encrypt _ _, h3, XORInPlace_eq _ _, ?_⟩
  unfold Simple.decryptInPlace
  rw [XORInPlace_eq]
  exact h3

/-- C17: with the empty key, which the constructor stores as the one-byte key
    0, `encrypt` and `decrypt` return true and are the identity on every byte
    string. -/
theorem empty_key_is_identity (x : List Byte) :
    (Simple.new []).m_key = [0] ∧ (Simple.new []).encrypt x = (true, x) ∧
    (Simple.new []).decrypt x = (true, x) := by
  have h : XOR [0] x = (true, x) := by
    unfold XOR
    simp only [List.length_singleton, Nat.one_ne_zero, if_false, Nat.mod_one]
    congr 1
    apply List.ext_getElem (by simp)
    intro i h1 h2
    simp only [List.getElem_map, List.getElem_range, List.getD_cons_zero]
    rw [List.getD_eq_getElem _ _ h2]
    apply Fin.ext
    rw [byte_xor_val]
    simp
  exact ⟨rfl, h, h⟩

/-! ## Lemmas: byte order -/

theorem toByte_congr {a b : Nat} (h : a % 256 = b % 256) : toByte a = toByte b := by
  apply Fin.ext
  simp only [toByte]
  exact h

theorem mod_div_mod (n k m : Nat) (hm : 256 ∣ m) : (n % (k * m) / k) % 256 = (n / k) % 256 := by
  rw [Nat.mod_mul_right_div_self, Nat.mod_mod_of_dvd _ hm]

/-- The big-endian image only depends on the low 32 bits. -/
theorem be32_mod (n : Nat) : be32 (n % U32) = be32 n := by
  unfold be32
  have h0 : n % U32 % 256 = n % 256 := Nat.mod_mod_of_dvd _ (by decide)
  have h1 := mod_div_mod n 256 16777216 (by decide)
  have h2 := mod_div_mod n 65536 65536 (by decide)
  have h3 := mod_div_mod n 16777216 256 (by decide)
  exact congrArg₂ _ (toByte_congr h3) (congrArg₂ _ (toByte_congr h2)
    (congrArg₂ _ (toByte_congr h1) (congrArg₂ _ (toByte_congr h0) rfl)))

theorem htonl_true_lt (x : Nat) : htonl true x < U32 := by
  simp only [htonl, if_true]
  have hU : U32 = 4294967296 := rfl
  omega

/-- The memory image of the byte reversal of four digits. -/
theorem objBytes32_digits (d0 d1 d2 d3 : Nat) (h1 : d1 < 256) (h2 : d2 < 256)
    (h3 : d3 < 256) :
    objBytes32 true (d0 * 16777216 + d1 * 65536 + d2 * 256 + d3)
      = [toByte d3, toByte d2, toByte d1, toByte d0] := by
  simp only [objBytes32, if_true]
  exact congrArg₂ _ (toByte_congr (by omega)) (congrArg₂ _ (toByte_congr (by omega))
    (congrArg₂ _ (toByte_congr (by omega)) (congrArg₂ _ (toByte_congr (by omega)) rfl)))

/-- What `writeH2N` of a 32-bit value leaves in memory. -/
theorem objBytes32_htonl (le : Bool) (x : Nat) : objBytes32 le (htonl le x) = be32 x := by
  cases le with
  | true =>
    simp only [htonl, if_true]
    rw [objBytes32_digits _ _ _ _ (Nat.mod_lt _ (by decide)) (Nat.mod_lt _ (by decide))
      (Nat.mod_lt _ (by decide))]
    unfold be32
    exact congrArg₂ _ (toByte_congr (Nat.mod_mod _ _)) (congrArg₂ _ (toByte_congr (Nat.mod_mod _ _))
      (congrArg₂ _ (toByte_congr (Nat.mod_mod _ _))
        (congrArg₂ _ (toByte_congr (Nat.mod_mod _ _)) rfl)))
  | false => rfl

theorem htonl_lt (le : Bool) (x : Nat) (h : x < U32) : htonl le x < U32 := by
  cases le with
  | true => exact htonl_true_lt x
  | false => exact h

/-- The body of `htonll` under `#ifdef __LITTLE_ENDIAN__`, as arithmetic. -/
theorem htonll_mac (le : Bool) (ll : Nat) :
    htonll le true ll = htonl le (ll % U32) * U32 + htonl le (ll / U32 % U32) := by
  have hU : U32 = 4294967296 := rfl
  have h64 : U64 = 18446744073709551616 := rfl
  have h1 := htonl_lt le (ll % U32) (Nat.mod_lt _ (by decide))
  have h2 := htonl_lt le (ll / U32 % U32) (Nat.mod_lt _ (by decide))
  simp only [htonll, if_true]
  rw [Nat.shiftRight_eq_div_pow, Nat.shiftLeft_eq]
  have e32 : (2 : Nat) ^ 32 = U32 := by decide
  rw [e32, Nat.mod_eq_of_lt (by rw [hU, h64]; rw [hU] at h1; omega)]
  have h3 : htonl le (ll / U32 % U32) < 2 ^ 32 := by rw [e32]; exact h2
  have := Nat.mul_add_lt_is_or h3 (htonl le (ll % U32))
  rw [e32, Nat.mul_comm] at this
  exact this.symm

theorem htonll_true (ll : Nat) :
    htonll true true ll = htonl true (ll % U32) * U32 + htonl true (ll / U32 % U32) :=
  htonll_mac true ll

/-- What `writeH2N` of a 64-bit value leaves in memory on a build where the
    macro is defined exactly on a little-endian host. -/
theorem objBytes64_htonll (le : Bool) (x : Nat) : objBytes64 le (htonll le le x) = be64 x := by
  cases le with
  | true =>
    have h2 := htonl_true_lt (x / U32 % U32)
    rw [htonll_true]
    simp only [objBytes64, if_true]
    rw [Nat.mul_comm, Nat.mul_add_mod, Nat.mod_eq_of_lt h2, objBytes32_htonl,
      Nat.mul_add_div (by decide), Nat.div_eq_of_lt h2, Nat.add_zero, objBytes32_htonl]
    rfl
  | false =>
    simp only [objBytes64, htonll, Bool.false_eq_true, if_false]
    have a := objBytes32_htonl false (x / U32)
    have b := objBytes32_htonl false (x % U32)
    simp only [htonl, Bool.false_eq_true, if_false] at a b
    rw [a, b, ← be32_mod (x / U32)]
    rfl

theorem rdN_four (m : List Byte) (p : Nat) :
    rdN m p 4 = [rd m p, rd m (p + 1), rd m (p + 2), rd m (p + 3)] := by
  simp [rdN, List.range_succ]

theorem rdN_eight (m : List Byte) (p : Nat) :
    rdN m p 8 = [rd m p, rd m (p + 1), rd m (p + 2), rd m (p + 3), rd m (p + 4), rd m (p + 5),
      rd m (p + 6), rd m (p + 7)] := by
  simp [rdN, List.range_succ]

/-- `ntohl` of the value of four bytes in little-endian memory is their
    big-endian value. -/
theorem htonl_beVal_rev (a b c d : Byte) : htonl true (beVal [d, c, b, a]) = beVal [a, b, c, d] := by
  have ha := a.isLt; have hb := b.isLt; have hc := c.isLt; have hd := d.isLt
  simp only [htonl, if_true, beVal, List.foldl]
  generalize a.val = A at *
  generalize b.val = B at *
  generalize c.val = C at *
  generalize d.val = D at *
  have h1 : ((((0 * 256 + D) * 256 + C) * 256 + B) * 256 + A) / 256
      = D * 65536 + C * 256 + B := by omega
  have h2 : ((((0 * 256 + D) * 256 + C) * 256 + B) * 256 + A) / 65536 = D * 256 + C := by omega
  have h3 : ((((0 * 256 + D) * 256 + C) * 256 + B) * 256 + A) / 16777216 = D := by omega
  have h4 : ((((0 * 256 + D) * 256 + C) * 256 + B) * 256 + A) % 256 = A := by omega
  have h5 : (D * 65536 + C * 256 + B) % 256 = B := by omega
  have h6 : (D * 256 + C) % 256 = C := by omega
  have h7 : D % 256 = D := by omega
  rw [h1, h2, h3, h4, h5, h6, h7]
  clear h1 h2 h3 h4 h5 h6 h7
  omega

theorem ntohl_objVal (le : Bool) (a b c d : Byte) :
    ntohl le (objVal le [a, b, c, d]) = beVal [a, b, c, d] := by
  cases le with
  | true =>
    simp only [ntohl, objVal, if_true, List.reverse_cons, List.reverse_nil, List.nil_append,
      List.cons_append]
    exact htonl_beVal_rev a b c d
  | false => rfl

theorem ntohll_objVal (le : Bool) (a b c d e f g h : Byte) :
    ntohll le le (objVal le [a, b, c, d, e, f, g, h]) = beVal [a, b, c, d, e, f, g, h] := by
  cases le with
  | true =>
    simp only [ntohll, objVal, if_true, List.reverse_cons, List.reverse_nil, List.nil_append,
      List.cons_append]
    rw [htonll_true]
    have ha := a.isLt; have hb := b.isLt; have hc := c.isLt; have hd := d.isLt
    have he := e.isLt; have hf := f.isLt; have hg := g.isLt; have hh := h.isLt
    have hU : U32 = 4294967296 := rfl
    have e1 : beVal [h, g, f, e, d, c, b, a] % U32 = beVal [d, c, b, a] := by
      simp only [beVal, List.foldl, hU]; omega
    have e2 : beVal [h, g, f, e, d, c, b, a] / U32 % U32 = beVal [h, g, f, e] := by
      simp only [beVal, List.foldl, hU]; omega
    rw [e1, e2, htonl_beVal_rev, htonl_beVal_rev]
    simp only [beVal, List.foldl, hU]; omega
  | false => rfl

/-- `readN2H` of a 32-bit value reads the big-endian value on either host. -/
theorem readN2H32_eq (le : Bool) (m : List Byte) (p : Nat) :
    readN2H32 le m p = (beVal (rdN m p 4), 4) := by
  unfold readN2H32
  rw [rdN_four, ntohl_objVal]

/-- `readN2H` of a 64-bit value reads the big-endian value on a build where
    the macro is defined exactly on a little-endian host. -/
theorem readN2H64_eq (le : Bool) (m : List Byte) (p : Nat) :
    readN2H64 le le m p = (beVal (rdN m p 8), 8) := by
  unfold readN2H64
  rw [rdN_eight, ntohll_objVal]

/-- `Record::serialize` as the index model uses it: the build where the macro
    is defined exactly on a little-endian host. -/
theorem serializeH_eq (le : Bool) (r : Record) : r.serializeH le le = (r.serialize, 16) := by
  simp only [Record.serializeH, writeH2N64, writeH2N32, objBytes64_htonll, objBytes32_htonl,
    Record.serialize]

/-- `Record::deserialize` as the index model uses it. -/
theorem deserializeH_eq (le : Bool) (m : List Byte) (p : Nat) :
    Record.deserializeH le le m p = (Record.deserialize m p, 16) := by
  simp only [Record.deserializeH, readN2H64_eq, readN2H32_eq, Record.deserialize]

theorem length_objBytes32 (le : Bool) (v : Nat) : (objBytes32 le v).length = 4 := by
  cases le <;> rfl

theorem length_objBytes64 (le : Bool) (v : Nat) : (objBytes64 le v).length = 8 := by
  cases le <;> simp [objBytes64, length_objBytes32]

/-- The value of a 32-bit object is read back from its bytes in memory. -/
theorem objVal_objBytes32 (le : Bool) (v : Nat) (h : v < U32) :
    objVal le (objBytes32 le v) = v := by
  have hU : U32 = 4294967296 := rfl
  cases le with
  | true =>
    simp only [objVal, objBytes32, if_true, List.reverse_cons, List.reverse_nil,
      List.nil_append, List.cons_append, beVal, List.foldl, toByte]
    omega
  | false =>
    simp only [objVal, objBytes32, Bool.false_eq_true, if_false, beVal, List.foldl, toByte]
    omega

/-- The value of a 64-bit object is read back from its bytes in memory. -/
theorem objVal_objBytes64 (le : Bool) (v : Nat) (h : v < U64) :
    objVal le (objBytes64 le v) = v := by
  have hU : U32 = 4294967296 := rfl
  have h64 : U64 = 18446744073709551616 := rfl
  cases le with
  | true =>
    simp only [objVal, objBytes64, objBytes32, if_true, List.reverse_cons, List.reverse_nil,
      List.nil_append, List.cons_append, List.reverse_append, beVal, List.foldl, toByte, hU]
    omega
  | false =>
    simp only [objVal, objBytes64, objBytes32, Bool.false_eq_true, if_false, List.cons_append,
      List.nil_append, beVal, List.foldl, toByte, hU]
    omega

theorem htonl_htonl (le : Bool) (x : Nat) (h : x < U32) : htonl le (htonl le x) = x := by
  cases le with
  | true =>
    have e := beVal_be32 x h
    unfold be32 at e
    have e1 := htonl_beVal_rev (toByte x) (toByte (x / 256)) (toByte (x / 65536))
      (toByte (x / 16777216))
    have e2 := htonl_beVal_rev (toByte (x / 16777216)) (toByte (x / 65536)) (toByte (x / 256))
      (toByte x)
    rw [e] at e1
    rw [e1, e2]
    exact e
  | false => rfl

theorem htonll_lt (le mac : Bool) (x : Nat) (h : x < U64) : htonll le mac x < U64 := by
  have hU : U32 = 4294967296 := rfl
  have h64 : U64 = 18446744073709551616 := rfl
  cases mac with
  | false => simpa [htonll] using h
  | true =>
    rw [htonll_mac]
    have h1 := htonl_lt le (x % U32) (Nat.mod_lt _ (by decide))
    have h2 := htonl_lt le (x / U32 % U32) (Nat.mod_lt _ (by decide))
    generalize htonl le (x % U32) = A at h1 ⊢
    generalize htonl le (x / U32 % U32) = B at h2 ⊢
    rw [hU] at h1 h2 ⊢
    rw [h64]
    omega

/-- `ntohll` undoes `htonll` on every build. -/
theorem htonll_htonll (le mac : Bool) (x : Nat) (h : x < U64) :
    htonll le mac (htonll le mac x) = x := by
  have hU : U32 = 4294967296 := rfl
  have h64 : U64 = 18446744073709551616 := rfl
  cases mac with
  | false => simp [htonll]
  | true =>
    have h1 := htonl_lt le (x % U32) (Nat.mod_lt _ (by decide))
    have h2 := htonl_lt le (x / U32 % U32) (Nat.mod_lt _ (by decide))
    rw [htonll_mac le x, htonll_mac]
    have e1 : (htonl le (x % U32) * U32 + htonl le (x / U32 % U32)) % U32
        = htonl le (x / U32 % U32) := by
      rw [Nat.mul_comm, Nat.mul_add_mod, Nat.mod_eq_of_lt h2]
    have e2 : (htonl le (x % U32) * U32 + htonl le (x / U32 % U32)) / U32 % U32
        = htonl le (x % U32) := by
      rw [Nat.mul_comm, Nat.mul_add_div (by decide), Nat.div_eq_of_lt h2, Nat.add_zero,
        Nat.mod_eq_of_lt h1]
    rw [e1, e2, htonl_htonl le _ (Nat.mod_lt _ (by decide)),
      htonl_htonl le _ (Nat.mod_lt _ (by decide))]
    rw [h64] at h
    rw [hU]
    omega

/-- `readN2H` of the bytes that `writeH2N` stored gives the value back, on
    every build. -/
theorem readN2H64_writeH2N64 (le mac : Bool) (x : Nat) (h : x < U64) (m : List Byte) (p : Nat)
    (e : rdN m p 8 = (writeH2N64 le mac x).1) : readN2H64 le mac m p = (x, 8) := by
  unfold readN2H64
  rw [e]
  simp only [writeH2N64, ntohll]
  rw [objVal_objBytes64 le _ (htonll_lt le mac x h), htonll_htonll le mac x h]

theorem readN2H32_writeH2N32 (le : Bool) (x : Nat) (h : x < U32) (m : List Byte) (p : Nat)
    (e : rdN m p 4 = (writeH2N32 le x).1) : readN2H32 le m p = (x, 4) := by
  unfold readN2H32
  rw [e]
  simp only [writeH2N32, ntohl]
  rw [objVal_objBytes32 le _ (htonl_lt le x h), htonl_htonl le x h]

/-- C14: for every record with a 64-bit offset, a 32-bit key and a 32-bit
    size, on either host and with or without the macro `__LITTLE_ENDIAN__`,
    `serialize` writes exactly 16 bytes and returns 16, and `deserialize` of
    those 16 bytes returns 16 and yields a record with the same offset, key
    and size. -/
theorem serialize_deserialize_roundtrip (le mac : Bool) (r : Record) (h1 : r.m_offset < U64)
    (h2 : r.m_key < U32) (h3 : r.m_size < U32) :
    (r.serializeH le mac).1.length = 16 ∧ (r.serializeH le mac).2 = 16 ∧
    ∀ (m : List Byte) (p : Nat), rdN m p 16 = (r.serializeH le mac).1 →
      Record.deserializeH le mac m p = (r, 16) := by
  have hl8 : (writeH2N64 le mac r.m_offset).1.length = 8 := length_objBytes64 _ _
  have hl4a : (writeH2N32 le r.m_key).1.length = 4 := length_objBytes32 _ _
  have hl4b : (writeH2N32 le r.m_size).1.length = 4 := length_objBytes32 _ _
  refine ⟨?_, rfl, ?_⟩
  · simp only [Record.serializeH, List.length_append, hl8, hl4a, hl4b]
  · intro m p hm
    simp only [Record.serializeH] at hm
    have e : (16 : Nat) = (writeH2N64 le mac r.m_offset).1.length
        + ((writeH2N32 le r.m_key).1 ++ (writeH2N32 le r.m_size).1).length := by
      rw [List.length_append, hl8, hl4a, hl4b]
    rw [e, List.append_assoc] at hm
    obtain ⟨a1, a2⟩ := rdN_eq_append m p _ _ hm
    rw [List.length_append] at a2
    obtain ⟨b1, b2⟩ := rdN_eq_append m _ _ _ a2
    rw [hl8] at a1 b1 b2
    rw [hl4a] at b1 b2
    rw [hl4b] at b2
    have r1 := readN2H64_writeH2N64 le mac r.m_offset h1 m p a1
    have r2 := readN2H32_writeH2N32 le r.m_key h2 m (p + 8) b1
    have r3 := readN2H32_writeH2N32 le r.m_size h3 m (p + 8 + 4) b2
    simp only [Record.deserializeH, r1, r2, r3]

theorem serialize_deserialize_roundtrip_witness :
    testRecord.m_offset < U64 ∧ testRecord.m_key < U32 ∧ testRecord.m_size < U32 ∧
    (testRecord.serializeH true false).1.length = 16 ∧
    (testRecord.serializeH true false).2 = 16 ∧
    ∀ (m : List Byte) (p : Nat), rdN m p 16 = (testRecord.serializeH true false).1 →
      Record.deserializeH true false m p = (testRecord, 16) :=
  ⟨by decide, by decide, by decide,
    serialize_deserialize_roundtrip true false testRecord (by decide) (by decide) (by decide)⟩

theorem be64_explicit (n : Nat) :
    be64 n = [toByte (n / 72057594037927936), toByte (n / 281474976710656),
      toByte (n / 1099511627776), toByte (n / 4294967296), toByte (n / 16777216),
      toByte (n / 65536), toByte (n / 256), toByte n] := by
  have a1 := mod_div_mod (n / 4294967296) 16777216 256 (by decide)
  have a2 := mod_div_mod (n / 4294967296) 65536 65536 (by decide)
  have a3 := mod_div_mod (n / 4294967296) 256 16777216 (by decide)
  have a4 : n / 4294967296 % 4294967296 % 256 = n / 4294967296 % 256 :=
    Nat.mod_mod_of_dvd _ (by decide)
  have b1 := mod_div_mod n 16777216 256 (by decide)
  have b2 := mod_div_mod n 65536 65536 (by decide)
  have b3 := mod_div_mod n 256 16777216 (by decide)
  have b4 : n % 4294967296 % 256 = n % 256 := Nat.mod_mod_of_dvd _ (by decide)
  rw [Nat.div_div_eq_div_mul] at a1 a2 a3
  simp only [be64, be32, List.cons_append, List.nil_append]
  exact congrArg₂ _ (toByte_congr a1) (congrArg₂ _ (toByte_congr a2)
    (congrArg₂ _ (toByte_congr a3) (congrArg₂ _ (toByte_congr a4)
    (congrArg₂ _ (toByte_congr b1) (congrArg₂ _ (toByte_congr b2)
    (congrArg₂ _ (toByte_congr b3) (congrArg₂ _ (toByte_congr b4) rfl)))))))

/-- The 16 bytes of `serialize` on a build where the macro is defined exactly
    on a little-endian host: offset, key and size in network byte order. -/
theorem serializeH_network (le : Bool) (r : Record) :
    (r.serializeH le le).1 =
      [toByte (r.m_offset / 72057594037927936), toByte (r.m_offset / 281474976710656),
       toByte (r.m_offset / 1099511627776), toByte (r.m_offset / 4294967296),
       toByte (r.m_offset / 16777216), toByte (r.m_offset / 65536), toByte (r.m_offset / 256),
       toByte r.m_offset,
       toByte (r.m_key / 16777216), toByte (r.m_key / 65536), toByte (r.m_key / 256),
       toByte r.m_key,
       toByte (r.m_size / 16777216), toByte (r.m_size / 65536), toByte (r.m_size / 256),
       toByte r.m_size] := by
  rw [serializeH_eq]
  simp only [Record.serialize, be64_explicit, be32, List.cons_append, List.nil_append]

theorem htonll_reverses (ll : Nat) :
    objBytes64 true (htonll true true ll) = (objBytes64 true ll).reverse := by
  rw [objBytes64_htonll]
  have e1 : (objBytes64 true ll).reverse = be32 (ll / U32) ++ be32 (ll % U32) := by
    simp [objBytes64, objBytes32, be32]
  have e2 : be64 ll = be32 (ll / U32 % U32) ++ be32 (ll % U32) := rfl
  rw [e1, e2, be32_mod]

/-- C15 (failing input): on a little-endian host where `__LITTLE_ENDIAN__` is
    not defined when byte_order.cpp is compiled, `htonll` is the identity and
    `serialize` of the record `(2^40, 0xdeadbeef, 204800)` writes the offset
    in host order, low byte first (`00 00 00 00 00 01 00 00`), followed by the
    key and the size in network order; the big-endian offset would be
    `00 00 01 00 00 00 00 00`.  On a little-endian host with the macro
    defined, and on a big-endian host without it, the 16 bytes are the three
    big-endian encodings, and `htonll` reverses the bytes of its argument on
    the first of the two. -/
theorem serialize_offset_in_host_order :
    htonll true false testRecord.m_offset = testRecord.m_offset ∧
    (testRecord.serializeH true false).1
      = [0, 0, 0, 0, 0, 1, 0, 0, 222, 173, 190, 239, 0, 3, 32, 0] ∧
    be64 testRecord.m_offset ++ be32 testRecord.m_key ++ be32 testRecord.m_size
      = [0, 0, 1, 0, 0, 0, 0, 0, 222, 173, 190, 239, 0, 3, 32, 0] ∧
    (∀ (le : Bool) (r : Record),
      (r.serializeH le le).1 =
        [toByte (r.m_offset / 72057594037927936), toByte (r.m_offset / 281474976710656),
         toByte (r.m_offset / 1099511627776), toByte (r.m_offset / 4294967296),
         toByte (r.m_offset / 16777216), toByte (r.m_offset / 65536),
         toByte (r.m_offset / 256), toByte r.m_offset,
         toByte (r.m_key / 16777216), toByte (r.m_key / 65536), toByte (r.m_key / 256),
         toByte r.m_key,
         toByte (r.m_size / 16777216), toByte (r.m_size / 65536), toByte (r.m_size / 256),
         toByte r.m_size]) ∧
    (∀ ll : Nat, objBytes64 true (htonll true true ll) = (objBytes64 true ll).reverse) ∧
    (∀ ll : Nat, htonll true false ll = ll) := by
  exact ⟨by decide, by decide, by decide, serializeH_network, htonll_reverses,
    fun ll => by simp [htonll]⟩

/-- `writeData` and `getData` use the size of the record and the pointer, not
    the offset of the record. -/
theorem writeData_ptr (r : Record) (p : Nat) (mem id : List Byte) (w : BlobWriter) :
    (Blob.mk r (some p)).writeData mem id w
      = (Blob.mk ⟨p, r.m_key, r.m_size⟩ (some p)).writeData mem id w := rfl

theorem getData_ptr (r : Record) (p : Nat) (mem : List Byte) :
    (Blob.mk r (some p)).getData mem = (Blob.mk ⟨p, r.m_key, r.m_size⟩ (some p)).getData mem :=
  rfl

/-- C18: for every id of at most 255 bytes, every payload (the `size()` bytes
    the writer stores) and every record whose size is at least
    `9 + |id| + |payload|` and whose region lies in the mapped memory,
    `writeData` returns true, and `getData` on the same region then returns
    true and hands the reader exactly the payload. -/
theorem blob_write_then_read (r : Record) (p : Nat) (mem id : List Byte) (w : BlobWriter)
    (hid : id.length ≤ 255) (hw : w.size < U32) (hwb : w.bytes.length = w.size)
    (hfit : overhead + id.length + w.size ≤ r.m_size) (hmem : p + r.m_size ≤ mem.length) :
    ∃ m2, (Blob.mk r (some p)).writeData mem id w = some (true, m2) ∧
      (Blob.mk r (some p)).getData m2 = some w.bytes := by
  obtain ⟨m2, hm2⟩ := writeData_total r p mem id w hfit hid hw (by omega)
  refine ⟨m2, hm2, ?_⟩
  rw [writeData_ptr] at hm2
  obtain ⟨hb, _, _⟩ := writeData_blobAt ⟨p, r.m_key, r.m_size⟩ mem id w m2 hm2 (by omega)
  rw [getData_ptr, hb.getData, ← hwb, List.take_length]

set_option maxRecDepth 1000000 in
theorem blob_write_then_read_witness :
    ([20] : List Byte).length ≤ 255 ∧ (6 : Nat) < U32 ∧ collPayload.length = 6 ∧
    overhead + ([20] : List Byte).length + 6 ≤ collRecord.m_size ∧
    8 + collRecord.m_size ≤ (List.replicate 264 (0 : Byte)).length ∧
    ∃ m2, (Blob.mk collRecord (some 8)).writeData (List.replicate 264 0) [20] ⟨6, collPayload⟩
        = some (true, m2) ∧
      (Blob.mk collRecord (some 8)).getData m2 = some collPayload :=
  ⟨by decide, by decide, by decide, by decide, by decide,
    blob_write_then_read collRecord 8 (List.replicate 264 0) [20] ⟨6, collPayload⟩
      (by decide) (by decide) (by decide) (by decide) (by decide)⟩

/-- C19: for every id of at most 255 bytes and every payload that fit the
    record, `writeData` returns true and leaves, from the pointer on, one byte
    `|id|`, the id, the four big-endian bytes of the hash of the payload (the
    djb2 variant `h = 5381; h = ((h << 5) + h) xor b` in 32 bits), the four
    big-endian bytes of `|payload|` and the payload; all other bytes are as
    they were. -/
theorem blob_write_layout (r : Record) (p : Nat) (mem id : List Byte) (w : BlobWriter)
    (hid : id.length ≤ 255) (hw : w.size < U32) (hwb : w.bytes.length = w.size)
    (hfit : overhead + id.length + w.size ≤ r.m_size) (hmem : p + r.m_size ≤ mem.length) :
    ∃ m2, (Blob.mk r (some p)).writeData mem id w = some (true, m2) ∧
      rdN m2 p (9 + id.length + w.size) =
        toByte id.length :: (id ++ (be32 (hash w.bytes) ++ (be32 w.size ++ w.bytes))) ∧
      hash w.bytes
        = w.bytes.foldl (fun h b => (((h <<< 5) % 4294967296 + h) % 4294967296) ^^^ b.val) 5381 ∧
      m2.length = mem.length ∧
      ∀ i, (i < p ∨ p + 9 + id.length + w.size ≤ i) → rd m2 i = rd mem i := by
  obtain ⟨m2, hm2⟩ := writeData_total r p mem id w hfit hid hw (by omega)
  refine ⟨m2, hm2, ?_⟩
  obtain ⟨_, _, _, _, h5, h6, h7⟩ := writeData_some r p mem id w m2 hm2 (by omega)
  rw [← hwb, List.take_length] at h6
  rw [hwb] at h6 h7
  refine ⟨?_, rfl, h5, h7⟩
  unfold enc at h6
  rw [hwb] at h6
  exact h6

set_option maxRecDepth 1000000 in
theorem blob_write_layout_witness :
    ([20] : List Byte).length ≤ 255 ∧ (6 : Nat) < U32 ∧ collPayload.length = 6 ∧
    overhead + ([20] : List Byte).length + 6 ≤ collRecord.m_size ∧
    8 + collRecord.m_size ≤ (List.replicate 264 (0 : Byte)).length ∧
    ∃ m2, (Blob.mk collRecord (some 8)).writeData (List.replicate 264 0) [20] ⟨6, collPayload⟩
        = some (true, m2) ∧
      rdN m2 8 (9 + ([20] : List Byte).length + 6) =
        toByte ([20] : List Byte).length ::
          ([20] ++ (be32 (hash collPayload) ++ (be32 6 ++ collPayload))) ∧
      hash collPayload = collPayload.foldl
        (fun h b => (((h <<< 5) % 4294967296 + h) % 4294967296) ^^^ b.val) 5381 ∧
      m2.length = (List.replicate 264 (0 : Byte)).length ∧
      ∀ i, (i < 8 ∨ 8 + 9 + ([20] : List Byte).length + 6 ≤ i) →
        rd m2 i = rd (List.replicate 264 0) i :=
  ⟨by decide, by decide, by decide, by decide, by decide,
    blob_write_layout collRecord 8 (List.replicate 264 0) [20] ⟨6, collPayload⟩
      (by decide) (by decide) (by decide) (by decide) (by decide)⟩

theorem writeData_too_big (b : Blob) (mem id : List Byte) (w : BlobWriter)
    (h : overhead + id.length + w.size > b.m_rec.m_size) : b.writeData mem id w = none := by
  unfold Blob.writeData
  rw [if_pos h]

/-- On a fresh heap, the put of an id of 256 bytes with a payload of
    4 294 967 040 bytes does not return: `blobSize` wraps around to 9, the
    record gets 256 bytes, and the assertion of `writeData` on the size of
    the record fails. -/
theorem put_wrap_aborts (id data : List Byte) (hid : id.length = 256)
    (hd : data.length = 4294967040) : (HeapFileT.create []).writeBlob id data = none := by
  have hel : ((HeapFileT.create []).m_key.encrypt id).2.length = 256 := by
    rw [Simple.length_encrypt, hid]
  unfold HeapFileT.writeBlob
  simp only
  generalize ((HeapFileT.create []).m_key.encrypt id).2 = eid at hel
  have he : eraseBlobEncryptedId eid (HeapFileT.create []).m_index (HeapFileT.create []).m_file
      = some (true, HeapIndex.empty, []) := by
    simp [eraseBlobEncryptedId, findBlob, HeapFileT.create, HeapIndex.empty, mmEqualRange,
      findBlobIn, Blob.nil, Blob.isNil]
  have hbs : Blob.blobSize eid.length data.length = 9 := by
    rw [hel, hd]; decide
  have hal : HeapIndex.empty.allocate 9 (hash eid) = some (none, HeapIndex.empty) := by
    simp [HeapIndex.allocate, HeapIndex.empty, mmLowerBound]
  have hao : appendOffset HeapIndex.empty = 8 := rfl
  have hrn : Record.new 8 (hash eid) 9 true = ⟨8, hash eid, 256⟩ := by
    simp [Record.new, MIN_SIZE]
  have hadd : HeapIndex.empty.addAllocatedBlock ⟨8, hash eid, 256⟩
      = some ⟨[⟨8, hash eid, 256⟩], [⟨8, hash eid, 256⟩], []⟩ := by
    simp [HeapIndex.addAllocatedBlock, HeapIndex.empty, mmInsert]
  have hsz : (HeapIndex.mk [⟨8, hash eid, 256⟩] [⟨8, hash eid, 256⟩] []).size = 20 := by
    simp [HeapIndex.size, HeapIndex.numAllocatedRecords, SERIALIZED_SIZE, U32]
  have htr : trim ([] : List Byte) 284 = _ := setFileSize_eq [] 284 (by decide)
  generalize ([] : List Byte).take 284 ++ List.replicate (284 - ([] : List Byte).length) 0
    = f2 at htr
  have hlen := (setFileSize_some _ _ _ htr).2.1
  have hgw : getWritePtr f2 8 256 = some (f2, 8) :=
    getWritePtr_inside _ _ _ (by omega) (by decide)
  have hwd : ∀ k : Simple, (Blob.mk ⟨8, hash eid, 256⟩ (some 8)).writeData f2 eid
      (heapWriter k data) = none := by
    intro k
    unfold Blob.writeData
    rw [if_pos]
    simp only [heapWriter, hel, hd, overhead, U32]
    decide
  simp only [he, hbs, hal, hao, hrn, hadd, hsz]
  have hp : (8 + 256 + 20) % U64 = 284 := by decide
  simp only [hp]
  rw [if_neg (by simp [HeapFileT.create, UNBOUNDED, U64])]
  simp only [htr, writeInto, hgw, hwd]

theorem long_id_small_record (mem id : List Byte) (hid : id.length = 256) :
    (Blob.mk smallRecord (some 8)).writeData mem id ⟨0, []⟩ = none := by
  apply writeData_too_big
  show overhead + id.length + 0 > 100
  rw [hid]
  decide

theorem putResult_fresh (id data : List Byte)
    (h : (HeapFileT.create []).writeBlob id data = none) :
    putResult (run [] []) id data = none := by
  simp only [putResult, run, runFrom, Option.some_bind, h, Option.map_none']

/-- C11 (failing input): `writeData` of an id of 256 bytes into a record of
    100 bytes does not return false, the assertion on the size of the record
    fails; and on a fresh heap the put of that id with a payload of
    4 294 967 040 bytes does not return false either, for the same assertion
    (the 32-bit `blobSize` has wrapped around). -/
theorem long_id_write_aborts :
    longId.length = 256 ∧
    (Blob.mk smallRecord (some 8)).writeData (List.replicate 400 0) longId ⟨0, []⟩ = none ∧
    (fill 4294967040 0).length = 4294967040 ∧
    putResult (run [] []) longId (fill 4294967040 0) = none :=
  ⟨length_fill _ _, long_id_small_record _ _ (length_fill _ _), length_fill _ _,
    putResult_fresh _ _ (put_wrap_aborts _ _ (length_fill _ _) (length_fill _ _))⟩

set_option maxRecDepth 1000000 in
/-- C20 (failing input): `writeData` of a payload of 300 bytes into a record of
    256 bytes does not return false: the assertion on the size of the record
    fails. -/
theorem oversized_write_aborts :
    overhead + ([20] : List Byte).length + 300 > collRecord.m_size ∧
    collBlob.writeData (List.replicate 400 0) [20] ⟨300, fill 300 1⟩ = none := by
  refine ⟨by decide, by decide⟩

set_option maxRecDepth 1000000 in
/-- C12 (failing input): `clear()` on the heap `pairHeap`, which holds two
    blobs, empties `alloc` and `free`, truncates the file to 0 bytes and
    resets the cap, but the list of the index still has its two nodes. -/
theorem clear_keeps_list :
    run [] pairOps = some pairHeap ∧
    pairHeap.clear.map (fun h => (h.m_index.m_alloc, h.m_index.m_free, h.size, h.m_maxSize))
      = some ([], [], 0, 18446744073709551615) ∧
    pairHeap.clear.map (fun h => h.m_index.m_list)
      = some [⟨8, 177585, 256⟩, ⟨264, 177584, 256⟩] := by
  refine ⟨by decide, by decide, by decide⟩

/-- C21: `getData` on a blob with a pointer returns true and hands the reader
    exactly the `payload_len` bytes behind the header (one byte `id_len`, the
    id, four bytes of hash, four bytes `payload_len`) if and only if
    `9 + id_len ≤ record.size`, `payload_len ≤ record.size - 9 - id_len` (as
    integers: the subtraction is only made when it cannot underflow) and the
    stored hash is the hash of those bytes; in every other case, and for a
    nil blob, it returns false and the reader is not invoked. -/
theorem getData_iff (r : Record) (p : Nat) (mem : List Byte) :
    ((Blob.mk r (some p)).getData mem
        = some (rdN mem (p + 9 + (rd mem p).val)
                  (beVal (rdN mem (p + 1 + (rd mem p).val + 4) 4)))
      ↔ ((9 : Int) + (rd mem p).val ≤ r.m_size ∧
          (beVal (rdN mem (p + 1 + (rd mem p).val + 4) 4) : Int)
            ≤ (r.m_size : Int) - 9 - (rd mem p).val ∧
          beVal (rdN mem (p + 1 + (rd mem p).val) 4)
            = hash (rdN mem (p + 9 + (rd mem p).val)
                (beVal (rdN mem (p + 1 + (rd mem p).val + 4) 4))))) ∧
    ((Blob.mk r (some p)).getData mem = none
      ↔ ¬ ((9 : Int) + (rd mem p).val ≤ r.m_size ∧
          (beVal (rdN mem (p + 1 + (rd mem p).val + 4) 4) : Int)
            ≤ (r.m_size : Int) - 9 - (rd mem p).val ∧
          beVal (rdN mem (p + 1 + (rd mem p).val) 4)
            = hash (rdN mem (p + 9 + (rd mem p).val)
                (beVal (rdN mem (p + 1 + (rd mem p).val + 4) 4))))) ∧
    (Blob.mk r none).getData mem = none ∧ Blob.nil.getData mem = none := by
  have hO : overhead = 9 := rfl
  have e8 : p + 1 + (rd mem p).val + 8 = p + 9 + (rd mem p).val := by omega
  generalize hk : (rd mem p).val = k at e8 ⊢
  generalize hd : beVal (rdN mem (p + 1 + k + 4) 4) = d
  generalize hs : beVal (rdN mem (p + 1 + k) 4) = s
  have hg : (Blob.mk r (some p)).getData mem =
      if k + 9 > r.m_size then none
      else if d > r.m_size - 9 - k then none
      else if hash (rdN mem (p + 9 + k) d) ≠ s then none
      else some (rdN mem (p + 9 + k) d) := by
    unfold Blob.getData
    simp only [hk, hd, hs, hO, e8]
  refine ⟨?_, ?_, rfl, rfl⟩
  · rw [hg]
    constructor
    · intro h
      split at h
      · simp at h
      split at h
      · simp at h
      split at h
      · simp at h
      rename_i c1 c2 c3
      refine ⟨by omega, by omega, ?_⟩
      simp at c3
      exact c3.symm
    · rintro ⟨a, b, c⟩
      rw [if_neg (by omega), if_neg (by omega), if_neg (by simp [c])]
  · rw [hg]
    constructor
    · intro h
      rintro ⟨a, b, c⟩
      rw [if_neg (by omega), if_neg (by omega), if_neg (by simp [c])] at h
      simp at h
    · intro h
      split
      · rfl
      split
      · rfl
      split
      · rfl
      rename_i c1 c2 c3
      exfalso
      apply h
      refine ⟨by omega, by omega, ?_⟩
      simp at c3
      exact c3.symm

/-- What a successful `writeData` leaves in front of the hash: the length byte
    and the id, for any writer. -/
theorem writeData_id (r : Record) (p : Nat) (mem id : List Byte) (w : BlobWriter)
    (m2 : List Byte) (h : (Blob.mk r (some p)).writeData mem id w = some (true, m2)) :
    id.length ≤ 255 ∧ id.length ≤ r.m_size ∧ rd m2 p = toByte id.length ∧
    rdN m2 (p + 1) id.length = id := by
  unfold Blob.writeData at h
  split at h
  · simp at h
  rename_i c1
  replace c1 : ¬ (overhead + id.length + w.size > r.m_size) := c1
  split at h
  · simp at h
  rename_i c2
  simp only [Option.bind_eq_bind] at h
  cases e1 : store mem p [toByte id.length] with
  | none => simp [e1] at h
  | some m1 =>
  cases e2 : store m1 (p + 1) id with
  | none => simp [e1, e2] at h
  | some m2' =>
  cases e3 : store m2' (p + 1 + id.length + 4) (be32 w.size) with
  | none => simp [e1, e2, e3] at h
  | some m3 =>
  cases e4 : store m3 (p + 1 + id.length + 8) w.bytes with
  | none => simp [e1, e2, e3, e4] at h
  | some m4 =>
  cases e5 : store m4 (p + 1 + id.length) (be32 (hash (rdN m4 (p + 1 + id.length + 8) w.size))) with
  | none => simp [e1, e2, e3, e4, e5] at h
  | some m5 =>
  simp [e1, e2, e3, e4, e5] at h
  subst h
  obtain ⟨a1, b1⟩ := store_some _ _ _ _ e1
  obtain ⟨a2, b2⟩ := store_some _ _ _ _ e2
  obtain ⟨a3, b3⟩ := store_some _ _ _ _ e3
  obtain ⟨a4, b4⟩ := store_some _ _ _ _ e4
  obtain ⟨a5, b5⟩ := store_some _ _ _ _ e5
  simp only [length_be32, List.length_singleton] at a1 a3 a5
  have hO : overhead = 9 := rfl
  refine ⟨by omega, by omega, ?_, ?_⟩
  · rw [b5, rd_wr_out _ _ _ (by simpa [length_be32] using a5) _ (by omega),
      b4, rd_wr_out _ _ _ a4 _ (by omega),
      b3, rd_wr_out _ _ _ (by simpa [length_be32] using a3) _ (by omega),
      b2, rd_wr_out _ _ _ a2 _ (by omega), b1, rd_wr _ _ _ (by simpa using a1)]
    simp
  · rw [b5, rdN_wr_out _ _ _ (by simpa [length_be32] using a5) _ _ (by omega),
      b4, rdN_wr_out _ _ _ a4 _ _ (by omega),
      b3, rdN_wr_out _ _ _ (by simpa [length_be32] using a3) _ _ (by omega),
      b2, rdN_wr_self _ _ _ a2]

/-- C22: after a `writeData` with the id `id` that returned true, `hasId(x)`
    on the same blob is true if and only if `x` is `id`; `hasId` on a nil
    blob is false for every `x` and every memory. -/
theorem hasId_iff_written (r : Record) (p : Nat) (mem id : List Byte) (w : BlobWriter)
    (m2 : List Byte) (h : (Blob.mk r (some p)).writeData mem id w = some (true, m2))
    (x : List Byte) :
    ((Blob.mk r (some p)).hasId m2 x = true ↔ x = id) ∧
    (∀ mem2 : List Byte, Blob.nil.hasId mem2 x = false) := by
  obtain ⟨h1, h2, h3, h4⟩ := writeData_id r p mem id w m2 h
  refine ⟨?_, fun _ => rfl⟩
  unfold Blob.hasId
  simp only [h3, toByte_val _ h1]
  by_cases hl : x.length = id.length
  · have c : ¬ (x.length ≠ id.length ∨ id.length > r.m_size) := by omega
    rw [if_neg c, decide_eq_true_iff]
    constructor
    · intro hall
      rw [← h4]
      apply List.ext_getElem (by simp [length_rdN, hl])
      intro i i1 i2
      have := hall i (by simp; omega)
      simp [rdN]
      rw [← this]
      simp [i1]
    · intro hx i hi
      simp at hi
      subst hx
      rw [← h4, getD_rdN _ _ _ _ hi]
  · have c : (x.length ≠ id.length ∨ id.length > r.m_size) := Or.inl hl
    rw [if_pos c]
    have : x ≠ id := fun e => hl (by rw [e])
    simp [this]

set_option maxRecDepth 1000000 in
theorem hasId_iff_written_witness :
    collBlob.writeData (List.replicate 264 0) [20] ⟨6, collPayload⟩ = some (true, collRegion) ∧
    (collBlob.hasId collRegion [20] = true ↔ ([20] : List Byte) = [20]) ∧
    (∀ mem2 : List Byte, Blob.nil.hasId mem2 [20] = false) :=
  ⟨by decide,
    hasId_iff_written collRecord 8 (List.replicate 264 0) [20] ⟨6, collPayload⟩ collRegion
      (by decide) [20]⟩

/-- C23: `allocate(size, key)` returns `NULL` if and only if no free record
    has a size of at least `max(size, 256)`; when it returns `NULL` the list
    and both maps are unchanged, and an index without free records never
    allocates. -/
theorem allocate_none_iff (idx : HeapIndex) (size key : Nat) :
    ((∃ idx2, idx.allocate size key = some (none, idx2))
      ↔ ∀ x ∈ idx.m_free, x.m_size < max size 256) ∧
    (∀ idx2, idx.allocate size key = some (none, idx2) → idx2 = idx) ∧
    (idx.m_free = [] → idx.allocate size key = some (none, idx)) := by
  have hM : MIN_SIZE = 256 := rfl
  have key1 : (∀ x ∈ idx.m_free, x.m_size < max size 256) →
      idx.allocate size key = some (none, idx) := by
    intro h
    unfold HeapIndex.allocate
    cases hlb : mmLowerBound Record.m_size (max size MIN_SIZE) idx.m_free with
    | none => simp only [hlb]
    | some r =>
      obtain ⟨hr, hn⟩ := mmLowerBound_some _ _ _ _ hlb
      have := h r hr
      rw [hM] at hn
      omega
  have key2 : ∀ idx2, idx.allocate size key = some (none, idx2) →
      idx2 = idx ∧ ∀ x ∈ idx.m_free, x.m_size < max size 256 := by
    intro idx2 h
    unfold HeapIndex.allocate at h
    cases hlb : mmLowerBound Record.m_size (max size MIN_SIZE) idx.m_free with
    | none =>
      simp only [hlb, Option.some.injEq, Prod.mk.injEq, true_and] at h
      exact ⟨h.symm, hM ▸ mmLowerBound_none _ _ _ hlb⟩
    | some r =>
      simp only [hlb] at h
      split at h
      · simp at h
      · split at h
        · simp at h
        · split at h
          · simp at h
          · simp at h
  refine ⟨⟨fun ⟨idx2, h⟩ => (key2 idx2 h).2, fun h => ⟨idx, key1 h⟩⟩,
    fun idx2 h => (key2 idx2 h).1, fun h => key1 (by simp [h])⟩

/-- What `deallocate` answers, whenever it returns: true exactly for a record
    held by the allocated map; on false the index is unchanged; on true the
    allocated map has lost one entry equal to the record. -/
theorem deallocate_result (idx : HeapIndex) (rec : Record) :
    (rec ∉ idx.m_alloc → idx.deallocate rec = some (false, idx)) ∧
    ∀ b idx2, idx.deallocate rec = some (b, idx2) →
      (b = true ↔ rec ∈ idx.m_alloc) ∧ (b = false → idx2 = idx) ∧
      (b = true → idx2.m_alloc = idx.m_alloc.erase rec ∧
        idx2.m_alloc.length + 1 = idx.m_alloc.length) := by
  constructor
  · intro h
    unfold HeapIndex.deallocate
    rw [if_neg (by rw [mem_mmEqualRange_self]; exact h)]
  · intro b idx2 e
    unfold HeapIndex.deallocate at e
    by_cases hin : rec ∈ idx.m_alloc
    · rw [if_pos ((mem_mmEqualRange_self _ _ _).mpr hin)] at e
      have hal : ∀ x, HeapIndex.coalesce { idx with m_alloc := idx.m_alloc.erase rec } rec
          = some x → x.2.2.m_alloc = idx.m_alloc.erase rec := by
        intro x hx
        unfold HeapIndex.coalesce at hx
        split at hx
        · simp only at hx
          split at hx
          · simp at hx
          · split at hx
            · simp at hx
            · simp only [Option.some.injEq] at hx
              rw [← hx]
        · simp only [Option.some.injEq] at hx
          rw [← hx]
      cases hc : HeapIndex.coalesce { idx with m_alloc := idx.m_alloc.erase rec } rec with
      | none => simp [hc] at e
      | some x =>
        obtain ⟨f, r, idx1⟩ := x
        have h1 := hal _ hc
        simp only at h1
        simp only [hc] at e
        cases hl : idx1.m_list.getLast? with
        | none => simp [hl] at e
        | some last =>
          simp only [hl] at e
          have hb : b = true ∧ idx2.m_alloc = idx.m_alloc.erase rec := by
            split at e
            · simp only [Option.some.injEq, Prod.mk.injEq] at e
              exact ⟨e.1.symm, by rw [← e.2]; exact h1⟩
            · simp only [Option.some.injEq, Prod.mk.injEq] at e
              exact ⟨e.1.symm, by rw [← e.2]; exact h1⟩
          refine ⟨⟨fun _ => hin, fun _ => hb.1⟩, fun hf => by simp [hb.1] at hf, fun _ => ?_⟩
          refine ⟨hb.2, ?_⟩
          rw [hb.2, List.length_erase_of_mem hin]
          have : 0 < idx.m_alloc.length := List.length_pos_of_mem hin
          omega
    · rw [if_neg (by rw [mem_mmEqualRange_self]; exact hin)] at e
      simp only [Option.some.injEq, Prod.mk.injEq] at e
      refine ⟨⟨fun hb => by simp [← e.1] at hb, fun h => absurd h hin⟩, fun _ => e.2.symm,
        fun hb => by simp [← e.1] at hb⟩

set_option maxRecDepth 1000000 in
/-- C25 (failing input): after `addAllocatedBlock` of the records
    `(8, 1, 256)` and `(2^33, 2, 256)` on an empty index the list holds, between
    the two, a free filler record of offset 264 whose size is the gap
    `2^33 - 264` cut down to 32 bits; it ends at `2^32`, not at the offset
    `2^33` of the record behind it. -/
theorem filler_is_truncated :
    irun farOps = some
      ⟨[⟨8, 1, 256⟩, ⟨264, 0, 4294967032⟩, ⟨8589934592, 2, 256⟩],
       [⟨8, 1, 256⟩, ⟨8589934592, 2, 256⟩], [⟨264, 0, 4294967032⟩]⟩ ∧
    264 + 4294967032 = 4294967296 ∧
    ¬ Contiguous [⟨8, 1, 256⟩, ⟨264, 0, 4294967032⟩, ⟨8589934592, 2, 256⟩] := by
  refine ⟨by decide, by decide, ?_⟩
  intro h
  simp [Contiguous] at h

set_option maxRecDepth 1000000 in
/-- C24 (failing input): in the index `farIndex` (the blocks `(8, 1, 256)` and
    `(2^33, 2, 256)` added to an empty index) the allocated map holds the
    record `(2^33, 2, 256)`, and `deallocate` of it does not return: the
    assertion of `Record::coalesce` fails on the filler in front of it. -/
theorem deallocate_aborts_behind_filler :
    irun farOps = some farIndex ∧
    (⟨8589934592, 2, 256⟩ : Record) ∈ farIndex.m_alloc ∧
    farIndex.deallocate ⟨8589934592, 2, 256⟩ = none := by
  decide

/-- `addAllocatedBlock` of a block, when it does not throw, keeps the index
    well formed. -/
theorem addAllocatedBlock_inv {idx idx2 : HeapIndex} (h : IdxInv idx) (p : Record)
    (hp : p.isBlock = true) (e : idx.addAllocatedBlock p = some idx2) :
    IdxInv idx2 ∧ idx2.m_alloc = mmInsert Record.m_key p idx.m_alloc := by
  simp only [Record.isBlock, decide_eq_true_eq] at hp
  have hsep : ∀ x ∈ idx.m_list, Sep x p := by
    cases hl : idx.m_list.getLast? with
    | none =>
      have := List.getLast?_eq_none_iff.mp hl
      intro x hx
      simp [this] at hx
    | some last =>
      have hlm : last ∈ idx.m_list := List.mem_of_getLast?_eq_some hl
      have hls := h.size_lt last hlm
      have hlpos := h.alloc_min last (h.lastAlloc last hl)
      have hlast : last.m_offset + last.m_size ≤ p.m_offset := by
        unfold HeapIndex.addAllocatedBlock at e
        simp only [hl] at e
        split at e
        · rename_i c
          simp [Record.sharesRightBoundaryWith, Nat.mod_eq_of_lt hls.2] at c
          omega
        · cases hb : Record.between last p with
          | none => simp [hb] at e
          | some gap =>
            unfold Record.between at hb
            simp only [Nat.mod_eq_of_lt hls.2] at hb
            split at hb
            · simp at hb
            · omega
      obtain ⟨ys, hys⟩ := List.getLast?_eq_some_iff.mp hl
      have hs := h.sep
      rw [hys, List.pairwise_append] at hs
      intro x hx
      rw [hys] at hx
      rcases List.mem_append.mp hx with a | a
      · have := hs.2.2 x a last (by simp)
        unfold Sep at this ⊢
        omega
      · simp at a
        subst a
        unfold Sep
        omega
  obtain ⟨idx3, e3, hinv, hal, _⟩ := addAllocatedBlock_load h p hsep ⟨hp.2.1, hp.2.2⟩ hp.1
  rw [e3] at e
  simp only [Option.some.injEq] at e
  subst e
  exact ⟨hinv, hal⟩

/-- Every index reached by calls that returned is well formed. -/
theorem IReach.idxInv {idx : HeapIndex} (h : IReach idx) : IdxInv idx := by
  induction h with
  | empty =>
    refine ⟨by simp [HeapIndex.empty], by simp [HeapIndex.empty], by simp [HeapIndex.empty],
      by simp [HeapIndex.empty], by simp [HeapIndex.empty], by simp [HeapIndex.empty]⟩
  | add p _ hp e ih => exact (addAllocatedBlock_inv ih p hp e).1
  | @allocate idx idx2 size key r _ e ih =>
    rcases allocate_spec ih size key with ⟨_, e2⟩ | ⟨r2, idx3, e2, hinv, _⟩
    · rw [e2] at e
      simp only [Option.some.injEq, Prod.mk.injEq] at e
      exact e.2 ▸ ih
    · rw [e2] at e
      simp only [Option.some.injEq, Prod.mk.injEq] at e
      exact e.2 ▸ hinv
  | @deallocate idx idx2 rec b _ e ih =>
    by_cases hin : rec ∈ idx.m_alloc
    · exact (deallocate_inv ih hin e).2.1
    · rw [(deallocate_result idx rec).1 hin] at e
      simp only [Option.some.injEq, Prod.mk.injEq] at e
      exact e.2 ▸ ih

theorem IReach.of_irunFrom :
    ∀ (ops : List IOp) (idx idx2 : HeapIndex), IReach idx → irunFrom idx ops = some idx2 →
      IReach idx2 := by
  intro ops
  induction ops with
  | nil => intro idx idx2 hr e; simp [irunFrom] at e; exact e ▸ hr
  | cons op ops ih =>
    intro idx idx2 hr e
    unfold irunFrom at e
    cases hs : istep idx op with
    | none => simp [hs] at e
    | some idx1 =>
      simp only [hs] at e
      refine ih idx1 idx2 ?_ e
      cases op with
      | add p =>
        simp only [istep] at hs
        by_cases hp : p.isBlock = true
        · rw [if_pos hp] at hs
          exact IReach.add p hr hp hs
        · rw [if_neg hp] at hs
          simp at hs
      | allocate size key =>
        simp only [istep] at hs
        cases ha : idx.allocate size key with
        | none => simp [ha] at hs
        | some x =>
          simp only [ha, Option.map_some', Option.some.injEq] at hs
          exact IReach.allocate size key x.1 hr (by rw [ha, ← hs])
      | deallocate rec =>
        simp only [istep] at hs
        cases ha : idx.deallocate rec with
        | none => simp [ha] at hs
        | some x =>
          simp only [ha, Option.map_some', Option.some.injEq] at hs
          exact IReach.deallocate rec x.1 hr (by rw [ha, ← hs])

theorem IReach.of_irun {ops : List IOp} {idx : HeapIndex} (e : irun ops = some idx) :
    IReach idx :=
  IReach.of_irunFrom ops _ idx IReach.empty e

/-- After any sequence of `addAllocatedBlock`, `allocate` and `deallocate`
    calls on an initially empty index, with blocks that are not empty and end
    below 2^64 (the records of the list then differ pairwise), the list is
    empty or its last record is in the allocated map and not in the free
    map. -/
theorem last_record_is_allocated {idx : HeapIndex} (h : IReach idx) :
    idx.m_list = [] ∨
      ∃ last, idx.m_list.getLast? = some last ∧ last ∈ idx.m_alloc ∧ last ∉ idx.m_free := by
  have hinv := h.idxInv
  cases hl : idx.m_list.getLast? with
  | none => exact Or.inl (List.getLast?_eq_none_iff.mp hl)
  | some last =>
    exact Or.inr ⟨last, rfl, hinv.lastAlloc last hl, hinv.alloc_not_free (hinv.lastAlloc last hl)⟩

set_option maxRecDepth 1000000 in
theorem last_record_is_allocated_witness :
    irun testIndexOps = some testIndex ∧ testIndex.m_list.length = 4 ∧
    (testIndex.m_list = [] ∨
      ∃ last, testIndex.m_list.getLast? = some last ∧ last ∈ testIndex.m_alloc ∧
        last ∉ testIndex.m_free) :=
  ⟨by decide, by decide,
    last_record_is_allocated (IReach.of_irun (show irun testIndexOps = some testIndex by decide))⟩

/-- After any sequence of `addAllocatedBlock`, `allocate` and `deallocate`
    calls on an initially empty index, with blocks that are not empty and end
    below 2^64 (the records of the list then differ pairwise), every record of
    the list is in exactly one of the two maps, the maps hold only records of
    the list, no record occurs twice, and the list has as many records as the
    two maps together. -/
theorem records_in_exactly_one_map {idx : HeapIndex} (h : IReach idx) :
    (∀ r ∈ idx.m_list, (r ∈ idx.m_alloc ∧ r ∉ idx.m_free) ∨ (r ∈ idx.m_free ∧ r ∉ idx.m_alloc)) ∧
    (∀ r, r ∈ idx.m_alloc ∨ r ∈ idx.m_free → r ∈ idx.m_list) ∧
    idx.m_list.Nodup ∧ (idx.m_alloc ++ idx.m_free).Nodup ∧
    idx.m_list.length = idx.m_alloc.length + idx.m_free.length := by
  have hinv := h.idxInv
  refine ⟨?_, fun r hr => (hinv.mem_list_iff r).mpr hr, hinv.nodup_list, hinv.nodup_maps, ?_⟩
  · intro r hr
    rcases (hinv.mem_list_iff r).mp hr with a | a
    · exact Or.inl ⟨a, hinv.alloc_not_free a⟩
    · exact Or.inr ⟨a, fun b => hinv.alloc_not_free b a⟩
  · rw [hinv.perm.length_eq, List.length_append]

set_option maxRecDepth 1000000 in
theorem records_in_exactly_one_map_witness :
    irun splitIndexOps = some splitIndex ∧ splitIndex.m_list.length = 5 ∧
    splitIndex.m_free.length = 2 ∧
    (∀ r ∈ splitIndex.m_list, (r ∈ splitIndex.m_alloc ∧ r ∉ splitIndex.m_free) ∨
      (r ∈ splitIndex.m_free ∧ r ∉ splitIndex.m_alloc)) ∧
    (∀ r, r ∈ splitIndex.m_alloc ∨ r ∈ splitIndex.m_free → r ∈ splitIndex.m_list) ∧
    splitIndex.m_list.Nodup ∧ (splitIndex.m_alloc ++ splitIndex.m_free).Nodup ∧
    splitIndex.m_list.length = splitIndex.m_alloc.length + splitIndex.m_free.length :=
  ⟨by decide, by decide, by decide,
    records_in_exactly_one_map
      (IReach.of_irun (show irun splitIndexOps = some splitIndex by decide))⟩

theorem size_le_totalSize {l : List Record} {r : Record} (h : r ∈ l) :
    r.m_size ≤ totalSize l := by
  induction l with
  | nil => simp at h
  | cons a as ih =>
    simp only [totalSize, List.map_cons, List.sum_cons]
    rcases List.mem_cons.mp h with e | e
    · subst e; omega
    · have := ih e
      simp only [totalSize] at this
      omega

theorem totalSize_append (l1 l2 : List Record) :
    totalSize (l1 ++ l2) = totalSize l1 + totalSize l2 := by
  simp [totalSize]

theorem totalSize_cons (a : Record) (l : List Record) :
    totalSize (a :: l) = a.m_size + totalSize l := by
  simp [totalSize]

/-- On a well-formed, contiguous index that covers less than 2^32 bytes
    `deallocate` returns for every record: no assertion of `coalesce`
    fails. -/
theorem deallocate_total {idx : HeapIndex} (h : IdxInv idx) (hc : Contiguous idx.m_list)
    (hs : totalSize idx.m_list < U32) (rec : Record) :
    ∃ b idx2, idx.deallocate rec = some (b, idx2) := by
  by_cases hin : rec ∈ idx.m_alloc
  swap
  · exact ⟨false, idx, (deallocate_result idx rec).1 hin⟩
  have hrl : rec ∈ idx.m_list := (h.mem_list_iff rec).mpr (Or.inl hin)
  have hsplit := split_at_mem rec idx.m_list hrl
  generalize hpre : idx.m_list.takeWhile (fun x => decide (x ≠ rec)) = pre at hsplit
  generalize hpost : (idx.m_list.dropWhile (fun x => decide (x ≠ rec))).tail = post at hsplit
  have hU : U64 = 18446744073709551616 := rfl
  have hsz := h.size_lt
  rw [hsplit] at hsz hs
  unfold Contiguous at hc
  rw [hsplit, List.chain'_append] at hc
  obtain ⟨_, hc2, hc3⟩ := hc
  rw [totalSize_append, totalSize_cons] at hs
  have srec := hsz rec (by simp)
  -- the left neighbour
  have hL : ∃ pre1 F1 r1, absorbLeft pre idx.m_free rec = some (pre1, F1, r1) ∧
      r1.m_offset + r1.m_size = rec.m_offset + rec.m_size ∧
      r1.m_size ≤ totalSize pre + rec.m_size := by
    unfold HeapFile.absorbLeft
    cases hl : pre.getLast? with
    | none => exact ⟨pre, idx.m_free, rec, rfl, rfl, by omega⟩
    | some L =>
      simp only [removeIfFree_eq]
      by_cases hLF : L ∈ idx.m_free
      · simp only [hLF, if_true]
        have hLp : L ∈ pre := List.mem_of_getLast?_eq_some hl
        have hadj : L.m_offset + L.m_size = rec.m_offset := hc3 L (by simp [hl]) rec (by simp)
        have sL := hsz L (by simp [hLp])
        have hLs := size_le_totalSize hLp
        have hsh : L.sharesRightBoundaryWith rec = true := by
          unfold Record.sharesRightBoundaryWith
          rw [Nat.mod_eq_of_lt sL.2, hadj]
          simp
        refine ⟨pre.dropLast, idx.m_free.erase L,
          ⟨min rec.m_offset L.m_offset, rec.m_key, (rec.m_size + L.m_size) % U32⟩, ?_, ?_, ?_⟩
        · simp [Record.coalesce, hsh]
        · simp only
          rw [Nat.mod_eq_of_lt (by omega), Nat.min_eq_right (by omega)]
          omega
        · simp only
          rw [Nat.mod_eq_of_lt (by omega)]
          omega
      · simp only [hLF, if_false]
        exact ⟨pre, idx.m_free, rec, by simp, rfl, by omega⟩
  obtain ⟨pre1, F1, r1, e1, hend, hr1s⟩ := hL
  -- the right neighbour
  have hR : ∃ post2 F2 r2, absorbRight post F1 r1 = some (post2, F2, r2) := by
    unfold HeapFile.absorbRight
    cases post with
    | nil => exact ⟨[], F1, r1, rfl⟩
    | cons R rest =>
      simp only [removeIfFree_eq]
      by_cases hRF : R ∈ F1
      · simp only [hRF, if_true]
        have hadj : rec.m_offset + rec.m_size = R.m_offset := by
          rw [List.chain'_cons] at hc2
          exact hc2.1
        have sR := hsz R (by simp)
        have hsh : r1.sharesRightBoundaryWith R = true := by
          have : r1.m_offset + r1.m_size < U64 := by omega
          unfold Record.sharesRightBoundaryWith
          rw [Nat.mod_eq_of_lt this, hend, hadj]
          simp
        exact ⟨rest, F1.erase R,
          ⟨min r1.m_offset R.m_offset, r1.m_key, (r1.m_size + R.m_size) % U32⟩,
          by simp [Record.coalesce, hsh]⟩
      · simp only [hRF, if_false]
        exact ⟨R :: rest, F1, r1, by simp⟩
  obtain ⟨post2, F2, r2, e2⟩ := hR
  unfold HeapIndex.deallocate
  rw [if_pos ((mem_mmEqualRange_self _ _ _).mpr hin)]
  unfold HeapIndex.coalesce
  simp only [hrl, if_true, hpre, hpost, e1, e2]
  cases hl : (pre1 ++ r2 :: post2).getLast? with
  | none =>
    have := List.getLast?_eq_none_iff.mp hl
    simp at this
  | some last =>
    simp only
    split
    · exact ⟨_, _, rfl⟩
    · exact ⟨_, _, rfl⟩

/-- When `addAllocatedBlock` throws: the list is not empty and the block
    starts in front of the end of the last record. -/
theorem addAllocatedBlock_none_iff {idx : HeapIndex} (h : IdxInv idx) (p : Record) :
    idx.addAllocatedBlock p = none ↔
      ∃ last, idx.m_list.getLast? = some last ∧ p.m_offset < last.m_offset + last.m_size := by
  unfold HeapIndex.addAllocatedBlock
  cases hl : idx.m_list.getLast? with
  | none => simp
  | some last =>
    have hls := h.size_lt last (List.mem_of_getLast?_eq_some hl)
    simp only [Option.some.injEq, exists_eq_left']
    by_cases hsh : last.sharesRightBoundaryWith p = true
    · rw [if_pos hsh]
      simp [Record.sharesRightBoundaryWith, Nat.mod_eq_of_lt hls.2] at hsh
      simp only [reduceCtorEq, false_iff]
      omega
    · rw [if_neg hsh]
      simp [Record.sharesRightBoundaryWith, Nat.mod_eq_of_lt hls.2] at hsh
      unfold Record.between
      simp only [Nat.mod_eq_of_lt hls.2]
      by_cases c : last.m_offset + last.m_size ≥ p.m_offset
      · rw [if_pos c]
        simp only [true_iff]
        omega
      · rw [if_neg c]
        simp only [reduceCtorEq, false_iff]
        omega

set_option maxRecDepth 1000000 in
/-- C28 (counterexample): `addAllocatedBlock` raises.  On the index that holds
    the one block `(8, 1, 256)`, adding the block `(200, 2, 256)`, which
    starts inside it, throws the `runtime_error` of `Record(lhs, rhs)`. -/
theorem add_inside_last_raises :
    irun [IOp.add ⟨8, 1, 256⟩] = some ⟨[⟨8, 1, 256⟩], [⟨8, 1, 256⟩], []⟩ ∧
    (⟨200, 2, 256⟩ : Record).isBlock = true ∧
    HeapIndex.addAllocatedBlock ⟨[⟨8, 1, 256⟩], [⟨8, 1, 256⟩], []⟩ ⟨200, 2, 256⟩ = none := by
  decide

/-- C28 (amended): on a well-formed index whose list is contiguous and covers
    less than 2^32 bytes, `allocate` and `deallocate` complete for every
    argument, and `addAllocatedBlock` raises exactly when the list is not
    empty and the block starts in front of the end of the last record. -/
theorem index_calls_complete {idx : HeapIndex} (h : IdxInv idx)
    (hc : Contiguous idx.m_list) (hs : totalSize idx.m_list < U32)
    (p : Record) (size key : Nat) (rec : Record) :
    (idx.addAllocatedBlock p = none ↔
      ∃ last, idx.m_list.getLast? = some last ∧ p.m_offset < last.m_offset + last.m_size) ∧
    (∃ r idx2, idx.allocate size key = some (r, idx2)) ∧
    (∃ b idx2, idx.deallocate rec = some (b, idx2)) := by
  refine ⟨addAllocatedBlock_none_iff h p, ?_, deallocate_total h hc hs rec⟩
  rcases allocate_spec h size key with ⟨_, e⟩ | ⟨r, idx2, e, _⟩
  · exact ⟨none, idx, e⟩
  · exact ⟨some r, idx2, e⟩

set_option maxRecDepth 1000000 in
theorem index_calls_complete_witness :
    Contiguous testIndex.m_list ∧ totalSize testIndex.m_list = 2248 ∧
    (testIndex.addAllocatedBlock ⟨2000, 5, 256⟩ = none ↔
      ∃ last, testIndex.m_list.getLast? = some last ∧
        (⟨2000, 5, 256⟩ : Record).m_offset < last.m_offset + last.m_size) ∧
    (∃ r idx2, testIndex.allocate 300 3 = some (r, idx2)) ∧
    (∃ b idx2, testIndex.deallocate ⟨264, 1, 512⟩ = some (b, idx2)) := by
  have e : testIndex.m_list
      = [⟨8, 0, 256⟩, ⟨264, 1, 512⟩, ⟨776, 0, 1224⟩, ⟨2000, 2, 256⟩] := by decide
  have hc : Contiguous testIndex.m_list := by rw [e]; simp [Contiguous]
  have hs : totalSize testIndex.m_list = 2248 := by rw [e]; decide
  exact ⟨hc, hs,
    index_calls_complete (IReach.of_irun (show irun testIndexOps = some testIndex by decide)).idxInv
      hc (by rw [hs]; decide) ⟨2000, 5, 256⟩ 300 3 ⟨264, 1, 512⟩⟩

theorem mmapFile_some (pg offset size b : Nat) (h : mmapFile pg offset size = some b) :
    b = offset ∧ offset % pg = 0 ∧ size % pg = 0 ∧ 0 < size ∧ offset < OFF_MAX := by
  unfold mmapFile at h
  split at h
  · rename_i c
    split at h
    · simp at h
    · rename_i c2
      simp only [Option.some.injEq] at h
      exact ⟨h.symm, c.1, c.2, by omega, by omega⟩
  · simp at h

theorem round_up_page (pg ws : Nat) (hpg : 0 < pg) :
    (ws + (pg - ws % pg)) % pg = 0 ∧ ws < ws + (pg - ws % pg) := by
  have h1 := Nat.mod_lt ws hpg
  have h2 := Nat.div_add_mod ws pg
  constructor
  · have : ws + (pg - ws % pg) = pg * (ws / pg + 1) := by
      rw [Nat.mul_add, Nat.mul_one]
      omega
    rw [this]
    exact Nat.mul_mod_right _ _
  · omega

/-- What a call of the non-const `getPtr` that returned has done. -/
theorem MmapFile.getPtr_some {pg : Nat} {s s2 : MmapFile} (hs : s.Ok pg)
    (offset size : Nat) {ptr : Option Nat} (e : s.getPtr pg offset size = some (s2, ptr)) :
    s2.Ok pg ∧ ptr = some offset ∧ s2.m_file.length = max s.m_file.length (offset + size) ∧
    s2.m_offset ≤ offset ∧ offset + size ≤ s2.m_offset + s2.m_windowSize ∧
    (getWritePtr s.m_file offset size = some (s2.m_file, offset)) := by
  unfold MmapFile.getPtr at e
  unfold MmapFile.isInWindow effectiveWindowSize at e
  rw [if_pos hs.inside] at e
  simp only [Option.map_some'] at e
  by_cases hw : s.m_offset ≤ offset ∧
      s.m_offset + min s.m_windowSize (s.m_file.length - s.m_offset) ≥ offset + size
  · simp only [hw, and_self, decide_True, hs.start, Option.map_some', Option.some.injEq,
      Prod.mk.injEq] at e
    obtain ⟨rfl, rfl⟩ := e
    have h1 : offset + size ≤ s.m_file.length := by
      have := hs.inside
      omega
    have h2 := hs.small
    refine ⟨hs, by congr 1; omega, by omega, hw.1, by omega, ?_⟩
    unfold getWritePtr
    rw [if_neg (by omega), if_neg (by omega)]
  · simp only [hw, decide_False] at e
    unfold MmapFile.unmap at e
    rw [if_neg (by have := hs.pos; omega)] at e
    simp only at e
    by_cases hg : s.m_file.length < offset + size
    · simp only [hg, if_true, growFile] at e
      cases hf : setFileSize s.m_file (offset + size) with
      | none => simp [hf] at e
      | some f =>
        simp only [hf] at e
        cases hm : mmapFile pg (offset - offset % pg)
            (offset - (offset - offset % pg) + size +
              (pg - (offset - (offset - offset % pg) + size) % pg)) with
        | none => simp [hm] at e
        | some b =>
          simp only [hm] at e
          split at e
          · rename_i c
            simp only [Option.some.injEq, Prod.mk.injEq] at e
            obtain ⟨rfl, rfl⟩ := e
            obtain ⟨hb, a1, a2, a3, a4⟩ := mmapFile_some _ _ _ _ hm
            obtain ⟨f1, f2, _⟩ := setFileSize_some _ _ _ hf
            have hmod := Nat.mod_le offset pg
            refine ⟨⟨a1, a2, a3, ?_, by simp [hb], ?_⟩, ?_, ?_, c.1, c.2, ?_⟩
            · simp only; omega
            · simp only; omega
            · congr 1; omega
            · simp only; omega
            · unfold getWritePtr
              rw [if_pos hg, hf]
              rfl
          · simp at e
    · simp only [hg, if_false] at e
      cases hm : mmapFile pg (offset - offset % pg)
          (offset - (offset - offset % pg) + size +
            (pg - (offset - (offset - offset % pg) + size) % pg)) with
      | none => simp [hm] at e
      | some b =>
        simp only [hm] at e
        split at e
        · rename_i c
          simp only [Option.some.injEq, Prod.mk.injEq] at e
          obtain ⟨rfl, rfl⟩ := e
          obtain ⟨hb, a1, a2, a3, a4⟩ := mmapFile_some _ _ _ _ hm
          have hmod := Nat.mod_le offset pg
          have h2 := hs.small
          refine ⟨⟨a1, a2, a3, ?_, by simp [hb], h2⟩, ?_, ?_, c.1, c.2, ?_⟩
          · simp only; omega
          · congr 1; omega
          · simp only; omega
          · unfold getWritePtr
            rw [if_neg hg, if_neg (by omega)]
        · simp at e

/-- The non-const `getPtr` returns whenever the range asked for ends at an
    `off_t`. -/
theorem MmapFile.getPtr_total {pg : Nat} (hpg : 0 < pg) {s : MmapFile} (hs : s.Ok pg)
    (offset size : Nat) (hlt : offset + size < OFF_MAX) :
    ∃ s2 ptr, s.getPtr pg offset size = some (s2, ptr) := by
  unfold MmapFile.getPtr
  unfold MmapFile.isInWindow effectiveWindowSize
  rw [if_pos hs.inside]
  simp only [Option.map_some']
  by_cases hw : s.m_offset ≤ offset ∧
      s.m_offset + min s.m_windowSize (s.m_file.length - s.m_offset) ≥ offset + size
  · simp only [hw, and_self, decide_True]
    exact ⟨_, _, rfl⟩
  · simp only [hw, decide_False]
    unfold MmapFile.unmap
    rw [if_neg (by have := hs.pos; omega)]
    simp only
    have hmod := Nat.mod_le offset pg
    have hr := round_up_page pg (offset - (offset - offset % pg) + size) hpg
    have hoff : (offset - offset % pg) % pg = 0 := by
      have := Nat.div_add_mod offset pg
      have e : offset - offset % pg = pg * (offset / pg) := by omega
      rw [e]
      exact Nat.mul_mod_right _ _
    have hm : mmapFile pg (offset - offset % pg)
        (offset - (offset - offset % pg) + size +
          (pg - (offset - (offset - offset % pg) + size) % pg))
        = some (offset - offset % pg) := by
      unfold mmapFile
      rw [if_pos ⟨hoff, hr.1⟩, if_neg (by omega)]
    have hcov : offset - offset % pg ≤ offset ∧
        offset - offset % pg + (offset - (offset - offset % pg) + size +
          (pg - (offset - (offset - offset % pg) + size) % pg)) ≥ offset + size := by
      omega
    by_cases hg : s.m_file.length < offset + size
    · have hf : setFileSize s.m_file (offset + size)
          = some (s.m_file.take (offset + size) ++
              List.replicate (offset + size - s.m_file.length) 0) := by
        unfold setFileSize
        rw [if_neg (by omega)]
      simp only [hg, if_true, growFile, hf, hm, hcov, and_self]
      exact ⟨_, _, rfl⟩
    · simp only [hg, if_false, hm, hcov, and_self, if_true]
      exact ⟨_, _, rfl⟩

theorem MmapFile.Ok.page {pg : Nat} {s : MmapFile} (hs : s.Ok pg) : 0 < pg := by
  rcases Nat.eq_zero_or_pos pg with e | e
  · have h1 := hs.win
    have h2 := hs.pos
    rw [e, Nat.mod_zero] at h1
    omega
  · exact e

theorem MmapFile.remap_ok {pg : Nat} {f : List Byte} {s1 s2 : MmapFile}
    (hf : f.length < OFF_MAX)
    (e : (mmapFile pg s1.m_offset pg).map (fun b => MmapFile.mk f s1.m_offset pg (some b))
      = some s2) (h0 : s1.m_offset = 0) : s2.Ok pg := by
  cases hm : mmapFile pg s1.m_offset pg with
  | none => simp [hm] at e
  | some b =>
    simp only [hm, Option.map_some', Option.some.injEq] at e
    obtain ⟨hb, a1, a2, a3, _⟩ := mmapFile_some _ _ _ _ hm
    subst e
    exact ⟨a1, a2, a3, by simp [h0], by simp [hb], hf⟩

/-- Every state of an opened `MmapFile` satisfies the invariant. -/
theorem MReach.ok {pg : Nat} {s : MmapFile} (h : MReach pg s) : s.Ok pg := by
  induction h with
  | @opened s f hf e =>
    unfold MmapFile.open at e
    exact @MmapFile.remap_ok pg f ⟨f, 0, 0, none⟩ s hf e rfl
  | getPtr offset size ptr _ e ih => exact (MmapFile.getPtr_some ih offset size e).1
  | @getPtrConst s s2 offset size ptr _ e ih =>
    unfold MmapFile.getPtrConst at e
    split at e
    · simp only [Option.some.injEq, Prod.mk.injEq] at e
      exact e.1 ▸ ih
    · exact (MmapFile.getPtr_some ih offset size e).1
  | @trim s s2 n _ e ih =>
    unfold MmapFile.trim MmapFile.unmap at e
    rw [if_neg (by have := ih.pos; omega)] at e
    simp only at e
    cases hf : setFileSize s.m_file n with
    | none => simp [hf] at e
    | some f =>
      simp only [hf] at e
      obtain ⟨f1, f2, _⟩ := setFileSize_some _ _ _ hf
      exact @MmapFile.remap_ok pg f ⟨s.m_file, 0, 0, none⟩ s2 (by omega) e rfl
  | @clear s s2 _ e ih =>
    unfold MmapFile.clear MmapFile.unmap at e
    rw [if_neg (by have := ih.pos; omega)] at e
    simp only at e
    cases hf : setFileSize s.m_file 0 with
    | none => simp [hf] at e
    | some f =>
      simp only [hf] at e
      obtain ⟨f1, f2, _⟩ := setFileSize_some _ _ _ hf
      exact @MmapFile.remap_ok pg f ⟨s.m_file, 0, 0, none⟩ s2 (by omega) e rfl

/-- The const `getPtr` returns `NULL` and leaves the state alone when the
    offset is at or past the end of the file. -/
theorem MmapFile.getPtrConst_past_end (pg : Nat) (s : MmapFile) (offset size : Nat)
    (h : s.m_file.length ≤ offset) : s.getPtrConst pg offset size = some (s, none) := by
  unfold MmapFile.getPtrConst
  rw [if_pos h]

/-- C29 (failing input): on a file of ten bytes, the const `getPtr(5, 10)`
    returns a pointer and leaves a file of fifteen bytes: the range starts
    inside the file and ends behind it, and the call goes on to the non-const
    `getPtr`, which grows the file.  (The same for `getReadPtr` as the heap
    file uses it.) -/
theorem read_ptr_grows_file :
    MmapFile.open 4096 (List.replicate 10 0) = some tenBytes ∧ tenBytes.size = 10 ∧
    (tenBytes.getPtrConst 4096 5 10).map (fun x => (x.1.size, x.2)) = some (15, some 5) ∧
    (getReadPtr (List.replicate 10 0) 5 10).map (fun x => (x.1.length, x.2))
      = some (15, some 5) := by
  decide

/-- C30: in every state of an opened `MmapFile`, the non-const
    `getPtr(off, len)` for a range that ends at an `off_t` returns a pointer
    (not `NULL`) to the byte at `off`; afterwards the size of the file is the
    larger of its previous size and `off + len`, the window starts and ends
    on page boundaries and covers `[off, off + len)`. -/
theorem getPtr_grows_and_covers {pg : Nat} {s : MmapFile} (hr : MReach pg s) (off len : Nat)
    (hlt : off + len < OFF_MAX) :
    ∃ s2, s.getPtr pg off len = some (s2, some off) ∧
      s2.size = max s.size (off + len) ∧
      s2.m_offset % pg = 0 ∧ (s2.m_offset + s2.m_windowSize) % pg = 0 ∧
      s2.m_offset ≤ off ∧ off + len ≤ s2.m_offset + s2.m_windowSize := by
  have hs := hr.ok
  obtain ⟨s2, ptr, e⟩ := MmapFile.getPtr_total hs.page hs off len hlt
  obtain ⟨h2, hp, hl, c1, c2, _⟩ := MmapFile.getPtr_some hs off len e
  subst hp
  refine ⟨s2, e, hl, h2.off, ?_, c1, c2⟩
  rw [Nat.add_mod, h2.off, h2.win]
  simp

set_option maxRecDepth 1000000 in
theorem getPtr_grows_and_covers_witness :
    MmapFile.open 4096 (List.replicate 10 0) = some tenBytes ∧
    ∃ s2, tenBytes.getPtr 4096 5000 10 = some (s2, some 5000) ∧
      s2.size = max tenBytes.size (5000 + 10) ∧
      s2.m_offset % 4096 = 0 ∧ (s2.m_offset + s2.m_windowSize) % 4096 = 0 ∧
      s2.m_offset ≤ 5000 ∧ 5000 + 10 ≤ s2.m_offset + s2.m_windowSize :=
  ⟨by decide,
    getPtr_grows_and_covers
      (MReach.opened (List.replicate 10 0) (by decide)
        (show MmapFile.open 4096 (List.replicate 10 0) = some tenBytes by decide))
      5000 10 (by decide)⟩

set_option maxRecDepth 1000000 in
/-- C33 (failing input): `pairHeap` holds the blobs of `[20]` and `[21]` in a
    file of 556 bytes.  `set_max_size(556)`, a cap the file does not exceed,
    deallocates the last record: afterwards `size()` is 284, one record is
    allocated, `has([21])` is false and `has([20])` is still true. -/
theorem cap_equal_to_size_evicts :
    run [] pairOps = some pairHeap ∧ pairHeap.size = 556 ∧
    pairHeap.m_index.m_alloc.length = 2 ∧
    (pairHeap.hasBlob [21]).map Prod.fst = some true ∧
    pairHeap.setMaxSize 556 = some (some pairEvicted) ∧
    pairEvicted.size = 284 ∧ pairEvicted.m_index.m_alloc.length = 1 ∧
    (pairEvicted.hasBlob [20]).map Prod.fst = some true ∧
    (pairEvicted.hasBlob [21]).map Prod.fst = some false := by
  refine ⟨by decide, by decide, by decide, by decide, by decide, by decide, by decide,
    by decide, by decide⟩

set_option maxRecDepth 1000000 in
/-- C36 (failing input): in the contiguous index `hugeIndex` the free record
    `(8, 1, 3000000000)` is the left neighbour of the allocated record
    `(3000000008, 2, 3000000000)`, whose right neighbour is allocated.
    `deallocate` of the latter leaves a free record of offset 8 and size
    1 705 032 704, which is the sum 6 000 000 000 of the two sizes less 2^32. -/
theorem coalesced_size_wraps :
    irun (hugeOps.take 4) = some hugeIndex ∧
    hugeIndex = ⟨[⟨8, 1, 3000000000⟩, ⟨3000000008, 2, 3000000000⟩, ⟨6000000008, 3, 256⟩],
      [⟨3000000008, 2, 3000000000⟩, ⟨6000000008, 3, 256⟩], [⟨8, 1, 3000000000⟩]⟩ ∧
    hugeIndex.deallocate ⟨3000000008, 2, 3000000000⟩ = some (true,
      ⟨[⟨8, 2, 1705032704⟩, ⟨6000000008, 3, 256⟩], [⟨6000000008, 3, 256⟩],
       [⟨8, 2, 1705032704⟩]⟩) ∧
    3000000000 + 3000000000 = 1705032704 + 4294967296 := by
  decide

/-- C39: in every index reached from the empty one by `addAllocatedBlock`
    (blocks that are not empty, appended without overlap), `allocate` and
    `deallocate`, no two consecutive records of the list are both free, and
    when no record is allocated the list (and the free map) is empty. -/
theorem no_two_free_neighbours {idx : HeapIndex} (h : IReach idx) :
    idx.m_list.Chain' (fun a b => ¬ (a ∈ idx.m_free ∧ b ∈ idx.m_free)) ∧
    (idx.m_alloc = [] → idx.m_list = [] ∧ idx.m_free = []) := by
  have hinv := h.idxInv
  refine ⟨hinv.noAdjFree, fun ha => ?_⟩
  have := hinv.eq_empty_of_alloc_nil ha
  rw [this]
  exact ⟨rfl, rfl⟩

set_option maxRecDepth 1000000 in
theorem no_two_free_neighbours_witness :
    irun splitIndexOps = some splitIndex ∧
    splitIndex.m_free = [⟨264, 1, 512⟩, ⟨1076, 0, 924⟩] ∧
    splitIndex.m_list.Chain' (fun a b => ¬ (a ∈ splitIndex.m_free ∧ b ∈ splitIndex.m_free)) ∧
    (splitIndex.m_alloc = [] → splitIndex.m_list = [] ∧ splitIndex.m_free = []) :=
  ⟨by decide, by decide,
    no_two_free_neighbours
      (IReach.of_irun (show irun splitIndexOps = some splitIndex by decide))⟩

theorem HeapFileT.clear_some (h h2 : HeapFileT) (e : h.clear = some h2) :
    h2.m_index.m_alloc = [] ∧ h2.m_maxSize = UNBOUNDED ∧ h2.size = 0 := by
  unfold HeapFileT.clear clearFile setFileSize at e
  rw [if_neg (by decide)] at e
  simp only [Option.map_some', Option.some.injEq] at e
  subst e
  simp [HeapIndex.clear, HeapFileT.size]

/-- How the eviction loop of `setMaxSize` leaves `m_maxSize`: it ends in
    `clear()` exactly when no allocated record is left. -/
theorem setMaxSizeLoop_maxSize (maxSize : Nat) :
    ∀ (fuel : Nat) (rec : Record) (h h2 : HeapFileT),
      setMaxSizeLoop maxSize fuel rec h = some (some h2) →
      (h2.m_index.m_alloc = [] ∧ h2.m_maxSize = UNBOUNDED ∧ h2.size = 0) ∨
      (h2.m_index.m_alloc ≠ [] ∧ h2.m_maxSize = h.m_maxSize) := by
  intro fuel
  induction fuel with
  | zero => intro rec h h2 e; simp [setMaxSizeLoop] at e
  | succ fuel ih =>
    intro rec h h2 e
    unfold setMaxSizeLoop at e
    cases hd : h.m_index.deallocate rec with
    | none => simp [hd] at e
    | some t =>
      obtain ⟨found, idx1⟩ := t
      simp only [hd] at e
      by_cases hz : idx1.numAllocatedRecords = 0
      · rw [if_pos hz] at e
        simp only [Option.some.injEq] at e
        exact Or.inl (HeapFileT.clear_some _ _ e)
      · rw [if_neg hz] at e
        cases hl : idx1.m_list.getLast? with
        | none => simp [hl] at e
        | some rec1 =>
          simp only [hl] at e
          split at e
          · split at e
            · rcases ih rec1 _ h2 e with c | c
              · exact Or.inl c
              · exact Or.inr c
            · simp at e
          · simp only [Option.some.injEq] at e
            cases ht : trim h.m_file ((rec1.m_offset + rec1.m_size + idx1.size) % U64) with
            | none => simp [ht] at e
            | some f =>
              simp only [ht, Option.map_some', Option.some.injEq] at e
              subst e
              refine Or.inr ⟨?_, rfl⟩
              intro ha
              apply hz
              simp only at ha
              simp [HeapIndex.numAllocatedRecords, ha]

set_option maxRecDepth 1000000 in
/-- C40 (counterexample): on a fresh, empty heap `set_max_size(5)` leaves the
    index with zero allocated records, but it does not end in `clear()`:
    `max_size` is 5, not the unbounded sentinel, and the put that follows is
    refused because of the cap. -/
theorem empty_heap_keeps_cap :
    (HeapFileT.create []).setMaxSize 5 = some (some ⟨HeapIndex.empty, [], Simple.new [], 5⟩) ∧
    (5 : Nat) ≠ UNBOUNDED ∧
    (HeapFileT.writeBlob ⟨HeapIndex.empty, [], Simple.new [], 5⟩ [1] [1, 2, 3]).map Prod.fst
      = some false := by
  refine ⟨by decide, by decide, by decide⟩

/-- C40 (amended): `set_max_size(cap)` with `cap` larger than `size()` only
    sets `max_size` to `cap`; with `cap ≤ size()`, when the call returns,
    either no allocated record is left, the call has ended in `clear()`, the
    file is empty and `max_size` is the unbounded sentinel, or at least one
    record survives and `max_size` is `cap`. -/
theorem setMaxSize_sets_cap (h : HeapFileT) (cap : Nat) :
    (h.size < cap → h.setMaxSize cap = some (some { h with m_maxSize := cap })) ∧
    (cap ≤ h.size → ∀ h2, h.setMaxSize cap = some (some h2) →
      (h2.m_index.m_alloc = [] ∧ h2.m_maxSize = UNBOUNDED ∧ h2.size = 0) ∨
      (h2.m_index.m_alloc ≠ [] ∧ h2.m_maxSize = cap)) := by
  constructor
  · intro hlt
    unfold HeapFileT.size at hlt
    unfold HeapFileT.setMaxSize
    simp only
    rw [if_pos hlt]
  · intro hle h2 e
    unfold HeapFileT.setMaxSize at e
    simp only at e
    rw [if_neg (by unfold HeapFileT.size at hle; omega)] at e
    split at e
    · simp only [Option.some.injEq] at e
      exact Or.inl (HeapFileT.clear_some _ _ e)
    · cases hl : h.m_index.m_list.getLast? with
      | none => simp [hl] at e
      | some rec =>
        simp only [hl] at e
        exact setMaxSizeLoop_maxSize cap _ rec _ h2 e

set_option maxRecDepth 1000000 in
theorem setMaxSize_sets_cap_witness :
    (pairHeap.size < 600 → pairHeap.setMaxSize 600
      = some (some { pairHeap with m_maxSize := 600 })) ∧
    ((556 : Nat) ≤ pairHeap.size → ∀ h2, pairHeap.setMaxSize 556 = some (some h2) →
      (h2.m_index.m_alloc = [] ∧ h2.m_maxSize = UNBOUNDED ∧ h2.size = 0) ∨
      (h2.m_index.m_alloc ≠ [] ∧ h2.m_maxSize = 556)) ∧
    pairHeap.size = 556 ∧ pairHeap.setMaxSize 556 = some (some pairEvicted) ∧
    pairEvicted.m_maxSize = 556 :=
  ⟨(setMaxSize_sets_cap pairHeap 600).1, (setMaxSize_sets_cap pairHeap 556).2,
    by decide, by decide, by decide⟩

/-- What `allocate` does with the free record `c` it takes, on a well-formed
    index: `c` sits in the list between `pre` and `post`; either the whole
    block is handed out with the new key, or `c` is split. -/
theorem allocate_exact {idx : HeapIndex} (h : IdxInv idx) (size key : Nat) (c : Record)
    (hc : idx.chosen size = some c) :
    c ∈ idx.m_free ∧ max size 256 ≤ c.m_size ∧
    ∃ pre post, idx.m_list = pre ++ c :: post ∧ c ∉ pre ∧
      (max size 256 > c.m_size - 256 →
        idx.allocate size key = some (some ⟨c.m_offset, key, c.m_size⟩,
          ⟨pre ++ ⟨c.m_offset, key, c.m_size⟩ :: post,
           mmInsert Record.m_key ⟨c.m_offset, key, c.m_size⟩ idx.m_alloc,
           idx.m_free.erase c⟩)) ∧
      (max size 256 ≤ c.m_size - 256 →
        idx.allocate size key = some (some ⟨c.m_offset, key, max size 256⟩,
          ⟨pre ++ ⟨c.m_offset, key, max size 256⟩ ::
              ⟨c.m_offset + max size 256, c.m_key, c.m_size - max size 256⟩ :: post,
           mmInsert Record.m_key ⟨c.m_offset, key, max size 256⟩ idx.m_alloc,
           mmInsert Record.m_size ⟨c.m_offset + max size 256, c.m_key, c.m_size - max size 256⟩
             (idx.m_free.erase c)⟩)) := by
  unfold HeapIndex.chosen at hc
  have hM : MIN_SIZE = 256 := rfl
  rw [hM] at hc
  obtain ⟨hcF, hneed⟩ := mmLowerBound_some _ _ _ _ hc
  have hcl : c ∈ idx.m_list := (h.mem_list_iff c).mpr (Or.inr hcF)
  have hsplit := split_at_mem c idx.m_list hcl
  generalize idx.m_list.takeWhile (fun x => decide (x ≠ c)) = pre at hsplit
  generalize (idx.m_list.dropWhile (fun x => decide (x ≠ c))).tail = post at hsplit
  have hnd := h.nodup_list
  rw [hsplit] at hnd
  have hcpre : c ∉ pre := by
    intro hin
    have := (List.nodup_append.mp hnd).2.2
    exact this hin (by simp)
  have hsz := h.size_lt c hcl
  have hU : U32 = 4294967296 := rfl
  have hmod : (c.m_size + U32 - 256) % U32 = c.m_size - 256 := by
    have : c.m_size + U32 - 256 = (c.m_size - 256) + U32 := by omega
    rw [this, Nat.add_mod_right, Nat.mod_eq_of_lt (by omega)]
  refine ⟨hcF, hneed, pre, post, hsplit, hcpre, ?_, ?_⟩
  · intro hw
    unfold HeapIndex.allocate
    simp only [hM, hc, hmod]
    rw [if_pos hw, hsplit, replaceFirst_split _ _ _ _ hcpre]
    rfl
  · intro hw
    unfold HeapIndex.allocate
    simp only [hM, hc, hmod]
    rw [if_neg (by omega)]
    have hlt : max size 256 < c.m_size := by omega
    have hoffmod : (c.m_offset + max size 256) % U64 = c.m_offset + max size 256 :=
      Nat.mod_eq_of_lt (by have := hsz.2; omega)
    simp only [Record.splitOffLeft, hlt, if_true, gt_iff_lt, hoffmod]
    have hrf : replaceFirst c (Record.mk (c.m_offset + max size 256) c.m_key
        (c.m_size - max size 256)) idx.m_list =
        pre ++ (Record.mk (c.m_offset + max size 256) c.m_key
          (c.m_size - max size 256)) :: post := by
      rw [hsplit]; exact replaceFirst_split _ _ _ _ hcpre
    have hsepo := List.pairwise_append.mp (hsplit ▸ h.sep)
    have hpos : listLowerBound (c.m_offset + max size 256)
        (pre ++ (Record.mk (c.m_offset + max size 256) c.m_key
          (c.m_size - max size 256)) :: post) = pre.length := by
      refine listLowerBound_split (Record.mk (c.m_offset + max size 256) c.m_key
          (c.m_size - max size 256)) pre post ?_
      intro x hx
      have := (hsepo.2.2 x hx c (by simp)).2
      simp; omega
    simp only [hrf, hpos]
    have hget : (pre ++ (Record.mk (c.m_offset + max size 256) c.m_key
          (c.m_size - max size 256)) :: post).get? pre.length =
        some (Record.mk (c.m_offset + max size 256) c.m_key
          (c.m_size - max size 256)) := by
      rw [List.get?_eq_getElem?, List.getElem?_append_right (Nat.le_refl _)]
      simp
    rw [if_pos hget]
    simp [Record.setKey]

/-- C34: on a well-formed index, when `allocate(size, key)` takes the free
    record `c` (which sits in the list between `pre` and `post`), with
    `need = max(size, 256)`: if `need > c.size - 256` the whole block is
    handed out, with the offset and size of `c` and the key `key`, it takes
    the place of `c` in the list, enters the allocated map and `c` leaves the
    free map; otherwise the record handed out has the offset of `c`, the size
    `need` and the key `key`, it is put into the list right in front of the
    remainder and into the allocated map, and the remainder, of offset
    `c.offset + need` and size `c.size - need ≥ 256`, replaces `c` in the
    free map. -/
theorem allocate_whole_or_split {idx : HeapIndex} (h : IdxInv idx) (size key : Nat)
    (c : Record) (hc : idx.chosen size = some c) :
    c ∈ idx.m_free ∧ max size 256 ≤ c.m_size ∧ c ∉ idx.m_free.erase c ∧
    ∃ pre post, idx.m_list = pre ++ c :: post ∧
      (max size 256 > c.m_size - 256 →
        idx.allocate size key = some (some ⟨c.m_offset, key, c.m_size⟩,
          ⟨pre ++ ⟨c.m_offset, key, c.m_size⟩ :: post,
           mmInsert Record.m_key ⟨c.m_offset, key, c.m_size⟩ idx.m_alloc,
           idx.m_free.erase c⟩)) ∧
      (max size 256 ≤ c.m_size - 256 →
        256 ≤ c.m_size - max size 256 ∧
        idx.allocate size key = some (some ⟨c.m_offset, key, max size 256⟩,
          ⟨pre ++ ⟨c.m_offset, key, max size 256⟩ ::
              ⟨c.m_offset + max size 256, c.m_key, c.m_size - max size 256⟩ :: post,
           mmInsert Record.m_key ⟨c.m_offset, key, max size 256⟩ idx.m_alloc,
           mmInsert Record.m_size ⟨c.m_offset + max size 256, c.m_key, c.m_size - max size 256⟩
             (idx.m_free.erase c)⟩)) := by
  obtain ⟨h1, h2, pre, post, h3, _, h5, h6⟩ := allocate_exact h size key c hc
  have hnd : idx.m_free.Nodup := (List.nodup_append.mp h.nodup_maps).2.1
  refine ⟨h1, h2, fun hin => ((List.Nodup.mem_erase_iff hnd).mp hin).1 rfl,
    pre, post, h3, h5, fun hw => ⟨by omega, h6 hw⟩⟩

set_option maxRecDepth 1000000 in
theorem allocate_whole_or_split_witness :
    testIndex.chosen 300 = some ⟨776, 0, 1224⟩ ∧ max 300 256 ≤ 1224 - 256 ∧
    testIndex.allocate 300 3 = some (some ⟨776, 3, 300⟩,
      ⟨[⟨8, 0, 256⟩, ⟨264, 1, 512⟩, ⟨776, 3, 300⟩, ⟨1076, 0, 924⟩, ⟨2000, 2, 256⟩],
       [⟨8, 0, 256⟩, ⟨264, 1, 512⟩, ⟨2000, 2, 256⟩, ⟨776, 3, 300⟩], [⟨1076, 0, 924⟩]⟩) ∧
    ((⟨776, 0, 1224⟩ : Record) ∈ testIndex.m_free ∧ max 300 256 ≤ 1224 ∧
      (⟨776, 0, 1224⟩ : Record) ∉ testIndex.m_free.erase ⟨776, 0, 1224⟩) := by
  have hw := allocate_whole_or_split
    (IReach.of_irun (show irun testIndexOps = some testIndex by decide)).idxInv 300 3
    ⟨776, 0, 1224⟩ (by decide)
  exact ⟨by decide, by decide, by decide, hw.1, hw.2.1, hw.2.2.1⟩

theorem mmInsert_ordered (r : Record) (m : List Record)
    (h : m.Pairwise (fun a b => a.m_size ≤ b.m_size)) :
    (mmInsert Record.m_size r m).Pairwise (fun a b => a.m_size ≤ b.m_size) := by
  induction m with
  | nil => simp [mmInsert]
  | cons x xs ih =>
    rw [List.pairwise_cons] at h
    unfold mmInsert
    split
    · rename_i c
      rw [List.pairwise_cons]
      refine ⟨?_, ih h.2⟩
      intro y hy
      rcases (mem_mmInsert _ _ _ _).mp hy with e | e
      · rw [e]; exact c
      · exact h.1 y e
    · rename_i c
      rw [List.pairwise_cons]
      refine ⟨?_, List.pairwise_cons.mpr h⟩
      intro y hy
      rcases List.mem_cons.mp hy with e | e
      · rw [e]; omega
      · have := h.1 y e
        omega

theorem erase_ordered (r : Record) (m : List Record)
    (h : m.Pairwise (fun a b => a.m_size ≤ b.m_size)) :
    (m.erase r).Pairwise (fun a b => a.m_size ≤ b.m_size) :=
  h.sublist (List.erase_sublist r m)

/-- `lower_bound` on an ordered map finds an entry of the least key that is
    not below the bound. -/
theorem mmLowerBound_least (k : Nat) (m : List Record) (c : Record)
    (h : m.Pairwise (fun a b => a.m_size ≤ b.m_size))
    (e : mmLowerBound Record.m_size k m = some c) :
    ∀ x ∈ m, k ≤ x.m_size → c.m_size ≤ x.m_size := by
  induction m with
  | nil => simp [mmLowerBound] at e
  | cons a as ih =>
    rw [List.pairwise_cons] at h
    unfold mmLowerBound at e
    rw [List.find?_cons] at e
    by_cases ha : k ≤ a.m_size
    · simp only [ha, decide_True, Option.some.injEq] at e
      subst e
      intro x hx _
      rcases List.mem_cons.mp hx with e2 | e2
      · rw [e2]
      · exact h.1 x e2
    · simp only [ha, decide_False] at e
      intro x hx hk
      rcases List.mem_cons.mp hx with e2 | e2
      · rw [e2] at hk; exact absurd hk ha
      · exact ih h.2 e x e2 hk

theorem addAllocatedBlock_ordered {idx idx2 : HeapIndex} (h : idx.freeOrdered) (p : Record)
    (e : idx.addAllocatedBlock p = some idx2) : idx2.freeOrdered := by
  unfold HeapIndex.addAllocatedBlock at e
  unfold HeapIndex.freeOrdered at h ⊢
  cases hl : idx.m_list.getLast? with
  | none =>
    simp only [hl, Option.some.injEq] at e
    rw [← e]; exact h
  | some last =>
    simp only [hl] at e
    split at e
    · simp only [Option.some.injEq] at e
      rw [← e]; exact h
    · cases hb : Record.between last p with
      | none => simp [hb] at e
      | some gap =>
        simp only [hb, Option.some.injEq] at e
        rw [← e]
        exact mmInsert_ordered _ _ h

theorem absorbLeft_ordered {pre F pre1 F1 : List Record} {r r1 : Record}
    (h : F.Pairwise (fun a b => a.m_size ≤ b.m_size))
    (e : absorbLeft pre F r = some (pre1, F1, r1)) :
    F1.Pairwise (fun a b => a.m_size ≤ b.m_size) := by
  unfold HeapFile.absorbLeft at e
  cases hl : pre.getLast? with
  | none =>
    simp only [hl, Option.some.injEq, Prod.mk.injEq] at e
    rw [← e.2.1]; exact h
  | some L =>
    simp only [hl, removeIfFree_eq] at e
    by_cases hLF : L ∈ F
    · simp only [hLF, if_true, Option.map_eq_some', Prod.mk.injEq] at e
      obtain ⟨_, _, _, e2, _⟩ := e
      rw [← e2]; exact erase_ordered _ _ h
    · simp only [hLF, Bool.false_eq_true, if_false, Option.some.injEq, Prod.mk.injEq] at e
      rw [← e.2.1]; exact h

theorem absorbRight_ordered {post F post2 F2 : List Record} {r r2 : Record}
    (h : F.Pairwise (fun a b => a.m_size ≤ b.m_size))
    (e : absorbRight post F r = some (post2, F2, r2)) :
    F2.Pairwise (fun a b => a.m_size ≤ b.m_size) := by
  unfold HeapFile.absorbRight at e
  cases post with
  | nil =>
    simp only [Option.some.injEq, Prod.mk.injEq] at e
    rw [← e.2.1]; exact h
  | cons R rest =>
    simp only [removeIfFree_eq] at e
    by_cases hRF : R ∈ F
    · simp only [hRF, if_true, Option.map_eq_some', Prod.mk.injEq] at e
      obtain ⟨_, _, _, e2, _⟩ := e
      rw [← e2]; exact erase_ordered _ _ h
    · simp only [hRF, Bool.false_eq_true, if_false, Option.some.injEq, Prod.mk.injEq] at e
      rw [← e.2.1]; exact h

theorem deallocate_ordered {idx idx2 : HeapIndex} (h : idx.freeOrdered) (rec : Record)
    {b : Bool} (e : idx.deallocate rec = some (b, idx2)) : idx2.freeOrdered := by
  unfold HeapIndex.deallocate at e
  unfold HeapIndex.freeOrdered at h ⊢
  split at e
  · cases hc : HeapIndex.coalesce { idx with m_alloc := idx.m_alloc.erase rec } rec with
    | none => simp [hc] at e
    | some x =>
      obtain ⟨fnd, r, idx1⟩ := x
      simp only [hc] at e
      have h1 : idx1.m_free.Pairwise (fun a b => a.m_size ≤ b.m_size) := by
        unfold HeapIndex.coalesce at hc
        split at hc
        · simp only at hc
          split at hc
          · simp at hc
          · rename_i pre1 F1 r1 hL
            split at hc
            · simp at hc
            · rename_i post2 F2 r2 hR
              simp only [Option.some.injEq, Prod.mk.injEq] at hc
              rw [← hc.2.2]
              exact absorbRight_ordered (absorbLeft_ordered h hL) hR
        · simp only [Option.some.injEq, Prod.mk.injEq] at hc
          rw [← hc.2.2]; exact h
      cases hl : idx1.m_list.getLast? with
      | none => simp [hl] at e
      | some last =>
        simp only [hl] at e
        split at e
        · simp only [Option.some.injEq, Prod.mk.injEq] at e
          rw [← e.2]; exact h1
        · simp only [Option.some.injEq, Prod.mk.injEq] at e
          rw [← e.2]; exact mmInsert_ordered _ _ h1
  · simp only [Option.some.injEq, Prod.mk.injEq] at e
    rw [← e.2]; exact h

theorem allocate_ordered {idx idx2 : HeapIndex} (h : idx.freeOrdered) (size key : Nat)
    {r : Option Record} (e : idx.allocate size key = some (r, idx2)) : idx2.freeOrdered := by
  unfold HeapIndex.allocate at e
  unfold HeapIndex.freeOrdered at h ⊢
  cases hlb : mmLowerBound Record.m_size (max size MIN_SIZE) idx.m_free with
  | none =>
    simp only [hlb, Option.some.injEq, Prod.mk.injEq] at e
    rw [← e.2]; exact h
  | some c =>
    simp only [hlb] at e
    split at e
    · simp only [Option.some.injEq, Prod.mk.injEq] at e
      rw [← e.2]; exact erase_ordered _ _ h
    · cases hs : c.splitOffLeft (max size MIN_SIZE) with
      | none => simp [hs] at e
      | some x =>
        obtain ⟨left, r2⟩ := x
        simp only [hs] at e
        split at e
        · simp only [Option.some.injEq, Prod.mk.injEq] at e
          rw [← e.2]
          exact mmInsert_ordered _ _ (erase_ordered _ _ h)
        · simp at e

/-- The free map of every index reached by calls that returned is in key
    order. -/
theorem IReach.freeOrdered {idx : HeapIndex} (h : IReach idx) : idx.freeOrdered := by
  induction h with
  | empty => simp [HeapIndex.freeOrdered, HeapIndex.empty]
  | add p _ _ e ih => exact addAllocatedBlock_ordered ih p e
  | allocate size key r _ e ih => exact allocate_ordered ih size key e
  | deallocate rec b _ e ih => exact deallocate_ordered ih rec e

/-- C35: when `allocate(size, key)` hands out a record, the free record `c`
    it took for it (the record handed out starts where `c` starts) has the
    smallest size among the free records whose size is at least
    `max(size, 256)`: every free record of at least that size is at least as
    large as `c`.  The free map is in key order, as a multimap is. -/
theorem allocate_takes_least_fit (idx : HeapIndex) (hord : idx.freeOrdered) (size key : Nat)
    (r : Record) (idx2 : HeapIndex) (e : idx.allocate size key = some (some r, idx2)) :
    ∃ c, idx.chosen size = some c ∧ c ∈ idx.m_free ∧ max size 256 ≤ c.m_size ∧
      r.m_offset = c.m_offset ∧ r.m_key = key ∧
      (∀ x ∈ idx.m_free, max size 256 ≤ x.m_size → c.m_size ≤ x.m_size) ∧
      ¬ ∃ x ∈ idx.m_free, max size 256 ≤ x.m_size ∧ x.m_size < c.m_size := by
  have hM : MIN_SIZE = 256 := rfl
  unfold HeapIndex.allocate at e
  cases hlb : mmLowerBound Record.m_size (max size MIN_SIZE) idx.m_free with
  | none => simp [hlb] at e
  | some c =>
    obtain ⟨hcF, hneed⟩ := mmLowerBound_some _ _ _ _ hlb
    have hleast := mmLowerBound_least _ _ _ hord hlb
    rw [hM] at hneed hleast
    have hr : r.m_offset = c.m_offset ∧ r.m_key = key := by
      simp only [hlb] at e
      split at e
      · simp only [Option.some.injEq, Prod.mk.injEq] at e
        rw [← e.1]
        exact ⟨rfl, rfl⟩
      · cases hs : c.splitOffLeft (max size MIN_SIZE) with
        | none => simp [hs] at e
        | some x =>
          obtain ⟨left, r2⟩ := x
          simp only [hs] at e
          unfold Record.splitOffLeft at hs
          split at hs
          · simp only [Option.some.injEq, Prod.mk.injEq] at hs
            split at e
            · simp only [Option.some.injEq, Prod.mk.injEq] at e
              rw [← e.1, ← hs.1]
              exact ⟨rfl, rfl⟩
            · simp at e
          · simp at hs
    refine ⟨c, hlb, hcF, hneed, hr.1, hr.2, hleast, ?_⟩
    rintro ⟨x, hx, h1, h2⟩
    have := hleast x hx h1
    omega

set_option maxRecDepth 1000000 in
theorem allocate_takes_least_fit_witness :
    splitIndex.m_free = [⟨264, 1, 512⟩, ⟨1076, 0, 924⟩] ∧
    ∃ c, splitIndex.chosen 300 = some c ∧ c ∈ splitIndex.m_free ∧ max 300 256 ≤ c.m_size ∧
      (⟨264, 5, 512⟩ : Record).m_offset = c.m_offset ∧ (⟨264, 5, 512⟩ : Record).m_key = 5 ∧
      (∀ x ∈ splitIndex.m_free, max 300 256 ≤ x.m_size → c.m_size ≤ x.m_size) ∧
      ¬ ∃ x ∈ splitIndex.m_free, max 300 256 ≤ x.m_size ∧ x.m_size < c.m_size :=
  ⟨by decide,
    allocate_takes_least_fit splitIndex
      (IReach.of_irun (show irun splitIndexOps = some splitIndex by decide)).freeOrdered 300 5
      ⟨264, 5, 512⟩
      ⟨[⟨8, 0, 256⟩, ⟨264, 5, 512⟩, ⟨776, 3, 300⟩, ⟨1076, 0, 924⟩, ⟨2000, 2, 256⟩],
       [⟨8, 0, 256⟩, ⟨2000, 2, 256⟩, ⟨776, 3, 300⟩, ⟨264, 5, 512⟩], [⟨1076, 0, 924⟩]⟩
      (by decide)⟩

set_option maxRecDepth 1000000 in
/-- C37 (counterexample): the last record of `testIndex` ends at 2256.  For
    the record `(2100, 7, 256)`, whose offset is not 2256, `addAllocatedBlock`
    appends neither a filler nor the record: it throws. -/
theorem add_before_end_appends_nothing :
    irun testIndexOps = some testIndex ∧
    testIndex.m_list.getLast? = some ⟨2000, 2, 256⟩ ∧ (2100 : Nat) ≠ 2000 + 256 ∧
    testIndex.addAllocatedBlock ⟨2100, 7, 256⟩ = none := by
  refine ⟨by decide, by decide, by decide, by decide⟩

/-- C37 (amended): on a non-empty index whose last record `prev` ends at
    `e = prev.offset + prev.size` (below 2^64), for a record `rec`: when
    `rec.offset = e` only `rec` is appended; when `e < rec.offset < e + 2^32`
    a filler of offset `e`, key 0 and size `rec.offset - e` is appended and
    put into the free map, then `rec`; in both cases `rec` is put into the
    allocated map and is the last record of the list; when `rec.offset < e`
    the call throws. -/
theorem addAllocatedBlock_appends (idx : HeapIndex) (prev rec : Record)
    (hl : idx.m_list.getLast? = some prev) (he : prev.m_offset + prev.m_size < U64)
    (hr : rec.m_offset < U64) :
    (rec.m_offset = prev.m_offset + prev.m_size →
      idx.addAllocatedBlock rec = some ⟨idx.m_list ++ [rec],
        mmInsert Record.m_key rec idx.m_alloc, idx.m_free⟩) ∧
    (prev.m_offset + prev.m_size < rec.m_offset →
      rec.m_offset - (prev.m_offset + prev.m_size) < U32 →
      idx.addAllocatedBlock rec = some
        ⟨idx.m_list ++ [⟨prev.m_offset + prev.m_size, 0,
            rec.m_offset - (prev.m_offset + prev.m_size)⟩, rec],
         mmInsert Record.m_key rec idx.m_alloc,
         mmInsert Record.m_size ⟨prev.m_offset + prev.m_size, 0,
            rec.m_offset - (prev.m_offset + prev.m_size)⟩ idx.m_free⟩) ∧
    (rec.m_offset < prev.m_offset + prev.m_size → idx.addAllocatedBlock rec = none) ∧
    (∀ idx2, idx.addAllocatedBlock rec = some idx2 →
      idx2.m_list.getLast? = some rec ∧ rec ∈ idx2.m_alloc) := by
  have hU : U64 = 18446744073709551616 := rfl
  refine ⟨?_, ?_, ?_, ?_⟩
  · intro e
    unfold HeapIndex.addAllocatedBlock
    simp only [hl]
    rw [if_pos (by simp [Record.sharesRightBoundaryWith, Nat.mod_eq_of_lt he, e])]
  · intro h1 h2
    unfold HeapIndex.addAllocatedBlock
    simp only [hl]
    rw [if_neg (by
      simp only [Record.sharesRightBoundaryWith, Nat.mod_eq_of_lt he, beq_iff_eq]
      omega)]
    have hb : Record.between prev rec = some ⟨prev.m_offset + prev.m_size, 0,
        rec.m_offset - (prev.m_offset + prev.m_size)⟩ := by
      unfold Record.between
      simp only [Nat.mod_eq_of_lt he]
      rw [if_neg (by omega)]
      have e1 : rec.m_offset + U64 - (prev.m_offset + prev.m_size)
          = (rec.m_offset - (prev.m_offset + prev.m_size)) + U64 := by omega
      have e2 : (rec.m_offset - (prev.m_offset + prev.m_size)) % U64
          = rec.m_offset - (prev.m_offset + prev.m_size) := Nat.mod_eq_of_lt (by omega)
      rw [e1, Nat.add_mod_right, e2, Nat.mod_eq_of_lt h2]
    simp only [hb]
  · intro h1
    unfold HeapIndex.addAllocatedBlock
    simp only [hl]
    rw [if_neg (by
      simp only [Record.sharesRightBoundaryWith, Nat.mod_eq_of_lt he, beq_iff_eq]
      omega)]
    have hb : Record.between prev rec = none := by
      unfold Record.between
      simp only [Nat.mod_eq_of_lt he]
      rw [if_pos (by omega)]
    simp only [hb]
  · intro idx2 e
    unfold HeapIndex.addAllocatedBlock at e
    simp only [hl] at e
    split at e
    · simp only [Option.some.injEq] at e
      rw [← e]
      exact ⟨by simp, (mem_mmInsert _ _ _ _).mpr (Or.inl rfl)⟩
    · cases hb : Record.between prev rec with
      | none => simp [hb] at e
      | some gap =>
        simp only [hb, Option.some.injEq] at e
        rw [← e]
        refine ⟨?_, (mem_mmInsert _ _ _ _).mpr (Or.inl rfl)⟩
        simp only
        rw [show idx.m_list ++ [gap, rec] = (idx.m_list ++ [gap]) ++ [rec] by simp]
        exact List.getLast?_concat _

set_option maxRecDepth 1000000 in
theorem addAllocatedBlock_appends_witness :
    (HeapIndex.addAllocatedBlock ⟨[⟨8, 0, 256⟩, ⟨264, 1, 512⟩], [⟨8, 0, 256⟩, ⟨264, 1, 512⟩], []⟩
        ⟨2000, 2, 256⟩).map (fun x => x.m_list)
      = some [⟨8, 0, 256⟩, ⟨264, 1, 512⟩, ⟨776, 0, 1224⟩, ⟨2000, 2, 256⟩] ∧
    (HeapIndex.addAllocatedBlock ⟨[⟨8, 0, 256⟩, ⟨264, 1, 512⟩], [⟨8, 0, 256⟩, ⟨264, 1, 512⟩], []⟩
        ⟨2000, 2, 256⟩).map (fun x => x.m_free) = some [⟨776, 0, 1224⟩] := by
  have h := (addAllocatedBlock_appends
    ⟨[⟨8, 0, 256⟩, ⟨264, 1, 512⟩], [⟨8, 0, 256⟩, ⟨264, 1, 512⟩], []⟩ ⟨264, 1, 512⟩
    ⟨2000, 2, 256⟩ (by decide) (by decide) (by decide)).2.1 (by decide) (by decide)
  rw [h]
  exact ⟨by decide, by decide⟩

theorem packed_map : packedOps.map Op.toAbs = packedAOps := by
  simp only [packedOps, packedAOps, List.map_append, List.map_map, List.map_cons, List.map_nil,
    Op.toAbs, length_fill, Function.comp_def]

set_option maxRecDepth 1000000 in
theorem packed_abs :
    absRun (Simple.new []) AbsHeap.create packedAOps = some packedAbs := by decide

/-- An erase that finds its id in the last record of the list leaves a file
    that ends with the index, written where that record started. -/
theorem erase_on_tail {h : HeapFileT} (hinv : Inv h) (id : List Byte) {b : Bool}
    {idx2 : HeapIndex} {f2 : List Byte}
    (e : eraseBlobEncryptedId id h.m_index h.m_file = some (b, idx2, f2))
    {l : Record} (hl : h.m_index.m_list.getLast? = some l) (hs : storedId h.m_file l = id) :
    f2.length = l.m_offset + idx2.size ∧ idx2.m_alloc = h.m_index.m_alloc.erase l := by
  have hla := hinv.idx.lastAlloc l hl
  unfold eraseBlobEncryptedId at e
  rcases findBlob_spec hinv id with ⟨_, hn⟩ | ⟨r, hr, hf, hsr⟩
  · exact absurd hs (hn l hla)
  · have hrl : r = l := hinv.uniq r hr l hla (by rw [hsr, hs])
    subst hrl
    rw [hf] at e
    simp only [Blob.isNil, Option.isNone_some, Bool.false_eq_true, if_false,
      Option.map_eq_some'] at e
    obtain ⟨x, hx, hxe⟩ := e
    simp only [Prod.mk.injEq] at hxe
    obtain ⟨_, ha, _, _, hlast⟩ := @release_inv h hinv r hr x.1 x.2 hx 0
    rw [← hxe.2.1, ← hxe.2.2]
    refine ⟨hlast ?_, ha⟩
    simp [HeapIndex.isLast, hl]

/-- C38 (counterexample): the erase of the blob in the last record can make
    the file longer.  After the calls of `packedOps` (puts and erases only)
    twenty blobs are stored, `size() = 5164`, and the blob of id `[2]` is in
    the last record, at offset 4872; erasing it returns true and leaves
    `size() = 5180 = 4872 + 4 + 16 * 19`. -/
theorem tail_erase_grows_file :
    (run [] packedOps).map (fun h => (h.size, h.m_index.m_alloc.length,
      h.m_index.m_list.getLast?, storedInTail h [2]))
      = some (5164, 20, some ⟨4872, 177575, 256⟩, true) ∧
    eraseResult (run [] packedOps) [2] = some true ∧
    (afterErase (run [] packedOps) [2]).map (fun h => (h.size, h.m_index.m_alloc.length))
      = some (5180, 19) := by
  obtain ⟨h, hrun, d, hk⟩ := sim_run [] packedOps (packed_map ▸ packed_abs)
  have h1 : packedAbs.flen = 5164 ∧ packedAbs.idx.m_alloc.length = 20 ∧
      packedAbs.idx.m_list.getLast? = some ⟨4872, 177575, 256⟩ := by decide
  have h2 : (absErase packedAbs ((Simple.new []).encrypt [2]).2).map
      (fun a => (a.flen, a.idx.m_alloc.length)) = some (5180, 19) := by decide
  have h3 : (⟨4872, 177575, 256⟩, ((Simple.new []).encrypt [2]).2) ∈ packedAbs.ids := by
    decide
  rw [Option.map_eq_some'] at h2
  obtain ⟨a3, ha3, hf3⟩ := h2
  simp only [Prod.mk.injEq] at hf3
  rw [← hk] at ha3 h3
  obtain ⟨idx2, f2, he, d2, _⟩ := sim_erase d _ ha3
  have hl2 : f2.length = 5180 := by rw [← hf3.1]; exact d2.flen.symm
  have ha2 : idx2.m_alloc.length = 19 := by
    rw [← hf3.2]; exact (congrArg (fun i => i.m_alloc.length) d2.idx).symm
  have hs := d.ids_sound _ h3
  have hkey : h.m_key = Simple.new [] := hk
  rw [hrun]
  refine ⟨?_, ?_, ?_⟩
  · simp only [Option.map_some', HeapFileT.size, ← d.flen, ← d.idx, h1.1, h1.2.1, h1.2.2,
      storedInTail, hkey, hs.2, decide_True]
  · simp only [eraseResult, Option.some_bind, HeapFileT.eraseBlob, he, Option.map_some']
  · simp only [afterErase, Option.some_bind, HeapFileT.eraseBlob, he, Option.map_some',
      HeapFileT.size, hl2, ha2]

/-- C38 (amended): in every heap reachable from an empty file by put, erase
    and set_max_size, when `erase(id)` returns: if the blob of `id` is in the
    last record of the list, the file is resized to
    `tail_off + index.size()`, where `tail_off` is the offset of that record
    and `index.size()` is `4 + 16 * num_alloc` after the erase, one record
    fewer than before (the new size may be larger or smaller than the old
    one); if it is not, `size()` is unchanged. -/
theorem erase_resizes_only_on_tail {key : List Byte} {h h2 : HeapFileT} (hr : Reach key h)
    (id : List Byte) (b : Bool) (e : h.eraseBlob id = some (b, h2)) :
    (storedInTail h id = true →
      ∃ l, h.m_index.m_list.getLast? = some l ∧
        h2.size = l.m_offset + h2.m_index.size ∧
        h2.m_index.m_alloc.length + 1 = h.m_index.m_alloc.length ∧
        (h2.m_index.m_alloc.length < 268435456 →
          h2.m_index.size = 4 + 16 * h2.m_index.m_alloc.length)) ∧
    (storedInTail h id = false → h2.size = h.size) := by
  have hinv := hr.inv.1
  simp only [HeapFileT.eraseBlob, Option.map_eq_some'] at e
  obtain ⟨⟨b2, idx2, f2⟩, he, hx⟩ := e
  simp only [Prod.mk.injEq] at hx
  obtain ⟨rfl, rfl⟩ := hx
  constructor
  · intro ht
    unfold storedInTail at ht
    cases hg : h.m_index.m_list.getLast? with
    | none => simp [hg] at ht
    | some l =>
      simp only [hg, decide_eq_true_eq] at ht
      obtain ⟨hlen, ha⟩ := erase_on_tail hinv _ he hg ht
      have hla := hinv.idx.lastAlloc l hg
      have hcnt : idx2.m_alloc.length + 1 = h.m_index.m_alloc.length := by
        rw [ha, List.length_erase_of_mem hla]
        have := List.length_pos_of_mem hla
        omega
      refine ⟨l, rfl, hlen, hcnt, ?_⟩
      intro hc
      have hc2 : idx2.m_alloc.length < 268435456 := hc
      show idx2.size = 4 + 16 * idx2.m_alloc.length
      have hU : U32 = 4294967296 := rfl
      unfold HeapIndex.size HeapIndex.numAllocatedRecords SERIALIZED_SIZE
      rw [Nat.mod_eq_of_lt (a := idx2.m_alloc.length) (by omega), Nat.mod_eq_of_lt (by omega)]
  · intro ht
    have hnt2 : ∀ r, h.m_index.m_list.getLast? = some r →
        storedId h.m_file r ≠ (h.m_key.encrypt id).2 := by
      intro r hl
      simpa [storedInTail, hl] using ht
    have hf1 := erase_off_tail hinv _ he hnt2
    simp only [HeapFileT.size, hf1]

set_option maxRecDepth 1000000 in
theorem erase_resizes_only_on_tail_witness :
    pairHeap.eraseBlob [21] = some (true, pairTailErased) ∧
    storedInTail pairHeap [21] = true ∧ storedInTail pairHeap [20] = false ∧
    pairHeap.m_index.m_list.getLast? = some ⟨264, 177584, 256⟩ ∧
    pairTailErased.size = 264 + 4 + 16 * 1 ∧
    ((storedInTail pairHeap [21] = true →
      ∃ l, pairHeap.m_index.m_list.getLast? = some l ∧
        pairTailErased.size = l.m_offset + pairTailErased.m_index.size ∧
        pairTailErased.m_index.m_alloc.length + 1 = pairHeap.m_index.m_alloc.length ∧
        (pairTailErased.m_index.m_alloc.length < 268435456 →
          pairTailErased.m_index.size = 4 + 16 * pairTailErased.m_index.m_alloc.length)) ∧
    (storedInTail pairHeap [21] = false → pairTailErased.size = pairHeap.size)) :=
  ⟨by decide, by decide, by decide, by decide, by decide,
    @erase_resizes_only_on_tail [] pairHeap pairTailErased
      (Reach.of_run (show run [] pairOps = some pairHeap by decide)) [21] true (by decide)⟩

/-- On a fresh heap, the put of an id of one byte with a payload of
    4 294 967 286 bytes does not return: `blobSize` wraps around to 0, the
    record gets 256 bytes, and the assertion of `writeData` on the size of
    the record fails. -/
theorem put_need_wrap_aborts (id data : List Byte) (hid : id.length = 1)
    (hd : data.length = 4294967286) : (HeapFileT.create []).writeBlob id data = none := by
  have hel : ((HeapFileT.create []).m_key.encrypt id).2.length = 1 := by
    rw [Simple.length_encrypt, hid]
  unfold HeapFileT.writeBlob
  simp only
  generalize ((HeapFileT.create []).m_key.encrypt id).2 = eid at hel
  have he : eraseBlobEncryptedId eid (HeapFileT.create []).m_index (HeapFileT.create []).m_file
      = some (true, HeapIndex.empty, []) := by
    simp [eraseBlobEncryptedId, findBlob, HeapFileT.create, HeapIndex.empty, mmEqualRange,
      findBlobIn, Blob.nil, Blob.isNil]
  have hbs : Blob.blobSize eid.length data.length = 0 := by
    rw [hel, hd]; decide
  have hal : HeapIndex.empty.allocate 0 (hash eid) = some (none, HeapIndex.empty) := by
    simp [HeapIndex.allocate, HeapIndex.empty, mmLowerBound]
  have hao : appendOffset HeapIndex.empty = 8 := rfl
  have hrn : Record.new 8 (hash eid) 0 true = ⟨8, hash eid, 256⟩ := by
    simp [Record.new, MIN_SIZE]
  have hadd : HeapIndex.empty.addAllocatedBlock ⟨8, hash eid, 256⟩
      = some ⟨[⟨8, hash eid, 256⟩], [⟨8, hash eid, 256⟩], []⟩ := by
    simp [HeapIndex.addAllocatedBlock, HeapIndex.empty, mmInsert]
  have hsz : (HeapIndex.mk [⟨8, hash eid, 256⟩] [⟨8, hash eid, 256⟩] []).size = 20 := by
    simp [HeapIndex.size, HeapIndex.numAllocatedRecords, SERIALIZED_SIZE, U32]
  have htr : trim ([] : List Byte) 284 = _ := setFileSize_eq [] 284 (by decide)
  generalize ([] : List Byte).take 284 ++ List.replicate (284 - ([] : List Byte).length) 0
    = f2 at htr
  have hlen := (setFileSize_some _ _ _ htr).2.1
  have hgw : getWritePtr f2 8 256 = some (f2, 8) :=
    getWritePtr_inside _ _ _ (by omega) (by decide)
  have hwd : ∀ k : Simple, (Blob.mk ⟨8, hash eid, 256⟩ (some 8)).writeData f2 eid
      (heapWriter k data) = none := by
    intro k
    unfold Blob.writeData
    rw [if_pos]
    simp only [heapWriter, hel, hd, overhead, U32]
    decide
  simp only [he, hbs, hal, hao, hrn, hadd, hsz]
  have hp : (8 + 256 + 20) % U64 = 284 := by decide
  simp only [hp]
  rw [if_neg (by simp [HeapFileT.create, UNBOUNDED, U64])]
  simp only [htr, writeInto, hgw, hwd]

/-- C32 (failing input): on a fresh heap (no record, nothing stored, no cap)
    the put of the id `[1]` with a payload of 4 294 967 286 bytes has
    `need = 9 + 1 + 4294967286 = 2^32`; the projected size
    `8 + need + 4 + 16` is within `max_size`, but the put does not return
    true: the 32-bit `blobSize` is 0, the record appended at offset 8 has 256
    bytes, and the assertion of `writeData` on the size of the record fails. -/
theorem put_of_wrapped_need_aborts :
    (fill 4294967286 0).length = 4294967286 ∧
    Blob.blobSize ([1] : List Byte).length 4294967286 = 0 ∧
    (HeapFileT.create []).m_index.m_list = [] ∧
    8 + max (9 + ([1] : List Byte).length + 4294967286) 256 + 4 + 16 * (0 + 1)
      ≤ (HeapFileT.create []).m_maxSize ∧
    hasResult (run [] []) [1] = some false ∧
    putResult (run [] []) [1] (fill 4294967286 0) = none :=
  ⟨length_fill _ _, by decide, rfl, by decide, by decide,
    putResult_fresh _ _ (put_need_wrap_aborts _ _ rfl (length_fill _ _))⟩

theorem tiles_append (l1 l2 : List Record) : ∀ lo hi,
    tiles lo (l1 ++ l2) hi ↔ ∃ mid, tiles lo l1 mid ∧ tiles mid l2 hi := by
  induction l1 with
  | nil => intro lo hi; simp [tiles]
  | cons a as ih =>
    intro lo hi
    show (a.m_offset = lo ∧ tiles (lo + a.m_size) (as ++ l2) hi) ↔
      ∃ mid, (a.m_offset = lo ∧ tiles (lo + a.m_size) as mid) ∧ tiles mid l2 hi
    rw [ih]
    constructor
    · rintro ⟨h1, mid, h2, h3⟩
      exact ⟨mid, ⟨h1, h2⟩, h3⟩
    · rintro ⟨mid, ⟨h1, h2⟩, h3⟩
      exact ⟨h1, mid, h2, h3⟩

theorem tiles_le (l : List Record) : ∀ lo hi, tiles lo l hi → lo ≤ hi := by
  induction l with
  | nil => intro lo hi h; simp only [tiles] at h; omega
  | cons a as ih =>
    intro lo hi h
    simp only [tiles] at h
    have := ih _ _ h.2
    omega

theorem tiles_mem (l : List Record) : ∀ lo hi, tiles lo l hi →
    ∀ x ∈ l, lo ≤ x.m_offset ∧ x.m_offset + x.m_size ≤ hi := by
  induction l with
  | nil => intro lo hi _ x hx; simp at hx
  | cons a as ih =>
    intro lo hi h x hx
    simp only [tiles] at h
    rcases List.mem_cons.mp hx with e | e
    · subst e
      have := tiles_le _ _ _ h.2
      omega
    · have := ih _ _ h.2 x e
      omega

theorem tiles_dropLast (l : List Record) : ∀ lo hi, tiles lo l hi →
    ∃ hi2, tiles lo l.dropLast hi2 ∧ hi2 ≤ hi := by
  induction l with
  | nil => intro lo hi h; exact ⟨lo, rfl, by simp only [tiles] at h; omega⟩
  | cons a as ih =>
    intro lo hi h
    cases as with
    | nil =>
      simp only [tiles] at h
      exact ⟨lo, rfl, by omega⟩
    | cons b bs =>
      rw [tiles] at h
      obtain ⟨hi2, h2, h3⟩ := ih _ _ h.2
      exact ⟨hi2, by rw [List.dropLast_cons₂]; exact ⟨h.1, h2⟩, h3⟩

theorem tiles_getLast (l : List Record) : ∀ lo hi, tiles lo l hi →
    ∀ r, l.getLast? = some r → hi = r.m_offset + r.m_size := by
  induction l with
  | nil => intro lo hi _ r hr; simp at hr
  | cons a as ih =>
    intro lo hi h r hr
    cases as with
    | nil =>
      simp only [tiles] at h
      simp only [List.getLast?_singleton, Option.some.injEq] at hr
      subst hr
      omega
    | cons b bs =>
      rw [tiles] at h
      rw [List.getLast?_cons_cons] at hr
      exact ih _ _ h.2 r hr

theorem tiles_contiguous (l : List Record) : ∀ lo hi, tiles lo l hi →
    Contiguous l ∧ ∀ r, l.head? = some r → r.m_offset = lo := by
  induction l with
  | nil => intro lo hi _; simp [Contiguous]
  | cons a as ih =>
    intro lo hi h
    rw [tiles] at h
    obtain ⟨hc, hh⟩ := ih _ _ h.2
    refine ⟨?_, ?_⟩
    · unfold Contiguous at hc ⊢
      rw [List.chain'_cons']
      refine ⟨?_, hc⟩
      intro y hy
      rw [hh y hy, h.1]
    · intro r hr
      simp only [List.head?_cons, Option.some.injEq] at hr
      subst hr
      exact h.1

theorem absorbLeft_tiles {pre F pre1 F1 : List Record} {r r1 : Record} {lo : Nat}
    (ht : tiles lo pre r.m_offset) (hb : r.m_offset + r.m_size < U32)
    (e : absorbLeft pre F r = some (pre1, F1, r1)) :
    tiles lo pre1 r1.m_offset ∧ r1.m_offset + r1.m_size = r.m_offset + r.m_size := by
  unfold absorbLeft at e
  cases hl : pre.getLast? with
  | none =>
    simp only [hl, Option.some.injEq, Prod.mk.injEq] at e
    obtain ⟨rfl, _, rfl⟩ := e
    exact ⟨ht, rfl⟩
  | some L =>
    simp only [hl, removeIfFree_eq] at e
    by_cases hLF : L ∈ F
    · simp only [hLF, if_true, Option.map_eq_some'] at e
      obtain ⟨r2, hco, hx⟩ := e
      simp only [Prod.mk.injEq] at hx
      obtain ⟨rfl, _, rfl⟩ := hx
      obtain ⟨hr2, _⟩ := Record.coalesce_some _ _ _ hco
      have hsplit : pre = pre.dropLast ++ [L] := by
        have := List.dropLast_append_getLast? L hl
        exact this.symm
      rw [hsplit, tiles_append] at ht
      obtain ⟨mid, h1, h2⟩ := ht
      simp only [tiles] at h2
      have hle := tiles_le _ _ _ h1
      have hU : U32 = 4294967296 := rfl
      subst hr2
      simp only
      rw [Nat.mod_eq_of_lt (by omega), Nat.min_eq_right (by omega)]
      refine ⟨?_, by omega⟩
      rw [h2.1]; exact h1
    · simp only [hLF, if_false, Option.some.injEq, Prod.mk.injEq] at e
      obtain ⟨rfl, _, rfl⟩ := e
      exact ⟨ht, rfl⟩

theorem absorbRight_tiles {post F post2 F2 : List Record} {r r2 : Record} {hi : Nat}
    (ht : tiles (r.m_offset + r.m_size) post hi) (hb : hi < U32)
    (e : absorbRight post F r = some (post2, F2, r2)) :
    tiles (r2.m_offset + r2.m_size) post2 hi ∧ r2.m_offset = r.m_offset := by
  unfold absorbRight at e
  cases post with
  | nil =>
    simp only [Option.some.injEq, Prod.mk.injEq] at e
    obtain ⟨rfl, _, rfl⟩ := e
    exact ⟨ht, rfl⟩
  | cons R rest =>
    simp only [removeIfFree_eq] at e
    by_cases hRF : R ∈ F
    · simp only [hRF, if_true, Option.map_eq_some'] at e
      obtain ⟨r3, hco, hx⟩ := e
      simp only [Prod.mk.injEq] at hx
      obtain ⟨rfl, _, rfl⟩ := hx
      obtain ⟨hr3, _⟩ := Record.coalesce_some _ _ _ hco
      simp only [tiles] at ht
      have hle := tiles_le _ _ _ ht.2
      have hU : U32 = 4294967296 := rfl
      subst hr3
      simp only
      rw [Nat.mod_eq_of_lt (by omega), Nat.min_eq_left (by omega)]
      refine ⟨?_, rfl⟩
      have : r.m_offset + (r.m_size + R.m_size) = r.m_offset + r.m_size + R.m_size := by omega
      rw [this]; exact ht.2
    · simp only [hRF, if_false, Option.some.injEq, Prod.mk.injEq] at e
      obtain ⟨rfl, _, rfl⟩ := e
      exact ⟨ht, rfl⟩

/-- `deallocate` keeps a list that tiles a range below 2^32 a tiling of a
    range with the same start. -/
theorem deallocate_tiles {idx idx2 : HeapIndex} {lo hi : Nat} (ht : tiles lo idx.m_list hi)
    (hb : hi < U32) (rec : Record) {b : Bool} (e : idx.deallocate rec = some (b, idx2)) :
    ∃ hi2, tiles lo idx2.m_list hi2 ∧ hi2 ≤ hi := by
  unfold HeapIndex.deallocate at e
  split at e
  · cases hc : HeapIndex.coalesce { idx with m_alloc := idx.m_alloc.erase rec } rec with
    | none => simp [hc] at e
    | some x =>
      obtain ⟨fnd, r, idx1⟩ := x
      simp only [hc] at e
      have h1 : tiles lo idx1.m_list hi := by
        unfold HeapIndex.coalesce at hc
        split at hc
        · rename_i hrl
          simp only at hc hrl
          have hsplit := split_at_mem rec idx.m_list hrl
          rw [hsplit, tiles_append] at ht
          obtain ⟨mid, ht1, ht2⟩ := ht
          rw [tiles] at ht2
          obtain ⟨hm, ht3⟩ := ht2
          have hle := tiles_le _ _ _ ht3
          split at hc
          · simp at hc
          · rename_i pre1 F1 r1 hL
            split at hc
            · simp at hc
            · rename_i post2 F2 r2 hR
              simp only [Option.some.injEq, Prod.mk.injEq] at hc
              rw [← hc.2.2]
              simp only
              obtain ⟨hA, hA2⟩ := absorbLeft_tiles (hm ▸ ht1) (by omega) hL
              obtain ⟨hB, hB2⟩ := absorbRight_tiles (hA2 ▸ hm ▸ ht3) hb hR
              rw [tiles_append]
              refine ⟨r1.m_offset, hA, ?_⟩
              rw [tiles]
              exact ⟨hB2, hB2 ▸ hB⟩
        · simp only [Option.some.injEq, Prod.mk.injEq] at hc
          rw [← hc.2.2]; exact ht
      cases hl : idx1.m_list.getLast? with
      | none => simp [hl] at e
      | some last =>
        simp only [hl] at e
        split at e
        · simp only [Option.some.injEq, Prod.mk.injEq] at e
          rw [← e.2]
          exact tiles_dropLast _ _ _ h1
        · simp only [Option.some.injEq, Prod.mk.injEq] at e
          rw [← e.2]; exact ⟨hi, h1, Nat.le_refl _⟩
  · simp only [Option.some.injEq, Prod.mk.injEq] at e
    rw [← e.2]; exact ⟨hi, ht, Nat.le_refl _⟩

theorem allocate_tiles {idx idx2 : HeapIndex} (h : IdxInv idx) {lo hi : Nat}
    (ht : tiles lo idx.m_list hi) (size key : Nat) {r : Option Record}
    (e : idx.allocate size key = some (r, idx2)) : tiles lo idx2.m_list hi := by
  cases hc : idx.chosen size with
  | none =>
    unfold HeapIndex.chosen at hc
    unfold HeapIndex.allocate at e
    simp only [hc, Option.some.injEq, Prod.mk.injEq] at e
    rw [← e.2]; exact ht
  | some c =>
    obtain ⟨_, hfit, pre, post, hlist, _, hwhole, hsplitc⟩ := allocate_exact h size key c hc
    rw [hlist, tiles_append] at ht
    obtain ⟨mid, h1, h2⟩ := ht
    rw [tiles] at h2
    by_cases hw : max size 256 > c.m_size - 256
    · rw [hwhole hw] at e
      simp only [Option.some.injEq, Prod.mk.injEq] at e
      rw [← e.2]
      simp only
      rw [tiles_append]
      exact ⟨mid, h1, by rw [tiles]; exact h2⟩
    · rw [hsplitc (by omega)] at e
      simp only [Option.some.injEq, Prod.mk.injEq] at e
      rw [← e.2]
      simp only
      rw [tiles_append]
      refine ⟨mid, h1, ?_⟩
      rw [tiles, tiles]
      refine ⟨h2.1, by simp only; omega, ?_⟩
      simp only
      have : mid + max size 256 + (c.m_size - max size 256) = mid + c.m_size := by omega
      rw [this]; exact h2.2

theorem release_index {r : Record} {idx idx2 : HeapIndex} {f f2 : List Byte}
    (e : release r idx f = some (idx2, f2)) : ∃ b, idx.deallocate r = some (b, idx2) := by
  unfold release at e
  cases hd : idx.deallocate r with
  | none => simp [hd] at e
  | some t =>
    obtain ⟨b, idx1⟩ := t
    simp only [hd] at e
    split at e
    · rw [Option.map_eq_some'] at e
      obtain ⟨f1, _, hx⟩ := e
      simp only [Prod.mk.injEq] at hx
      exact ⟨b, by rw [hx.1]⟩
    · simp only [Option.some.injEq, Prod.mk.injEq] at e
      exact ⟨b, by rw [e.1]⟩

theorem erase_index {id : List Byte} {idx idx2 : HeapIndex} {f f2 : List Byte} {b : Bool}
    (e : eraseBlobEncryptedId id idx f = some (b, idx2, f2)) :
    idx2 = idx ∨ ∃ r b2, idx.deallocate r = some (b2, idx2) := by
  unfold eraseBlobEncryptedId at e
  cases hf : findBlob id idx f with
  | none => simp [hf] at e
  | some t =>
    obtain ⟨f1, bl⟩ := t
    simp only [hf] at e
    split at e
    · simp only [Option.some.injEq, Prod.mk.injEq] at e
      exact Or.inl e.2.1.symm
    · rw [Option.map_eq_some'] at e
      obtain ⟨x, hx, hxe⟩ := e
      simp only [Prod.mk.injEq] at hxe
      obtain ⟨b2, hd⟩ := release_index (show release bl.m_rec idx f1 = some (x.1, x.2) from hx)
      exact Or.inr ⟨bl.m_rec, b2, by rw [← hxe.2.1]; exact hd⟩

theorem writeInto_index {h h2 : HeapFileT} {id blob : List Byte} {r : Record} {idx : HeapIndex}
    {f : List Byte} {b : Bool} (e : writeInto h id blob r idx f = some (b, h2)) :
    h2.m_index = idx ∨ ∃ b2, idx.deallocate r = some (b2, h2.m_index) := by
  unfold writeInto at e
  cases hg : getWritePtr f r.m_offset r.m_size with
  | none => simp [hg] at e
  | some t =>
    obtain ⟨f1, wp⟩ := t
    simp only [hg] at e
    cases hw : (Blob.mk r (some wp)).writeData f1 id (heapWriter h.m_key blob) with
    | none => simp [hw] at e
    | some t2 =>
      obtain ⟨ok, f2⟩ := t2
      cases ok with
      | true =>
        simp only [hw, Option.some.injEq, Prod.mk.injEq] at e
        exact Or.inl (by rw [← e.2])
      | false =>
        simp only [hw, Option.map_eq_some'] at e
        obtain ⟨x, hx, hxe⟩ := e
        simp only [Prod.mk.injEq] at hxe
        obtain ⟨b2, hd⟩ := release_index (show release r idx f2 = some (x.1, x.2) from hx)
        exact Or.inr ⟨b2, by rw [← hxe.2]; exact hd⟩

/-- The end of a tiling that starts at 8 on a well-formed heap lies inside
    the file, or is 8. -/
theorem Inv.tiles_end {h : HeapFileT} (hinv : Inv h) {hi : Nat}
    (ht : tiles 8 h.m_index.m_list hi) :
    hi = appendOffset h.m_index ∧ (hi ≤ h.m_file.length ∨ hi = 8) := by
  unfold appendOffset
  cases hl : h.m_index.m_list.getLast? with
  | none =>
    rw [List.getLast?_eq_none_iff.mp hl, tiles] at ht
    exact ⟨ht.symm, Or.inr ht.symm⟩
  | some last =>
    have hlast : last ∈ h.m_index.m_list := List.mem_of_getLast?_eq_some hl
    have hw := hinv.within last hlast
    have hsz := hinv.idx.size_lt last hlast
    have := tiles_getLast _ _ _ ht last hl
    simp only [Nat.mod_eq_of_lt hsz.2]
    exact ⟨this, Or.inl (by omega)⟩

theorem erase_tiles {h : HeapFileT} {hi : Nat} (ht : tiles 8 h.m_index.m_list hi)
    (hb : hi < U32) {id : List Byte} {b : Bool} {idx2 : HeapIndex} {f2 : List Byte}
    (e : eraseBlobEncryptedId id h.m_index h.m_file = some (b, idx2, f2)) :
    ∃ hi2, tiles 8 idx2.m_list hi2 ∧ hi2 ≤ hi := by
  rcases erase_index e with c | ⟨r, b2, c⟩
  · rw [c]; exact ⟨hi, ht, Nat.le_refl _⟩
  · exact deallocate_tiles ht hb r c

/-- `writeBlob` on a well-formed heap whose list tiles a range from 8 that
    ends below 2^32: the list tiles a range from 8 afterwards. -/
theorem writeBlob_tiles {h : HeapFileT} (hinv : Inv h) {hi : Nat}
    (ht : tiles 8 h.m_index.m_list hi) (hb : hi < U32) (clearId blob : List Byte)
    {b : Bool} {h2 : HeapFileT} (e : h.writeBlob clearId blob = some (b, h2)) :
    ∃ hi2, tiles 8 h2.m_index.m_list hi2 := by
  unfold HeapFileT.writeBlob at e
  simp only at e
  cases he : eraseBlobEncryptedId (h.m_key.encrypt clearId).2 h.m_index h.m_file with
  | none => simp [he] at e
  | some t =>
    obtain ⟨ok, idx1, f1⟩ := t
    obtain ⟨hok, hinv1, _⟩ := erase_inv hinv _ he h.m_maxSize
    obtain ⟨hi1, ht1, hle1⟩ := erase_tiles ht hb he
    subst hok
    simp only [he] at e
    have hU : U64 = 18446744073709551616 := rfl
    have h32 : U32 = 4294967296 := rfl
    have hM : MIN_SIZE = 256 := rfl
    cases ha : idx1.allocate (Blob.blobSize (h.m_key.encrypt clearId).2.length blob.length)
        (hash (h.m_key.encrypt clearId).2) with
    | none => simp [ha] at e
    | some t2 =>
      obtain ⟨ro, idx2⟩ := t2
      have ht2 := allocate_tiles hinv1.idx ht1 _ _ ha
      cases ro with
      | some r =>
        simp only [ha] at e
        rcases writeInto_index e with c | ⟨b2, c⟩
        · rw [c]; exact ⟨hi1, ht2⟩
        · obtain ⟨hi3, ht3, _⟩ := deallocate_tiles ht2 (by omega) r c
          exact ⟨hi3, ht3⟩
      | none =>
        have hidx2 : idx2 = idx1 := by
          rcases allocate_spec hinv1.idx
              (Blob.blobSize (h.m_key.encrypt clearId).2.length blob.length)
              (hash (h.m_key.encrypt clearId).2) with ⟨_, ha2⟩ | ⟨r, idx3, ha2, _⟩
          · rw [ha] at ha2
            simp only [Option.some.injEq, Prod.mk.injEq] at ha2
            exact ha2.2
          · rw [ha] at ha2
            simp at ha2
        subst hidx2
        simp only [ha] at e
        have hbs : Blob.blobSize (h.m_key.encrypt clearId).2.length blob.length < U32 :=
          Nat.mod_lt _ (by decide)
        generalize Blob.blobSize (h.m_key.encrypt clearId).2.length blob.length = bs at e hbs
        have hrnew : Record.new (appendOffset idx2) (hash (h.m_key.encrypt clearId).2) bs true =
            ⟨appendOffset idx2, hash (h.m_key.encrypt clearId).2, max bs MIN_SIZE⟩ := by
          simp [Record.new]
        rw [hrnew] at e
        have hao : hi1 = appendOffset idx2 := (hinv1.tiles_end ht1).1
        have hmx : max bs MIN_SIZE < U32 := by
          rcases Nat.le_total bs MIN_SIZE with c | c
          · rw [Nat.max_eq_right c]; omega
          · rw [Nat.max_eq_left c]; exact hbs
        obtain ⟨hadd, hidx3, hnot⟩ := addAllocatedBlock_tail hinv1.idx
          (hash (h.m_key.encrypt clearId).2) (max bs MIN_SIZE)
          (Nat.lt_of_lt_of_le (by decide) (Nat.le_max_right _ MIN_SIZE)) hmx
          (by show appendOffset idx2 + max bs MIN_SIZE < U64; omega)
        simp only at hadd hidx3 hnot
        simp only [hadd] at e
        have hd := deallocate_tail hinv1.idx _ hnot
        have ht3 : tiles 8 (idx2.m_list ++
            [⟨appendOffset idx2, hash (h.m_key.encrypt clearId).2, max bs MIN_SIZE⟩])
            (hi1 + max bs MIN_SIZE) := by
          rw [tiles_append]
          refine ⟨hi1, ht1, ?_⟩
          rw [tiles, tiles]
          exact ⟨hao.symm, rfl⟩
        split at e
        · rw [hd] at e
          simp only [Option.map_some', Option.some.injEq, Prod.mk.injEq] at e
          rw [← e.2]
          exact ⟨hi1, ht1⟩
        · split at e
          · simp at e
          · rcases writeInto_index e with c | ⟨b2, c⟩
            · rw [c]; exact ⟨_, ht3⟩
            · rw [hd] at c
              simp only [Option.some.injEq, Prod.mk.injEq] at c
              rw [← c.2]
              exact ⟨hi1, ht1⟩

theorem clear_tiles {h h2 : HeapFileT} {hi : Nat} (ht : tiles 8 h.m_index.m_list hi)
    (e : h.clear = some h2) : tiles 8 h2.m_index.m_list hi := by
  unfold HeapFileT.clear at e
  rw [Option.map_eq_some'] at e
  obtain ⟨f, _, rfl⟩ := e
  exact ht

theorem setMaxSizeLoop_tiles (maxSize : Nat) :
    ∀ (fuel : Nat) (rec : Record) (h h2 : HeapFileT) (hi : Nat),
      tiles 8 h.m_index.m_list hi → hi < U32 →
      setMaxSizeLoop maxSize fuel rec h = some (some h2) →
      ∃ hi2, tiles 8 h2.m_index.m_list hi2 := by
  intro fuel
  induction fuel with
  | zero => intro rec h h2 hi _ _ e; simp [setMaxSizeLoop] at e
  | succ fuel ih =>
    intro rec h h2 hi ht hb e
    unfold setMaxSizeLoop at e
    cases hd : h.m_index.deallocate rec with
    | none => simp [hd] at e
    | some t =>
      obtain ⟨found, idx1⟩ := t
      simp only [hd] at e
      obtain ⟨hi1, ht1, hle1⟩ := deallocate_tiles ht hb rec hd
      by_cases hz : idx1.numAllocatedRecords = 0
      · rw [if_pos hz] at e
        simp only [Option.some.injEq] at e
        exact ⟨hi1, clear_tiles (h := { h with m_index := idx1 }) ht1 e⟩
      · rw [if_neg hz] at e
        cases hl : idx1.m_list.getLast? with
        | none => simp [hl] at e
        | some rec1 =>
          simp only [hl] at e
          split at e
          · split at e
            · exact ih rec1 _ h2 hi1 ht1 (by omega) e
            · simp at e
          · simp only [Option.some.injEq] at e
            rw [Option.map_eq_some'] at e
            obtain ⟨f, _, rfl⟩ := e
            exact ⟨hi1, ht1⟩

theorem setMaxSize_tiles {h h2 : HeapFileT} {hi : Nat} (ht : tiles 8 h.m_index.m_list hi)
    (hb : hi < U32) (n : Nat) (e : h.setMaxSize n = some (some h2)) :
    ∃ hi2, tiles 8 h2.m_index.m_list hi2 := by
  unfold HeapFileT.setMaxSize at e
  simp only at e
  split at e
  · simp only [Option.some.injEq] at e
    rw [← e]; exact ⟨hi, ht⟩
  · split at e
    · simp only [Option.some.injEq] at e
      exact ⟨hi, clear_tiles (h := { h with m_maxSize := n }) ht e⟩
    · cases hl : h.m_index.m_list.getLast? with
      | none => simp [hl] at e
      | some rec =>
        simp only [hl] at e
        exact setMaxSizeLoop_tiles n _ rec { h with m_maxSize := n } h2 hi ht hb e

theorem Reach.of_step {key : List Byte} {h h1 : HeapFileT} (hr : Reach key h) (op : Op)
    (e : stepOp h op = some h1) : Reach key h1 :=
  Reach.of_runFrom [op] h h1 hr (by simp [runFrom, e])

theorem Reach32.reach {key : List Byte} {h : HeapFileT} (hr : Reach32 key h) : Reach key h := by
  induction hr with
  | create => exact Reach.create
  | step op _ _ e ih => exact ih.of_step op e

theorem Reach32.of_runSmallFrom {key : List Byte} :
    ∀ (ops : List Op) (h h2 : HeapFileT), Reach32 key h → runSmallFrom h ops = some h2 →
      Reach32 key h2 := by
  intro ops
  induction ops with
  | nil => intro h h2 hr e; simp [runSmallFrom] at e; exact e ▸ hr
  | cons op ops ih =>
    intro h h2 hr e
    unfold runSmallFrom at e
    split at e
    · rename_i c
      cases hs : stepOp h op with
      | none => simp [hs] at e
      | some h1 =>
        simp only [hs] at e
        exact ih h1 h2 (Reach32.step op hr c hs) e
    · simp at e

theorem Reach32.tiles {key : List Byte} {h : HeapFileT} (hr : Reach32 key h) :
    ∃ hi, tiles 8 h.m_index.m_list hi := by
  induction hr with
  | create => exact ⟨8, rfl⟩
  | @step h h1 op hr0 hlen e ih =>
    obtain ⟨hi, ht⟩ := ih
    have hinv := hr0.reach.inv.1
    have hb : hi < U32 := by
      have h32 : U32 = 4294967296 := rfl
      rcases (hinv.tiles_end ht).2 with c | c <;> omega
    cases op with
    | put id data =>
      simp only [stepOp] at e
      split at e
      · rw [Option.map_eq_some'] at e
        obtain ⟨⟨b, h3⟩, hw, rfl⟩ := e
        exact writeBlob_tiles hinv ht hb id data hw
      · simp at e
    | erase id =>
      simp only [stepOp, HeapFileT.eraseBlob, Option.map_eq_some'] at e
      obtain ⟨⟨b, h3⟩, ⟨⟨b2, idx2, f2⟩, he, hx⟩, rfl⟩ := e
      simp only [Prod.mk.injEq] at hx
      obtain ⟨hi2, ht2, _⟩ := erase_tiles ht hb he
      rw [← hx.2]
      exact ⟨hi2, ht2⟩
    | setMaxSize n =>
      simp only [stepOp] at e
      split at e
      · cases hs : h.setMaxSize n with
        | none => simp [hs] at e
        | some res =>
          cases res with
          | none => simp [hs] at e
          | some h3 =>
            simp only [hs, Option.some.injEq] at e
            subst e
            exact setMaxSize_tiles ht hb n hs
      · simp at e

/-- `addAllocatedBlock` of a record that starts below 2^32 keeps the list
    without gaps: a gap behind the last record is covered by the filler. -/
theorem addAllocatedBlock_tiles {idx idx2 : HeapIndex} {p : Record}
    (ht : ∃ lo hi, tiles lo idx.m_list hi)
    (hs : ∀ x ∈ idx.m_list, x.m_offset + x.m_size < U64)
    (hp : p.m_offset < U32) (hps : p.m_size < U32)
    (e : idx.addAllocatedBlock p = some idx2) :
    (∃ lo hi, tiles lo idx2.m_list hi) ∧ ∀ x ∈ idx2.m_list, x.m_offset + x.m_size < U64 := by
  have hU : U64 = 18446744073709551616 := rfl
  have h32 : U32 = 4294967296 := rfl
  unfold HeapIndex.addAllocatedBlock at e
  cases hl : idx.m_list.getLast? with
  | none =>
    simp only [hl, Option.some.injEq] at e
    rw [← e]
    refine ⟨⟨p.m_offset, p.m_offset + p.m_size, rfl, rfl⟩, ?_⟩
    intro x hx
    simp only [List.mem_singleton] at hx
    subst hx; omega
  | some last =>
    simp only [hl] at e
    obtain ⟨lo, hi, ht⟩ := ht
    have hlast : last ∈ idx.m_list := List.mem_of_getLast?_eq_some hl
    have hle := hs last hlast
    have hhi := tiles_getLast _ _ _ ht last hl
    by_cases hsh : last.sharesRightBoundaryWith p = true
    · rw [if_pos hsh] at e
      simp only [Option.some.injEq] at e
      simp [Record.sharesRightBoundaryWith, Nat.mod_eq_of_lt hle] at hsh
      rw [← e]
      refine ⟨⟨lo, hi + p.m_size, ?_⟩, ?_⟩
      · simp only
        rw [tiles_append]
        exact ⟨hi, ht, by rw [tiles, tiles]; exact ⟨by omega, rfl⟩⟩
      · intro x hx
        simp only [List.mem_append, List.mem_singleton] at hx
        rcases hx with a | a
        · exact hs x a
        · subst a; omega
    · rw [if_neg hsh] at e
      unfold Record.between at e
      simp only [Nat.mod_eq_of_lt hle] at e
      by_cases c : last.m_offset + last.m_size ≥ p.m_offset
      · rw [if_pos c] at e
        simp at e
      · rw [if_neg c] at e
        simp only [Option.some.injEq] at e
        have hg : (p.m_offset + U64 - (last.m_offset + last.m_size)) % U64 % U32
            = p.m_offset - (last.m_offset + last.m_size) := by
          have : p.m_offset + U64 - (last.m_offset + last.m_size)
              = (p.m_offset - (last.m_offset + last.m_size)) + U64 := by omega
          have e1 : (p.m_offset - (last.m_offset + last.m_size)) % U64
              = p.m_offset - (last.m_offset + last.m_size) := Nat.mod_eq_of_lt (by omega)
          rw [this, Nat.add_mod_right, e1]
          exact Nat.mod_eq_of_lt (by omega)
        rw [hg] at e
        rw [← e]
        refine ⟨⟨lo, p.m_offset + p.m_size, ?_⟩, ?_⟩
        · simp only
          rw [tiles_append]
          refine ⟨hi, ht, ?_⟩
          rw [tiles, tiles, tiles]
          exact ⟨by simp only; omega, by simp only; omega, by simp only; omega⟩
        · intro x hx
          simp only [List.mem_append, List.mem_cons, List.mem_singleton, List.not_mem_nil,
            or_false] at hx
          rcases hx with a | a | a
          · exact hs x a
          · subst a; simp only; omega
          · subst a; omega

/-- The loop of the constructor over serialized records that start below
    2^32: the list it builds has no gap, also when it stops at a record that
    `addAllocatedBlock` refuses. -/
theorem loadRecords_tiles (f : List Byte) :
    ∀ (recs : List Record) (p : Nat) (idx : HeapIndex),
    rdN f p (16 * recs.length) = (recs.map Record.serialize).flatten →
    (∀ q ∈ recs, q.m_key < U32 ∧ q.m_size < U32 ∧ q.m_offset < U32) →
    (∃ lo hi, tiles lo idx.m_list hi) → (∀ x ∈ idx.m_list, x.m_offset + x.m_size < U64) →
    ∀ b idx2, loadRecords f recs.length p idx = (b, idx2) →
      ∃ lo hi, tiles lo idx2.m_list hi := by
  intro recs
  induction recs with
  | nil =>
    intro p idx _ _ ht _ b idx2 e
    simp only [List.length_nil, loadRecords, Prod.mk.injEq] at e
    rw [← e.2]; exact ht
  | cons r rs ih =>
    intro p idx hser hsz ht hs b idx2 el
    have hr := hsz r (by simp)
    have hU : U64 = 18446744073709551616 := rfl
    have h32 : U32 = 4294967296 := rfl
    have e : 16 * (r :: rs).length
        = r.serialize.length + ((rs.map Record.serialize).flatten).length := by
      rw [length_serialize, length_flatten_serialize, List.length_cons]; omega
    rw [e, List.map_cons, List.flatten_cons] at hser
    obtain ⟨s1, s2⟩ := rdN_eq_append f p _ _ hser
    rw [length_serialize] at s1 s2
    rw [length_flatten_serialize] at s2
    have hd := deserialize_serialize f p r s1 (by omega) hr.1 hr.2.1
    simp only [List.length_cons, loadRecords, hd] at el
    cases ha : idx.addAllocatedBlock r with
    | none =>
      simp only [ha, Prod.mk.injEq] at el
      rw [← el.2]; exact ht
    | some idx1 =>
      simp only [ha] at el
      obtain ⟨ht1, hs1⟩ := addAllocatedBlock_tiles ht hs hr.2.2 hr.2.1 ha
      exact ih (p + 16) idx1 s2 (fun q hq => hsz q (by simp [hq])) ht1 hs1 b idx2 el

/-- Commit of a well-formed heap on a file of less than 2^32 bytes, then open
    with any key: the list of the index that the constructor builds has no
    gap. -/
theorem reopen_tiles {h : HeapFileT} (hinv : Inv h) (hsmall : h.m_file.length < U32)
    {f : List Byte} (e : h.commit = some f) (key2 : List Byte) (h2 : HeapFileT)
    (eo : HeapFileT.open f key2 = some h2) : ∃ lo hi, tiles lo h2.m_index.m_list hi := by
  by_cases hne : h.m_index.m_alloc = []
  · have hf := commit_of_empty hne e
    subst hf
    unfold HeapFileT.open at eo
    simp only [List.length_nil, if_true, Option.some.injEq] at eo
    rw [← eo]
    exact ⟨0, 0, rfl⟩
  · obtain ⟨last, hl, hla, c1, c2, c3, c4, c5, c6⟩ := commit_spec hinv hne e
    have hpos : 0 < h.m_index.m_alloc.length := List.length_pos.mpr hne
    have hls := hinv.idx.size_lt last (hinv.alloc_mem_list hla)
    have hfind := findHeapIndex_of f _ _ hls.2 hinv.count hpos c1 c2 c5 c6
    have hperm := hinv.idx.allocInOrder_perm
    have hlen := hinv.idx.length_allocInOrder
    rw [← hlen] at c3
    unfold HeapFileT.open at eo
    rw [if_neg (by omega), hfind] at eo
    simp only at eo
    rw [if_neg (by omega)] at eo
    cases hload : loadRecords f h.m_index.m_alloc.length (last.m_offset + last.m_size + 4)
        HeapIndex.empty with
    | mk b idx2 =>
      have ht2 := loadRecords_tiles f h.m_index.allocInOrder (last.m_offset + last.m_size + 4)
        HeapIndex.empty c3
        (by
          intro q hq
          have hqa : q ∈ h.m_index.m_alloc := hperm.mem_iff.mp hq
          obtain ⟨id, pl, _, hk⟩ := hinv.blobs q hqa
          have := hinv.idx.size_lt q (hinv.alloc_mem_list hqa)
          have hw := hinv.within q (hinv.alloc_mem_list hqa)
          exact ⟨by rw [hk]; exact hash_lt _, this.1, by omega⟩)
        ⟨0, 0, rfl⟩ (by intro x hx; simp [HeapIndex.empty] at hx) b idx2
        (by rw [hlen]; exact hload)
      rw [hload] at eo
      cases b with
      | true =>
        simp only [Option.some.injEq] at eo
        rw [← eo]; exact ht2
      | false =>
        simp only [HeapFileT.resetOnError, Option.map_eq_some'] at eo
        obtain ⟨f1, _, rfl⟩ := eo
        exact ht2

theorem mem_of_head_eq {l : List Record} {r : Record} (h : l.head? = some r) : r ∈ l := by
  cases l with
  | nil => simp at h
  | cons a as =>
    simp only [List.head?_cons, Option.some.injEq] at h
    subst h
    simp

set_option maxRecDepth 1000000 in
/-- C31 (counterexample): after `put([1])`, `put([2])` and `erase([1])` the
    list of the index is a free record at offset 8 and the record of `[2]` at
    offset 264.  Close writes the allocated record only, and open on the
    committed file builds a list that starts at offset 264: no record
    describes the unallocated bytes from 8 to 264, and the free map is
    empty. -/
theorem reopened_list_starts_behind_gap :
    run [] holeOps = some holeHeap ∧
    holeHeap.m_index.m_list = [⟨8, 177572, 256⟩, ⟨264, 177575, 256⟩] ∧
    holeHeap.m_index.m_free = [⟨8, 177572, 256⟩] ∧
    reopen (run [] holeOps) [] = some holeReopened ∧
    holeReopened.m_index.m_list = [⟨264, 177575, 256⟩] ∧
    holeReopened.m_index.m_alloc = [⟨264, 177575, 256⟩] ∧
    holeReopened.m_index.m_free = [] ∧
    (holeReopened.hasBlob [2]).map Prod.fst = some true := by
  refine ⟨by decide, by decide, by decide, by decide, by decide, by decide, by decide,
    by decide⟩

/-- C31 (amended): in every heap reached from an empty file by put, erase and
    set_max_size calls that each started on a file of less than 2^32 bytes,
    the records of the list tile the payload region from offset 8: the first
    record starts at 8, every record ends where the next one starts, every
    record is in the allocated or in the free map, and the last record ends
    inside the file.  When such a heap (its file still below 2^32 bytes) is
    closed and opened again with any key, the list of the new heap is still
    without gaps between its records and every record is in one of the maps,
    but its first record only starts at or behind offset 8: the bytes in front
    of the first allocated record are described by no record. -/
theorem list_tiles_until_reopen {key : List Byte} {h : HeapFileT} (hr : Reach32 key h) :
    ((∀ r, h.m_index.m_list.head? = some r → r.m_offset = 8) ∧
      Contiguous h.m_index.m_list ∧
      (∀ r ∈ h.m_index.m_list, r ∈ h.m_index.m_alloc ∨ r ∈ h.m_index.m_free) ∧
      (∀ r, h.m_index.m_list.getLast? = some r → r.m_offset + r.m_size ≤ h.size)) ∧
    (h.m_file.length < U32 → ∀ key2 h2, reopen (some h) key2 = some h2 →
      (∀ r, h2.m_index.m_list.head? = some r → 8 ≤ r.m_offset) ∧
      Contiguous h2.m_index.m_list ∧
      (∀ r ∈ h2.m_index.m_list, r ∈ h2.m_index.m_alloc ∨ r ∈ h2.m_index.m_free) ∧
      (∀ r, h2.m_index.m_list.getLast? = some r → r.m_offset + r.m_size ≤ h2.size)) := by
  have hinv := hr.reach.inv.1
  obtain ⟨hi, ht⟩ := hr.tiles
  obtain ⟨hc, hh⟩ := tiles_contiguous _ _ _ ht
  refine ⟨⟨hh, hc, fun r hr2 => (hinv.idx.mem_list_iff r).mp hr2,
    fun r hr2 => (hinv.within r (List.mem_of_getLast?_eq_some hr2)).2⟩, ?_⟩
  intro hsmall key2 h2 e
  simp only [reopen, Option.some_bind] at e
  cases hcm : h.commit with
  | none => simp [hcm] at e
  | some f =>
    simp only [hcm, Option.some_bind] at e
    obtain ⟨lo, hi2, ht2⟩ := reopen_tiles hinv hsmall hcm key2 h2 e
    have hc2 := (tiles_contiguous _ _ _ ht2).1
    by_cases hne : h.m_index.m_alloc = []
    · have hf := commit_of_empty hne hcm
      subst hf
      unfold HeapFileT.open at e
      simp only [List.length_nil, if_true, Option.some.injEq] at e
      subst e
      simp [HeapIndex.empty, Contiguous]
    · obtain ⟨idx2, ho, hinv2, _⟩ := reopen_spec hinv hne hcm key2
      rw [ho, Option.some.injEq] at e
      subst e
      refine ⟨?_, hc2, fun r hr2 => (hinv2.idx.mem_list_iff r).mp hr2,
        fun r hr2 => (hinv2.within r (List.mem_of_getLast?_eq_some hr2)).2⟩
      intro r hr2
      exact (hinv2.within r (mem_of_head_eq hr2)).1

set_option maxRecDepth 1000000 in
theorem list_tiles_until_reopen_witness :
    runSmallFrom (HeapFileT.create []) holeOps = some holeHeap ∧
    holeHeap.m_index.m_list = [⟨8, 177572, 256⟩, ⟨264, 177575, 256⟩] ∧
    holeHeap.size = 556 ∧
    reopen (some holeHeap) [] = some holeReopened ∧
    holeReopened.m_index.m_list = [⟨264, 177575, 256⟩] ∧
    ((∀ r, holeHeap.m_index.m_list.head? = some r → r.m_offset = 8) ∧
      Contiguous holeHeap.m_index.m_list ∧
      (∀ r ∈ holeHeap.m_index.m_list,
        r ∈ holeHeap.m_index.m_alloc ∨ r ∈ holeHeap.m_index.m_free) ∧
      (∀ r, holeHeap.m_index.m_list.getLast? = some r →
        r.m_offset + r.m_size ≤ holeHeap.size)) ∧
    ((∀ r, holeReopened.m_index.m_list.head? = some r → 8 ≤ r.m_offset) ∧
      Contiguous holeReopened.m_index.m_list ∧
      (∀ r ∈ holeReopened.m_index.m_list,
        r ∈ holeReopened.m_index.m_alloc ∨ r ∈ holeReopened.m_index.m_free) ∧
      (∀ r, holeReopened.m_index.m_list.getLast? = some r →
        r.m_offset + r.m_size ≤ holeReopened.size)) :=
  ⟨by decide, by decide, by decide, by decide, by decide,
    (@list_tiles_until_reopen [] holeHeap
      (Reach32.of_runSmallFrom holeOps _ _ Reach32.create (by decide))).1,
    (@list_tiles_until_reopen [] holeHeap
      (Reach32.of_runSmallFrom holeOps _ _ Reach32.create (by decide))).2
      (by decide) [] holeReopened (by decide)⟩

theorem findHeapIndexOn_eq (le : Bool) (f : List Byte) :
    findHeapIndexOn le le f = findHeapIndex f := by
  unfold findHeapIndexOn findHeapIndex
  cases h0 : getReadPtr f 0 8 with
  | none => rfl
  | some t0 =>
    obtain ⟨f1, o0⟩ := t0
    cases o0 with
    | none => rfl
    | some p0 =>
      simp only
      have e0 : ntohll le le (objVal le (rdN f1 p0 8)) = beVal (rdN f1 p0 8) := by
        rw [rdN_eight, ntohll_objVal]
      rw [e0]
      cases h1 : getReadPtr f1 (beVal (rdN f1 p0 8)) 4 with
      | none => rfl
      | some t1 =>
        obtain ⟨f2, o1⟩ := t1
        cases o1 with
        | none => rfl
        | some p1 =>
          simp only
          have e1 : ntohl le (objVal le (rdN f2 p1 4)) = beVal (rdN f2 p1 4) := by
            rw [rdN_four, ntohl_objVal]
          rw [e1]

theorem loadRecordsOn_eq (le : Bool) (f : List Byte) :
    ∀ (n p : Nat) (idx : HeapIndex), loadRecordsOn le le f n p idx = loadRecords f n p idx := by
  intro n
  induction n with
  | zero => intro p idx; rfl
  | succ n ih =>
    intro p idx
    simp only [loadRecordsOn, loadRecords, deserializeH_eq, SERIALIZED_SIZE]
    cases idx.addAllocatedBlock (Record.deserialize f p) with
    | none => rfl
    | some idx1 => exact ih _ _

/-- On a build where the macro is defined exactly on a little-endian host the
    constructor is `HeapFileT.open`. -/
theorem openOn_eq_open (le : Bool) (f key : List Byte) :
    HeapFileT.openOn le le f key = HeapFileT.open f key := by
  unfold HeapFileT.openOn HeapFileT.open
  simp only [findHeapIndexOn_eq, loadRecordsOn_eq]

set_option maxRecDepth 1000000 in
/-- C13 (failing input): on a little-endian host without `__LITTLE_ENDIAN__`,
    open of the 13-byte file `hostTruncatedFile`, whose index (at offset 8)
    counts one record of which only one byte is in the file, does not reset:
    the file is grown to 28 bytes and the index holds the record read from the
    padded bytes.  Open of `hostEndedFile`, which ends where the records
    should start, does not return (the record is read through a `NULL`
    pointer).  On the builds that keep the offset of the index in network
    byte order the same holds for `truncatedFile` and `endedFile`. -/
theorem truncated_index_not_reset :
    (HeapFileT.openOn true false hostTruncatedFile []).map
        (fun h => (h.m_index.m_list, h.m_index.m_alloc, h.size))
      = some ([⟨5, 0, 0⟩], [⟨5, 0, 0⟩], 28) ∧
    HeapFileT.openOn true false hostEndedFile [] = none ∧
    (∀ le : Bool,
      (HeapFileT.openOn le le truncatedFile []).map
          (fun h => (h.m_index.m_list, h.m_index.m_alloc, h.size))
        = some ([⟨360287970189639680, 0, 0⟩], [⟨360287970189639680, 0, 0⟩], 28) ∧
      HeapFileT.openOn le le endedFile [] = none) := by
  refine ⟨by decide, by decide, ?_⟩
  intro le
  rw [openOn_eq_open, openOn_eq_open]
  exact ⟨by decide, by decide⟩

set_option maxRecDepth 1000000 in
/-- On blocks of non-zero size the index with pointers holds the records that
    the index of values holds: after three blocks, the third behind a gap, and
    after two of them have been deallocated. -/
theorem ptr_index_agrees :
    gapBlocks.view = irun [IOp.add ⟨8, 1, 256⟩, IOp.add ⟨264, 2, 256⟩, IOp.add ⟨2000, 3, 256⟩] ∧
    ((gapBlocks.deallocate ⟨264, 2, 256⟩).bind (fun x => x.2.deallocate ⟨8, 1, 256⟩)).bind
        (fun x => x.2.view)
      = irun [IOp.add ⟨8, 1, 256⟩, IOp.add ⟨264, 2, 256⟩, IOp.add ⟨2000, 3, 256⟩,
          IOp.deallocate ⟨264, 2, 256⟩, IOp.deallocate ⟨8, 1, 256⟩] ∧
    (gapBlocks.deallocate ⟨2000, 3, 256⟩).bind (fun x => x.2.view)
      = irun [IOp.add ⟨8, 1, 256⟩, IOp.add ⟨264, 2, 256⟩, IOp.add ⟨2000, 3, 256⟩,
          IOp.deallocate ⟨2000, 3, 256⟩] := by
  refine ⟨by decide, by decide, by decide⟩

set_option maxRecDepth 1000000 in
/-- C26 (failing input): two blocks `(8, 1, 0)` of size 0 are added to the
    empty index, as the objects 0 and 1, and `deallocate((8, 1, 0))` is
    called.  It takes object 0 out of `alloc`, then finds the last node of the
    list, object 1, equal to it by value, deletes that one and pops it.  The
    call returns true and the list is not empty, but its last record, object
    0, is neither in `alloc` nor in `free`. -/
theorem last_record_in_no_map :
    (PtrIndex.empty.addAllocatedBlock ⟨8, 1, 0⟩).bind (fun i => i.addAllocatedBlock ⟨8, 1, 0⟩)
      = some zeroBlocks ∧
    zeroBlocks.m_list = [0, 1] ∧ zeroBlocks.m_alloc = [(1, 0), (1, 1)] ∧
    zeroBlocks.m_free = [] ∧
    zeroBlocks.deallocate ⟨8, 1, 0⟩ = some (true, zeroFreed) ∧
    zeroFreed.m_list.getLast? = some 0 ∧
    0 ∉ zeroFreed.m_alloc.map Prod.snd ∧ 0 ∉ zeroFreed.m_free.map Prod.snd := by
  refine ⟨by decide, by decide, by decide, by decide, by decide, by decide, by decide,
    by decide⟩

set_option maxRecDepth 1000000 in
/-- C27 (failing input): after two blocks `(8, 1, 0)` have been added to the
    empty index and `deallocate((8, 1, 0))` has returned true, the list holds
    one record, object 0, which is in neither map, and `alloc` holds one
    pointer, to object 1, which is not in the list and has been deleted. -/
theorem alloc_keeps_deleted_record :
    zeroBlocks.deref 0 = some ⟨8, 1, 0⟩ ∧ zeroBlocks.deref 1 = some ⟨8, 1, 0⟩ ∧
    (zeroBlocks.deallocate ⟨8, 1, 0⟩).map Prod.fst = some true ∧
    zeroFreed.m_list = [0] ∧ zeroFreed.m_alloc = [(1, 1)] ∧ zeroFreed.m_free = [] ∧
    zeroFreed.deref 0 = some ⟨8, 1, 0⟩ ∧ zeroFreed.deref 1 = none ∧
    1 ∉ zeroFreed.m_list ∧ zeroFreed.view = none := by
  refine ⟨by decide, by decide, by decide, by decide, by decide, by decide, by decide,
    by decide, by decide, by decide⟩

end HeapFile
